import Mathlib

/-!
# Betweenness centrality (NetworKit): shallow embedding and verification

Embedding of `networkit/cpp/centrality/Centrality.cpp` and
`networkit/cpp/centrality/Betweenness.cpp`.

Conventions of the embedding:

* `double` values are exact rationals (`ℚ`); the conversion of the `bigfloat` ratio
  `numberOfPaths(p) / numberOfPaths(t)` to `double` is the exact quotient.
* The value that `maximum()` returns is a `count` converted to `double`; this conversion is
  `toDouble`, which rounds to the nearest `double`.  The quotient that `centralization()`
  returns is a `DoubleResult`, which has NaN and the two infinities.
* The vectors hold numbers only.  The statements on normalized scores therefore assume a
  nonzero divisor of the normalization, and those on length-scaled scores nonzero distances:
  in the code a zero divisor stores NaN or an infinity.
* `count` (unsigned 64-bit) arithmetic is over `Nat` with explicit reduction modulo `2 ^ 64`.
* `std::vector<double>` is `List ℚ`; reads are `getD _ 0`, writes `List.set`.
* The OpenMP worker pool is a list of per-thread records; `thread s` is the worker that
  executes the loop body for source `s`.  Every per-thread buffer is private to its worker,
  so the body for one source is executed atomically on the record of its worker.
* The signal handler is a monotone flag: `cancelAt = some c` means that every poll with
  index `≥ c` observes the signal.
* The length-scaled vector is shared by all workers and written without synchronisation.
  `Betweenness.run` takes the additions of the loop bodies one after the other; this is the
  outcome of the code when no entry of the vector is written by two workers
  (`LengthScaledRaceFree`).  The executions in which the loads and the stores of several
  workers are interleaved are those of `interleave`.
* `Betweenness.runChecked` repeats the engine with a check at every vector subscript.
* `networkit/cpp/graph/DynBFS.h` only declares the dynamic breadth-first search; its `run`
  and `update` are modelled from the specification of the dynamic updater.
-/

namespace NetworKit

/-! ## Collaborators that are consumed through their interface -/

/-- Modelled from the spec: the graph container (`Graph.hpp` is not part of the sources).
Node ids are dense below `upperNodeIdBound`, `hasNode` tells which ids exist, edges carry
ids below `upperEdgeIdBound` when `hasEdgeIds` holds. -/
structure Graph where
  upperNodeIdBound : Nat
  hasNode : Nat → Bool
  isDirected : Bool
  isWeighted : Bool
  hasEdgeIds : Bool
  upperEdgeIdBound : Nat
  edgeId : Nat → Nat → Nat

/-- Modelled from the spec: the nodes visited by `G.forNodes`, `G.parallelForNodes` and
`G.balancedParallelForNodes`: the existing ids in increasing order. -/
def Graph.nodes (G : Graph) : List Nat :=
  (List.range G.upperNodeIdBound).filter G.hasNode

/-- Modelled from the spec: `G.numberOfNodes()`, the number of existing nodes. -/
def Graph.numberOfNodes (G : Graph) : Nat := G.nodes.length

/-- Modelled from the spec: what one SSSP strategy instance (`BFS` or `Dijkstra`, created
with `storePaths = true` and `storeNodesSortedByDistance = true`) exposes after
`setSource(s); run()`. -/
structure SSSP where
  getNodesSortedByDistance : List Nat
  getPredecessors : Nat → List Nat
  numberOfPaths : Nat → Nat
  distance : Nat → ℚ
  getPaths : Nat → List (List Nat)

/-- Modelled from the spec: `handler.isRunning()` at the poll with index `poll`. -/
def isRunning (cancelAt : Option Nat) (poll : Nat) : Bool :=
  match cancelAt with
  | none => true
  | some c => decide (poll < c)

/-! ## Machine arithmetic on `count` -/

/-- The modulus of `count` (`uint64_t`). -/
def countMod : Nat := 2 ^ 64

/-- Subtraction on `count`, wrapping around. -/
def countSub (a b : Nat) : Nat := (a % countMod + countMod - b % countMod) % countMod

/-- Multiplication on `count`, wrapping around. -/
def countMul (a b : Nat) : Nat := (a * b) % countMod

/-! ## Vectors -/

/-- The statement `xs[i] += c` on a `std::vector<double>`. -/
def addAt (xs : List ℚ) (i : Nat) (c : ℚ) : List ℚ := xs.set i (xs.getD i 0 + c)

/-- The statement `xs[i] = xs[i] / d`. -/
def divAt (xs : List ℚ) (i : Nat) (d : ℚ) : List ℚ := xs.set i (xs.getD i 0 / d)

/-! ## The result store (`Centrality`) -/

/-- The failures raised by the code; the C++ code throws `std::runtime_error` with different
messages, `std::out_of_range` from `vector::at`, and the interrupt exception of the signal
handler. -/
inductive Error where
  | configurationError
  | notRunError
  | notImplementedError
  | outOfRange
  | interrupted
  deriving DecidableEq, Repr

/-- The fields of a `Centrality` object (with `hasRun` of the `Algorithm` base). -/
structure Centrality where
  G : Graph
  normalized : Bool
  computeEdgeCentrality : Bool
  hasRun : Bool
  scoreData : List ℚ
  edgeScoreData : List ℚ
  lengthScaled : List ℚ

/-- The object set up by the member initializers of `Centrality::Centrality`: the arguments
are stored, `Algorithm()` sets `hasRun = false`, the vectors are empty. -/
def Centrality.init (G : Graph) (normalized computeEdgeCentrality : Bool) : Centrality :=
  { G := G, normalized := normalized, computeEdgeCentrality := computeEdgeCentrality,
    hasRun := false, scoreData := [], edgeScoreData := [], lengthScaled := [] }

/-- The constructor `Centrality::Centrality` (and `Betweenness::Betweenness`, which only
forwards its arguments). -/
def Centrality.new (G : Graph) (normalized computeEdgeCentrality : Bool) :
    Except Error Centrality :=
  if computeEdgeCentrality && !G.hasEdgeIds then
    .error .configurationError
  else
    .ok (Centrality.init G normalized computeEdgeCentrality)

/-- Modelled from the spec: `Algorithm::assureFinished`, failing when no run has completed. -/
def Centrality.assureFinished (C : Centrality) : Except Error Unit :=
  if C.hasRun then .ok () else .error .notRunError

/-! ## The betweenness engine -/

/-- The buffers owned by one worker thread: `dependencies[i]`, `scorePerThread[i]` and
`edgeScorePerThread[i]`. -/
structure Worker where
  dependency : List ℚ
  scorePerThread : List ℚ
  edgeScorePerThread : List ℚ

/-- The loop `for (node p : sssp->getPredecessors(t))` of `computeDependencies`. -/
def predecessorLoop (G : Graph) (computeEdgeCentrality : Bool) (sssp : SSSP) (t : Nat) :
    List Nat → Worker → Worker
  | [], w => w
  | p :: ps, w =>
    let weight : ℚ := (sssp.numberOfPaths p : ℚ) / (sssp.numberOfPaths t : ℚ)
    let c : ℚ := weight * (1 + w.dependency.getD t 0)
    predecessorLoop G computeEdgeCentrality sssp t ps
      { w with
        dependency := addAt w.dependency p c
        edgeScorePerThread :=
          if computeEdgeCentrality then addAt w.edgeScorePerThread (G.edgeId p t) c
          else w.edgeScorePerThread }

/-- The nodes `path.begin() + 1 .. path.end() - 1` of a path. -/
def interior (path : List Nat) : List Nat := (path.drop 1).dropLast

/-- The length-scaled block of `computeDependencies` for one target `t ≠ s`.  The value of
`lengthScale` is that of the code when `pathLength` is not zero; for a target at distance 0
the code adds an infinity. -/
def lengthScaledPass (sssp : SSSP) (t : Nat) (lengthScaled : List ℚ) : List ℚ :=
  let paths := sssp.getPaths t
  let pathsCount := paths.length
  let pathLength := sssp.distance t
  if pathsCount = 0 then lengthScaled
  else
    let lengthScale : ℚ := (pathsCount : ℚ) / pathLength
    paths.foldl
      (fun acc path =>
        if path.length ≤ 2 then acc
        else (interior path).foldl (fun a node => addAt a node lengthScale) acc)
      lengthScaled

/-- The loop `while (!stack.empty())` of `computeDependencies`; the list is the order in
which the nodes are popped, `lengthScaled` is the vector shared by all workers, as it is when
no other worker writes to the entries concerned while the loop runs. -/
def stackLoop (G : Graph) (computeEdgeCentrality : Bool) (sssp : SSSP) (s : Nat) :
    List Nat → Worker × List ℚ → Worker × List ℚ
  | [], st => st
  | t :: stack, (w, lengthScaled) =>
    let w1 := predecessorLoop G computeEdgeCentrality sssp t (sssp.getPredecessors t) w
    if t ≠ s then
      stackLoop G computeEdgeCentrality sssp s stack
        ({ w1 with scorePerThread := addAt w1.scorePerThread t (w1.dependency.getD t 0) },
          lengthScaledPass sssp t lengthScaled)
    else
      stackLoop G computeEdgeCentrality sssp s stack (w1, lengthScaled)

/-- The lambda `computeDependencies` for source `s`; `running1` and `running2` are the
outcomes of its two polls of the signal handler. -/
def computeDependencies (G : Graph) (computeEdgeCentrality : Bool) (sssp : SSSP)
    (running1 running2 : Bool) (s : Nat) (st : Worker × List ℚ) : Worker × List ℚ :=
  let w0 : Worker := { st.1 with dependency := List.replicate st.1.dependency.length 0 }
  if !running1 then (w0, st.2)
  else if !running2 then (w0, st.2)
  else stackLoop G computeEdgeCentrality sssp s sssp.getNodesSortedByDistance.reverse (w0, st.2)

/-- The state of the parallel phase: the workers and the shared length-scaled vector. -/
structure RunState where
  workers : List Worker
  lengthScaled : List ℚ

/-- One loop body executed by worker `i`.  The buffers of the worker are private.  The body
reads and writes the shared length-scaled vector as if it ran alone, which is the outcome of
the code when no entry of that vector is written by two workers; see `interleave` for the
other executions. -/
def RunState.onWorker (st : RunState) (i : Nat)
    (body : Worker × List ℚ → Worker × List ℚ) : RunState :=
  match st.workers.get? i with
  | none => st
  | some w =>
    let r := body (w, st.lengthScaled)
    { workers := st.workers.set i r.1, lengthScaled := r.2 }

/-- The call `G.balancedParallelForNodes(computeDependencies)`: `strategy s` is the outcome
of the SSSP strategy for source `s`, `thread s` the worker that handles `s`, `poll` the index
of the next poll of the signal handler. -/
def balancedParallelForNodes (G : Graph) (computeEdgeCentrality : Bool)
    (strategy : Nat → SSSP) (thread : Nat → Nat) (cancelAt : Option Nat) :
    List Nat → Nat → RunState → RunState
  | [], _, st => st
  | s :: sources, poll, st =>
    balancedParallelForNodes G computeEdgeCentrality strategy thread cancelAt sources (poll + 2)
      (st.onWorker (thread s)
        (computeDependencies G computeEdgeCentrality (strategy s)
          (isRunning cancelAt poll) (isRunning cancelAt (poll + 1)) s))

/-- The inner loop `G.parallelForNodes([&](node v){ scoreData[v] += local[v]; })`. -/
def addLocalScores (nodes : List Nat) (local_ : List ℚ) (scoreData : List ℚ) : List ℚ :=
  nodes.foldl (fun acc v => addAt acc v (local_.getD v 0)) scoreData

/-- The inner loop `for (count i = 0; i < local.size(); i++) edgeScoreData[i] += local[i]`. -/
def addLocalEdgeScores (local_ : List ℚ) (edgeScoreData : List ℚ) : List ℚ :=
  (List.range local_.length).foldl (fun acc i => addAt acc i (local_.getD i 0)) edgeScoreData

/-- The value of `pairs` in the normalization block. -/
def normalizationPairs (G : Graph) : Nat :=
  let n := G.numberOfNodes
  let pairs := countMul (countSub n 2) (countSub n 1)
  if !G.isDirected then pairs / 2 else pairs

/-- The value of `edges` in the normalization block. -/
def normalizationEdges (G : Graph) : Nat :=
  let n := G.numberOfNodes
  let edges := countMul n (countSub n 1)
  if !G.isDirected then edges / 2 else edges

/-- The reduction `for (const auto &local : scorePerThread) G.parallelForNodes(...)`. -/
def reduceScores (nodes : List Nat) (workers : List Worker) (scoreData : List ℚ) : List ℚ :=
  workers.foldl (fun acc w => addLocalScores nodes w.scorePerThread acc) scoreData

/-- The reduction `for (const auto &local : edgeScorePerThread) ...`. -/
def reduceEdgeScores (workers : List Worker) (edgeScoreData : List ℚ) : List ℚ :=
  workers.foldl (fun acc w => addLocalEdgeScores w.edgeScorePerThread acc) edgeScoreData

/-- The loop `G.forNodes([&](node u){ scoreData[u] = scoreData[u] / pairs; })`.  The entries
are those of the code when `pairs` is not zero; with `pairs = 0` (one or two nodes) the code
stores NaN. -/
def normalizeScores (G : Graph) (scoreData : List ℚ) : List ℚ :=
  G.nodes.foldl (fun acc u => divAt acc u (normalizationPairs G : ℚ)) scoreData

/-- The loop `for (count edge = 0; edge < edgeScoreData.size(); edge++)` of the
normalization block.  The entries are those of the code when `edges` is not zero. -/
def normalizeEdgeScores (G : Graph) (edgeScoreData : List ℚ) : List ℚ :=
  (List.range edgeScoreData.length).foldl
    (fun acc e => divAt acc e (normalizationEdges G : ℚ)) edgeScoreData

/-- The body of `Betweenness::run` after the two `assureRunning` calls: reduction of the
thread-local values, normalization, and `hasRun = true`. -/
def finishRun (C : Centrality) (st : RunState) : Centrality :=
  let scoreData1 := reduceScores C.G.nodes st.workers C.scoreData
  let edgeScoreData1 :=
    if C.computeEdgeCentrality then reduceEdgeScores st.workers C.edgeScoreData
    else C.edgeScoreData
  { C with
    scoreData := if C.normalized then normalizeScores C.G scoreData1 else scoreData1
    edgeScoreData :=
      if C.normalized && C.computeEdgeCentrality then normalizeEdgeScores C.G edgeScoreData1
      else edgeScoreData1
    lengthScaled := st.lengthScaled
    hasRun := true }

/-- The strategy chosen in the parallel region at the start of `Betweenness::run`:
`Dijkstra` if the graph is weighted, `BFS` otherwise. -/
def Betweenness.strategy (G : Graph) (bfs dijkstra : Nat → SSSP) : Nat → SSSP :=
  if G.isWeighted then dijkstra else bfs

/-- The start of `Betweenness::run`: the result vectors are cleared and resized; `hasRun` is
left as it is. -/
def Betweenness.allocate (C : Centrality) : Centrality :=
  { C with
    scoreData := List.replicate C.G.upperNodeIdBound 0
    lengthScaled := List.replicate C.G.upperNodeIdBound 0
    edgeScoreData :=
      if C.computeEdgeCentrality then List.replicate C.G.upperEdgeIdBound 0
      else C.edgeScoreData }

/-- The buffers allocated for each worker; without edge centrality no edge buffer exists. -/
def Betweenness.initialWorker (C : Centrality) : Worker :=
  { dependency := List.replicate C.G.upperNodeIdBound 0
    scorePerThread := List.replicate C.G.upperNodeIdBound 0
    edgeScorePerThread :=
      if C.computeEdgeCentrality then List.replicate C.G.upperEdgeIdBound 0 else [] }

/-- The parallel phase of `Betweenness::run`: `maxThreads` workers with fresh buffers handle
all sources; the polls of the signal handler in the loop bodies are numbered from 1. -/
def Betweenness.parallelPhase (C : Centrality) (bfs dijkstra : Nat → SSSP) (maxThreads : Nat)
    (thread : Nat → Nat) (cancelAt : Option Nat) : RunState :=
  balancedParallelForNodes C.G C.computeEdgeCentrality (Betweenness.strategy C.G bfs dijkstra)
    thread cancelAt C.G.nodes 1
    { workers := List.replicate maxThreads (Betweenness.initialWorker C)
      lengthScaled := List.replicate C.G.upperNodeIdBound 0 }

/-- The method `Betweenness::run`.  `bfs s` and `dijkstra s` are the outcomes of the two SSSP
strategies for source `s`, `maxThreads` is `omp_get_max_threads()`.  The result is the object
after the call together with the exception that left it, if any: `handler.assureRunning()`
throws when the signal has been observed, before the parallel phase (poll 0) or after it.
The length-scaled vector is that of the execution in which no two additions to it overlap;
`Betweenness.lengthScaledUnder` gives it for the other executions. -/
def Betweenness.run (C : Centrality) (bfs dijkstra : Nat → SSSP) (maxThreads : Nat)
    (thread : Nat → Nat) (cancelAt : Option Nat) : Centrality × Except Error Unit :=
  let C1 := Betweenness.allocate C
  if !isRunning cancelAt 0 then (C1, .error .interrupted)
  else
    let st1 := Betweenness.parallelPhase C bfs dijkstra maxThreads thread cancelAt
    let C2 : Centrality := { C1 with lengthScaled := st1.lengthScaled }
    if !isRunning cancelAt (1 + 2 * C.G.nodes.length) then (C2, .error .interrupted)
    else (finishRun C2 st1, .ok ())

/-- The exponent of the spacing of the `double` values next to `k < 2 ^ 64`: the least
`e ≤ 11` with `k < 2 ^ (53 + e)`, found by counting up from `e`. -/
def ulpExponentFrom (k : Nat) : Nat → Nat → Nat
  | 0, e => e
  | fuel + 1, e => if k < 2 ^ (53 + e) then e else ulpExponentFrom k fuel (e + 1)

/-- The spacing of the `double` values next to `k < 2 ^ 64` is `2 ^ ulpExponent k`. -/
def ulpExponent (k : Nat) : Nat := ulpExponentFrom k 11 0

/-- The conversion of a `count` to `double` in an assignment such as
`score = (n-1)*(n-2)`: the significand of a `double` has 53 bits, so `k` is rounded to the
nearest multiple of `2 ^ ulpExponent k`, and a tie goes to the multiple with the even
quotient. -/
def toDouble (k : Nat) : ℚ :=
  let u := 2 ^ ulpExponent k
  let q := k / u
  let r := k % u
  if 2 * r < u ∨ (2 * r = u ∧ q % 2 = 0) then ((q * u : Nat) : ℚ)
  else (((q + 1) * u : Nat) : ℚ)

/-- The method `Betweenness::maximum`: the product is computed on `count` and converted to
`double` by the assignment to `score`. -/
def Betweenness.maximum (C : Centrality) : Except Error ℚ :=
  if C.normalized then .ok 1
  else
    let n := C.G.numberOfNodes
    if C.G.isDirected then .ok (toDouble (countMul (countSub n 1) (countSub n 2)))
    else .ok (toDouble (countMul (countSub n 1) (countSub n 2) / 2))

/-- The method `Centrality::maximum` of the unspecialized base. -/
def Centrality.maximum (_C : Centrality) : Except Error ℚ := .error .notImplementedError

/-! ## Read accessors of the result store -/

/-- The method `Centrality::score`: `assureFinished(); return scoreData.at(v);`. -/
def Centrality.score (C : Centrality) (v : Nat) : Except Error ℚ :=
  match C.assureFinished with
  | .error e => .error e
  | .ok _ =>
    match C.scoreData.get? v with
    | some x => .ok x
    | none => .error .outOfRange

/-- The comparator lambda of `ranking` and `lengthRanking`: higher score first, equal scores
by increasing node id. -/
def rankingBefore (x y : Nat × ℚ) : Bool :=
  if x.2 = y.2 then decide (x.1 < y.1) else decide (x.2 > y.2)

/-- The type of `Aux::Parallel::sort` on a vector of (node, score) pairs. -/
abbrev Sorter : Type := (Nat × ℚ → Nat × ℚ → Bool) → List (Nat × ℚ) → List (Nat × ℚ)

/-- The method `Centrality::ranking`; `sort` is `Aux::Parallel::sort`. -/
def Centrality.ranking (sort : Sorter) (C : Centrality) : Except Error (List (Nat × ℚ)) :=
  match C.assureFinished with
  | .error e => .error e
  | .ok _ => .ok (sort rankingBefore (C.G.nodes.map fun v => (v, C.scoreData.getD v 0)))

/-- The method `Centrality::lengthRanking`; `sort` is `Aux::Parallel::sort`. -/
def Centrality.lengthRanking (sort : Sorter) (C : Centrality) :
    Except Error (List (Nat × ℚ)) :=
  match C.assureFinished with
  | .error e => .error e
  | .ok _ => .ok (sort rankingBefore (C.G.nodes.map fun v => (v, C.lengthScaled.getD v 0)))

/-- The method `Centrality::scores`; a vector that has been moved from is empty.  The result
is the object after the call and the returned vector or the exception. -/
def Centrality.scores (C : Centrality) (moveOut : Bool) :
    Centrality × Except Error (List ℚ) :=
  match C.assureFinished with
  | .error e => (C, .error e)
  | .ok _ =>
    ({ C with hasRun := !moveOut, scoreData := if moveOut then [] else C.scoreData },
      .ok C.scoreData)

/-- The method `Centrality::lengthScaleScores`; a vector that has been moved from is empty. -/
def Centrality.lengthScaleScores (C : Centrality) (moveOut : Bool) :
    Centrality × Except Error (List ℚ) :=
  match C.assureFinished with
  | .error e => (C, .error e)
  | .ok _ =>
    ({ C with hasRun := !moveOut, lengthScaled := if moveOut then [] else C.lengthScaled },
      .ok C.lengthScaled)

/-- The method `Centrality::edgeScores`. -/
def Centrality.edgeScores (C : Centrality) : Except Error (List ℚ) :=
  match C.assureFinished with
  | .error e => .error e
  | .ok _ => .ok C.edgeScoreData

/-- The value of a division of two `double` values: a number, NaN, or an infinity. -/
inductive DoubleResult where
  | finite (x : ℚ)
  | nan
  | posInf
  | negInf
  deriving DecidableEq

/-- The division `a / b` of two `double` values that are numbers.  A zero divisor gives NaN
for `0 / 0` and otherwise the infinity with the sign of `a`: the zero divisor of
`centralization()` is a sum that starts at `0.0`, which is never `-0.0`. -/
def divDouble (a b : ℚ) : DoubleResult :=
  if b = 0 then
    if a = 0 then .nan else if 0 < a then .posInf else .negInf
  else .finite (a / b)

/-- The method `Centrality::centralization`; `maximum` is the virtual method `maximum()` of
the concrete measure. -/
def Centrality.centralization (maximum : Centrality → Except Error ℚ) (C : Centrality) :
    Except Error DoubleResult :=
  match C.assureFinished with
  | .error e => .error e
  | .ok _ =>
    let centerScore : ℚ :=
      C.G.nodes.foldl
        (fun center v => if C.scoreData.getD v 0 > center then C.scoreData.getD v 0 else center)
        0
    match maximum C with
    | .error e => .error e
    | .ok maxScore =>
      let diff1 : ℚ := C.G.nodes.foldl (fun d v => d + (centerScore - C.scoreData.getD v 0)) 0
      let diff2 : ℚ := C.G.nodes.foldl (fun d v => d + (maxScore - C.scoreData.getD v 0)) 0
      .ok (divDouble diff1 diff2)

/-! ## Shortest paths read off the predecessor lists -/

/-- The paths from `s` to `t` with at most `fuel` edges in which every node is followed by a
node that lists it as a predecessor. -/
def pathsWithin (sssp : SSSP) (s : Nat) : Nat → Nat → List (List Nat)
  | 0, t => if t = s then [[s]] else []
  | fuel + 1, t =>
    if t = s then [[s]]
    else (sssp.getPredecessors t).flatMap fun p => (pathsWithin sssp s fuel p).map (· ++ [t])

/-- The shortest paths from `s` to `t`: the paths along the predecessor lists; such a path
has fewer edges than there are visited nodes. -/
def shortestPaths (sssp : SSSP) (s t : Nat) : List (List Nat) :=
  pathsWithin sssp s sssp.getNodesSortedByDistance.length t

/-- The number of shortest paths from `s` to `t` that pass through `v`. -/
def pathsThrough (sssp : SSSP) (s t v : Nat) : Nat :=
  ((shortestPaths sssp s t).filter fun path => decide (v ∈ path)).length

/-- The pair dependency of `(s, t)` on `v`: the fraction of the shortest paths from `s` to
`t` that pass through `v`. -/
def pairDependency (sssp : SSSP) (s t v : Nat) : ℚ :=
  (pathsThrough sssp s t v : ℚ) / ((shortestPaths sssp s t).length : ℚ)

/-- A path along the predecessor lists: the source alone is such a path, and a path that
ends at a predecessor of `t` can be extended by `t`. -/
inductive PredecessorPath (sssp : SSSP) (s : Nat) : Nat → List Nat → Prop
  | source : PredecessorPath sssp s s [s]
  | step {p t : Nat} {path : List Nat} :
      PredecessorPath sssp s p path → p ∈ sssp.getPredecessors t →
        PredecessorPath sssp s t (path ++ [t])

/-- The number of paths to `t` with at most `k` edges that pass through `v`. -/
def throughWithin (sssp : SSSP) (s k v t : Nat) : Nat :=
  ((pathsWithin sssp s k t).filter fun path => decide (v ∈ path)).length

/-- In the order `stack` of the pops every node is popped before each of its predecessors
(and every predecessor of a popped node is popped). -/
def processedBeforePredecessors (sssp : SSSP) : List Nat → Prop
  | [] => True
  | t :: stack =>
    (∀ p ∈ sssp.getPredecessors t, p ∈ stack) ∧ processedBeforePredecessors sssp stack

/-- Decision procedure for `processedBeforePredecessors`. -/
def decProcessedBeforePredecessors (sssp : SSSP) :
    (stack : List Nat) → Decidable (processedBeforePredecessors sssp stack)
  | [] => isTrue trivial
  | t :: stack =>
    match decProcessedBeforePredecessors sssp stack with
    | isTrue h =>
      if h1 : ∀ p ∈ sssp.getPredecessors t, p ∈ stack then isTrue ⟨h1, h⟩
      else isFalse fun h2 => h1 h2.1
    | isFalse h => isFalse fun h2 => h h2.2

instance (sssp : SSSP) (stack : List Nat) :
    Decidable (processedBeforePredecessors sssp stack) :=
  decProcessedBeforePredecessors sssp stack

/-- What the engine relies on for the outcome `sssp` of the strategy for source `s`: every
visited node is listed once and exists in the graph, every node is popped before each of its
predecessors, the source has no predecessor, and the path count of every visited node is the
(positive) number of shortest paths to it. -/
def CorrectSSSP (G : Graph) (sssp : SSSP) (s : Nat) : Prop :=
  sssp.getNodesSortedByDistance.Nodup ∧
  (∀ t ∈ sssp.getNodesSortedByDistance, t ∈ G.nodes) ∧
  processedBeforePredecessors sssp sssp.getNodesSortedByDistance.reverse ∧
  sssp.getPredecessors s = [] ∧
  (∀ t ∈ sssp.getNodesSortedByDistance,
    sssp.numberOfPaths t = (shortestPaths sssp s t).length ∧ 0 < sssp.numberOfPaths t)

instance (G : Graph) (sssp : SSSP) (s : Nat) : Decidable (CorrectSSSP G sssp s) := by
  unfold CorrectSSSP
  infer_instance

/-- The dependency of source `s` on `v`: the sum over the visited targets `t` other than `v`
and `s` of the fraction of shortest `s`-`t` paths through `v`. -/
def sourceDependency (sssp : SSSP) (s v : Nat) : ℚ :=
  ((sssp.getNodesSortedByDistance.filter fun t => decide (t ≠ v ∧ t ≠ s)).map
    fun t => pairDependency sssp s t v).sum

/-- The betweenness of `v`: the sum over all ordered pairs `(s, t)` with `s ≠ v`, `t ≠ v`,
`s ≠ t` and `t` reachable from `s` of the pair dependency of `(s, t)` on `v`. -/
def betweenness (G : Graph) (strategy : Nat → SSSP) (v : Nat) : ℚ :=
  ((G.nodes.filter fun s => decide (s ≠ v)).map fun s => sourceDependency (strategy s) s v).sum

/-! ## Auxiliary notions for the proofs -/

/-- The worker after node `t` has been popped and handled. -/
def afterPop (G : Graph) (e : Bool) (sssp : SSSP) (s t : Nat) (w : Worker) : Worker :=
  let w1 := predecessorLoop G e sssp t (sssp.getPredecessors t) w
  if t ≠ s then { w1 with scorePerThread := addAt w1.scorePerThread t (w1.dependency.getD t 0) }
  else w1

/-- The sum of the thread-local scores of node `v`. -/
def totalScore (ws : List Worker) (v : Nat) : ℚ :=
  (ws.map fun w => w.scorePerThread.getD v 0).sum

/-- Every worker owns a dependency buffer and a score buffer of `z` entries. -/
def WorkersSized (z : Nat) (ws : List Worker) : Prop :=
  ∀ w ∈ ws, w.dependency.length = z ∧ w.scorePerThread.length = z

/-- Equality of results is decidable. -/
instance instDecidableEqExcept {ε α : Type} [DecidableEq ε] [DecidableEq α] :
    DecidableEq (Except ε α)
  | .ok a, .ok b => if h : a = b then isTrue (by rw [h]) else isFalse fun e => h (Except.ok.inj e)
  | .error a, .error b =>
    if h : a = b then isTrue (by rw [h]) else isFalse fun e => h (Except.error.inj e)
  | .ok _, .error _ => isFalse fun e => by cases e
  | .error _, .ok _ => isFalse fun e => by cases e

/-- The number of ordered pairs of nodes other than a given one, `(n - 1) * (n - 2)`, over
the integers. -/
def pairCount (n : Nat) : ℤ := ((n : ℤ) - 1) * ((n : ℤ) - 2)

/-- Modelled from the spec: the contract of `Aux::Parallel::sort` (`Parallel.hpp` is not part
of the sources) for the comparator of the rankings: the output is a rearrangement of the
input in which no element is ordered before an earlier one. -/
def IsSort (sort : Sorter) : Prop :=
  ∀ l : List (Nat × ℚ),
    (sort rankingBefore l).Perm l ∧
      (sort rankingBefore l).Pairwise fun x y => ¬ rankingBefore y x = true

/-- Insertion sort as an instance of `Aux::Parallel::sort`. -/
def insertionSorter : Sorter := fun before l =>
  l.insertionSort fun x y => ¬ before y x = true

/-! ## Concrete graphs -/

/-- The undirected, unweighted path graph `0 - 1 - ... - (n - 1)`; the edge between `i` and
`i + 1` has id `i`. -/
def pathGraph (n : Nat) : Graph :=
  { upperNodeIdBound := n
    hasNode := fun _ => true
    isDirected := false
    isWeighted := false
    hasEdgeIds := true
    upperEdgeIdBound := n - 1
    edgeId := fun u v => min u v }

/-- The distance between two nodes of the path graph. -/
def pathDistance (s t : Nat) : Nat := if s ≤ t then t - s else s - t

/-- The only shortest path from `s` to `t` in the path graph. -/
def segment (s t : Nat) : List Nat :=
  if s ≤ t then List.range' s (t - s + 1) else (List.range' t (s - t + 1)).reverse

/-- The outcome `sssp` is a correct outcome of the unweighted strategy on the path graph with
`n` nodes for source `s`: all nodes are visited, in an order of non-decreasing distance from
`s`, the predecessor of a node is its neighbour towards `s`, and every node has one shortest
path. -/
def IsPathBFS (n s : Nat) (sssp : SSSP) : Prop :=
  sssp.getNodesSortedByDistance.Perm (List.range n) ∧
  sssp.getNodesSortedByDistance.Pairwise (fun a b => pathDistance s a ≤ pathDistance s b) ∧
  (∀ t < n, sssp.getPredecessors t =
    if t < s then [t + 1] else if s < t then [t - 1] else []) ∧
  (∀ t < n, sssp.numberOfPaths t = 1)

instance (n s : Nat) (sssp : SSSP) : Decidable (IsPathBFS n s sssp) := by
  unfold IsPathBFS
  infer_instance

/-- The outcome of a breadth-first search from `s` on the path graph with `n` nodes that
visits the neighbours of a node by increasing id. -/
def pathBFS (n s : Nat) : SSSP :=
  { getNodesSortedByDistance :=
      (List.range n).insertionSort fun a b => pathDistance s a ≤ pathDistance s b
    getPredecessors := fun t => if t < s then [t + 1] else if s < t then [t - 1] else []
    numberOfPaths := fun _ => 1
    distance := fun t => (pathDistance s t : ℚ)
    getPaths := fun t => [segment s t] }

/-- The undirected, unweighted triangle on the nodes 0, 1, 2; the edges between 0 and 1,
0 and 2, 1 and 2 have the ids 0, 1, 2. -/
def triangleGraph : Graph :=
  { upperNodeIdBound := 3
    hasNode := fun _ => true
    isDirected := false
    isWeighted := false
    hasEdgeIds := true
    upperEdgeIdBound := 3
    edgeId := fun u v => u + v - 1 }

/-- The outcome of a breadth-first search from `s` on the triangle; `swap` tells whether the
two neighbours of `s` are visited by decreasing id. -/
def triangleBFS (swap : Bool) (s : Nat) : SSSP :=
  let others := (List.range 3).filter fun t => decide (t ≠ s)
  { getNodesSortedByDistance := s :: (if swap then others.reverse else others)
    getPredecessors := fun t => if t = s then [] else [s]
    numberOfPaths := fun _ => 1
    distance := fun t => if t = s then 0 else 1
    getPaths := fun t => if t = s then [[s]] else [[s, t]] }

/-- The undirected, unweighted cycle `0 - 1 - 2 - 3 - 0`; the edge between `i` and its
successor on the cycle has id `i`. -/
def cycleGraph : Graph :=
  { upperNodeIdBound := 4
    hasNode := fun _ => true
    isDirected := false
    isWeighted := false
    hasEdgeIds := true
    upperEdgeIdBound := 4
    edgeId := fun u v => if (u + 1) % 4 = v then u else v }

/-- The outcome of a breadth-first search from `s` on the cycle with four nodes: the node
opposite to `s` is reached on two shortest paths. -/
def cycleBFS (s : Nat) : SSSP :=
  { getNodesSortedByDistance := [s, (s + 1) % 4, (s + 3) % 4, (s + 2) % 4]
    getPredecessors := fun t =>
      if t = (s + 1) % 4 ∨ t = (s + 3) % 4 then [s]
      else if t = (s + 2) % 4 then [(s + 1) % 4, (s + 3) % 4] else []
    numberOfPaths := fun t => if t = (s + 2) % 4 then 2 else 1
    distance := fun t => if t = s then 0 else if t = (s + 2) % 4 then 2 else 1
    getPaths := fun t =>
      if t = s then [[s]]
      else if t = (s + 2) % 4 then [[s, (s + 1) % 4, t], [s, (s + 3) % 4, t]] else [[s, t]] }

/-! ## Further notions: cancellation, workers, bounds, length-scaled scores -/

/-- Every entry of the vector is nonnegative. -/
def NonnegEntries (xs : List ℚ) : Prop := ∀ i, 0 ≤ xs.getD i 0

/-- All three buffers of the worker hold nonnegative entries. -/
def Worker.Nonneg (w : Worker) : Prop :=
  NonnegEntries w.dependency ∧ NonnegEntries w.scorePerThread ∧
    NonnegEntries w.edgeScorePerThread

/-- The buffers of `w` and `w'` have the same sizes and the same dependency values, and the
score and edge-score values of `w` exceed those of `w'` by `a` and `b`. -/
def Shifted (a b : Nat → ℚ) (w w' : Worker) : Prop :=
  w.dependency = w'.dependency ∧
  w.scorePerThread.length = w'.scorePerThread.length ∧
  w.edgeScorePerThread.length = w'.edgeScorePerThread.length ∧
  (∀ i, w.scorePerThread.getD i 0 = w'.scorePerThread.getD i 0 + a i) ∧
  (∀ i, w.edgeScorePerThread.getD i 0 = w'.edgeScorePerThread.getD i 0 + b i)

/-- A worker whose buffers hold zeros: `z` dependency and score entries, `z2` edge-score
entries. -/
def zeroWorker (z z2 : Nat) : Worker :=
  { dependency := List.replicate z 0
    scorePerThread := List.replicate z 0
    edgeScorePerThread := List.replicate z2 0 }

/-- What the loop body for source `s` adds to the score buffer of its worker. -/
def scoreContribution (G : Graph) (e : Bool) (sssp : SSSP) (s z z2 i : Nat) : ℚ :=
  (computeDependencies G e sssp true true s (zeroWorker z z2, [])).1.scorePerThread.getD i 0

/-- What the loop body for source `s` adds to the edge-score buffer of its worker. -/
def edgeContribution (G : Graph) (e : Bool) (sssp : SSSP) (s z z2 i : Nat) : ℚ :=
  (computeDependencies G e sssp true true s (zeroWorker z z2, [])).1.edgeScorePerThread.getD i 0

/-- The sum of the thread-local edge scores of edge `i`. -/
def totalEdgeScore (ws : List Worker) (i : Nat) : ℚ :=
  (ws.map fun w => w.edgeScorePerThread.getD i 0).sum

/-- Every worker owns dependency and score buffers of `z` entries and an edge-score buffer of
`z2` entries. -/
def WorkersSizedE (z z2 : Nat) (ws : List Worker) : Prop :=
  ∀ w ∈ ws, w.dependency.length = z ∧ w.scorePerThread.length = z ∧
    w.edgeScorePerThread.length = z2

/-! ## The dynamic breadth-first search

`DynBFS.h` declares the class; its implementation is not part of the sources. The
definitions of this section are modelled from the specification of the dynamic updater. -/

/-- Modelled from the spec: the graph view of the dynamic search (`Graph.hpp` is not part of
the sources): dense node ids below `z`, a flag for the ids that exist, the edges as a
relation, and the flag for directed graphs. -/
structure DynGraph where
  z : Nat
  hasNode : Nat → Bool
  hasEdge : Nat → Nat → Bool
  directed : Bool

/-- Modelled from the spec: `v` is an existing node. -/
def DynGraph.isNode (G : DynGraph) (v : Nat) : Bool := decide (v < G.z) && G.hasNode v

/-- Modelled from the spec: there is an edge from the existing node `u` to the existing node
`v`. -/
def DynGraph.adj (G : DynGraph) (u v : Nat) : Bool := G.isNode u && G.isNode v && G.hasEdge u v

/-- Modelled from the spec: the nodes with an edge to `v`, by increasing id. -/
def DynGraph.inNeighbors (G : DynGraph) (v : Nat) : List Nat :=
  (List.range G.z).filter fun u => G.adj u v

/-- Modelled from the spec: the graph edit events (`GraphEvent.hpp` is not part of the
sources): edge insertion, removal and weight change, node insertion and removal. -/
inductive GraphEvent where
  | nodeAddition (u : Nat)
  | nodeRemoval (u : Nat)
  | edgeAddition (u v : Nat)
  | edgeRemoval (u v : Nat)
  | edgeWeightUpdate (u v : Nat) (w : ℚ)

/-- Modelled from the spec: the edges of `G` with the edge from `u` to `v` (and, in an
undirected graph, the edge from `v` to `u`) set to `b`. -/
def DynGraph.setEdge (G : DynGraph) (u v : Nat) (b : Bool) : Nat → Nat → Bool :=
  fun x y =>
    if (x = u ∧ y = v) ∨ (G.directed = false ∧ x = v ∧ y = u) then b else G.hasEdge x y

/-- Modelled from the spec: the graph after one edit event, or `none` when the event is
inconsistent with the graph: a node is added that exists, a node is removed that does not
exist or still has edges, an edge is added that exists or between ids that are no nodes, an
edge is removed that does not exist, or a weight is changed in the unweighted view. An added
node comes without edges, and the bound of the node ids grows to include it. -/
def DynGraph.applyEvent (G : DynGraph) : GraphEvent → Option DynGraph
  | .nodeAddition u =>
    if G.isNode u then none
    else
      some { G with
        z := max G.z (u + 1)
        hasNode := fun x => if x = u then true else G.isNode x
        hasEdge := fun x y => if x = u ∨ y = u then false else G.hasEdge x y }
  | .nodeRemoval u =>
    if G.isNode u && (List.range G.z).all (fun w => !G.adj u w && !G.adj w u) then
      some { G with hasNode := fun x => if x = u then false else G.hasNode x }
    else none
  | .edgeAddition u v =>
    if G.isNode u && G.isNode v && !G.adj u v then
      some { G with hasEdge := G.setEdge u v true }
    else none
  | .edgeRemoval u v =>
    if G.adj u v then some { G with hasEdge := G.setEdge u v false } else none
  | .edgeWeightUpdate _ _ _ => none

/-- Modelled from the spec: the graph after a batch of edit events, `none` when an event is
inconsistent with the graph it meets. -/
def DynGraph.applyBatch (G : DynGraph) : List GraphEvent → Option DynGraph
  | [] => some G
  | e :: batch =>
    match G.applyEvent e with
    | none => none
    | some G1 => G1.applyBatch batch

/-- Modelled from the spec: the nodes an edit event touches: the end points of an edited
edge, the added or removed node. -/
def GraphEvent.endpoints : GraphEvent → List Nat
  | .nodeAddition u => [u]
  | .nodeRemoval u => [u]
  | .edgeAddition u v => [u, v]
  | .edgeRemoval u v => [u, v]
  | .edgeWeightUpdate u v _ => [u, v]

/-- The node states of `DynBFS` (`enum Color {WHITE, BLACK, GRAY}`): white is unaffected,
gray is tentative, black is finalized. -/
inductive Color where
  | white
  | black
  | gray
  deriving DecidableEq, Repr

/-- Modelled from the spec: the fields of a `DynBFS` object. `DynBFS.h` declares `color` and
`maxDistance`; the graph view, the source, the distances (`none` for an unreached node) and
the predecessor lists belong to the base `DynSSSP`, which is not part of the sources. The
path counts of the tree are left out. -/
structure DynBFS where
  G : DynGraph
  source : Nat
  distances : Nat → Option Nat
  previous : Nat → List Nat
  color : Nat → Color
  maxDistance : Nat

/-- Modelled from the spec: node `u` has the confirmed distance `k`: it is not tentative and
its distance is `k`. -/
def DynBFS.settled (T : DynBFS) (k u : Nat) : Bool :=
  decide (T.color u ≠ .gray) && decide (T.distances u = some k)

/-- Modelled from the spec: the predecessors of `v` for the candidate distance `k + 1`: the
nodes with an edge to `v` whose confirmed distance is `k`. -/
def DynBFS.candidates (T : DynBFS) (k v : Nat) : List Nat :=
  (T.G.inNeighbors v).filter (T.settled k)

/-- Modelled from the spec: the wavefront of level `m` reaches node `v`: the source at level
0, a node with a predecessor of confirmed distance `m - 1` at level `m`. -/
def DynBFS.reaches (T : DynBFS) : Nat → Nat → Bool
  | 0, v => decide (v = T.source) && T.G.isNode v
  | m + 1, v => T.G.isNode v && !(T.candidates m v).isEmpty

/-- Modelled from the spec: the first half of level `m`: every tentative node that the
wavefront reaches is finalized with distance `m` and its predecessors; the maximum distance
seen is tracked. -/
def DynBFS.finalize (T : DynBFS) (m : Nat) : DynBFS :=
  { T with
    distances := fun v =>
      if T.color v = .gray ∧ T.reaches m v = true then some m else T.distances v
    previous := fun v =>
      if T.color v = .gray ∧ T.reaches m v = true then
        (match m with
          | 0 => []
          | k + 1 => T.candidates k v)
      else T.previous v
    color := fun v =>
      if T.color v = .gray ∧ T.reaches m v = true then .black else T.color v
    maxDistance :=
      if (List.range T.G.z).any (fun v => decide (T.color v = .gray) && T.reaches m v) then
        max T.maxDistance m
      else T.maxDistance }

/-- Modelled from the spec: the distance of `u` changes at level `m`: `u` has been finalized
at level `m` with a distance other than its previous one, or `u` is still tentative at its
previous distance `m` (its distance increases). `T` is the state before and `T1` the state
after the first half of the level. -/
def DynBFS.changed (T T1 : DynBFS) (m u : Nat) : Bool :=
  (decide (T.color u = .gray) && decide (T1.color u = .black) &&
      decide (T.distances u ≠ some m)) ||
    (decide (T1.color u = .gray) && decide (T.distances u = some m))

/-- Modelled from the spec: the wavefront of level `m` has not passed node `v`: the distance
of `v` is larger than `m` or `v` is unreached. -/
def DynBFS.beyond (T : DynBFS) (m v : Nat) : Bool :=
  match T.distances v with
  | none => true
  | some k => decide (m < k)

/-- Modelled from the spec: the second half of level `m`: an unaffected node beyond the
wavefront with an edge from a node whose distance changes becomes tentative. -/
def DynBFS.mark (T T1 : DynBFS) (m : Nat) : DynBFS :=
  { T1 with
    color := fun v =>
      if T1.color v = .white ∧ T1.beyond m v = true ∧
          (T1.G.inNeighbors v).any (T.changed T1 m) = true then .gray
      else T1.color v }

/-- Modelled from the spec: level `m` of the wavefront. -/
def DynBFS.level (T : DynBFS) (m : Nat) : DynBFS := T.mark (T.finalize m) m

/-- Modelled from the spec: some node is tentative. -/
def DynBFS.hasTentative (T : DynBFS) : Bool :=
  (List.range T.G.z).any fun v => decide (T.color v = .gray)

/-- Modelled from the spec: the wavefront moves outward level by level, starting at level
`m`, for at most `fuel` levels; it stops when no node is tentative. -/
def DynBFS.wavefront : Nat → Nat → DynBFS → DynBFS
  | 0, _, T => T
  | fuel + 1, m, T => if T.hasTentative then DynBFS.wavefront fuel (m + 1) (T.level m) else T

/-- Modelled from the spec: the end of a pass: a node that is still tentative has not been
reached; it loses its distance and its predecessors. -/
def DynBFS.finish (T : DynBFS) : DynBFS :=
  { T with
    distances := fun v => if T.color v = .gray then none else T.distances v
    previous := fun v => if T.color v = .gray then [] else T.previous v }

/-- Modelled from the spec: the object before the first build: no node has a distance and
every node is tentative. -/
def DynBFS.init (G : DynGraph) (s : Nat) : DynBFS :=
  { G := G
    source := s
    distances := fun _ => none
    previous := fun _ => []
    color := fun _ => .gray
    maxDistance := 0 }

/-- Modelled from the spec: `DynBFS::run`, the full initial build from the source of the
object (the argument `t` of the method is ignored): a distance is below the number of node
ids, so `z + 1` levels are enough. -/
def DynBFS.run (T : DynBFS) : DynBFS :=
  (DynBFS.wavefront (T.G.z + 1) 0 (DynBFS.init T.G T.source)).finish

/-- Modelled from the spec: `DynBFS::update`: the batch is applied to the graph view, a
batch that is inconsistent with it is a precondition error; all nodes become unaffected, the
end points of the edited edges become tentative, and the wavefront repairs the tree. -/
def DynBFS.update (T : DynBFS) (batch : List GraphEvent) : Option DynBFS :=
  match T.G.applyBatch batch with
  | none => none
  | some G1 =>
    some (DynBFS.wavefront (G1.z + 1) 0
      { T with
        G := G1
        color := fun v =>
          if v ∈ batch.flatMap GraphEvent.endpoints then .gray else .white }).finish

/-- The state after the levels `0`, ..., `k - 1` of the wavefront without the early stop. -/
def DynBFS.after (T : DynBFS) : Nat → DynBFS
  | 0 => T
  | k + 1 => (DynBFS.after T k).level k

/-- The undirected path `0 - 1 - 2 - 3` as a graph view of the dynamic search. -/
def dynPath : DynGraph :=
  { z := 4
    hasNode := fun _ => true
    hasEdge := fun u v => decide (u + 1 = v ∨ v + 1 = u)
    directed := false }

/-- The graph `dynPath` after the edge between 1 and 2 has been removed and an edge between
0 and 3 has been added. -/
def dynPathRewired : DynGraph :=
  { dynPath with
    hasEdge :=
      DynGraph.setEdge { dynPath with hasEdge := dynPath.setEdge 1 2 false } 0 3 true }

/-- Node `v` is finalized at level `m`: it is tentative and the wavefront reaches it. -/
def DynBFS.finalizes (T : DynBFS) (m v : Nat) : Prop :=
  T.color v = .gray ∧ T.reaches m v = true

instance (T : DynBFS) (m v : Nat) : Decidable (T.finalizes m v) := by
  unfold DynBFS.finalizes
  infer_instance

/-- The predecessors given to a node that is finalized at level `m`. -/
def DynBFS.predecessorsAt (T : DynBFS) : Nat → Nat → List Nat
  | 0, _ => []
  | k + 1, v => T.candidates k v

/-- The condition under which the second half of level `m` makes an unaffected node
tentative. -/
def DynBFS.marks (T : DynBFS) (m v : Nat) : Prop :=
  T.beyond m v = true ∧ ∃ u ∈ T.G.inNeighbors v, T.changed (T.finalize m) m u = true

/-- The distances `D` and predecessor lists `P` are consistent at node `v` of the graph `G`
for the source `s`: `v` has distance 0 exactly when it is the source; a node at distance
`k + 1` has as predecessors the nodes at distance `k` with an edge to it, and there is one;
an edge from a node at distance `j` gives `v` a distance of at most `j + 1`; the source and
the unreached nodes have no predecessors. -/
def LocallyConsistent (G : DynGraph) (s : Nat) (D : Nat → Option Nat) (P : Nat → List Nat)
    (v : Nat) : Prop :=
  (D v = some 0 ↔ (v = s ∧ G.isNode v = true)) ∧
  (∀ k, D v = some (k + 1) →
    P v = (G.inNeighbors v).filter (fun u => decide (D u = some k)) ∧ P v ≠ []) ∧
  (∀ u ∈ G.inNeighbors v, ∀ j, D u = some j → ∃ i, i ≤ j + 1 ∧ D v = some i) ∧
  (D v = some 0 → P v = []) ∧
  (D v = none → P v = [])

/-- The state of a build from scratch after `k` levels: a node is black with a distance
below `k`, or gray without distance and predecessors. -/
def Layered (k : Nat) (U : DynBFS) : Prop :=
  ∀ v, (U.color v = .black ∧ ∃ j, j < k ∧ U.distances v = some j) ∨
    (U.color v = .gray ∧ U.distances v = none ∧ U.previous v = [])

/-- The number of black nodes. -/
def DynBFS.blackCount (T : DynBFS) : Nat :=
  ((List.range T.G.z).filter fun v => decide (T.color v = .black)).length

/-- Node `v` sees the same graph in `G` and `G1`: it is a node of both or of neither, and it
has the same incoming edges; the bound of the node ids has not decreased. -/
def SameView (G G1 : DynGraph) (v : Nat) : Prop :=
  G.z ≤ G1.z ∧ G1.isNode v = G.isNode v ∧ ∀ u, G1.adj u v = G.adj u v

/-- The relation between a repair `T` and a build from scratch `U` on the same graph `G` and
source `s` after `k` levels; `D` and `P` are the distances and predecessors before the
repair.  Black nodes of the repair have a distance below `k`; the other nodes still carry
their old values; the old values are consistent at the white nodes; up to level `k` the
repair has confirmed the distances and predecessors that the build from scratch has found;
and an unaffected node beyond the wavefront has only edges from nodes whose distance below
`k` is confirmed exactly when it is their old distance. -/
structure Repairing (G : DynGraph) (s : Nat) (D : Nat → Option Nat) (P : Nat → List Nat)
    (k : Nat) (T U : DynBFS) : Prop where
  graphT : T.G = G
  sourceT : T.source = s
  graphU : U.G = G
  sourceU : U.source = s
  black : ∀ v, T.color v = .black → ∃ j, j < k ∧ T.distances v = some j
  old : ∀ v, T.color v ≠ .black → T.distances v = D v ∧ T.previous v = P v
  white : ∀ v, T.color v = .white → LocallyConsistent G s D P v
  agree : ∀ v j, j < k →
    ((U.color v = .black ∧ U.distances v = some j) ↔ T.settled j v = true)
  previous : ∀ v j, j < k → T.settled j v = true → T.previous v = U.previous v
  unaffected : ∀ v, T.color v = .white → (D v = none ∨ ∃ i, k ≤ i ∧ D v = some i) →
    ∀ u ∈ G.inNeighbors v, ∀ j, j < k → (T.settled j u = true ↔ D u = some j)
  layered : Layered k U

/-- The loop head `while (!stack.empty()) { node t = stack.back(); stack.pop_back(); ... }`
run for at most `fuel` rounds: the nodes `t` in the order in which the loop takes them. -/
def popLoop : Nat → List Nat → List Nat
  | 0, _ => []
  | fuel + 1, stack =>
    match stack.getLast? with
    | none => []
    | some t => t :: popLoop fuel stack.dropLast

/-- The order in which the `while` loop of `computeDependencies` takes the nodes of `stack`;
every round removes one entry, so `stack.size()` rounds empty the stack. -/
def popOrder (stack : List Nat) : List Nat := popLoop stack.length stack

/-- An outcome of the unweighted strategy on the path graph `0 - 1 - 2` for source 0 whose
list of visited nodes is in non-increasing order of distance: farthest node first. -/
def farthestFirstBFS : SSSP :=
  { pathBFS 3 0 with getNodesSortedByDistance := [2, 1, 0] }

/-- The number of occurrences of `v` at an interior position (neither first nor last) of the
enumerated shortest paths to `t`. -/
def interiorOccurrences (sssp : SSSP) (t v : Nat) : Nat :=
  ((sssp.getPaths t).map fun path => (interior path).count v).sum

/-- The length-scaled contribution of source `s` to node `v`: the sum over the visited
targets `t ≠ s` with `k > 0` enumerated paths of `k / distance(t)` times the number of
interior occurrences of `v` on these paths. -/
def lengthScaledContribution (sssp : SSSP) (s v : Nat) : ℚ :=
  ((sssp.getNodesSortedByDistance.filter
      fun t => decide (t ≠ s ∧ 0 < (sssp.getPaths t).length)).map
    fun t => ((sssp.getPaths t).length : ℚ) / sssp.distance t *
      (interiorOccurrences sssp t v : ℚ)).sum

/-- The length-scaled score of `v`: the sum of the contributions of all sources. -/
def lengthScaledScore (G : Graph) (strategy : Nat → SSSP) (v : Nat) : ℚ :=
  (G.nodes.map fun s => lengthScaledContribution (strategy s) s v).sum

/-! ### The shared length-scaled vector under concurrent additions -/

/-- The additions `lengthScaled[*node] += lengthScale` that the loop body for source `s`
executes, in the order of execution: the entry and the value added. -/
def lengthScaledAdditions (sssp : SSSP) (s : Nat) : List (Nat × ℚ) :=
  (sssp.getNodesSortedByDistance.reverse.filter fun t => decide (t ≠ s)).flatMap fun t =>
    if (sssp.getPaths t).length = 0 then []
    else
      (sssp.getPaths t).flatMap fun path =>
        if path.length ≤ 2 then []
        else (interior path).map fun node =>
          (node, ((sssp.getPaths t).length : ℚ) / sssp.distance t)

/-- No entry of the shared length-scaled vector is written by two workers: two sources whose
loop bodies add to the same entry are handled by the same worker. -/
def LengthScaledRaceFree (G : Graph) (strategy : Nat → SSSP) (thread : Nat → Nat) : Prop :=
  ∀ s1 ∈ G.nodes, ∀ s2 ∈ G.nodes,
    ∀ a ∈ lengthScaledAdditions (strategy s1) s1, ∀ b ∈ lengthScaledAdditions (strategy s2) s2,
      a.1 = b.1 → thread s1 = thread s2

instance (G : Graph) (strategy : Nat → SSSP) (thread : Nat → Nat) :
    Decidable (LengthScaledRaceFree G strategy thread) := by
  unfold LengthScaledRaceFree
  infer_instance

/-- A worker thread of the parallel phase, as far as the shared length-scaled vector is
concerned: the additions `lengthScaled[i] += x` that it still has to execute and, when it has
loaded the entry for the first of them, the sum that it is about to store. -/
structure RacingThread where
  additions : List (Nat × ℚ)
  loaded : Option ℚ

/-- One step of a worker on the statement `lengthScaled[i] += x`, which is not atomic: the
load of the entry with the addition of `x`, or the store of the sum. -/
def RacingThread.step (t : RacingThread) (lengthScaled : List ℚ) : List ℚ × RacingThread :=
  match t.additions, t.loaded with
  | [], _ => (lengthScaled, t)
  | (i, x) :: _, none => (lengthScaled, { t with loaded := some (lengthScaled.getD i 0 + x) })
  | (i, _) :: rest, some sum => (lengthScaled.set i sum, { additions := rest, loaded := none })

/-- An execution of the workers on the shared vector: `schedule` lists the workers in the
order in which they take their steps. -/
def interleave : List Nat → List ℚ × List RacingThread → List ℚ × List RacingThread
  | [], st => st
  | k :: schedule, (lengthScaled, threads) =>
    match threads.get? k with
    | none => interleave schedule (lengthScaled, threads)
    | some t =>
      interleave schedule ((t.step lengthScaled).1, threads.set k (t.step lengthScaled).2)

/-- The workers at the start of the parallel phase of a run that is not cancelled: worker `k`
executes the loop bodies of the sources `s` with `thread s = k`, one after the other. -/
def Betweenness.racingThreads (C : Centrality) (bfs dijkstra : Nat → SSSP) (maxThreads : Nat)
    (thread : Nat → Nat) : List RacingThread :=
  (List.range maxThreads).map fun k =>
    { additions :=
        (C.G.nodes.filter fun s => decide (thread s = k)).flatMap fun s =>
          lengthScaledAdditions (Betweenness.strategy C.G bfs dijkstra s) s
      loaded := none }

/-- The length-scaled vector after the parallel phase of a run that is not cancelled, when
the workers take their steps in the order `schedule`; `none` when a worker has not finished
at the end of `schedule`.  The vector is cleared at the start of the run. -/
def Betweenness.lengthScaledUnder (C : Centrality) (bfs dijkstra : Nat → SSSP)
    (maxThreads : Nat) (thread : Nat → Nat) (schedule : List Nat) : Option (List ℚ) :=
  let r := interleave schedule
    ((Betweenness.allocate C).lengthScaled,
      Betweenness.racingThreads C bfs dijkstra maxThreads thread)
  if r.2.all fun t => t.additions.isEmpty then some r.1 else none

/-- The sum of the values that the additions `adds` add to entry `i`. -/
def pendingAt (adds : List (Nat × ℚ)) (i : Nat) : ℚ :=
  ((adds.filter fun a => decide (a.1 = i)).map Prod.snd).sum

/-- The sum of the values that the workers still have to add to entry `i`. -/
def totalPending (threads : List RacingThread) (i : Nat) : ℚ :=
  (threads.map fun t => pendingAt t.additions i).sum

/-- The state of an execution in which no entry is written by two workers: every entry and
the additions to it that are still to come make up `total`, a worker that has loaded an entry
holds the current value of the entry plus its addend, and the entries of different workers
are different. -/
structure RaceFreeState (total : Nat → ℚ) (lengthScaled : List ℚ)
    (threads : List RacingThread) : Prop where
  sum : ∀ i < lengthScaled.length, lengthScaled.getD i 0 + totalPending threads i = total i
  loaded : ∀ k t v, threads.get? k = some t → t.loaded = some v →
    ∃ i x rest, t.additions = (i, x) :: rest ∧ v = lengthScaled.getD i 0 + x
  disjoint : ∀ k1 k2 t1 t2, threads.get? k1 = some t1 → threads.get? k2 = some t2 → k1 ≠ k2 →
    ∀ a ∈ t1.additions, ∀ b ∈ t2.additions, a.1 ≠ b.1

/-- The order of the steps in which the workers `k, k + 1, ...` run one after the other, each
executing all its additions without interruption (two steps for every addition). -/
def serialScheduleFrom : Nat → List RacingThread → List Nat
  | _, [] => []
  | k, t :: threads =>
    List.replicate (2 * t.additions.length) k ++ serialScheduleFrom (k + 1) threads

/-- The sum of the entries of the vector `xs` at the indices `idx`. -/
def sumOn (idx : List Nat) (xs : List ℚ) : ℚ := (idx.map fun i => xs.getD i 0).sum

/-- The number of ordered pairs `(s, t)` with `s ≠ t` and `t` visited from `s`. -/
def reachablePairs (G : Graph) (strategy : Nat → SSSP) : Nat :=
  (G.nodes.map fun s =>
    ((strategy s).getNodesSortedByDistance.filter fun t => decide (t ≠ s)).length).sum

/-- What the backward pass for source `s` uses at a popped node `t`: the node and its
predecessors exist, the edges from the predecessors have ids below `z2`, the node is not its
own predecessor, the source has no predecessor, and the path counts of the predecessors of
another node add up to its own, which is not zero. -/
def PopOK (G : Graph) (sssp : SSSP) (s z2 t : Nat) : Prop :=
  t ∈ G.nodes ∧ t ∉ sssp.getPredecessors t ∧
  (∀ p ∈ sssp.getPredecessors t, p ∈ G.nodes ∧ G.edgeId p t < z2) ∧
  (t = s → sssp.getPredecessors t = []) ∧
  (t ≠ s →
    ((sssp.getPredecessors t).map fun p => (sssp.numberOfPaths p : ℚ)).sum =
        (sssp.numberOfPaths t : ℚ) ∧
      (sssp.numberOfPaths t : ℚ) ≠ 0)

/-! ### The engine with every subscript checked

The definitions below repeat the engine with a check at every subscript of a vector; `none`
stands for an access outside the vector. -/

/-- The statement `xs[i] += c` with the subscript checked. -/
def addAtChecked (xs : List ℚ) (i : Nat) (c : ℚ) : Option (List ℚ) :=
  if i < xs.length then some (addAt xs i c) else none

/-- The statement `xs[i] = xs[i] / d` with the subscript checked. -/
def divAtChecked (xs : List ℚ) (i : Nat) (d : ℚ) : Option (List ℚ) :=
  if i < xs.length then some (divAt xs i d) else none

/-- The loop `for (node p : sssp->getPredecessors(t))` with the subscripts `dependency[t]`,
`dependency[p]` and `edgeScorePerThread[..][G.edgeId(p,t)]` checked. -/
def predecessorLoopChecked (G : Graph) (computeEdgeCentrality : Bool) (sssp : SSSP) (t : Nat) :
    List Nat → Worker → Option Worker
  | [], w => some w
  | p :: ps, w =>
    let weight : ℚ := (sssp.numberOfPaths p : ℚ) / (sssp.numberOfPaths t : ℚ)
    if t < w.dependency.length then
      let c : ℚ := weight * (1 + w.dependency.getD t 0)
      match addAtChecked w.dependency p c with
      | none => none
      | some dependency1 =>
        if computeEdgeCentrality then
          match addAtChecked w.edgeScorePerThread (G.edgeId p t) c with
          | none => none
          | some edge1 =>
            predecessorLoopChecked G computeEdgeCentrality sssp t ps
              { w with dependency := dependency1, edgeScorePerThread := edge1 }
        else
          predecessorLoopChecked G computeEdgeCentrality sssp t ps
            { w with dependency := dependency1 }
    else none

/-- The length-scaled block with the subscript `lengthScaled[*node]` checked. -/
def lengthScaledPassChecked (sssp : SSSP) (t : Nat) (lengthScaled : List ℚ) :
    Option (List ℚ) :=
  let paths := sssp.getPaths t
  let pathsCount := paths.length
  let pathLength := sssp.distance t
  if pathsCount = 0 then some lengthScaled
  else
    let lengthScale : ℚ := (pathsCount : ℚ) / pathLength
    paths.foldlM
      (fun acc path =>
        if path.length ≤ 2 then some acc
        else (interior path).foldlM (fun a node => addAtChecked a node lengthScale) acc)
      lengthScaled

/-- The loop `while (!stack.empty())` with the subscripts checked. -/
def stackLoopChecked (G : Graph) (computeEdgeCentrality : Bool) (sssp : SSSP) (s : Nat) :
    List Nat → Worker × List ℚ → Option (Worker × List ℚ)
  | [], st => some st
  | t :: stack, (w, lengthScaled) =>
    match predecessorLoopChecked G computeEdgeCentrality sssp t (sssp.getPredecessors t) w with
    | none => none
    | some w1 =>
      if t ≠ s then
        if t < w1.dependency.length then
          match addAtChecked w1.scorePerThread t (w1.dependency.getD t 0) with
          | none => none
          | some score1 =>
            match lengthScaledPassChecked sssp t lengthScaled with
            | none => none
            | some lengthScaled1 =>
              stackLoopChecked G computeEdgeCentrality sssp s stack
                ({ w1 with scorePerThread := score1 }, lengthScaled1)
        else none
      else
        stackLoopChecked G computeEdgeCentrality sssp s stack (w1, lengthScaled)

/-- The lambda `computeDependencies` with the subscripts checked. -/
def computeDependenciesChecked (G : Graph) (computeEdgeCentrality : Bool) (sssp : SSSP)
    (running1 running2 : Bool) (s : Nat) (st : Worker × List ℚ) : Option (Worker × List ℚ) :=
  let w0 : Worker := { st.1 with dependency := List.replicate st.1.dependency.length 0 }
  if !running1 then some (w0, st.2)
  else if !running2 then some (w0, st.2)
  else
    stackLoopChecked G computeEdgeCentrality sssp s sssp.getNodesSortedByDistance.reverse
      (w0, st.2)

/-- One loop body executed by worker `i`, with the subscript `[omp_get_thread_num()]` of the
per-thread vectors checked. -/
def RunState.onWorkerChecked (st : RunState) (i : Nat)
    (body : Worker × List ℚ → Option (Worker × List ℚ)) : Option RunState :=
  match st.workers.get? i with
  | none => none
  | some w =>
    match body (w, st.lengthScaled) with
    | none => none
    | some r => some { workers := st.workers.set i r.1, lengthScaled := r.2 }

/-- The call `G.balancedParallelForNodes(computeDependencies)` with the subscripts checked. -/
def balancedParallelForNodesChecked (G : Graph) (computeEdgeCentrality : Bool)
    (strategy : Nat → SSSP) (thread : Nat → Nat) (cancelAt : Option Nat) :
    List Nat → Nat → RunState → Option RunState
  | [], _, st => some st
  | s :: sources, poll, st =>
    match st.onWorkerChecked (thread s)
        (computeDependenciesChecked G computeEdgeCentrality (strategy s)
          (isRunning cancelAt poll) (isRunning cancelAt (poll + 1)) s) with
    | none => none
    | some st1 =>
      balancedParallelForNodesChecked G computeEdgeCentrality strategy thread cancelAt sources
        (poll + 2) st1

/-- The inner loop `scoreData[v] += local[v]` over the nodes with both subscripts checked. -/
def addLocalScoresChecked (nodes : List Nat) (local_ : List ℚ) (scoreData : List ℚ) :
    Option (List ℚ) :=
  nodes.foldlM
    (fun acc v => if v < local_.length then addAtChecked acc v (local_.getD v 0) else none)
    scoreData

/-- The inner loop `edgeScoreData[i] += local[i]` for `i < local.size()` with the subscripts
checked. -/
def addLocalEdgeScoresChecked (local_ : List ℚ) (edgeScoreData : List ℚ) : Option (List ℚ) :=
  (List.range local_.length).foldlM
    (fun acc i => if i < local_.length then addAtChecked acc i (local_.getD i 0) else none)
    edgeScoreData

/-- The reduction of the thread-local scores with the subscripts checked. -/
def reduceScoresChecked (nodes : List Nat) (workers : List Worker) (scoreData : List ℚ) :
    Option (List ℚ) :=
  workers.foldlM (fun acc w => addLocalScoresChecked nodes w.scorePerThread acc) scoreData

/-- The reduction of the thread-local edge scores with the subscripts checked. -/
def reduceEdgeScoresChecked (workers : List Worker) (edgeScoreData : List ℚ) :
    Option (List ℚ) :=
  workers.foldlM (fun acc w => addLocalEdgeScoresChecked w.edgeScorePerThread acc)
    edgeScoreData

/-- The normalization of the node scores with the subscript checked. -/
def normalizeScoresChecked (G : Graph) (scoreData : List ℚ) : Option (List ℚ) :=
  G.nodes.foldlM (fun acc u => divAtChecked acc u (normalizationPairs G : ℚ)) scoreData

/-- The normalization of the edge scores with the subscript checked. -/
def normalizeEdgeScoresChecked (G : Graph) (edgeScoreData : List ℚ) : Option (List ℚ) :=
  (List.range edgeScoreData.length).foldlM
    (fun acc e => divAtChecked acc e (normalizationEdges G : ℚ)) edgeScoreData

/-- The body of `Betweenness::run` after the two `assureRunning` calls, with the subscripts
checked. -/
def finishRunChecked (C : Centrality) (st : RunState) : Option Centrality :=
  match reduceScoresChecked C.G.nodes st.workers C.scoreData with
  | none => none
  | some scoreData1 =>
    match (if C.computeEdgeCentrality then reduceEdgeScoresChecked st.workers C.edgeScoreData
        else some C.edgeScoreData) with
    | none => none
    | some edgeScoreData1 =>
      match (if C.normalized then normalizeScoresChecked C.G scoreData1 else some scoreData1) with
      | none => none
      | some scoreData2 =>
        match (if C.normalized && C.computeEdgeCentrality then
            normalizeEdgeScoresChecked C.G edgeScoreData1 else some edgeScoreData1) with
        | none => none
        | some edgeScoreData2 =>
          some { C with
            scoreData := scoreData2
            edgeScoreData := edgeScoreData2
            lengthScaled := st.lengthScaled
            hasRun := true }

/-- The method `Betweenness::run` with every subscript of a vector checked: `none` is an
access outside a vector, `some` the outcome of `Betweenness.run`. -/
def Betweenness.runChecked (C : Centrality) (bfs dijkstra : Nat → SSSP) (maxThreads : Nat)
    (thread : Nat → Nat) (cancelAt : Option Nat) : Option (Centrality × Except Error Unit) :=
  let C1 := Betweenness.allocate C
  if !isRunning cancelAt 0 then some (C1, .error .interrupted)
  else
    match balancedParallelForNodesChecked C.G C.computeEdgeCentrality
        (Betweenness.strategy C.G bfs dijkstra) thread cancelAt C.G.nodes 1
        { workers := List.replicate maxThreads (Betweenness.initialWorker C)
          lengthScaled := List.replicate C.G.upperNodeIdBound 0 } with
    | none => none
    | some st1 =>
      let C2 : Centrality := { C1 with lengthScaled := st1.lengthScaled }
      if !isRunning cancelAt (1 + 2 * C.G.nodes.length) then some (C2, .error .interrupted)
      else
        match finishRunChecked C2 st1 with
        | none => none
        | some C3 => some (C3, .ok ())

/-- The outcome of the strategy for source `s` names only node ids below `z` (visited nodes,
predecessors, nodes on the enumerated paths) and, when edge scores are computed, only
predecessor pairs whose edge id is below `z2`. -/
def StrategyInBounds (G : Graph) (e : Bool) (sssp : SSSP) (z z2 : Nat) : Prop :=
  ∀ t ∈ sssp.getNodesSortedByDistance,
    t < z ∧
    (∀ p ∈ sssp.getPredecessors t, p < z ∧ (e = true → G.edgeId p t < z2)) ∧
    (∀ path ∈ sssp.getPaths t, ∀ node ∈ path, node < z)

/-- The states of the result store of an engine constructed for `G` with the given flags:
the freshly constructed store, and every store obtained from such a state by `run()`
(completed or cancelled), `scores(moveOut)` or `lengthScaleScores(moveOut)`; the other
accessors leave the store as it is. -/
inductive Reachable (G : Graph) (normalized computeEdgeCentrality : Bool) : Centrality → Prop
  | fresh : Reachable G normalized computeEdgeCentrality
      (Centrality.init G normalized computeEdgeCentrality)
  | run {C : Centrality} (bfs dijkstra : Nat → SSSP) (maxThreads : Nat) (thread : Nat → Nat)
      (cancelAt : Option Nat) :
      Reachable G normalized computeEdgeCentrality C →
        Reachable G normalized computeEdgeCentrality
          (Betweenness.run C bfs dijkstra maxThreads thread cancelAt).1
  | scores {C : Centrality} (moveOut : Bool) :
      Reachable G normalized computeEdgeCentrality C →
        Reachable G normalized computeEdgeCentrality (C.scores moveOut).1
  | lengthScaleScores {C : Centrality} (moveOut : Bool) :
      Reachable G normalized computeEdgeCentrality C →
        Reachable G normalized computeEdgeCentrality (C.lengthScaleScores moveOut).1

/-! ## Lemmas on the dependency accumulation and the reduction -/

/-! ### Vectors -/

theorem length_addAt (xs : List ℚ) (i : Nat) (c : ℚ) : (addAt xs i c).length = xs.length := by
  simp [addAt]

theorem getD_addAt (xs : List ℚ) (i j : Nat) (c : ℚ) :
    (addAt xs i c).getD j 0 =
      if j = i ∧ i < xs.length then xs.getD j 0 + c else xs.getD j 0 := by
  unfold addAt
  by_cases h : j = i
  · subst h
    by_cases hl : j < xs.length
    · simp [List.getD_eq_getElem?_getD, List.getElem?_set, hl]
    · have : xs.length ≤ j := Nat.le_of_not_lt hl
      simp [List.getD_eq_getElem?_getD, List.getElem?_set, hl, List.getElem?_eq_none this]
  · have h' : ¬ i = j := fun e => h e.symm
    simp [List.getD_eq_getElem?_getD, List.getElem?_set, h, h']

theorem getD_addAt_of_lt (xs : List ℚ) (i j : Nat) (c : ℚ) (h : i < xs.length) :
    (addAt xs i c).getD j 0 = xs.getD j 0 + if j = i then c else 0 := by
  rw [getD_addAt]
  by_cases hj : j = i <;> simp [hj, h]

/-! ### The predecessor loop -/

theorem predecessorLoop_scorePerThread (G : Graph) (e : Bool) (sssp : SSSP) (t : Nat) :
    ∀ (ps : List Nat) (w : Worker),
      (predecessorLoop G e sssp t ps w).scorePerThread = w.scorePerThread := by
  intro ps
  induction ps with
  | nil => intro w; rfl
  | cons p ps ih => intro w; simp only [predecessorLoop]; rw [ih]

theorem predecessorLoop_dependency_length (G : Graph) (e : Bool) (sssp : SSSP) (t : Nat) :
    ∀ (ps : List Nat) (w : Worker),
      (predecessorLoop G e sssp t ps w).dependency.length = w.dependency.length := by
  intro ps
  induction ps with
  | nil => intro w; rfl
  | cons p ps ih => intro w; simp only [predecessorLoop]; rw [ih]; simp [length_addAt]

theorem predecessorLoop_dependency (G : Graph) (e : Bool) (sssp : SSSP) (t : Nat) :
    ∀ (ps : List Nat) (w : Worker), t ∉ ps → (∀ p ∈ ps, p < w.dependency.length) → ∀ x,
      (predecessorLoop G e sssp t ps w).dependency.getD x 0 =
        w.dependency.getD x 0 +
          (ps.count x : ℚ) *
            ((sssp.numberOfPaths x : ℚ) / (sssp.numberOfPaths t : ℚ) *
              (1 + w.dependency.getD t 0)) := by
  intro ps
  induction ps with
  | nil => intro w _ _ x; simp [predecessorLoop]
  | cons p ps ih =>
    intro w ht hb x
    have htp : t ≠ p := fun h => ht (h ▸ List.mem_cons_self _ _)
    have hts : t ∉ ps := fun h => ht (List.mem_cons_of_mem _ h)
    have hp : p < w.dependency.length := hb p (List.mem_cons_self _ _)
    simp only [predecessorLoop]
    rw [ih _ hts (by
      intro q hq
      simp only [length_addAt]
      exact hb q (List.mem_cons_of_mem _ hq))]
    simp only [getD_addAt_of_lt _ _ _ _ hp, if_neg htp, add_zero]
    by_cases hx : x = p
    · subst hx
      simp [List.count_cons_self]
      ring
    · have hx' : ¬ p = x := fun h => hx h.symm
      simp [List.count_cons, hx, hx']

/-! ### Sums over lists -/

theorem sum_map_indicator (g : Nat → ℚ) (p : Nat) :
    ∀ (R : List Nat), R.Nodup → p ∈ R →
      (R.map fun u => if u = p then g u else 0).sum = g p := by
  intro R
  induction R with
  | nil => intro _ h; simp at h
  | cons a R ih =>
    intro hnd hp
    obtain ⟨ha, hR⟩ := List.nodup_cons.mp hnd
    by_cases hap : a = p
    · subst hap
      have : (R.map fun u => if u = a then g u else 0) = R.map fun _ => (0 : ℚ) := by
        apply List.map_congr_left
        intro u hu
        have : u ≠ a := fun h => ha (h ▸ hu)
        simp [this]
      simp [this]
    · have hpR : p ∈ R := by
        rcases List.mem_cons.mp hp with h | h
        · exact absurd h.symm hap
        · exact h
      simp [hap, ih hR hpR]

theorem sum_map_count_mul (g : Nat → ℚ) (R : List Nat) (hnd : R.Nodup) :
    ∀ (ps : List Nat), (∀ p ∈ ps, p ∈ R) →
      (R.map fun u => (ps.count u : ℚ) * g u).sum = (ps.map g).sum := by
  intro ps
  induction ps with
  | nil => intro _; simp
  | cons p ps ih =>
    intro h
    have hp : p ∈ R := h p (List.mem_cons_self _ _)
    have hps : ∀ q ∈ ps, q ∈ R := fun q hq => h q (List.mem_cons_of_mem _ hq)
    have : (R.map fun u => ((p :: ps).count u : ℚ) * g u) =
        R.map fun u => ((ps.count u : ℚ) * g u) + (if u = p then g u else 0) := by
      apply List.map_congr_left
      intro u _
      by_cases hu : u = p
      · subst hu; simp [List.count_cons_self]; ring
      · have hu' : ¬ p = u := fun e => hu e.symm
        simp [List.count_cons, hu, hu']
    rw [this, List.sum_map_add, ih hps, sum_map_indicator g p R hnd hp]
    simp [add_comm]

theorem sum_map_sub_rat (f g : Nat → ℚ) (R : List Nat) :
    (R.map fun u => f u - g u).sum = (R.map f).sum - (R.map g).sum := by
  induction R with
  | nil => simp
  | cons a R ih => simp only [List.map_cons, List.sum_cons, ih]; ring

/-- The algebra behind one step of the dependency accumulation. -/
theorem accumulate_identity (R ps : List Nat) (N σ d : Nat → ℚ) (v t : Nat) (c : ℚ)
    (hnd : R.Nodup) (hv : v ∈ R) (hps : ∀ p ∈ ps, p ∈ R)
    (A1 : N t = (ps.map N).sum) (A2 : N v = σ v) (A3 : ∀ u ∈ R, σ u = 0 → N u = 0) :
    (d v + (ps.count v : ℚ) * (σ v / σ t * c)) +
        (R.map fun u => if u = v then 0
          else N u / σ u * (1 + (d u + (ps.count u : ℚ) * (σ u / σ t * c)))).sum =
      d v + (N t / σ t * c + (R.map fun u => if u = v then 0 else N u / σ u * (1 + d u)).sum) := by
  have h1 : (R.map fun u => if u = v then 0
          else N u / σ u * (1 + (d u + (ps.count u : ℚ) * (σ u / σ t * c)))) =
      R.map fun u => (if u = v then 0 else N u / σ u * (1 + d u)) +
        ((ps.count u : ℚ) * (N u / σ t * c) - (if u = v then (ps.count u : ℚ) * (N u / σ t * c) else 0)) := by
    apply List.map_congr_left
    intro u huR
    by_cases hu : u = v
    · simp [hu]
    · simp only [if_neg hu, sub_zero]
      by_cases hσ : σ u = 0
      · simp [A3 u huR hσ]
      · field_simp
        ring
  have h2 : (R.map fun u => (ps.count u : ℚ) * (N u / σ t * c)).sum = N t / σ t * c := by
    rw [sum_map_count_mul (fun u => N u / σ t * c) R hnd ps hps, A1]
    have hfun : (fun u => N u / σ t * c) = fun u => N u * ((σ t)⁻¹ * c) := by
      funext u
      rw [div_eq_mul_inv, mul_assoc]
    rw [hfun, List.sum_map_mul_right, div_eq_mul_inv, mul_assoc]
  have h3 : (R.map fun u => if u = v then (ps.count u : ℚ) * (N u / σ t * c) else 0).sum =
      (ps.count v : ℚ) * (N v / σ t * c) :=
    sum_map_indicator (fun u => (ps.count u : ℚ) * (N u / σ t * c)) v R hnd hv
  rw [h1, List.sum_map_add, sum_map_sub_rat, h2, h3, A2]
  ring

/-! ### The stack loop -/

theorem stackLoop_cons_fst (G : Graph) (e : Bool) (sssp : SSSP) (s t : Nat) (R : List Nat)
    (w : Worker) (ls : List ℚ) :
    ∃ ls1, stackLoop G e sssp s (t :: R) (w, ls) =
      stackLoop G e sssp s R (afterPop G e sssp s t w, ls1) := by
  by_cases h : t = s
  · exact ⟨ls, by simp [stackLoop, afterPop, h]⟩
  · exact ⟨lengthScaledPass sssp t ls, by simp [stackLoop, afterPop, h]⟩

theorem afterPop_dependency (G : Graph) (e : Bool) (sssp : SSSP) (s t : Nat) (w : Worker) :
    (afterPop G e sssp s t w).dependency =
      (predecessorLoop G e sssp t (sssp.getPredecessors t) w).dependency := by
  unfold afterPop
  by_cases h : t = s <;> simp [h]

theorem afterPop_scorePerThread (G : Graph) (e : Bool) (sssp : SSSP) (s t : Nat) (w : Worker) :
    (afterPop G e sssp s t w).scorePerThread =
      if t ≠ s then
        addAt w.scorePerThread t
          ((predecessorLoop G e sssp t (sssp.getPredecessors t) w).dependency.getD t 0)
      else w.scorePerThread := by
  unfold afterPop
  by_cases h : t = s <;> simp [h, predecessorLoop_scorePerThread]

theorem stackLoop_lengths (G : Graph) (e : Bool) (sssp : SSSP) (s : Nat) :
    ∀ (R : List Nat) (w : Worker) (ls : List ℚ),
      (stackLoop G e sssp s R (w, ls)).1.dependency.length = w.dependency.length ∧
      (stackLoop G e sssp s R (w, ls)).1.scorePerThread.length = w.scorePerThread.length := by
  intro R
  induction R with
  | nil => intro w ls; exact ⟨rfl, rfl⟩
  | cons t R ih =>
    intro w ls
    obtain ⟨ls1, h⟩ := stackLoop_cons_fst G e sssp s t R w ls
    rw [h]
    refine ⟨(ih _ ls1).1.trans ?_, (ih _ ls1).2.trans ?_⟩
    · rw [afterPop_dependency, predecessorLoop_dependency_length]
    · rw [afterPop_scorePerThread]
      by_cases hts : t = s <;> simp [hts, length_addAt]

theorem stackLoop_score_untouched (G : Graph) (e : Bool) (sssp : SSSP) (s : Nat) :
    ∀ (R : List Nat) (w : Worker) (ls : List ℚ) (v : Nat), v ∉ R ∨ v = s →
      (stackLoop G e sssp s R (w, ls)).1.scorePerThread.getD v 0 =
        w.scorePerThread.getD v 0 := by
  intro R
  induction R with
  | nil => intro w ls v _; rfl
  | cons t R ih =>
    intro w ls v hv
    obtain ⟨ls1, h⟩ := stackLoop_cons_fst G e sssp s t R w ls
    rw [h, ih _ ls1 v (hv.imp (fun h1 h2 => h1 (List.mem_cons_of_mem _ h2)) id),
      afterPop_scorePerThread]
    by_cases hts : t = s
    · simp [hts]
    · have hvt : v ≠ t := by
        rcases hv with h1 | h1
        · exact fun h2 => h1 (h2 ▸ List.mem_cons_self _ _)
        · exact fun h2 => hts (h2 ▸ h1)
      rw [if_pos hts, getD_addAt, if_neg (fun h => hvt h.1)]

theorem processedBeforePredecessors_mem (sssp : SSSP) :
    ∀ (R : List Nat), processedBeforePredecessors sssp R →
      ∀ t ∈ R, ∀ p ∈ sssp.getPredecessors t, p ∈ R := by
  intro R
  induction R with
  | nil => intro _ t ht; simp at ht
  | cons a R ih =>
    intro h t ht p hp
    rcases List.mem_cons.mp ht with h1 | h1
    · subst h1; exact List.mem_cons_of_mem _ (h.1 p hp)
    · exact List.mem_cons_of_mem _ (ih h.2 t h1 p hp)

/-- A node outside a predecessor-closed list lies on no counted path to a node of the list. -/
theorem count_zero_of_not_mem (sssp : SSSP) (N : Nat → Nat → ℚ) :
    ∀ (R : List Nat), processedBeforePredecessors sssp R →
      (∀ t ∈ R, ∀ v, v ≠ t → N v t = ((sssp.getPredecessors t).map (N v)).sum) →
      ∀ v, v ∉ R → ∀ u ∈ R, N v u = 0 := by
  intro R
  induction R with
  | nil => intro _ _ v _ u hu; simp at hu
  | cons a R ih =>
    intro h A1 v hv u hu
    have hvR : v ∉ R := fun h1 => hv (List.mem_cons_of_mem _ h1)
    have A1R : ∀ t ∈ R, ∀ v, v ≠ t → N v t = ((sssp.getPredecessors t).map (N v)).sum :=
      fun t ht => A1 t (List.mem_cons_of_mem _ ht)
    rcases List.mem_cons.mp hu with h1 | h1
    · subst h1
      have hvu : v ≠ u := fun h2 => hv (h2 ▸ List.mem_cons_self _ _)
      rw [A1 u (List.mem_cons_self _ _) v hvu]
      apply List.sum_eq_zero
      intro x hx
      obtain ⟨p, hp, rfl⟩ := List.mem_map.mp hx
      exact ih h.2 A1R v hvR p (h.1 p hp)
    · exact ih h.2 A1R v hvR u h1

/-- The score contribution of one backward pass, for abstract path counts `N v t` (paths to
`t` through `v`) that satisfy the recurrence along the predecessor lists. -/
theorem stackLoop_score (G : Graph) (e : Bool) (sssp : SSSP) (s : Nat) (N : Nat → Nat → ℚ)
    (z : Nat) :
    ∀ (R : List Nat) (w : Worker) (ls : List ℚ),
      R.Nodup → processedBeforePredecessors sssp R → (∀ t ∈ R, t < z) →
      w.dependency.length = z → w.scorePerThread.length = z →
      (∀ t ∈ R, ∀ v, v ≠ t → N v t = ((sssp.getPredecessors t).map (N v)).sum) →
      (∀ t ∈ R, N t t = sssp.numberOfPaths t) →
      (∀ t ∈ R, ∀ v, (sssp.numberOfPaths t : ℚ) = 0 → N v t = 0) →
      ∀ v ∈ R, v ≠ s →
        (stackLoop G e sssp s R (w, ls)).1.scorePerThread.getD v 0 =
          w.scorePerThread.getD v 0 + (w.dependency.getD v 0 +
            (R.map fun t => if t = v then 0
              else N v t / sssp.numberOfPaths t * (1 + w.dependency.getD t 0)).sum) := by
  intro R
  induction R with
  | nil => intro _ _ _ _ _ _ _ _ _ _ v hv; simp at hv
  | cons t R ih =>
    intro w ls hnd hord hz hdl hsl A1 A2 A3 v hv hvs
    obtain ⟨htR, hndR⟩ := List.nodup_cons.mp hnd
    obtain ⟨hpre, hordR⟩ := hord
    have A1R : ∀ u ∈ R, ∀ v, v ≠ u → N v u = ((sssp.getPredecessors u).map (N v)).sum :=
      fun u hu => A1 u (List.mem_cons_of_mem _ hu)
    have htp : t ∉ sssp.getPredecessors t := fun h => htR (hpre _ h)
    have hpb : ∀ p ∈ sssp.getPredecessors t, p < w.dependency.length := by
      intro p hp
      rw [hdl]
      exact hz p (List.mem_cons_of_mem _ (hpre p hp))
    have hd1 := predecessorLoop_dependency G e sssp t (sssp.getPredecessors t) w htp hpb
    have hd1t : (predecessorLoop G e sssp t (sssp.getPredecessors t) w).dependency.getD t 0 =
        w.dependency.getD t 0 := by
      rw [hd1, List.count_eq_zero_of_not_mem htp]; simp
    have htz : t < w.scorePerThread.length := by
      rw [hsl]; exact hz t (List.mem_cons_self _ _)
    obtain ⟨ls1, hstep⟩ := stackLoop_cons_fst G e sssp s t R w ls
    rw [hstep]
    by_cases hvt : v = t
    · -- the node that is popped now
      subst hvt
      rw [stackLoop_score_untouched G e sssp s R _ ls1 v (Or.inl htR), afterPop_scorePerThread,
        if_pos hvs, hd1t, getD_addAt_of_lt _ _ _ _ htz]
      have hzero : (R.map fun u => if u = v then 0
          else N v u / sssp.numberOfPaths u * (1 + w.dependency.getD u 0)) =
          R.map fun _ => (0 : ℚ) := by
        apply List.map_congr_left
        intro u hu
        rw [count_zero_of_not_mem sssp N R hordR A1R v htR u hu]
        simp
      rw [List.map_cons, List.sum_cons, if_pos rfl, if_pos rfl, hzero]
      simp
    · -- a node that is popped later
      have hvR : v ∈ R := by
        rcases List.mem_cons.mp hv with h | h
        · exact absurd h hvt
        · exact h
      have hdl1 : (afterPop G e sssp s t w).dependency.length = z := by
        rw [afterPop_dependency, predecessorLoop_dependency_length, hdl]
      have hsl1 : (afterPop G e sssp s t w).scorePerThread.length = z := by
        rw [afterPop_scorePerThread]
        by_cases hts : t = s <;> simp [hts, length_addAt, hsl]
      rw [ih _ ls1 hndR hordR (fun u hu => hz u (List.mem_cons_of_mem _ hu)) hdl1 hsl1 A1R
        (fun u hu => A2 u (List.mem_cons_of_mem _ hu))
        (fun u hu => A3 u (List.mem_cons_of_mem _ hu)) v hvR hvs]
      have hsc : (afterPop G e sssp s t w).scorePerThread.getD v 0 =
          w.scorePerThread.getD v 0 := by
        rw [afterPop_scorePerThread]
        by_cases hts : t = s
        · simp [hts]
        · rw [if_pos hts, getD_addAt, if_neg (fun h => hvt h.1)]
      rw [hsc, afterPop_dependency]
      simp only [hd1, List.map_cons, List.sum_cons, if_neg (fun h : t = v => hvt h.symm)]
      have key := accumulate_identity R (sssp.getPredecessors t) (N v)
        (fun u => (sssp.numberOfPaths u : ℚ)) (fun u => w.dependency.getD u 0) v t
        (1 + w.dependency.getD t 0) hndR hvR hpre
        (A1 t (List.mem_cons_self _ _) v hvt) (A2 v hv)
        (fun u huR hu => A3 u (List.mem_cons_of_mem _ huR) v hu)
      simp only at key
      rw [key]

/-! ### Paths along the predecessor lists -/

theorem flatMap_congr_mem {α β : Type} (l : List α) (f g : α → List β)
    (h : ∀ a ∈ l, f a = g a) : l.flatMap f = l.flatMap g := by
  induction l with
  | nil => rfl
  | cons a l ih =>
    rw [List.flatMap_cons, List.flatMap_cons, h a (List.mem_cons_self _ _),
      ih fun b hb => h b (List.mem_cons_of_mem _ hb)]

theorem length_filter_flatMap {α β : Type} (q : β → Bool) (f : α → List β) (l : List α) :
    ((l.flatMap f).filter q).length = (l.map fun a => ((f a).filter q).length).sum := by
  induction l with
  | nil => rfl
  | cons a l ih =>
    rw [List.flatMap_cons, List.filter_append, List.length_append, ih, List.map_cons,
      List.sum_cons]

theorem cast_sum_map (f : Nat → Nat) (l : List Nat) :
    (((l.map f).sum : Nat) : ℚ) = (l.map fun a => (f a : ℚ)).sum := by
  induction l with
  | nil => simp
  | cons a l ih => simp only [List.map_cons, List.sum_cons, Nat.cast_add, ih]

/-- Enough fuel: one more edge finds no further path to a node of a predecessor-closed list. -/
theorem pathsWithin_succ (sssp : SSSP) (s : Nat) :
    ∀ (R : List Nat), processedBeforePredecessors sssp R →
      ∀ k, R.length ≤ k + 1 → ∀ u ∈ R,
        pathsWithin sssp s (k + 1) u = pathsWithin sssp s k u := by
  intro R
  induction R with
  | nil => intro _ k _ u hu; simp at hu
  | cons t R ih =>
    intro h k hk u hu
    have hk' : R.length ≤ k := by simpa using hk
    rcases List.mem_cons.mp hu with h1 | h1
    · subst h1
      cases k with
      | zero =>
        have hR : R = [] := List.length_eq_zero.mp (Nat.le_zero.mp hk')
        have hp : sssp.getPredecessors u = [] := by
          apply List.eq_nil_iff_forall_not_mem.mpr
          intro p hp
          have := h.1 p hp
          rw [hR] at this
          simp at this
        simp [pathsWithin, hp]
      | succ k =>
        by_cases hus : u = s
        · simp [pathsWithin, hus]
        · rw [pathsWithin, if_neg hus]
          conv_rhs => rw [pathsWithin, if_neg hus]
          apply flatMap_congr_mem
          intro p hp
          rw [ih h.2 k hk' p (h.1 p hp)]
    · exact ih h.2 k (Nat.le_succ_of_le hk') u h1

/-- Unfolding of the paths to a node other than the source at sufficient fuel. -/
theorem pathsWithin_unfold (sssp : SSSP) (s : Nat) (R : List Nat)
    (h : processedBeforePredecessors sssp R) (k : Nat) (hk : R.length ≤ k + 1)
    (u : Nat) (hu : u ∈ R) (hus : u ≠ s) :
    pathsWithin sssp s k u =
      (sssp.getPredecessors u).flatMap fun p => (pathsWithin sssp s k p).map (· ++ [u]) := by
  rw [← pathsWithin_succ sssp s R h k hk u hu, pathsWithin, if_neg hus]

theorem mem_of_mem_pathsWithin (sssp : SSSP) (s : Nat) :
    ∀ (k t : Nat) (path : List Nat), path ∈ pathsWithin sssp s k t → t ∈ path := by
  intro k t path h
  cases k with
  | zero =>
    by_cases hts : t = s
    · simp [pathsWithin, hts] at h; simp [h, hts]
    · simp [pathsWithin, hts] at h
  | succ k =>
    by_cases hts : t = s
    · simp [pathsWithin, hts] at h; simp [h, hts]
    · rw [pathsWithin, if_neg hts] at h
      obtain ⟨p, _, hp⟩ := List.mem_flatMap.mp h
      obtain ⟨q, _, rfl⟩ := List.mem_map.mp hp
      simp

theorem throughWithin_self (sssp : SSSP) (s k t : Nat) :
    throughWithin sssp s k t t = (pathsWithin sssp s k t).length := by
  unfold throughWithin
  rw [List.filter_eq_self.mpr]
  intro path hp
  simpa using mem_of_mem_pathsWithin sssp s k t path hp

theorem throughWithin_le (sssp : SSSP) (s k v t : Nat) :
    throughWithin sssp s k v t ≤ (pathsWithin sssp s k t).length :=
  List.length_filter_le _ _

theorem throughWithin_source (sssp : SSSP) (s k v : Nat) (hv : v ≠ s) :
    throughWithin sssp s k v s = 0 := by
  unfold throughWithin
  cases k <;> simp [pathsWithin, hv]

theorem throughWithin_rec (sssp : SSSP) (s : Nat) (R : List Nat)
    (h : processedBeforePredecessors sssp R) (k : Nat) (hk : R.length ≤ k + 1)
    (t : Nat) (ht : t ∈ R) (hts : t ≠ s) (v : Nat) (hvt : v ≠ t) :
    throughWithin sssp s k v t =
      ((sssp.getPredecessors t).map (throughWithin sssp s k v)).sum := by
  unfold throughWithin
  rw [pathsWithin_unfold sssp s R h k hk t ht hts, length_filter_flatMap]
  congr 1
  apply List.map_congr_left
  intro p _
  rw [List.filter_map, List.length_map]
  congr 1
  apply List.filter_congr
  intro path _
  simp [hvt]

/-! ### One source -/

theorem getD_replicate_zero (n i : Nat) : (List.replicate n (0 : ℚ)).getD i 0 = 0 := by
  rw [List.getD_eq_getElem?_getD, List.getElem?_replicate]
  split <;> rfl

theorem mem_nodes_lt (G : Graph) (t : Nat) (h : t ∈ G.nodes) : t < G.upperNodeIdBound := by
  unfold Graph.nodes at h
  exact List.mem_range.mp (List.mem_filter.mp h).1

theorem nodes_nodup (G : Graph) : G.nodes.Nodup :=
  (List.nodup_range _).filter _

theorem sum_map_filter_rat (q : Nat → Bool) (g : Nat → ℚ) (l : List Nat) :
    ((l.filter q).map g).sum = (l.map fun x => if q x then g x else 0).sum := by
  induction l with
  | nil => rfl
  | cons a l ih =>
    by_cases h : q a
    · simp [List.filter_cons, h, ih]
    · simp [List.filter_cons, h, ih]

theorem pathsThrough_eq (sssp : SSSP) (s t v : Nat) :
    pathsThrough sssp s t v =
      throughWithin sssp s sssp.getNodesSortedByDistance.length v t := rfl

/-- The recurrence of the through-counts along the predecessor lists of a correct outcome. -/
theorem CorrectSSSP.through_rec {G : Graph} {sssp : SSSP} {s : Nat} (h : CorrectSSSP G sssp s)
    (t : Nat) (ht : t ∈ sssp.getNodesSortedByDistance.reverse) (v : Nat) (hvt : v ≠ t) :
    (pathsThrough sssp s t v : ℚ) =
      ((sssp.getPredecessors t).map fun p => (pathsThrough sssp s p v : ℚ)).sum := by
  obtain ⟨_, _, hord, hsrc, _⟩ := h
  by_cases hts : t = s
  · subst hts
    rw [hsrc, pathsThrough_eq, throughWithin_source sssp t _ v hvt]
    simp
  · simp only [pathsThrough_eq]
    rw [throughWithin_rec sssp s _ hord _ (by simp) t ht hts v hvt, cast_sum_map]

theorem CorrectSSSP.sourceDependency_of_not_mem {G : Graph} {sssp : SSSP} {s : Nat}
    (h : CorrectSSSP G sssp s) (v : Nat) (hv : v ∉ sssp.getNodesSortedByDistance) :
    sourceDependency sssp s v = 0 := by
  unfold sourceDependency
  apply List.sum_eq_zero
  intro x hx
  obtain ⟨t, ht, rfl⟩ := List.mem_map.mp hx
  have htm : t ∈ sssp.getNodesSortedByDistance.reverse :=
    List.mem_reverse.mpr (List.mem_filter.mp ht).1
  have := count_zero_of_not_mem sssp (fun v t => (pathsThrough sssp s t v : ℚ))
    sssp.getNodesSortedByDistance.reverse h.2.2.1 (fun t ht v hvt => h.through_rec t ht v hvt)
    v (fun hm => hv (List.mem_reverse.mp hm)) t htm
  simp only at this
  unfold pairDependency
  rw [this, zero_div]

/-- The contribution of one executed loop body to the score buffer of its worker. -/
theorem computeDependencies_score (G : Graph) (e : Bool) (sssp : SSSP) (s : Nat)
    (h : CorrectSSSP G sssp s) (w : Worker) (ls : List ℚ)
    (hdl : w.dependency.length = G.upperNodeIdBound)
    (hsl : w.scorePerThread.length = G.upperNodeIdBound) (v : Nat) :
    (computeDependencies G e sssp true true s (w, ls)).1.scorePerThread.getD v 0 =
      w.scorePerThread.getD v 0 + if v = s then 0 else sourceDependency sssp s v := by
  obtain ⟨w0, hw0⟩ : ∃ w0 : Worker,
      w0 = { w with dependency := List.replicate w.dependency.length 0 } := ⟨_, rfl⟩
  have hcd : computeDependencies G e sssp true true s (w, ls) =
      stackLoop G e sssp s sssp.getNodesSortedByDistance.reverse (w0, ls) := by
    simp [computeDependencies, hw0]
  have hw0d : w0.dependency = List.replicate w.dependency.length 0 := by rw [hw0]
  have hw0s : w0.scorePerThread = w.scorePerThread := by rw [hw0]
  rw [hcd, ← hw0s]
  by_cases hv : v ∈ sssp.getNodesSortedByDistance.reverse ∧ v ≠ s
  · obtain ⟨hnd, hnodes, hord, hsrc, hcnt⟩ := h
    rw [stackLoop_score G e sssp s (fun v t => (pathsThrough sssp s t v : ℚ))
      G.upperNodeIdBound sssp.getNodesSortedByDistance.reverse w0 ls
      (List.nodup_reverse.mpr hnd) hord
      (fun t ht => mem_nodes_lt G t (hnodes t (List.mem_reverse.mp ht)))
      (by rw [hw0d, List.length_replicate, hdl]) (by rw [hw0s, hsl])
      (fun t ht v hvt =>
        CorrectSSSP.through_rec ⟨hnd, hnodes, hord, hsrc, hcnt⟩ t ht v hvt)
      (fun t ht => by
        simp only [pathsThrough_eq]
        rw [throughWithin_self, (hcnt t (List.mem_reverse.mp ht)).1]
        rfl)
      (fun t ht v h0 => by
        have := (hcnt t (List.mem_reverse.mp ht)).2
        have h0' : sssp.numberOfPaths t = 0 := by exact_mod_cast h0
        omega)
      v hv.1 hv.2]
    rw [if_neg hv.2, hw0d]
    simp only [getD_replicate_zero, zero_add, add_zero, mul_one]
    congr 1
    unfold sourceDependency
    rw [sum_map_filter_rat, List.map_reverse, List.sum_reverse]
    congr 1
    apply List.map_congr_left
    intro t ht
    by_cases htv : t = v
    · simp [htv]
    · by_cases hts : t = s
      · subst hts
        rw [pathsThrough_eq, throughWithin_source sssp t _ v hv.2]
        simp [htv]
      · simp only [htv, hts, if_false, ne_eq, not_false_eq_true, and_self, decide_True, if_true]
        unfold pairDependency
        rw [(hcnt t ht).1]
  · have hv' : v ∉ sssp.getNodesSortedByDistance.reverse ∨ v = s := by
      by_cases hvs : v = s
      · exact Or.inr hvs
      · exact Or.inl fun hm => hv ⟨hm, hvs⟩
    rw [stackLoop_score_untouched G e sssp s _ _ ls v hv']
    by_cases hvs : v = s
    · simp [hvs]
    · have hvm : v ∉ sssp.getNodesSortedByDistance := by
        rcases hv' with h1 | h1
        · exact fun hm => h1 (List.mem_reverse.mpr hm)
        · exact absurd h1 hvs
      rw [if_neg hvs, h.sourceDependency_of_not_mem v hvm, add_zero]

theorem computeDependencies_lengths (G : Graph) (e : Bool) (sssp : SSSP) (r1 r2 : Bool)
    (s : Nat) (w : Worker) (ls : List ℚ) :
    (computeDependencies G e sssp r1 r2 s (w, ls)).1.dependency.length = w.dependency.length ∧
    (computeDependencies G e sssp r1 r2 s (w, ls)).1.scorePerThread.length =
      w.scorePerThread.length := by
  unfold computeDependencies
  cases r1 <;> cases r2 <;> simp [stackLoop_lengths]

/-! ### The workers and the parallel loop -/

theorem sum_map_set {α : Type} (f : α → ℚ) (a w : α) :
    ∀ (l : List α) (i : Nat), l.get? i = some w →
      ((l.set i a).map f).sum = (l.map f).sum + (f a - f w) := by
  intro l
  induction l with
  | nil => intro i h; simp at h
  | cons b l ih =>
    intro i h
    cases i with
    | zero =>
      simp only [List.get?_cons_zero, Option.some.injEq] at h
      subst h
      simp only [List.set_cons_zero, List.map_cons, List.sum_cons]
      ring
    | succ i =>
      simp only [List.get?_cons_succ] at h
      simp only [List.set_cons_succ, List.map_cons, List.sum_cons, ih i h]
      ring

theorem mem_set_cases {α : Type} (a : α) :
    ∀ (l : List α) (i : Nat) (x : α), x ∈ l.set i a → x = a ∨ x ∈ l := by
  intro l
  induction l with
  | nil => intro i x h; simp at h
  | cons b l ih =>
    intro i x h
    cases i with
    | zero =>
      simp only [List.set_cons_zero, List.mem_cons] at h
      rcases h with h | h
      · exact Or.inl h
      · exact Or.inr (List.mem_cons_of_mem _ h)
    | succ i =>
      simp only [List.set_cons_succ, List.mem_cons] at h
      rcases h with h | h
      · exact Or.inr (h ▸ List.mem_cons_self _ _)
      · exact (ih i x h).imp id (List.mem_cons_of_mem _)

theorem onWorker_totalScore (st : RunState) (i : Nat) (body : Worker × List ℚ → Worker × List ℚ)
    (w : Worker) (hw : st.workers.get? i = some w) (v : Nat) (d : ℚ)
    (hbody : (body (w, st.lengthScaled)).1.scorePerThread.getD v 0 =
      w.scorePerThread.getD v 0 + d) :
    totalScore (st.onWorker i body).workers v = totalScore st.workers v + d := by
  unfold RunState.onWorker totalScore
  rw [hw]
  simp only
  rw [sum_map_set _ _ w _ _ hw, hbody]
  ring

theorem onWorker_sized (z : Nat) (st : RunState) (i : Nat)
    (body : Worker × List ℚ → Worker × List ℚ)
    (hbody : ∀ w ls, (body (w, ls)).1.dependency.length = w.dependency.length ∧
      (body (w, ls)).1.scorePerThread.length = w.scorePerThread.length)
    (h : WorkersSized z st.workers) :
    WorkersSized z (st.onWorker i body).workers ∧
      (st.onWorker i body).workers.length = st.workers.length := by
  unfold RunState.onWorker
  cases hw : st.workers.get? i with
  | none => exact ⟨h, rfl⟩
  | some w =>
    simp only
    refine ⟨?_, by simp⟩
    intro x hx
    rcases mem_set_cases _ _ _ _ hx with h1 | h1
    · have hwm : w ∈ st.workers := List.get?_mem hw
      rw [h1, (hbody w st.lengthScaled).1, (hbody w st.lengthScaled).2]
      exact h w hwm
    · exact h x h1

theorem balancedParallelForNodes_sized (G : Graph) (e : Bool) (strategy : Nat → SSSP)
    (thread : Nat → Nat) (cancelAt : Option Nat) (z : Nat) :
    ∀ (sources : List Nat) (poll : Nat) (st : RunState), WorkersSized z st.workers →
      WorkersSized z
          (balancedParallelForNodes G e strategy thread cancelAt sources poll st).workers ∧
        (balancedParallelForNodes G e strategy thread cancelAt sources poll st).workers.length =
          st.workers.length := by
  intro sources
  induction sources with
  | nil => intro _ st h; exact ⟨h, rfl⟩
  | cons s sources ih =>
    intro poll st h
    have h1 := onWorker_sized z st (thread s)
      (computeDependencies G e (strategy s) (isRunning cancelAt poll)
        (isRunning cancelAt (poll + 1)) s)
      (fun w ls => computeDependencies_lengths G e (strategy s) _ _ s w ls) h
    have h2 := ih (poll + 2) _ h1.1
    exact ⟨h2.1, h2.2.trans h1.2⟩

theorem isRunning_none (poll : Nat) : isRunning none poll = true := rfl

/-- Without cancellation the thread-local scores of `v` grow by the dependency of every
processed source on `v`, whatever worker handles which source. -/
theorem balancedParallelForNodes_totalScore (G : Graph) (e : Bool) (strategy : Nat → SSSP)
    (thread : Nat → Nat) (v : Nat) :
    ∀ (sources : List Nat) (poll : Nat) (st : RunState),
      WorkersSized G.upperNodeIdBound st.workers →
      (∀ s ∈ sources, thread s < st.workers.length) →
      (∀ s ∈ sources, CorrectSSSP G (strategy s) s) →
      totalScore (balancedParallelForNodes G e strategy thread none sources poll st).workers v =
        totalScore st.workers v +
          (sources.map fun s => if v = s then 0 else sourceDependency (strategy s) s v).sum := by
  intro sources
  induction sources with
  | nil => intro _ st _ _ _; simp [balancedParallelForNodes]
  | cons s sources ih =>
    intro poll st hsz hthr hsssp
    have hlt : thread s < st.workers.length := hthr s (List.mem_cons_self _ _)
    obtain ⟨w, hw⟩ : ∃ w, st.workers.get? (thread s) = some w :=
      ⟨_, List.get?_eq_get hlt⟩
    have hwm : w ∈ st.workers := List.get?_mem hw
    have hsized := onWorker_sized G.upperNodeIdBound st (thread s)
      (computeDependencies G e (strategy s) true true s)
      (fun w ls => computeDependencies_lengths G e (strategy s) _ _ s w ls) hsz
    rw [balancedParallelForNodes, isRunning_none, isRunning_none, ih (poll + 2) _ hsized.1
      (fun s' hs' => by rw [hsized.2]; exact hthr s' (List.mem_cons_of_mem _ hs'))
      (fun s' hs' => hsssp s' (List.mem_cons_of_mem _ hs'))]
    rw [onWorker_totalScore st (thread s) _ w hw v
      (if v = s then 0 else sourceDependency (strategy s) s v)
      (computeDependencies_score G e (strategy s) s (hsssp s (List.mem_cons_self _ _)) w
        st.lengthScaled (hsz w hwm).1 (hsz w hwm).2 v)]
    simp only [List.map_cons, List.sum_cons]
    ring

/-! ### The reduction and the run -/

theorem addLocalScores_length (local_ : List ℚ) :
    ∀ (nodes : List Nat) (sd : List ℚ), (addLocalScores nodes local_ sd).length = sd.length := by
  intro nodes
  induction nodes with
  | nil => intro sd; rfl
  | cons a nodes ih =>
    intro sd
    unfold addLocalScores
    rw [List.foldl_cons]
    exact (ih _).trans (length_addAt _ _ _)

theorem addLocalScores_getD (local_ : List ℚ) (v : Nat) :
    ∀ (nodes : List Nat) (sd : List ℚ), nodes.Nodup → (∀ u ∈ nodes, u < sd.length) →
      (addLocalScores nodes local_ sd).getD v 0 =
        sd.getD v 0 + if v ∈ nodes then local_.getD v 0 else 0 := by
  intro nodes
  induction nodes with
  | nil => intro sd _ _; simp [addLocalScores]
  | cons a nodes ih =>
    intro sd hnd hlt
    obtain ⟨ha, hnd'⟩ := List.nodup_cons.mp hnd
    have hstep : addLocalScores (a :: nodes) local_ sd =
        addLocalScores nodes local_ (addAt sd a (local_.getD a 0)) := rfl
    rw [hstep, ih _ hnd' (fun u hu => by
      rw [length_addAt]; exact hlt u (List.mem_cons_of_mem _ hu)),
      getD_addAt_of_lt _ _ _ _ (hlt a (List.mem_cons_self _ _))]
    by_cases hva : v = a
    · subst hva
      simp [ha]
    · have : v ∈ a :: nodes ↔ v ∈ nodes := by simp [hva]
      simp only [this, if_neg hva, add_zero]

theorem reduceScores_getD (nodes : List Nat) (hnd : nodes.Nodup) (v : Nat) :
    ∀ (ws : List Worker) (sd : List ℚ), (∀ u ∈ nodes, u < sd.length) →
      (reduceScores nodes ws sd).getD v 0 =
        sd.getD v 0 + if v ∈ nodes then totalScore ws v else 0 := by
  intro ws
  induction ws with
  | nil => intro sd _; simp [totalScore, reduceScores]
  | cons w ws ih =>
    intro sd hlt
    unfold reduceScores at ih ⊢
    rw [List.foldl_cons, ih _ (fun u hu => by rw [addLocalScores_length]; exact hlt u hu),
      addLocalScores_getD _ v nodes sd hnd hlt]
    by_cases hv : v ∈ nodes
    · simp only [if_pos hv, totalScore, List.map_cons, List.sum_cons]
      ring
    · simp [hv]

theorem divAt_length (xs : List ℚ) (i : Nat) (d : ℚ) : (divAt xs i d).length = xs.length := by
  simp [divAt]

theorem foldl_length_of_step {α : Type} (f : List ℚ → α → List ℚ)
    (hf : ∀ acc a, (f acc a).length = acc.length) :
    ∀ (l : List α) (init : List ℚ), (l.foldl f init).length = init.length := by
  intro l
  induction l with
  | nil => intro init; rfl
  | cons a l ih => intro init; rw [List.foldl_cons, ih, hf]

theorem reduceScores_length (nodes : List Nat) (ws : List Worker) (sd : List ℚ) :
    (reduceScores nodes ws sd).length = sd.length :=
  foldl_length_of_step _ (fun _ _ => addLocalScores_length _ _ _) ws sd

theorem normalizeScores_length (G : Graph) (sd : List ℚ) :
    (normalizeScores G sd).length = sd.length :=
  foldl_length_of_step _ (fun _ _ => divAt_length _ _ _) G.nodes sd

theorem finishRun_scoreData_length (C : Centrality) (st : RunState) :
    (finishRun C st).scoreData.length = C.scoreData.length := by
  unfold finishRun
  simp only
  split
  · rw [normalizeScores_length, reduceScores_length]
  · rw [reduceScores_length]

/-- A run that is not cancelled passes both `assureRunning` calls and ends with the
reduction. -/
theorem run_not_cancelled (C : Centrality) (bfs dijkstra : Nat → SSSP) (maxThreads : Nat)
    (thread : Nat → Nat) :
    Betweenness.run C bfs dijkstra maxThreads thread none =
      (finishRun
        { Betweenness.allocate C with
          lengthScaled :=
            (Betweenness.parallelPhase C bfs dijkstra maxThreads thread none).lengthScaled }
        (Betweenness.parallelPhase C bfs dijkstra maxThreads thread none), .ok ()) := rfl

/-- A run that is not cancelled completes and sets `hasRun`. -/
theorem run_completes (C : Centrality) (bfs dijkstra : Nat → SSSP) (maxThreads : Nat)
    (thread : Nat → Nat) :
    (Betweenness.run C bfs dijkstra maxThreads thread none).2 = .ok () ∧
      (Betweenness.run C bfs dijkstra maxThreads thread none).1.hasRun = true :=
  ⟨rfl, rfl⟩

/-- After a run that is not cancelled the score vector has `upperNodeIdBound` entries. -/
theorem run_scoreData_length (C : Centrality) (bfs dijkstra : Nat → SSSP) (maxThreads : Nat)
    (thread : Nat → Nat) :
    (Betweenness.run C bfs dijkstra maxThreads thread none).1.scoreData.length =
      C.G.upperNodeIdBound := by
  rw [run_not_cancelled, finishRun_scoreData_length]
  exact List.length_replicate _ _

theorem initialWorkers_sized (C : Centrality) (maxThreads : Nat) :
    WorkersSized C.G.upperNodeIdBound
      (List.replicate maxThreads (Betweenness.initialWorker C)) := by
  intro w hw
  rw [List.eq_of_mem_replicate hw]
  exact ⟨List.length_replicate _ _, List.length_replicate _ _⟩

theorem totalScore_initialWorkers (C : Centrality) (maxThreads v : Nat) :
    totalScore (List.replicate maxThreads (Betweenness.initialWorker C)) v = 0 := by
  unfold totalScore
  apply List.sum_eq_zero
  intro x hx
  obtain ⟨w, hw, rfl⟩ := List.mem_map.mp hx
  rw [List.eq_of_mem_replicate hw]
  exact getD_replicate_zero _ _

/-- The thread-local scores after the parallel phase of a run that is not cancelled. -/
theorem parallelPhase_totalScore (C : Centrality) (bfs dijkstra : Nat → SSSP)
    (maxThreads : Nat) (thread : Nat → Nat)
    (hthr : ∀ s ∈ C.G.nodes, thread s < maxThreads)
    (hsssp : ∀ s ∈ C.G.nodes, CorrectSSSP C.G (Betweenness.strategy C.G bfs dijkstra s) s)
    (v : Nat) :
    totalScore (Betweenness.parallelPhase C bfs dijkstra maxThreads thread none).workers v =
      (C.G.nodes.map fun s =>
        if v = s then 0 else sourceDependency (Betweenness.strategy C.G bfs dijkstra s) s v).sum := by
  unfold Betweenness.parallelPhase
  rw [balancedParallelForNodes_totalScore C.G _ _ thread v C.G.nodes 1 _
    (initialWorkers_sized C maxThreads)
    (fun s hs => by
      show thread s < (List.replicate maxThreads (Betweenness.initialWorker C)).length
      rw [List.length_replicate]; exact hthr s hs) hsssp]
  show totalScore (List.replicate maxThreads (Betweenness.initialWorker C)) v + _ = _
  rw [totalScore_initialWorkers, zero_add]

/-- The reduced, unnormalized score of `v` after a run that is not cancelled. -/
theorem reduced_score (C : Centrality) (bfs dijkstra : Nat → SSSP) (maxThreads : Nat)
    (thread : Nat → Nat)
    (hthr : ∀ s ∈ C.G.nodes, thread s < maxThreads)
    (hsssp : ∀ s ∈ C.G.nodes, CorrectSSSP C.G (Betweenness.strategy C.G bfs dijkstra s) s)
    (v : Nat) :
    (reduceScores C.G.nodes
        (Betweenness.parallelPhase C bfs dijkstra maxThreads thread none).workers
        (List.replicate C.G.upperNodeIdBound 0)).getD v 0 =
      betweenness C.G (Betweenness.strategy C.G bfs dijkstra) v := by
  rw [reduceScores_getD C.G.nodes (nodes_nodup C.G) v _ _ (fun u hu => by
    rw [List.length_replicate]; exact mem_nodes_lt C.G u hu)]
  rw [getD_replicate_zero, zero_add]
  unfold betweenness
  by_cases hv : v ∈ C.G.nodes
  · rw [if_pos hv, parallelPhase_totalScore C bfs dijkstra maxThreads thread hthr hsssp,
      sum_map_filter_rat]
    congr 1
    apply List.map_congr_left
    intro s _
    by_cases hsv : s = v
    · simp [hsv]
    · have : ¬ v = s := fun h => hsv h.symm
      simp [hsv, this]
  · rw [if_neg hv]
    symm
    apply List.sum_eq_zero
    intro x hx
    obtain ⟨s, hs, rfl⟩ := List.mem_map.mp hx
    have hsm : s ∈ C.G.nodes := (List.mem_filter.mp hs).1
    exact (hsssp s hsm).sourceDependency_of_not_mem v (fun hm => hv ((hsssp s hsm).2.1 v hm))

/-- The unnormalized score vector after a run that is not cancelled. -/
theorem run_scoreData (C : Centrality) (bfs dijkstra : Nat → SSSP) (maxThreads : Nat)
    (thread : Nat → Nat) (hnorm : C.normalized = false)
    (hthr : ∀ s ∈ C.G.nodes, thread s < maxThreads)
    (hsssp : ∀ s ∈ C.G.nodes, CorrectSSSP C.G (Betweenness.strategy C.G bfs dijkstra s) s)
    (v : Nat) :
    (Betweenness.run C bfs dijkstra maxThreads thread none).1.scoreData.getD v 0 =
      betweenness C.G (Betweenness.strategy C.G bfs dijkstra) v := by
  rw [run_not_cancelled]
  have h : (finishRun
        { Betweenness.allocate C with
          lengthScaled :=
            (Betweenness.parallelPhase C bfs dijkstra maxThreads thread none).lengthScaled }
        (Betweenness.parallelPhase C bfs dijkstra maxThreads thread none)).scoreData =
      reduceScores C.G.nodes
        (Betweenness.parallelPhase C bfs dijkstra maxThreads thread none).workers
        (List.replicate C.G.upperNodeIdBound 0) := by
    simp [finishRun, Betweenness.allocate, hnorm]
  rw [h]
  exact reduced_score C bfs dijkstra maxThreads thread hthr hsssp v

/-! ### The path graph -/

/-- Popping a list sorted by a rank from the back pops every node before its predecessors
when predecessors are visited nodes of smaller rank. -/
theorem processedBeforePredecessors_of_sorted (sssp : SSSP) (d : Nat → Nat) :
    ∀ (L : List Nat), L.Pairwise (fun a b => d a ≤ d b) →
      (∀ t ∈ L, ∀ p ∈ sssp.getPredecessors t, p ∈ L ∧ d p < d t) →
      processedBeforePredecessors sssp L.reverse := by
  intro L
  induction L using List.reverseRecOn with
  | nil => intro _ _; exact trivial
  | append_singleton L t ih =>
    intro hs hp
    rw [List.reverse_append, List.reverse_singleton, List.singleton_append]
    have hs' := List.pairwise_append.mp hs
    refine ⟨?_, ih hs'.1 ?_⟩
    · intro p hpm
      obtain ⟨hpL, hlt⟩ := hp t (by simp) p hpm
      rcases List.mem_append.mp hpL with h | h
      · exact List.mem_reverse.mpr h
      · have : p = t := by simpa using h
        subst this
        exact absurd hlt (Nat.lt_irrefl _)
    · intro u hu p hpm
      obtain ⟨hpL, hlt⟩ := hp u (List.mem_append_left _ hu) p hpm
      refine ⟨?_, hlt⟩
      rcases List.mem_append.mp hpL with h | h
      · exact h
      · have hpt : p = t := by simpa using h
        have := hs'.2.2 u hu t (by simp)
        rw [hpt] at hlt
        omega

theorem mem_segment (s t v : Nat) :
    v ∈ segment s t ↔ (s ≤ v ∧ v ≤ t) ∨ (t ≤ v ∧ v ≤ s) := by
  unfold segment
  split
  · rw [List.mem_range'_1]; omega
  · rw [List.mem_reverse, List.mem_range'_1]; omega

theorem segment_self (s : Nat) : segment s s = [s] := by
  simp [segment]

theorem segment_succ (s t : Nat) (h : s ≤ t) : segment s (t + 1) = segment s t ++ [t + 1] := by
  unfold segment
  rw [if_pos h, if_pos (Nat.le_succ_of_le h)]
  have : t + 1 - s + 1 = (t - s + 1) + 1 := by omega
  rw [this, List.range'_concat]
  congr 2
  omega

theorem segment_pred (s t : Nat) (h : t < s) : segment s t = segment s (t + 1) ++ [t] := by
  unfold segment
  rw [if_neg (by omega)]
  have h1 : s - t + 1 = (s - (t + 1) + 1) + 1 := by omega
  rw [h1, List.range'_succ, List.reverse_cons]
  by_cases h2 : s ≤ t + 1
  · have : s = t + 1 := by omega
    subst this
    simp
  · rw [if_neg h2]

theorem pathsWithin_path (sssp : SSSP) (n s : Nat) (hs : s < n)
    (hpred : ∀ t < n, sssp.getPredecessors t =
      if t < s then [t + 1] else if s < t then [t - 1] else []) :
    ∀ (k t : Nat), t < n → pathDistance s t ≤ k → pathsWithin sssp s k t = [segment s t] := by
  intro k
  induction k with
  | zero =>
    intro t _ hd
    have : t = s := by unfold pathDistance at hd; split at hd <;> omega
    subst this
    simp [pathsWithin, segment_self]
  | succ k ih =>
    intro t ht hd
    by_cases hts : t = s
    · subst hts
      simp [pathsWithin, segment_self]
    · rw [pathsWithin, if_neg hts, hpred t ht]
      unfold pathDistance at hd
      by_cases hlt : t < s
      · rw [if_pos hlt]
        have hd' : pathDistance s (t + 1) ≤ k := by
          unfold pathDistance
          split at hd <;> split <;> omega
        simp [ih (t + 1) (by omega) hd', segment_pred s t hlt]
      · have hgt : s < t := by omega
        rw [if_neg hlt, if_pos hgt]
        have hd' : pathDistance s (t - 1) ≤ k := by
          unfold pathDistance
          split at hd <;> split <;> omega
        have hseg : segment s t = segment s (t - 1) ++ [t] := by
          have := segment_succ s (t - 1) (by omega)
          rwa [show t - 1 + 1 = t by omega] at this
        simp [ih (t - 1) (by omega) hd', hseg]

theorem pathDistance_le (n s t : Nat) (hs : s < n) (ht : t < n) : pathDistance s t ≤ n := by
  unfold pathDistance; split <;> omega

theorem IsPathBFS.shortestPaths_eq {n s : Nat} {sssp : SSSP} (h : IsPathBFS n s sssp) (hs : s < n)
    (t : Nat) (ht : t < n) : shortestPaths sssp s t = [segment s t] := by
  unfold NetworKit.shortestPaths
  rw [h.1.length_eq, List.length_range]
  exact pathsWithin_path sssp n s hs h.2.2.1 n t ht (pathDistance_le n s t hs ht)

theorem pathGraph_nodes (n : Nat) : (pathGraph n).nodes = List.range n := by
  simp [Graph.nodes, pathGraph]

theorem IsPathBFS.correct {n s : Nat} {sssp : SSSP} (h : IsPathBFS n s sssp) (hs : s < n) :
    CorrectSSSP (pathGraph n) sssp s := by
  have hmem : ∀ t, t ∈ sssp.getNodesSortedByDistance ↔ t < n := by
    intro t; rw [h.1.mem_iff, List.mem_range]
  refine ⟨h.1.nodup_iff.mpr (List.nodup_range n), ?_, ?_, ?_, ?_⟩
  · intro t ht
    rw [pathGraph_nodes, List.mem_range]
    exact (hmem t).mp ht
  · apply processedBeforePredecessors_of_sorted sssp (pathDistance s) _ h.2.1
    intro t ht p hp
    have htn := (hmem t).mp ht
    rw [h.2.2.1 t htn] at hp
    rw [hmem]
    unfold pathDistance
    by_cases hlt : t < s
    · rw [if_pos hlt] at hp
      have : p = t + 1 := by simpa using hp
      subst this
      refine ⟨by omega, ?_⟩
      split <;> split <;> omega
    · rw [if_neg hlt] at hp
      by_cases hgt : s < t
      · rw [if_pos hgt] at hp
        have : p = t - 1 := by simpa using hp
        subst this
        refine ⟨by omega, ?_⟩
        split <;> split <;> omega
      · rw [if_neg hgt] at hp
        simp at hp
  · rw [h.2.2.1 s hs]; simp
  · intro t ht
    have htn := (hmem t).mp ht
    rw [h.shortestPaths_eq hs t htn, h.2.2.2 t htn]
    simp

theorem score_eq_of_getD (C : Centrality) (v : Nat) (h : C.hasRun = true)
    (hv : v < C.scoreData.length) : C.score v = .ok (C.scoreData.getD v 0) := by
  unfold Centrality.score Centrality.assureFinished
  rw [if_pos h]
  simp only
  rw [List.get?_eq_get hv, List.getD_eq_getElem _ _ hv]
  rfl

/-- The score read back after an unnormalized run that is not cancelled. -/
theorem run_score_eq (C : Centrality) (bfs dijkstra : Nat → SSSP) (maxThreads : Nat)
    (thread : Nat → Nat) (hnorm : C.normalized = false)
    (hthr : ∀ s ∈ C.G.nodes, thread s < maxThreads)
    (hsssp : ∀ s ∈ C.G.nodes, CorrectSSSP C.G (Betweenness.strategy C.G bfs dijkstra s) s)
    (v : Nat) (hv : v < C.G.upperNodeIdBound) :
    (Betweenness.run C bfs dijkstra maxThreads thread none).1.score v =
      .ok (betweenness C.G (Betweenness.strategy C.G bfs dijkstra) v) := by
  rw [score_eq_of_getD _ v (run_completes C bfs dijkstra maxThreads thread).2
    (by rw [run_scoreData_length]; exact hv),
    run_scoreData C bfs dijkstra maxThreads thread hnorm hthr hsssp v]

theorem sum_range_lt (c : ℚ) (k : Nat) :
    ∀ n : Nat, ((List.range n).map fun t => if t < k then c else 0).sum = c * (min n k : Nat) := by
  intro n
  induction n with
  | zero => simp
  | succ n ih =>
    rw [List.range_succ, List.map_append, List.sum_append, ih]
    by_cases h : n < k
    · have h1 : min (n + 1) k = min n k + 1 := by omega
      simp [h, h1]; ring
    · have h1 : min (n + 1) k = min n k := by omega
      simp [h, h1]

theorem sum_range_gt (c : ℚ) (k : Nat) :
    ∀ n : Nat, ((List.range n).map fun t => if k < t then c else 0).sum =
      c * ((n - (k + 1) : Nat) : ℚ) := by
  intro n
  induction n with
  | zero => simp
  | succ n ih =>
    rw [List.range_succ, List.map_append, List.sum_append, ih]
    by_cases h : k < n
    · have h1 : n + 1 - (k + 1) = (n - (k + 1)) + 1 := by omega
      simp [h, h1]; ring
    · have h1 : n + 1 - (k + 1) = 0 := by omega
      have h2 : n - (k + 1) = 0 := by omega
      simp [h, h1, h2]

theorem IsPathBFS.pairDependency_eq {n s : Nat} {sssp : SSSP} (h : IsPathBFS n s sssp) (hs : s < n)
    (t : Nat) (ht : t < n) (k : Nat) :
    pairDependency sssp s t k = if k ∈ segment s t then 1 else 0 := by
  unfold NetworKit.pairDependency pathsThrough
  rw [h.shortestPaths_eq hs t ht]
  by_cases hk : k ∈ segment s t <;> simp [hk]

/-- The dependency of a source of the path graph on a node `k`: the number of nodes beyond
`k` as seen from the source. -/
theorem IsPathBFS.sourceDependency_eq {n s : Nat} {sssp : SSSP} (h : IsPathBFS n s sssp)
    (hs : s < n) (k : Nat) (hk : k < n) (hsk : s ≠ k) :
    sourceDependency sssp s k = if s < k then ((n - (k + 1) : Nat) : ℚ) else (k : ℚ) := by
  unfold NetworKit.sourceDependency
  rw [((h.1.filter _).map _).sum_eq, sum_map_filter_rat]
  have hterm : ((List.range n).map fun t =>
        if decide (t ≠ k ∧ t ≠ s) = true then NetworKit.pairDependency sssp s t k else 0) =
      (List.range n).map fun t =>
        (if s < k then (if k < t then (1 : ℚ) else 0) else (if t < k then 1 else 0)) := by
    apply List.map_congr_left
    intro t ht
    rw [h.pairDependency_eq hs t (List.mem_range.mp ht) k]
    have hm := mem_segment s t k
    by_cases h1 : s < k
    · rw [if_pos h1]
      by_cases h2 : k < t
      · have : k ∈ segment s t := hm.mpr (by omega)
        have h3 : t ≠ k ∧ t ≠ s := by omega
        simp [h2, this, h3]
      · rw [if_neg h2]
        by_cases h3 : t = k
        · simp [h3]
        · have : k ∉ segment s t := fun hh => by have := hm.mp hh; omega
          simp [this]
    · rw [if_neg h1]
      by_cases h2 : t < k
      · have : k ∈ segment s t := hm.mpr (by omega)
        have h3 : t ≠ k ∧ t ≠ s := by omega
        simp [h2, this, h3]
      · rw [if_neg h2]
        by_cases h3 : t = k
        · simp [h3]
        · have : k ∉ segment s t := fun hh => by have := hm.mp hh; omega
          simp [this]
  rw [hterm]
  by_cases h1 : s < k
  · simp only [if_pos h1]
    rw [sum_range_gt 1 k n, one_mul]
  · simp only [if_neg h1]
    rw [sum_range_lt 1 k n, one_mul, Nat.min_eq_right (Nat.le_of_lt hk)]

/-- The betweenness of node `k` of the path graph on `n` nodes, every pair of other nodes
counted in both directions. -/
theorem betweenness_pathGraph (n k : Nat) (hk : k < n) (strategy : Nat → SSSP)
    (h : ∀ s < n, IsPathBFS n s (strategy s)) :
    betweenness (pathGraph n) strategy k = ((2 * k * (n - 1 - k) : Nat) : ℚ) := by
  unfold betweenness
  rw [pathGraph_nodes, sum_map_filter_rat]
  have hterm : ((List.range n).map fun s =>
        if decide (s ≠ k) = true then sourceDependency (strategy s) s k else 0) =
      (List.range n).map fun s =>
        (if s < k then ((n - (k + 1) : Nat) : ℚ) else 0) + (if k < s then (k : ℚ) else 0) := by
    apply List.map_congr_left
    intro s hs
    by_cases hsk : s = k
    · simp [hsk]
    · rw [if_pos (by simpa using hsk),
        (h s (List.mem_range.mp hs)).sourceDependency_eq (List.mem_range.mp hs) k hk hsk]
      by_cases h1 : s < k
      · have h2 : ¬ k < s := by omega
        simp [h1, h2]
      · have h2 : k < s := by omega
        simp [h1, h2]
  rw [hterm, List.sum_map_add, sum_range_lt, sum_range_gt, Nat.min_eq_right (Nat.le_of_lt hk)]
  have : n - 1 - k = n - (k + 1) := by omega
  rw [this]
  push_cast
  ring

/-! ### The enumerated paths are the paths along the predecessor lists -/

theorem predecessorPath_of_mem_pathsWithin (sssp : SSSP) (s : Nat) :
    ∀ (k t : Nat) (path : List Nat), path ∈ pathsWithin sssp s k t →
      PredecessorPath sssp s t path := by
  intro k
  induction k with
  | zero =>
    intro t path h
    by_cases hts : t = s
    · simp [pathsWithin, hts] at h
      subst hts; subst h
      exact PredecessorPath.source
    · simp [pathsWithin, hts] at h
  | succ k ih =>
    intro t path h
    by_cases hts : t = s
    · simp [pathsWithin, hts] at h
      subst hts; subst h
      exact PredecessorPath.source
    · rw [pathsWithin, if_neg hts] at h
      obtain ⟨p, hp, hmap⟩ := List.mem_flatMap.mp h
      obtain ⟨q, hq, rfl⟩ := List.mem_map.mp hmap
      exact PredecessorPath.step (ih p q hq) hp

/-- The enumerated shortest paths to a visited node are exactly the paths along the
predecessor lists. -/
theorem CorrectSSSP.mem_shortestPaths_iff {G : Graph} {sssp : SSSP} {s : Nat}
    (h : CorrectSSSP G sssp s) (t : Nat) (ht : t ∈ sssp.getNodesSortedByDistance)
    (path : List Nat) :
    path ∈ shortestPaths sssp s t ↔ PredecessorPath sssp s t path := by
  constructor
  · exact predecessorPath_of_mem_pathsWithin sssp s _ t path
  · intro hp
    have htR : t ∈ sssp.getNodesSortedByDistance.reverse := List.mem_reverse.mpr ht
    clear ht
    induction hp with
    | source => unfold shortestPaths; cases sssp.getNodesSortedByDistance.length <;> simp [pathsWithin]
    | @step p t q _ hpt ih =>
      have hts : t ≠ s := by
        intro hts
        rw [hts, h.2.2.2.1] at hpt
        simp at hpt
      have hpR := processedBeforePredecessors_mem sssp _ h.2.2.1 t htR p hpt
      unfold shortestPaths
      rw [pathsWithin_unfold sssp s _ h.2.2.1 _ (by simp) t htR hts]
      exact List.mem_flatMap.mpr ⟨p, hpt, List.mem_map.mpr ⟨q, ih hpR, rfl⟩⟩

theorem getLast?_of_mem_pathsWithin (sssp : SSSP) (s : Nat) :
    ∀ (k t : Nat) (path : List Nat), path ∈ pathsWithin sssp s k t →
      path.getLast? = some t := by
  intro k t path h
  cases k with
  | zero =>
    by_cases hts : t = s
    · simp [pathsWithin, hts] at h; simp [h, hts]
    · simp [pathsWithin, hts] at h
  | succ k =>
    by_cases hts : t = s
    · simp [pathsWithin, hts] at h; simp [h, hts]
    · rw [pathsWithin, if_neg hts] at h
      obtain ⟨p, _, hp⟩ := List.mem_flatMap.mp h
      obtain ⟨q, _, rfl⟩ := List.mem_map.mp hp
      simp

/-- With duplicate-free predecessor lists no path is enumerated twice. -/
theorem pathsWithin_nodup (sssp : SSSP) (s : Nat)
    (hpred : ∀ t, (sssp.getPredecessors t).Nodup) :
    ∀ (k t : Nat), (pathsWithin sssp s k t).Nodup := by
  intro k
  induction k with
  | zero =>
    intro t
    by_cases hts : t = s <;> simp [pathsWithin, hts]
  | succ k ih =>
    intro t
    by_cases hts : t = s
    · simp [pathsWithin, hts]
    · rw [pathsWithin, if_neg hts]
      rw [List.nodup_flatMap]
      refine ⟨?_, ?_⟩
      · intro p _
        exact (ih p).map (fun a b hab => List.append_cancel_right hab)
      · refine (hpred t).imp ?_
        intro p q hpq
        intro path hp hq
        obtain ⟨a, ha, rfl⟩ := List.mem_map.mp hp
        obtain ⟨b, hb, hab⟩ := List.mem_map.mp hq
        have hba : b = a := List.append_cancel_right hab
        subst hba
        have h1 := getLast?_of_mem_pathsWithin sssp s k p b ha
        have h2 := getLast?_of_mem_pathsWithin sssp s k q b hb
        rw [h1] at h2
        exact hpq (Option.some.inj h2)

/-! ### Machine arithmetic -/

theorem countSub_cast (a b : Nat) :
    ((countSub a b : Nat) : ℤ) % (2 ^ 64 : ℤ) = ((a : ℤ) - (b : ℤ)) % (2 ^ 64 : ℤ) := by
  unfold countSub countMod
  omega

theorem countMul_cast (a b : Nat) :
    ((countMul a b : Nat) : ℤ) = ((a : ℤ) * (b : ℤ)) % (2 ^ 64 : ℤ) := by
  unfold countMul countMod
  push_cast
  rfl

/-- The product computed by `maximum` is the number of ordered pairs reduced modulo `2 ^ 64`. -/
theorem countMul_countSub_pairs (n : Nat) :
    ((countMul (countSub n 1) (countSub n 2) : Nat) : ℤ) = pairCount n % (2 ^ 64 : ℤ) := by
  rw [countMul_cast, Int.mul_emod, countSub_cast, countSub_cast, ← Int.mul_emod]
  rfl

theorem pairCount_nonneg (n : Nat) : 0 ≤ pairCount n := by
  unfold pairCount
  rcases Nat.lt_or_ge n 2 with h | h
  · have h1 : (n : ℤ) - 1 ≤ 0 := by omega
    have h2 : (n : ℤ) - 2 ≤ 0 := by omega
    exact mul_nonneg_of_nonpos_of_nonpos h1 h2
  · have h1 : 0 ≤ (n : ℤ) - 1 := by omega
    have h2 : 0 ≤ (n : ℤ) - 2 := by omega
    exact mul_nonneg h1 h2

theorem pairCount_even (n : Nat) : (2 : ℤ) ∣ pairCount n := by
  unfold pairCount
  have h := Int.even_mul_succ_self ((n : ℤ) - 2)
  have h2 : ((n : ℤ) - 2) * ((n : ℤ) - 2 + 1) = ((n : ℤ) - 1) * ((n : ℤ) - 2) := by ring
  rw [h2] at h
  exact even_iff_two_dvd.mp h

theorem countMul_countSub_of_fit (n : Nat) (h : pairCount n < 2 ^ 64) :
    ((countMul (countSub n 1) (countSub n 2) : Nat) : ℤ) = pairCount n := by
  rw [countMul_countSub_pairs, Int.emod_eq_of_lt (pairCount_nonneg n) h]

theorem countSub_of_le (n b : Nat) (hb : b ≤ n) (hn : n < 2 ^ 64) : countSub n b = n - b := by
  unfold countSub countMod
  omega

theorem lt_of_mul_pred_lt (n : Nat) (hn : 2 < n) (hfit : n * (n - 1) < 2 ^ 64) : n < 2 ^ 64 :=
  lt_of_le_of_lt (Nat.le_mul_of_pos_right n (by omega)) hfit

theorem normalizationPairs_eq (G : Graph) (hn : 2 < G.numberOfNodes)
    (hfit : G.numberOfNodes * (G.numberOfNodes - 1) < 2 ^ 64) :
    normalizationPairs G =
      if G.isDirected then (G.numberOfNodes - 1) * (G.numberOfNodes - 2)
      else (G.numberOfNodes - 1) * (G.numberOfNodes - 2) / 2 := by
  have hlt := lt_of_mul_pred_lt _ hn hfit
  have hle : (G.numberOfNodes - 2) * (G.numberOfNodes - 1) ≤
      G.numberOfNodes * (G.numberOfNodes - 1) :=
    Nat.mul_le_mul_right _ (Nat.sub_le _ _)
  unfold normalizationPairs
  simp only
  rw [countSub_of_le _ 2 (by omega) hlt, countSub_of_le _ 1 (by omega) hlt]
  unfold countMul countMod
  rw [Nat.mod_eq_of_lt (lt_of_le_of_lt hle hfit), Nat.mul_comm]
  cases G.isDirected <;> simp

theorem getD_divAt (xs : List ℚ) (i j : Nat) (d : ℚ) :
    (divAt xs i d).getD j 0 = if j = i then xs.getD j 0 / d else xs.getD j 0 := by
  unfold divAt
  by_cases h : j = i
  · subst h
    by_cases hl : j < xs.length
    · simp [List.getD_eq_getElem?_getD, List.getElem?_set, hl]
    · have : xs.length ≤ j := Nat.le_of_not_lt hl
      simp [List.getD_eq_getElem?_getD, List.getElem?_set, hl, List.getElem?_eq_none this]
  · have h' : ¬ i = j := fun e => h e.symm
    simp [List.getD_eq_getElem?_getD, List.getElem?_set, h, h']

theorem foldl_divAt_getD (d : ℚ) (v : Nat) :
    ∀ (l : List Nat) (xs : List ℚ), l.Nodup →
      (l.foldl (fun acc u => divAt acc u d) xs).getD v 0 =
        if v ∈ l then xs.getD v 0 / d else xs.getD v 0 := by
  intro l
  induction l with
  | nil => intro xs _; simp
  | cons a l ih =>
    intro xs hnd
    obtain ⟨ha, hnd'⟩ := List.nodup_cons.mp hnd
    rw [List.foldl_cons, ih _ hnd', getD_divAt]
    by_cases hva : v = a
    · subst hva
      simp [ha]
    · have : v ∈ a :: l ↔ v ∈ l := by simp [hva]
      simp only [this, if_neg hva]

theorem normalizeScores_getD (G : Graph) (sd : List ℚ) (v : Nat) :
    (normalizeScores G sd).getD v 0 =
      if v ∈ G.nodes then sd.getD v 0 / (normalizationPairs G : ℚ) else sd.getD v 0 :=
  foldl_divAt_getD _ v G.nodes sd (nodes_nodup G)

/-- The reduced score of an id that is not a node of the graph is zero. -/
theorem reduceScores_of_not_mem (G : Graph) (ws : List Worker) (v : Nat) (hv : v ∉ G.nodes) :
    (reduceScores G.nodes ws (List.replicate G.upperNodeIdBound 0)).getD v 0 = 0 := by
  rw [reduceScores_getD G.nodes (nodes_nodup G) v ws _ (fun u hu => by
    rw [List.length_replicate]; exact mem_nodes_lt G u hu), if_neg hv, getD_replicate_zero,
    add_zero]

/-- The normalized run divides every entry of the unnormalized result by `pairs`. -/
theorem run_normalized_scoreData (C : Centrality) (bfs dijkstra : Nat → SSSP)
    (maxThreads : Nat) (thread : Nat → Nat) (v : Nat) :
    (Betweenness.run { C with normalized := true } bfs dijkstra maxThreads thread
        none).1.scoreData.getD v 0 =
      (Betweenness.run { C with normalized := false } bfs dijkstra maxThreads thread
        none).1.scoreData.getD v 0 / (normalizationPairs C.G : ℚ) := by
  have h1 : (Betweenness.run { C with normalized := true } bfs dijkstra maxThreads thread
        none).1.scoreData =
      normalizeScores C.G (reduceScores C.G.nodes
        (Betweenness.parallelPhase C bfs dijkstra maxThreads thread none).workers
        (List.replicate C.G.upperNodeIdBound 0)) := rfl
  have h2 : (Betweenness.run { C with normalized := false } bfs dijkstra maxThreads thread
        none).1.scoreData =
      reduceScores C.G.nodes
        (Betweenness.parallelPhase C bfs dijkstra maxThreads thread none).workers
        (List.replicate C.G.upperNodeIdBound 0) := rfl
  rw [h1, h2, normalizeScores_getD]
  by_cases hv : v ∈ C.G.nodes
  · rw [if_pos hv]
  · rw [if_neg hv, reduceScores_of_not_mem C.G _ v hv, zero_div]

/-- The edge score vector after a run with edge centrality that is not cancelled. -/
theorem run_edgeScoreData (C : Centrality) (bfs dijkstra : Nat → SSSP) (maxThreads : Nat)
    (thread : Nat → Nat) (hedge : C.computeEdgeCentrality = true) :
    (Betweenness.run C bfs dijkstra maxThreads thread none).1.edgeScoreData =
      if C.normalized then
        normalizeEdgeScores C.G (reduceEdgeScores
          (Betweenness.parallelPhase C bfs dijkstra maxThreads thread none).workers
          (List.replicate C.G.upperEdgeIdBound 0))
      else
        reduceEdgeScores
          (Betweenness.parallelPhase C bfs dijkstra maxThreads thread none).workers
          (List.replicate C.G.upperEdgeIdBound 0) := by
  rw [run_not_cancelled]
  simp [finishRun, Betweenness.allocate, hedge]

theorem pathBFS_isPathBFS (n s : Nat) : IsPathBFS n s (pathBFS n s) := by
  haveI : IsTotal ℕ (fun a b => pathDistance s a ≤ pathDistance s b) :=
    ⟨fun a b => Nat.le_total _ _⟩
  haveI : IsTrans ℕ (fun a b => pathDistance s a ≤ pathDistance s b) :=
    ⟨fun a b c h1 h2 => Nat.le_trans h1 h2⟩
  exact ⟨List.perm_insertionSort _ _, List.sorted_insertionSort _ _, fun _ _ => rfl,
    fun _ _ => rfl⟩

theorem eq_of_length_four (l : List ℚ) (h : l.length = 4) :
    l = [l.getD 0 0, l.getD 1 0, l.getD 2 0, l.getD 3 0] := by
  match l, h with
  | [a, b, c, d], _ => rfl

/-! ## The claims -/

/-- Claim C1.  For every graph, directed or undirected, and every node id `v` below the node
id bound: if the strategy returns, for every source, an outcome with correct path counts and
predecessor lists in which every node is popped before each of its predecessors, then an
unnormalized run that is not cancelled completes, and the stored score of `v` is the sum over
all ordered pairs `(s, t)` with `s ≠ v`, `t ≠ v`, `s ≠ t` and `t` visited from `s` of the
number of shortest `s`-`t` paths through `v` divided by the number of shortest `s`-`t` paths,
whatever worker handles which source.  The shortest paths counted here are exactly the paths
from `s` to `t` along the predecessor lists. -/
theorem run_score_eq_sum_of_pair_dependencies (C : Centrality) (bfs dijkstra : Nat → SSSP)
    (maxThreads : Nat) (thread : Nat → Nat) (hnorm : C.normalized = false)
    (hthr : ∀ s ∈ C.G.nodes, thread s < maxThreads)
    (hsssp : ∀ s ∈ C.G.nodes, CorrectSSSP C.G (Betweenness.strategy C.G bfs dijkstra s) s)
    (v : Nat) (hv : v < C.G.upperNodeIdBound) :
    (Betweenness.run C bfs dijkstra maxThreads thread none).2 = .ok () ∧
    (Betweenness.run C bfs dijkstra maxThreads thread none).1.score v =
      .ok ((C.G.nodes.filter fun s => decide (s ≠ v)).map fun s =>
        (((Betweenness.strategy C.G bfs dijkstra s).getNodesSortedByDistance.filter
            fun t => decide (t ≠ v ∧ t ≠ s)).map
          fun t =>
            (((shortestPaths (Betweenness.strategy C.G bfs dijkstra s) s t).filter
                fun path => decide (v ∈ path)).length : ℚ) /
              ((shortestPaths (Betweenness.strategy C.G bfs dijkstra s) s t).length : ℚ)).sum).sum ∧
    (∀ s ∈ C.G.nodes, ∀ t ∈ (Betweenness.strategy C.G bfs dijkstra s).getNodesSortedByDistance,
      ∀ path, path ∈ shortestPaths (Betweenness.strategy C.G bfs dijkstra s) s t ↔
        PredecessorPath (Betweenness.strategy C.G bfs dijkstra s) s t path) :=
  ⟨(run_completes C bfs dijkstra maxThreads thread).1,
    run_score_eq C bfs dijkstra maxThreads thread hnorm hthr hsssp v hv,
    fun s hs t ht path => (hsssp s hs).mem_shortestPaths_iff t ht path⟩

/-- Witness of claim C1 on the cycle with four nodes and two workers: node 1 lies on one of
the two shortest paths between the nodes 0 and 2, in either direction. -/
theorem run_score_eq_sum_of_pair_dependencies_witness :
    (∀ s ∈ (Centrality.init cycleGraph false false).G.nodes, s % 2 < 2) ∧
    (∀ s ∈ (Centrality.init cycleGraph false false).G.nodes,
      CorrectSSSP (Centrality.init cycleGraph false false).G
        (Betweenness.strategy (Centrality.init cycleGraph false false).G cycleBFS cycleBFS s)
        s) ∧
    (Betweenness.run (Centrality.init cycleGraph false false) cycleBFS cycleBFS 2
      (fun s => s % 2) none).1.score 1 = .ok 1 ∧
    (Betweenness.run (Centrality.init cycleGraph false false) cycleBFS cycleBFS 2
      (fun s => s % 2) none).1.score 1 =
      .ok (((Centrality.init cycleGraph false false).G.nodes.filter
        fun s => decide (s ≠ 1)).map fun s =>
        (((Betweenness.strategy (Centrality.init cycleGraph false false).G cycleBFS cycleBFS
            s).getNodesSortedByDistance.filter fun t => decide (t ≠ 1 ∧ t ≠ s)).map
          fun t =>
            (((shortestPaths (Betweenness.strategy (Centrality.init cycleGraph false false).G
                cycleBFS cycleBFS s) s t).filter fun path => decide (1 ∈ path)).length : ℚ) /
              ((shortestPaths (Betweenness.strategy (Centrality.init cycleGraph false false).G
                cycleBFS cycleBFS s) s t).length : ℚ)).sum).sum :=
  ⟨by decide, by decide!, by decide!,
    (run_score_eq_sum_of_pair_dependencies (Centrality.init cycleGraph false false)
      cycleBFS cycleBFS 2 (fun s => s % 2) rfl (by decide) (by decide!) 1 (by decide)).2.1⟩

/-- Counterexample to claim C2: on the path graph with four nodes the run stores the score
vector `[0, 4, 4, 0]`; the score of node 1 is 4 and not `1 * (4 - 1 - 1) = 2`.  The outcomes
of the strategy used here are correct. -/
theorem path_graph_score_counterexample :
    (Betweenness.run (Centrality.init (pathGraph 4) false false) (pathBFS 4) (pathBFS 4) 1
      (fun _ => 0) none).1.scoreData = [0, 4, 4, 0] ∧
    (Betweenness.run (Centrality.init (pathGraph 4) false false) (pathBFS 4) (pathBFS 4) 1
      (fun _ => 0) none).1.scoreData ≠ [0, 2, 2, 0] ∧
    (Betweenness.run (Centrality.init (pathGraph 4) false false) (pathBFS 4) (pathBFS 4) 1
      (fun _ => 0) none).1.scoreData.getD 1 0 ≠ ((1 * (4 - 1 - 1) : Nat) : ℚ) ∧
    (∀ s ∈ (pathGraph 4).nodes, CorrectSSSP (pathGraph 4) (pathBFS 4 s) s) := by
  decide!

/-- Claim C2, amended.  For every `n ≥ 1` and every `k ≤ n - 1`, on the undirected,
unweighted path graph with the nodes `0 .. n - 1` in order, an unnormalized run that is not
cancelled stores `score(k) = 2 * k * (n - 1 - k)`: every pair of nodes on either side of `k`
is counted in both directions.  In particular for `n = 4` the score vector is
`[0, 4, 4, 0]`. -/
theorem path_graph_score (n k : Nat) (hk : k < n) (C : Centrality) (hG : C.G = pathGraph n)
    (hnorm : C.normalized = false) (bfs dijkstra : Nat → SSSP) (maxThreads : Nat)
    (thread : Nat → Nat) (hthr : ∀ s < n, thread s < maxThreads)
    (hbfs : ∀ s < n, IsPathBFS n s (bfs s)) :
    (Betweenness.run C bfs dijkstra maxThreads thread none).1.score k =
      .ok ((2 * k * (n - 1 - k) : Nat) : ℚ) ∧
    (n = 4 →
      (Betweenness.run C bfs dijkstra maxThreads thread none).1.scoreData = [0, 4, 4, 0]) := by
  have hstrat : Betweenness.strategy C.G bfs dijkstra = bfs := by
    rw [hG]; rfl
  have hnodes : ∀ s, s ∈ C.G.nodes ↔ s < n := by
    intro s; rw [hG, pathGraph_nodes, List.mem_range]
  have hthr' : ∀ s ∈ C.G.nodes, thread s < maxThreads := fun s hs => hthr s ((hnodes s).mp hs)
  have hsssp : ∀ s ∈ C.G.nodes,
      CorrectSSSP C.G (Betweenness.strategy C.G bfs dijkstra s) s := by
    intro s hs
    rw [hstrat, hG]
    exact (hbfs s ((hnodes s).mp hs)).correct ((hnodes s).mp hs)
  have hval : ∀ j, j < n →
      (Betweenness.run C bfs dijkstra maxThreads thread none).1.scoreData.getD j 0 =
        ((2 * j * (n - 1 - j) : Nat) : ℚ) := by
    intro j hj
    rw [run_scoreData C bfs dijkstra maxThreads thread hnorm hthr' hsssp j]
    have := betweenness_pathGraph n j hj bfs hbfs
    rw [← hG, ← hstrat] at this
    exact this
  constructor
  · rw [score_eq_of_getD _ k (run_completes C bfs dijkstra maxThreads thread).2
      (by rw [run_scoreData_length, hG]; exact hk), hval k hk]
  · intro hn
    subst hn
    have hlen := run_scoreData_length C bfs dijkstra maxThreads thread
    rw [hG] at hlen
    rw [eq_of_length_four _ hlen, hval 0 (by decide), hval 1 (by decide), hval 2 (by decide),
      hval 3 (by decide)]
    norm_num

/-- Witness of the amended claim C2 at `n = 4`, `k = 1`. -/
theorem path_graph_score_witness :
    (1 < 4) ∧ (∀ s < 4, (fun s => s % 2) s < 2) ∧ (∀ s < 4, IsPathBFS 4 s (pathBFS 4 s)) ∧
    (Betweenness.run (Centrality.init (pathGraph 4) false false) (pathBFS 4) (pathBFS 4) 2
      (fun s => s % 2) none).1.score 1 = .ok ((2 * 1 * (4 - 1 - 1) : Nat) : ℚ) :=
  ⟨by decide, by decide, fun s _ => pathBFS_isPathBFS 4 s,
    (path_graph_score 4 1 (by decide) (Centrality.init (pathGraph 4) false false) rfl rfl
      (pathBFS 4) (pathBFS 4) 2 (fun s => s % 2) (by decide)
      (fun s _ => pathBFS_isPathBFS 4 s)).1⟩

/-- Counterexample to claim C3: on the triangle the run stores the edge score 2, not 0, for
every edge.  The outcomes of the strategy used here are correct. -/
theorem triangle_scores_counterexample :
    (Betweenness.run (Centrality.init triangleGraph false true) (triangleBFS false)
      (triangleBFS false) 1 (fun _ => 0) none).1.edgeScoreData = [2, 2, 2] ∧
    (Betweenness.run (Centrality.init triangleGraph false true) (triangleBFS false)
      (triangleBFS false) 1 (fun _ => 0) none).1.edgeScoreData ≠ [0, 0, 0] ∧
    (∀ s ∈ triangleGraph.nodes, CorrectSSSP triangleGraph (triangleBFS false s) s) := by
  decide!

/-- Claim C3, amended.  For the undirected, unweighted triangle with indexed edges, an
unnormalized run with edge centrality that is not cancelled stores score 0 for every node and
edge score 2 for every edge (each edge is the only shortest path between its two end points,
counted once from either end), whatever the order in which each search visits the two
neighbours of its source and whichever of up to three workers handles which source; the
outcomes of the searches are correct. -/
theorem triangle_scores :
    ∀ (swap : Fin 3 → Bool) (worker : Fin 3 → Fin 3),
      (∀ s ∈ triangleGraph.nodes,
        CorrectSSSP triangleGraph (triangleBFS (swap (Fin.ofNat s)) s) s) ∧
      (Betweenness.run (Centrality.init triangleGraph false true)
        (fun s => triangleBFS (swap (Fin.ofNat s)) s)
        (fun s => triangleBFS (swap (Fin.ofNat s)) s) 3
        (fun s => (worker (Fin.ofNat s)).val) none).1.scoreData = [0, 0, 0] ∧
      (Betweenness.run (Centrality.init triangleGraph false true)
        (fun s => triangleBFS (swap (Fin.ofNat s)) s)
        (fun s => triangleBFS (swap (Fin.ofNat s)) s) 3
        (fun s => (worker (Fin.ofNat s)).val) none).1.edgeScoreData = [2, 2, 2] := by
  decide!

/-- Every `count` up to `2 ^ 53` is a `double`: the conversion keeps it. -/
theorem toDouble_of_le (k : Nat) (h : k ≤ 2 ^ 53) : toDouble k = (k : ℚ) := by
  rcases Nat.lt_or_eq_of_le h with hlt | heq
  · have he : ulpExponent k = 0 := by
      unfold ulpExponent ulpExponentFrom
      rw [if_pos (by simpa using hlt)]
    unfold toDouble
    simp [he, Nat.mod_one]
  · subst heq
    decide!

/-- The conversion of a `count` to `double` moves it by at most half of the spacing of the
`double` values next to it. -/
theorem toDouble_near (k : Nat) :
    |toDouble k - (k : ℚ)| * 2 ≤ ((2 ^ ulpExponent k : Nat) : ℚ) := by
  unfold toDouble
  simp only
  have hu : 0 < 2 ^ ulpExponent k := Nat.pow_pos (by norm_num)
  have hk : k = k / 2 ^ ulpExponent k * 2 ^ ulpExponent k + k % 2 ^ ulpExponent k := by
    rw [Nat.mul_comm]; exact (Nat.div_add_mod _ _).symm
  have hr : k % 2 ^ ulpExponent k < 2 ^ ulpExponent k := Nat.mod_lt _ hu
  generalize 2 ^ ulpExponent k = u at hu hk hr ⊢
  generalize k / u = q at hk ⊢
  generalize k % u = r at hk hr ⊢
  have hkq : (k : ℚ) = (q : ℚ) * u + r := by exact_mod_cast hk
  have hr0 : (0 : ℚ) ≤ r := by positivity
  have hrq : (r : ℚ) < u := by exact_mod_cast hr
  split
  · rename_i h
    have h2 : (2 : ℚ) * r ≤ u := by
      rcases h with h | h
      · exact_mod_cast le_of_lt h
      · exact_mod_cast le_of_eq h.1
    push_cast
    rw [hkq]
    have : (q : ℚ) * u - (q * u + r) = -r := by ring
    rw [this, abs_neg, abs_of_nonneg hr0]
    linarith
  · rename_i h
    have h2 : (u : ℚ) ≤ 2 * r := by
      have : ¬ 2 * r < u := fun hh => h (Or.inl hh)
      exact_mod_cast not_lt.mp this
    push_cast
    rw [hkq]
    have : ((q : ℚ) + 1) * u - (q * u + r) = u - r := by ring
    rw [this, abs_of_nonneg (by linarith)]
    linarith

theorem pathGraph_numberOfNodes (n : Nat) : (pathGraph n).numberOfNodes = n := by
  unfold Graph.numberOfNodes
  rw [pathGraph_nodes, List.length_range]

/-- The value of `maximum()` without `normalized`, in terms of the number of nodes. -/
theorem maximum_of_numberOfNodes (C : Centrality) (n : Nat) (hn : C.G.numberOfNodes = n)
    (hnorm : C.normalized = false) :
    (C.G.isDirected = true →
      Betweenness.maximum C = .ok (toDouble (countMul (countSub n 1) (countSub n 2)))) ∧
    (C.G.isDirected = false →
      Betweenness.maximum C = .ok (toDouble (countMul (countSub n 1) (countSub n 2) / 2))) := by
  subst hn
  unfold Betweenness.maximum
  rw [if_neg (by simp [hnorm])]
  constructor
  · intro hdir; simp [hdir]
  · intro hdir; simp [hdir]

/-- Claim C5, the claim as stated fails.  With 134217731 nodes the product
`(n - 1) * (n - 2) = 18014398912135170` fits in 64 bits.  On the undirected path graph its
half is 9007199456067585, and `maximum()` returns 9007199456067584; on the same graph taken
as directed `maximum()` returns 18014398912135168.  Both values have more than 53 bits and are
rounded when the `count` is converted to `double`.  With 3037000501 nodes the product
9223372033963249500 of the directed graph is returned as 9223372033963249664. -/
theorem maximum_value_counterexample :
    (pathGraph 134217731).numberOfNodes = 134217731 ∧
    pairCount 134217731 = 18014398912135170 ∧
    pairCount 134217731 < 2 ^ 64 ∧
    (Centrality.init (pathGraph 134217731) false false).G.isDirected = false ∧
    Betweenness.maximum (Centrality.init (pathGraph 134217731) false false) =
      .ok 9007199456067584 ∧
    (pairCount 134217731 : ℚ) / 2 = 9007199456067585 ∧
    (Centrality.init { pathGraph 134217731 with isDirected := true } false false).G.isDirected =
      true ∧
    Betweenness.maximum
        (Centrality.init { pathGraph 134217731 with isDirected := true } false false) =
      .ok 18014398912135168 ∧
    pairCount 3037000501 = 9223372033963249500 ∧
    pairCount 3037000501 < 2 ^ 64 ∧
    Betweenness.maximum
        (Centrality.init { pathGraph 3037000501 with isDirected := true } false false) =
      .ok 9223372033963249664 :=
  ⟨pathGraph_numberOfNodes _, by decide, by decide, rfl,
    ((maximum_of_numberOfNodes (Centrality.init (pathGraph 134217731) false false) 134217731
      (pathGraph_numberOfNodes _) rfl).2 rfl).trans (congrArg Except.ok (by decide!)),
    by norm_num [pairCount], rfl,
    ((maximum_of_numberOfNodes
      (Centrality.init { pathGraph 134217731 with isDirected := true } false false) 134217731
      (pathGraph_numberOfNodes _) rfl).1 rfl).trans (congrArg Except.ok (by decide!)),
    by decide, by decide,
    ((maximum_of_numberOfNodes
      (Centrality.init { pathGraph 3037000501 with isDirected := true } false false) 3037000501
      (pathGraph_numberOfNodes _) rfl).1 rfl).trans (congrArg Except.ok (by decide!))⟩

/-- Claim C5, amended.  `maximum()` returns 1 whenever `normalized` is set.  Otherwise it
returns the product `(n - 1) * (n - 2)` computed on unsigned 64-bit numbers, halved by an
integer division for an undirected graph, and converted to `double`, that is, rounded to 53
significant bits.  Whenever the number of pairs `(n - 1) * (n - 2)` fits in 64 bits (also for
`n = 0, 1, 2`, where the factors wrap around) and the value, halved for an undirected graph,
is at most `2 ^ 53`, the result is the mathematical value `(n - 1) * (n - 2)`, respectively
`(n - 1) * (n - 2) / 2`, and the halving is exact.  The conversion moves a value by at most
half of the spacing of the `double` values next to it. -/
theorem maximum_value (C : Centrality) :
    (C.normalized = true → Betweenness.maximum C = .ok 1) ∧
    (C.normalized = false →
      Betweenness.maximum C =
        .ok (toDouble (if C.G.isDirected then (pairCount C.G.numberOfNodes % 2 ^ 64).toNat
          else (pairCount C.G.numberOfNodes % 2 ^ 64).toNat / 2))) ∧
    (C.normalized = false → pairCount C.G.numberOfNodes < 2 ^ 64 →
      (C.G.isDirected = true → pairCount C.G.numberOfNodes ≤ 2 ^ 53 →
        Betweenness.maximum C = .ok (pairCount C.G.numberOfNodes : ℚ)) ∧
      (C.G.isDirected = false → pairCount C.G.numberOfNodes ≤ 2 ^ 54 →
        Betweenness.maximum C = .ok ((pairCount C.G.numberOfNodes : ℚ) / 2))) ∧
    (∀ k : Nat, k ≤ 2 ^ 53 → toDouble k = (k : ℚ)) ∧
    (∀ k : Nat, |toDouble k - (k : ℚ)| * 2 ≤ ((2 ^ ulpExponent k : Nat) : ℚ)) ∧
    (2 : ℤ) ∣ pairCount C.G.numberOfNodes ∧
    pairCount 0 = 2 ∧ pairCount 1 = 0 ∧ pairCount 2 = 0 := by
  have hwrap : countMul (countSub C.G.numberOfNodes 1) (countSub C.G.numberOfNodes 2) =
      (pairCount C.G.numberOfNodes % 2 ^ 64).toNat := by
    rw [← countMul_countSub_pairs, Int.toNat_ofNat]
  refine ⟨?_, ?_, ?_, toDouble_of_le, toDouble_near, pairCount_even _, by decide, by decide,
    by decide⟩
  · intro h
    simp [Betweenness.maximum, h]
  · intro h
    obtain ⟨h1, h2⟩ := maximum_of_numberOfNodes C _ rfl h
    cases hdir : C.G.isDirected
    · rw [h2 hdir, hwrap]; rfl
    · rw [h1 hdir, hwrap]; rfl
  · intro h hfit
    obtain ⟨h1, h2⟩ := maximum_of_numberOfNodes C _ rfl h
    have hcast := countMul_countSub_of_fit _ hfit
    have hq : ((countMul (countSub C.G.numberOfNodes 1) (countSub C.G.numberOfNodes 2) : Nat) : ℚ)
        = (pairCount C.G.numberOfNodes : ℚ) := by
      rw [← hcast]; simp
    have hdvd : 2 ∣ countMul (countSub C.G.numberOfNodes 1) (countSub C.G.numberOfNodes 2) := by
      have := pairCount_even C.G.numberOfNodes
      rw [← hcast] at this
      exact_mod_cast this
    constructor
    · intro hdir hle
      have hk : countMul (countSub C.G.numberOfNodes 1) (countSub C.G.numberOfNodes 2) ≤
          2 ^ 53 := by
        rw [← hcast] at hle
        exact_mod_cast hle
      rw [h1 hdir, toDouble_of_le _ hk, hq]
    · intro hdir hle
      have hk : countMul (countSub C.G.numberOfNodes 1) (countSub C.G.numberOfNodes 2) / 2 ≤
          2 ^ 53 := by
        rw [← hcast] at hle
        have hle' : countMul (countSub C.G.numberOfNodes 1) (countSub C.G.numberOfNodes 2) ≤
            2 ^ 54 := by exact_mod_cast hle
        omega
      rw [h2 hdir, toDouble_of_le _ hk, Nat.cast_div hdvd (by norm_num), hq]
      norm_num

/-- Witness of claim C5 on undirected graphs with three nodes and with no node. -/
theorem maximum_value_witness :
    Betweenness.maximum (Centrality.init (pathGraph 3) true false) = .ok 1 ∧
    Betweenness.maximum (Centrality.init (pathGraph 3) false false) =
      .ok ((pairCount (Centrality.init (pathGraph 3) false false).G.numberOfNodes : ℚ) / 2) ∧
    Betweenness.maximum (Centrality.init (pathGraph 3) false false) = .ok 1 ∧
    Betweenness.maximum (Centrality.init (pathGraph 0) false false) = .ok 1 :=
  ⟨(maximum_value (Centrality.init (pathGraph 3) true false)).1 rfl,
    ((maximum_value (Centrality.init (pathGraph 3) false false)).2.2.1 rfl (by decide)).2 rfl
      (by decide),
    by decide!, by decide!⟩

/-! ### Scores and `maximum()` -/

theorem pairDependency_le_one (sssp : SSSP) (s t v : Nat) : pairDependency sssp s t v ≤ 1 := by
  unfold pairDependency pathsThrough
  apply div_le_one_of_le₀
  · exact_mod_cast List.length_filter_le _ _
  · exact Nat.cast_nonneg _

theorem sum_map_le_length (f : Nat → ℚ) (hf : ∀ t, f t ≤ 1) :
    ∀ l : List Nat, (l.map f).sum ≤ (l.length : ℚ) := by
  intro l
  induction l with
  | nil => simp
  | cons a l ih =>
    simp only [List.map_cons, List.sum_cons, List.length_cons, Nat.cast_add, Nat.cast_one]
    linarith [hf a]

theorem length_filter_ne (l : List Nat) (hnd : l.Nodup) (a : Nat) (ha : a ∈ l) :
    (l.filter fun t => decide (t ≠ a)).length = l.length - 1 := by
  have hfun : (l.filter fun t => decide (t ≠ a)) = l.filter fun t => t != a := by
    apply List.filter_congr
    intro t _
    by_cases h : t = a <;> simp [h]
  rw [hfun, ← hnd.erase_eq_filter a, List.length_erase_of_mem ha]

/-- Fewer than `n - 1` targets are left for a source `s` and a node `v` of a graph with `n`
nodes. -/
theorem length_targets_le (G : Graph) (sssp : SSSP) (s v : Nat) (h : CorrectSSSP G sssp s)
    (hs : s ∈ G.nodes) (hv : v ∈ G.nodes) (hsv : s ≠ v) :
    (sssp.getNodesSortedByDistance.filter fun t => decide (t ≠ v ∧ t ≠ s)).length ≤
      G.numberOfNodes - 2 := by
  have hsub : (sssp.getNodesSortedByDistance.filter fun t => decide (t ≠ v ∧ t ≠ s)).Subperm
      ((G.nodes.filter fun t => decide (t ≠ v)).filter fun t => decide (t ≠ s)) := by
    apply List.subperm_of_subset (h.1.filter _)
    intro t ht
    obtain ⟨h1, h2⟩ := List.mem_filter.mp ht
    have h3 : t ≠ v ∧ t ≠ s := by simpa using h2
    exact List.mem_filter.mpr ⟨List.mem_filter.mpr ⟨h.2.1 t h1, by simpa using h3.1⟩,
      by simpa using h3.2⟩
  have hlen := hsub.length_le
  rw [length_filter_ne _ ((nodes_nodup G).filter _) s
    (List.mem_filter.mpr ⟨hs, by simpa using hsv⟩),
    length_filter_ne _ (nodes_nodup G) v hv] at hlen
  unfold Graph.numberOfNodes
  omega

theorem sourceDependency_le (G : Graph) (sssp : SSSP) (s v : Nat) (h : CorrectSSSP G sssp s)
    (hs : s ∈ G.nodes) (hv : v ∈ G.nodes) (hsv : s ≠ v) :
    sourceDependency sssp s v ≤ ((G.numberOfNodes - 2 : Nat) : ℚ) := by
  unfold sourceDependency
  refine le_trans (sum_map_le_length _ (fun t => pairDependency_le_one sssp s t v) _) ?_
  exact_mod_cast length_targets_le G sssp s v h hs hv hsv

theorem sum_map_le_const (f : Nat → ℚ) (c : ℚ) :
    ∀ l : List Nat, (∀ s ∈ l, f s ≤ c) → (l.map f).sum ≤ (l.length : ℚ) * c := by
  intro l
  induction l with
  | nil => intro _; simp
  | cons a l ih =>
    intro h
    simp only [List.map_cons, List.sum_cons, List.length_cons, Nat.cast_add, Nat.cast_one]
    have h1 := h a (List.mem_cons_self _ _)
    have h2 := ih fun s hs => h s (List.mem_cons_of_mem _ hs)
    linarith

/-- The betweenness of a node of a graph with `n` nodes is at most `(n - 1) * (n - 2)`. -/
theorem betweenness_le (G : Graph) (strategy : Nat → SSSP)
    (hsssp : ∀ s ∈ G.nodes, CorrectSSSP G (strategy s) s) (v : Nat) (hv : v ∈ G.nodes) :
    betweenness G strategy v ≤ (((G.numberOfNodes - 1) * (G.numberOfNodes - 2) : Nat) : ℚ) := by
  unfold betweenness
  refine le_trans (sum_map_le_const _ ((G.numberOfNodes - 2 : Nat) : ℚ) _ ?_) ?_
  · intro s hs
    obtain ⟨h1, h2⟩ := List.mem_filter.mp hs
    exact sourceDependency_le G (strategy s) s v (hsssp s h1) h1 hv (by simpa using h2)
  · rw [length_filter_ne _ (nodes_nodup G) v hv]
    unfold Graph.numberOfNodes
    push_cast
    exact le_refl _

/-- For a directed graph with `n > 2` nodes whose pair count fits in 64 bits and is at most
`2 ^ 53`, no score exceeds `maximum()`, with `normalized` unset and with `normalized` set. -/
theorem score_le_maximum_of_directed (C : Centrality) (bfs dijkstra : Nat → SSSP)
    (maxThreads : Nat) (thread : Nat → Nat) (hdir : C.G.isDirected = true)
    (hn : 2 < C.G.numberOfNodes)
    (hfit : C.G.numberOfNodes * (C.G.numberOfNodes - 1) < 2 ^ 64)
    (hexact : (C.G.numberOfNodes - 1) * (C.G.numberOfNodes - 2) ≤ 2 ^ 53)
    (hthr : ∀ s ∈ C.G.nodes, thread s < maxThreads)
    (hsssp : ∀ s ∈ C.G.nodes, CorrectSSSP C.G (Betweenness.strategy C.G bfs dijkstra s) s)
    (v : Nat) (hv : v ∈ C.G.nodes) :
    ∃ x m, (Betweenness.run C bfs dijkstra maxThreads thread none).1.score v = .ok x ∧
      Betweenness.maximum (Betweenness.run C bfs dijkstra maxThreads thread none).1 = .ok m ∧
      x ≤ m := by
  have hvz := mem_nodes_lt C.G v hv
  have hb := betweenness_le C.G (Betweenness.strategy C.G bfs dijkstra) hsssp v hv
  have hpairs := normalizationPairs_eq C.G hn hfit
  rw [if_pos hdir] at hpairs
  have hpos : 0 < (C.G.numberOfNodes - 1) * (C.G.numberOfNodes - 2) :=
    Nat.mul_pos (by omega) (by omega)
  have hmax : countMul (countSub C.G.numberOfNodes 1) (countSub C.G.numberOfNodes 2) =
      (C.G.numberOfNodes - 1) * (C.G.numberOfNodes - 2) := by
    have hlt := lt_of_mul_pred_lt _ hn hfit
    have hle : (C.G.numberOfNodes - 1) * (C.G.numberOfNodes - 2) ≤
        C.G.numberOfNodes * (C.G.numberOfNodes - 1) :=
      Nat.mul_le_mul (Nat.sub_le _ _) (by omega)
    rw [countSub_of_le _ 2 (by omega) hlt, countSub_of_le _ 1 (by omega) hlt]
    unfold countMul countMod
    exact Nat.mod_eq_of_lt (lt_of_le_of_lt hle hfit)
  have hscore : ∀ C' : Centrality, C'.G = C.G → C'.normalized = false →
      (Betweenness.run C' bfs dijkstra maxThreads thread none).1.scoreData.getD v 0 =
        betweenness C.G (Betweenness.strategy C.G bfs dijkstra) v := by
    intro C' hG hnorm
    have := run_scoreData C' bfs dijkstra maxThreads thread hnorm (by rw [hG]; exact hthr)
      (by rw [hG]; exact hsssp) v
    rw [hG] at this
    exact this
  refine ⟨_, (if C.normalized then (1 : ℚ)
      else (((C.G.numberOfNodes - 1) * (C.G.numberOfNodes - 2) : Nat) : ℚ)),
    score_eq_of_getD _ v (run_completes C bfs dijkstra maxThreads thread).2
    (by rw [run_scoreData_length]; exact hvz), ?_, ?_⟩
  · have hm : Betweenness.maximum (Betweenness.run C bfs dijkstra maxThreads thread none).1 =
        Betweenness.maximum C := rfl
    rw [hm]
    unfold Betweenness.maximum
    cases hnorm : C.normalized
    · simp [hdir, hmax, toDouble_of_le _ hexact]
    · simp
  · cases hnorm : C.normalized
    · simp only [Bool.false_eq_true, if_false]
      rw [hscore C rfl hnorm]
      exact hb
    · simp only [if_true]
      have hC : C = { C with normalized := true } := by
        cases C; simp only at hnorm; subst hnorm; rfl
      rw [hC, run_normalized_scoreData C bfs dijkstra maxThreads thread v,
        hscore { C with normalized := false } rfl rfl, hpairs]
      have hp : (0 : ℚ) < (((C.G.numberOfNodes - 1) * (C.G.numberOfNodes - 2) : Nat) : ℚ) := by
        exact_mod_cast hpos
      rw [div_le_one hp]
      exact hb

/-- Claim C6, the code at the failing input.  On the undirected path graph `0 - 1 - 2`, with
correct outcomes of the strategy, the run stores the score 2 for node 1 although `maximum()`
is 1, with `normalized` unset and with `normalized` set. -/
theorem maximum_exceeded_on_undirected_path :
    (Betweenness.run (Centrality.init (pathGraph 3) false false) (pathBFS 3) (pathBFS 3) 1
      (fun _ => 0) none).1.score 1 = .ok 2 ∧
    Betweenness.maximum (Betweenness.run (Centrality.init (pathGraph 3) false false)
      (pathBFS 3) (pathBFS 3) 1 (fun _ => 0) none).1 = .ok 1 ∧
    (Betweenness.run (Centrality.init (pathGraph 3) true false) (pathBFS 3) (pathBFS 3) 1
      (fun _ => 0) none).1.score 1 = .ok 2 ∧
    Betweenness.maximum (Betweenness.run (Centrality.init (pathGraph 3) true false)
      (pathBFS 3) (pathBFS 3) 1 (fun _ => 0) none).1 = .ok 1 ∧
    (∀ s ∈ (pathGraph 3).nodes, CorrectSSSP (pathGraph 3) (pathBFS 3 s) s) := by
  decide!

/-! ### Accessors -/

/-- Every read accessor of a store whose `hasRun` flag is unset fails with the not-run error
and leaves the store as it is. -/
theorem accessors_fail_of_not_run (C : Centrality) (h : C.hasRun = false) (v : Nat) (m : Bool)
    (sort : Sorter) (maximum : Centrality → Except Error ℚ) :
    C.score v = .error .notRunError ∧
    C.ranking sort = .error .notRunError ∧
    C.lengthRanking sort = .error .notRunError ∧
    C.scores m = (C, .error .notRunError) ∧
    C.edgeScores = .error .notRunError ∧
    C.lengthScaleScores m = (C, .error .notRunError) ∧
    C.centralization maximum = .error .notRunError := by
  simp [Centrality.score, Centrality.ranking, Centrality.lengthRanking, Centrality.scores,
    Centrality.edgeScores, Centrality.lengthScaleScores, Centrality.centralization,
    Centrality.assureFinished, h]

/-- The method `maximum` of the betweenness measure never fails. -/
theorem maximum_ok (C : Centrality) : ∃ x, Betweenness.maximum C = .ok x := by
  unfold Betweenness.maximum
  split
  · exact ⟨_, rfl⟩
  · split <;> exact ⟨_, rfl⟩

/-- Claim C7.  In every state of the result store whose `hasRun` flag is false, each of
`score(v)`, `ranking()`, `lengthRanking()`, `scores(moveOut)`, `edgeScores()`,
`lengthScaleScores(moveOut)` and `centralization()` fails with the not-run error, and the
store after the call is the store before it (the accessors without a store in their result do
not change it).  In every state whose `hasRun` flag is true none of them fails with the
not-run error, for the betweenness measure as for the unspecialized base. -/
theorem accessors_not_run_iff (C : Centrality) (v : Nat) (m : Bool) (sort : Sorter)
    (maximum : Centrality → Except Error ℚ) :
    (C.hasRun = false →
      C.score v = .error .notRunError ∧
      C.ranking sort = .error .notRunError ∧
      C.lengthRanking sort = .error .notRunError ∧
      C.scores m = (C, .error .notRunError) ∧
      C.edgeScores = .error .notRunError ∧
      C.lengthScaleScores m = (C, .error .notRunError) ∧
      C.centralization maximum = .error .notRunError) ∧
    (C.hasRun = true →
      C.score v ≠ .error .notRunError ∧
      C.ranking sort ≠ .error .notRunError ∧
      C.lengthRanking sort ≠ .error .notRunError ∧
      (C.scores m).2 ≠ .error .notRunError ∧
      C.edgeScores ≠ .error .notRunError ∧
      (C.lengthScaleScores m).2 ≠ .error .notRunError ∧
      C.centralization Betweenness.maximum ≠ .error .notRunError ∧
      C.centralization Centrality.maximum ≠ .error .notRunError) := by
  refine ⟨fun h => accessors_fail_of_not_run C h v m sort maximum, fun h => ?_⟩
  refine ⟨?_, ?_, ?_, ?_, ?_, ?_, ?_, ?_⟩
  · unfold Centrality.score Centrality.assureFinished
    rw [if_pos h]
    simp only
    cases C.scoreData.get? v <;> simp
  · simp [Centrality.ranking, Centrality.assureFinished, h]
  · simp [Centrality.lengthRanking, Centrality.assureFinished, h]
  · simp [Centrality.scores, Centrality.assureFinished, h]
  · simp [Centrality.edgeScores, Centrality.assureFinished, h]
  · simp [Centrality.lengthScaleScores, Centrality.assureFinished, h]
  · obtain ⟨x, hx⟩ := maximum_ok C
    unfold Centrality.centralization Centrality.assureFinished
    rw [if_pos h]
    simp [hx]
  · simp [Centrality.centralization, Centrality.assureFinished, Centrality.maximum, h]

/-- Witness of claim C7 on a freshly constructed store and on the store after a run. -/
theorem accessors_not_run_iff_witness :
    (Centrality.init (pathGraph 3) false false).hasRun = false ∧
    (Centrality.init (pathGraph 3) false false).score 1 = .error .notRunError ∧
    (Betweenness.run (Centrality.init (pathGraph 3) false false) (pathBFS 3) (pathBFS 3) 1
      (fun _ => 0) none).1.hasRun = true ∧
    (Betweenness.run (Centrality.init (pathGraph 3) false false) (pathBFS 3) (pathBFS 3) 1
      (fun _ => 0) none).1.score 1 ≠ .error .notRunError :=
  ⟨rfl,
    ((accessors_not_run_iff (Centrality.init (pathGraph 3) false false) 1 true insertionSorter
      Betweenness.maximum).1 rfl).1,
    rfl,
    ((accessors_not_run_iff (Betweenness.run (Centrality.init (pathGraph 3) false false)
      (pathBFS 3) (pathBFS 3) 1 (fun _ => 0) none).1 1 true insertionSorter
      Betweenness.maximum).2 rfl).1⟩

/-- Claim C8.  In every state with `hasRun = true` and for every `m`, `scores(m)` and
`lengthScaleScores(m)` return the stored score vector, respectively the stored length-scaled
vector, and leave `hasRun = !m`.  Hence after `scores(true)` a second `scores(true)` and every
other read accessor fail with the not-run error (likewise after `lengthScaleScores(true)`),
while `scores(false)` and `lengthScaleScores(false)` leave the store unchanged, so that reads
keep succeeding. -/
theorem scores_moveOut (C : Centrality) (h : C.hasRun = true) (m : Bool) (v : Nat)
    (sort : Sorter) (maximum : Centrality → Except Error ℚ) :
    ((C.scores m).2 = .ok C.scoreData ∧ (C.scores m).1.hasRun = !m) ∧
    ((C.lengthScaleScores m).2 = .ok C.lengthScaled ∧ (C.lengthScaleScores m).1.hasRun = !m) ∧
    (((C.scores true).1.scores true).2 = .error .notRunError ∧
      (C.scores true).1.score v = .error .notRunError ∧
      (C.scores true).1.ranking sort = .error .notRunError ∧
      (C.scores true).1.lengthRanking sort = .error .notRunError ∧
      (C.scores true).1.edgeScores = .error .notRunError ∧
      ((C.scores true).1.lengthScaleScores m).2 = .error .notRunError ∧
      (C.scores true).1.centralization maximum = .error .notRunError) ∧
    (((C.lengthScaleScores true).1.lengthScaleScores true).2 = .error .notRunError ∧
      (C.lengthScaleScores true).1.score v = .error .notRunError ∧
      ((C.lengthScaleScores true).1.scores m).2 = .error .notRunError) ∧
    ((C.scores false).1 = C ∧ (C.lengthScaleScores false).1 = C) := by
  have hs : ∀ b, (C.scores b).1.hasRun = !b := by
    intro b; simp [Centrality.scores, Centrality.assureFinished, h]
  have hl : ∀ b, (C.lengthScaleScores b).1.hasRun = !b := by
    intro b; simp [Centrality.lengthScaleScores, Centrality.assureFinished, h]
  have h1 := accessors_fail_of_not_run (C.scores true).1 (hs true) v true sort maximum
  have h1m := accessors_fail_of_not_run (C.scores true).1 (hs true) v m sort maximum
  have h2 := accessors_fail_of_not_run (C.lengthScaleScores true).1 (hl true) v true sort maximum
  have h2m := accessors_fail_of_not_run (C.lengthScaleScores true).1 (hl true) v m sort maximum
  refine ⟨⟨?_, hs m⟩, ⟨?_, hl m⟩, ⟨?_, h1.1, h1.2.1, h1.2.2.1, h1.2.2.2.2.1, ?_,
    h1.2.2.2.2.2.2⟩, ⟨?_, h2.1, ?_⟩, ?_, ?_⟩
  · simp [Centrality.scores, Centrality.assureFinished, h]
  · simp [Centrality.lengthScaleScores, Centrality.assureFinished, h]
  · rw [h1.2.2.2.1]
  · rw [h1m.2.2.2.2.2.1]
  · rw [h2.2.2.2.2.2.1]
  · rw [h2m.2.2.2.1]
  · obtain ⟨G, nrm, edge, hr, sd, ed, ls⟩ := C
    simp only at h
    subst h
    rfl
  · obtain ⟨G, nrm, edge, hr, sd, ed, ls⟩ := C
    simp only at h
    subst h
    rfl

/-- Witness of claim C8 on the store after a run on the path graph with three nodes. -/
theorem scores_moveOut_witness :
    (Betweenness.run (Centrality.init (pathGraph 3) false false) (pathBFS 3) (pathBFS 3) 1
      (fun _ => 0) none).1.hasRun = true ∧
    (((Betweenness.run (Centrality.init (pathGraph 3) false false) (pathBFS 3) (pathBFS 3) 1
      (fun _ => 0) none).1.scores true).1.scores true).2 = .error .notRunError :=
  ⟨rfl,
    (scores_moveOut (Betweenness.run (Centrality.init (pathGraph 3) false false) (pathBFS 3)
      (pathBFS 3) 1 (fun _ => 0) none).1 rfl true 1 insertionSorter
      Betweenness.maximum).2.2.1.1⟩

theorem rankingBefore_iff (x y : Nat × ℚ) :
    rankingBefore x y = true ↔ x.2 > y.2 ∨ (x.2 = y.2 ∧ x.1 < y.1) := by
  unfold rankingBefore
  by_cases h : x.2 = y.2
  · simp [h]
  · simp [h]

theorem not_rankingBefore_iff (x y : Nat × ℚ) :
    ¬ rankingBefore y x = true ↔ x.2 > y.2 ∨ (x.2 = y.2 ∧ x.1 ≤ y.1) := by
  rw [rankingBefore_iff]
  constructor
  · intro h
    rcases lt_trichotomy x.2 y.2 with h1 | h1 | h1
    · exact absurd (Or.inl h1) h
    · refine Or.inr ⟨h1, ?_⟩
      by_contra h2
      exact h (Or.inr ⟨h1.symm, by omega⟩)
    · exact Or.inl h1
  · intro h h'
    rcases h with h | ⟨h1, h2⟩ <;> rcases h' with h' | ⟨h3, h4⟩
    · exact absurd h (not_lt.mpr (le_of_lt h'))
    · rw [h3] at h; exact lt_irrefl _ h
    · rw [h1] at h'; exact lt_irrefl _ h'
    · omega

theorem notBefore_total (x y : Nat × ℚ) :
    ¬ rankingBefore y x = true ∨ ¬ rankingBefore x y = true := by
  rw [not_rankingBefore_iff, not_rankingBefore_iff]
  rcases lt_trichotomy x.2 y.2 with h | h | h
  · exact Or.inr (Or.inl h)
  · rcases Nat.le_total x.1 y.1 with h1 | h1
    · exact Or.inl (Or.inr ⟨h, h1⟩)
    · exact Or.inr (Or.inr ⟨h.symm, h1⟩)
  · exact Or.inl (Or.inl h)

theorem notBefore_trans (x y z : Nat × ℚ) (h1 : ¬ rankingBefore y x = true)
    (h2 : ¬ rankingBefore z y = true) : ¬ rankingBefore z x = true := by
  rw [not_rankingBefore_iff] at h1 h2 ⊢
  rcases h1 with h1 | ⟨h1, h1'⟩ <;> rcases h2 with h2 | ⟨h2, h2'⟩
  · exact Or.inl (lt_trans h2 h1)
  · exact Or.inl (by rw [← h2]; exact h1)
  · exact Or.inl (by rw [h1]; exact h2)
  · exact Or.inr ⟨h1.trans h2, le_trans h1' h2'⟩

theorem notBefore_antisymm (x y : Nat × ℚ) (h1 : ¬ rankingBefore y x = true)
    (h2 : ¬ rankingBefore x y = true) : x = y := by
  rw [not_rankingBefore_iff] at h1 h2
  rcases h1 with h1 | ⟨h1, h1'⟩ <;> rcases h2 with h2 | ⟨h2, h2'⟩
  · exact absurd h1 (not_lt.mpr (le_of_lt h2))
  · rw [h2] at h1; exact absurd h1 (lt_irrefl _)
  · rw [h1] at h2; exact absurd h2 (lt_irrefl _)
  · exact Prod.ext (Nat.le_antisymm h1' h2') h1

/-- Insertion sort meets the contract of the sorting routine. -/
theorem insertionSorter_isSort : IsSort insertionSorter := by
  intro l
  haveI : IsTotal (Nat × ℚ) (fun x y => ¬ rankingBefore y x = true) := ⟨notBefore_total⟩
  haveI : IsTrans (Nat × ℚ) (fun x y => ¬ rankingBefore y x = true) := ⟨notBefore_trans⟩
  exact ⟨List.perm_insertionSort _ _, List.sorted_insertionSort _ _⟩

/-- Two outputs of sorting routines on the same input agree. -/
theorem sorted_unique (l r1 r2 : List (Nat × ℚ)) (hp1 : r1.Perm l) (hp2 : r2.Perm l)
    (hs1 : r1.Pairwise fun x y => ¬ rankingBefore y x = true)
    (hs2 : r2.Pairwise fun x y => ¬ rankingBefore y x = true) : r1 = r2 := by
  haveI : IsAntisymm (Nat × ℚ) (fun x y => ¬ rankingBefore y x = true) := ⟨notBefore_antisymm⟩
  exact List.eq_of_perm_of_sorted (hp1.trans hp2.symm) hs1 hs2

/-- The sorted list of the pairs `(v, f v)` over a duplicate-free list of nodes. -/
theorem sorted_pairs_spec (sort : Sorter) (hsort : IsSort sort) (nodes : List Nat)
    (hnd : nodes.Nodup) (f : Nat → ℚ) :
    ((sort rankingBefore (nodes.map fun v => (v, f v))).map Prod.fst).Perm nodes ∧
    (∀ p ∈ sort rankingBefore (nodes.map fun v => (v, f v)), p.1 ∈ nodes ∧ p.2 = f p.1) ∧
    (sort rankingBefore (nodes.map fun v => (v, f v))).Pairwise
      (fun x y => x.2 > y.2 ∨ (x.2 = y.2 ∧ x.1 < y.1)) ∧
    (∀ sort' : Sorter, IsSort sort' →
      sort' rankingBefore (nodes.map fun v => (v, f v)) =
        sort rankingBefore (nodes.map fun v => (v, f v))) := by
  obtain ⟨hperm, hsorted⟩ := hsort (nodes.map fun v => (v, f v))
  have hfst : ((sort rankingBefore (nodes.map fun v => (v, f v))).map Prod.fst).Perm nodes := by
    have := hperm.map Prod.fst
    rwa [List.map_map, show (Prod.fst ∘ fun v => (v, f v)) = id from rfl, List.map_id] at this
  refine ⟨hfst, ?_, ?_, ?_⟩
  · intro p hp
    obtain ⟨v, hv, rfl⟩ := List.mem_map.mp (hperm.mem_iff.mp hp)
    exact ⟨hv, rfl⟩
  · have hnd' : ((sort rankingBefore (nodes.map fun v => (v, f v))).map Prod.fst).Nodup :=
      hfst.nodup_iff.mpr hnd
    have hne : (sort rankingBefore (nodes.map fun v => (v, f v))).Pairwise
        (fun x y => x.1 ≠ y.1) := by
      unfold List.Nodup at hnd'
      exact List.pairwise_map.mp hnd'
    refine (hsorted.and hne).imp ?_
    intro x y hxy
    rcases (not_rankingBefore_iff x y).mp hxy.1 with h | ⟨h1, h2⟩
    · exact Or.inl h
    · exact Or.inr ⟨h1, lt_of_le_of_ne h2 hxy.2⟩
  · intro sort' hsort'
    obtain ⟨hperm', hsorted'⟩ := hsort' (nodes.map fun v => (v, f v))
    exact sorted_unique _ _ _ hperm' hperm hsorted' hsorted

/-- Claim C9.  For every completed result store (the score vector has an entry for every
node id) and every sorting routine that meets its contract, `ranking()` returns exactly one
pair `(v, score(v))` for each existing node `v` and nothing else, ordered so that the scores
do not increase and pairs of equal score appear by increasing node id; every other sorting
routine that meets the contract returns the same list.  `lengthRanking()` satisfies the same
statement over the length-scaled vector. -/
theorem ranking_sorted_and_unique (sort : Sorter) (hsort : IsSort sort) (C : Centrality)
    (hrun : C.hasRun = true) (hlen : C.scoreData.length = C.G.upperNodeIdBound) :
    ∃ r l : List (Nat × ℚ),
      C.ranking sort = .ok r ∧
      (r.map Prod.fst).Perm C.G.nodes ∧
      (∀ p ∈ r, C.score p.1 = .ok p.2) ∧
      r.Pairwise (fun x y => x.2 > y.2 ∨ (x.2 = y.2 ∧ x.1 < y.1)) ∧
      (∀ sort' : Sorter, IsSort sort' → C.ranking sort' = .ok r) ∧
      C.lengthRanking sort = .ok l ∧
      (l.map Prod.fst).Perm C.G.nodes ∧
      (∀ p ∈ l, p.2 = C.lengthScaled.getD p.1 0) ∧
      l.Pairwise (fun x y => x.2 > y.2 ∨ (x.2 = y.2 ∧ x.1 < y.1)) ∧
      (∀ sort' : Sorter, IsSort sort' → C.lengthRanking sort' = .ok l) := by
  obtain ⟨h1, h2, h3, h4⟩ :=
    sorted_pairs_spec sort hsort C.G.nodes (nodes_nodup C.G) fun v => C.scoreData.getD v 0
  obtain ⟨k1, k2, k3, k4⟩ :=
    sorted_pairs_spec sort hsort C.G.nodes (nodes_nodup C.G) fun v => C.lengthScaled.getD v 0
  have hr : ∀ sort' : Sorter, C.ranking sort' =
      .ok (sort' rankingBefore (C.G.nodes.map fun v => (v, C.scoreData.getD v 0))) := by
    intro sort'; simp [Centrality.ranking, Centrality.assureFinished, hrun]
  have hl : ∀ sort' : Sorter, C.lengthRanking sort' =
      .ok (sort' rankingBefore (C.G.nodes.map fun v => (v, C.lengthScaled.getD v 0))) := by
    intro sort'; simp [Centrality.lengthRanking, Centrality.assureFinished, hrun]
  refine ⟨_, _, hr sort, h1, ?_, h3, ?_, hl sort, k1, fun p hp => (k2 p hp).2, k3, ?_⟩
  · intro p hp
    obtain ⟨hm, hv⟩ := h2 p hp
    rw [score_eq_of_getD C p.1 hrun (by rw [hlen]; exact mem_nodes_lt C.G _ hm), hv]
  · intro sort' hsort'
    rw [hr sort', h4 sort' hsort']
  · intro sort' hsort'
    rw [hl sort', k4 sort' hsort']

/-- Witness of claim C9: insertion sort on the store after a run on the path graph with four
nodes. -/
theorem ranking_sorted_and_unique_witness :
    IsSort insertionSorter ∧
    (Betweenness.run (Centrality.init (pathGraph 4) false false) (pathBFS 4) (pathBFS 4) 1
      (fun _ => 0) none).1.hasRun = true ∧
    (Betweenness.run (Centrality.init (pathGraph 4) false false) (pathBFS 4) (pathBFS 4) 1
      (fun _ => 0) none).1.ranking insertionSorter = .ok [(1, 4), (2, 4), (0, 0), (3, 0)] ∧
    (∃ r l : List (Nat × ℚ),
      (Betweenness.run (Centrality.init (pathGraph 4) false false) (pathBFS 4) (pathBFS 4) 1
        (fun _ => 0) none).1.ranking insertionSorter = .ok r ∧
      (Betweenness.run (Centrality.init (pathGraph 4) false false) (pathBFS 4) (pathBFS 4) 1
        (fun _ => 0) none).1.lengthRanking insertionSorter = .ok l ∧
      r.Pairwise (fun x y => x.2 > y.2 ∨ (x.2 = y.2 ∧ x.1 < y.1))) :=
  ⟨insertionSorter_isSort, rfl, by decide!,
    (ranking_sorted_and_unique insertionSorter insertionSorter_isSort
      (Betweenness.run (Centrality.init (pathGraph 4) false false) (pathBFS 4) (pathBFS 4) 1
        (fun _ => 0) none).1 rfl
      (run_scoreData_length _ _ _ _ _)).elim
      fun r h => h.elim fun l h => ⟨r, l, h.1, h.2.2.2.2.2.1, h.2.2.2.1⟩⟩

/-- Claim C10.  Constructing the object fails with the configuration error if and only if
`computeEdgeCentrality` is set and the graph has no edge ids; in every other case the
construction succeeds, the object records the graph and both flags as given, and it starts
with `hasRun = false`. -/
theorem new_fails_iff (G : Graph) (normalized computeEdgeCentrality : Bool) :
    (Centrality.new G normalized computeEdgeCentrality = .error .configurationError ↔
      (computeEdgeCentrality = true ∧ G.hasEdgeIds = false)) ∧
    (¬ (computeEdgeCentrality = true ∧ G.hasEdgeIds = false) →
      ∃ C, Centrality.new G normalized computeEdgeCentrality = .ok C ∧ C.G = G ∧
        C.normalized = normalized ∧ C.computeEdgeCentrality = computeEdgeCentrality ∧
        C.hasRun = false) := by
  unfold Centrality.new
  cases computeEdgeCentrality <;> cases h : G.hasEdgeIds <;>
    simp [Centrality.init]

/-- Witness of claim C10: construction on a graph without edge ids, with and without edge
centrality. -/
theorem new_fails_iff_witness :
    Centrality.new { pathGraph 3 with hasEdgeIds := false } false true =
      .error .configurationError ∧
    (∃ C, Centrality.new { pathGraph 3 with hasEdgeIds := false } true false = .ok C ∧
      C.G = { pathGraph 3 with hasEdgeIds := false } ∧ C.normalized = true ∧
      C.computeEdgeCentrality = false ∧ C.hasRun = false) :=
  ⟨(new_fails_iff { pathGraph 3 with hasEdgeIds := false } false true).1.mpr ⟨rfl, rfl⟩,
    (new_fails_iff { pathGraph 3 with hasEdgeIds := false } true false).2 (by decide)⟩

/-! ## The claims, continued -/

/-! ### Cancellation -/

theorem isRunning_mono (cancelAt : Option Nat) (i j : Nat) (hij : i ≤ j)
    (h : isRunning cancelAt j = true) : isRunning cancelAt i = true := by
  cases cancelAt with
  | none => rfl
  | some c =>
    simp only [isRunning, decide_eq_true_eq] at h ⊢
    omega

/-- A run completes exactly when the signal is not observed at the last poll; a run that is
left by the interrupt exception keeps the value that `hasRun` had before the call, a run that
completes sets it. -/
theorem run_outcome (C : Centrality) (bfs dijkstra : Nat → SSSP) (maxThreads : Nat)
    (thread : Nat → Nat) (cancelAt : Option Nat) :
    (isRunning cancelAt (1 + 2 * C.G.nodes.length) = true →
      (Betweenness.run C bfs dijkstra maxThreads thread cancelAt).2 = .ok () ∧
      (Betweenness.run C bfs dijkstra maxThreads thread cancelAt).1.hasRun = true) ∧
    (isRunning cancelAt (1 + 2 * C.G.nodes.length) = false →
      (Betweenness.run C bfs dijkstra maxThreads thread cancelAt).2 = .error .interrupted ∧
      (Betweenness.run C bfs dijkstra maxThreads thread cancelAt).1.hasRun = C.hasRun) := by
  constructor
  · intro h
    have h0 := isRunning_mono cancelAt 0 _ (Nat.zero_le _) h
    simp [Betweenness.run, h, h0, finishRun]
  · intro h
    unfold Betweenness.run
    cases h0 : isRunning cancelAt 0
    · simp [Betweenness.allocate]
    · simp [h, Betweenness.allocate]

/-- From a store whose `hasRun` flag is unset, a cancelled run leaves the flag unset. -/
theorem run_cancelled_of_not_run (C : Centrality) (bfs dijkstra : Nat → SSSP)
    (maxThreads : Nat) (thread : Nat → Nat) (cancelAt : Option Nat) (h : C.hasRun = false)
    (hc : isRunning cancelAt (1 + 2 * C.G.nodes.length) = false) :
    (Betweenness.run C bfs dijkstra maxThreads thread cancelAt).1.hasRun = false := by
  rw [((run_outcome C bfs dijkstra maxThreads thread cancelAt).2 hc).2, h]

/-- Claim C11, the code at the failing input.  On the cycle with four nodes a first run
completes and stores the score 1 for node 1.  A second run on the same object that observes
the signal, at its first poll or in the middle of the sources, is left by the interrupt
exception with `hasRun` still true, although the score vector has been cleared: `score(1)`
does not fail with the not-run error but returns 0, and `scores(false)` returns the cleared
vector. -/
theorem cancelled_rerun_keeps_hasRun :
    (Betweenness.run (Centrality.init cycleGraph false true) cycleBFS cycleBFS 2
      (fun s => s % 2) none).1.hasRun = true ∧
    (Betweenness.run (Centrality.init cycleGraph false true) cycleBFS cycleBFS 2
      (fun s => s % 2) none).1.score 1 = .ok 1 ∧
    (Betweenness.run
      (Betweenness.run (Centrality.init cycleGraph false true) cycleBFS cycleBFS 2
        (fun s => s % 2) none).1
      cycleBFS cycleBFS 2 (fun s => s % 2) (some 0)).2 = .error .interrupted ∧
    (Betweenness.run
      (Betweenness.run (Centrality.init cycleGraph false true) cycleBFS cycleBFS 2
        (fun s => s % 2) none).1
      cycleBFS cycleBFS 2 (fun s => s % 2) (some 0)).1.hasRun = true ∧
    (Betweenness.run
      (Betweenness.run (Centrality.init cycleGraph false true) cycleBFS cycleBFS 2
        (fun s => s % 2) none).1
      cycleBFS cycleBFS 2 (fun s => s % 2) (some 0)).1.score 1 = .ok 0 ∧
    (Betweenness.run
      (Betweenness.run (Centrality.init cycleGraph false true) cycleBFS cycleBFS 2
        (fun s => s % 2) none).1
      cycleBFS cycleBFS 2 (fun s => s % 2) (some 4)).2 = .error .interrupted ∧
    (Betweenness.run
      (Betweenness.run (Centrality.init cycleGraph false true) cycleBFS cycleBFS 2
        (fun s => s % 2) none).1
      cycleBFS cycleBFS 2 (fun s => s % 2) (some 4)).1.hasRun = true ∧
    ((Betweenness.run
      (Betweenness.run (Centrality.init cycleGraph false true) cycleBFS cycleBFS 2
        (fun s => s % 2) none).1
      cycleBFS cycleBFS 2 (fun s => s % 2) (some 4)).1.scores false).2 = .ok [0, 0, 0, 0] := by
  decide!

/-! ### Scores are nonnegative -/

theorem nonnegEntries_replicate (n : Nat) : NonnegEntries (List.replicate n 0) := by
  intro i
  rw [getD_replicate_zero]

theorem nonnegEntries_nil : NonnegEntries [] := by
  intro i
  simp

theorem nonnegEntries_addAt (xs : List ℚ) (i : Nat) (c : ℚ) (h : NonnegEntries xs)
    (hc : 0 ≤ c) : NonnegEntries (addAt xs i c) := by
  intro j
  rw [getD_addAt]
  split
  · exact add_nonneg (h j) hc
  · exact h j

theorem nonnegEntries_divAt (xs : List ℚ) (i : Nat) (d : ℚ) (h : NonnegEntries xs)
    (hd : 0 ≤ d) : NonnegEntries (divAt xs i d) := by
  intro j
  rw [getD_divAt]
  split
  · exact div_nonneg (h j) hd
  · exact h j

theorem foldl_nonnegEntries {α : Type} (f : List ℚ → α → List ℚ)
    (hf : ∀ acc a, NonnegEntries acc → NonnegEntries (f acc a)) :
    ∀ (l : List α) (init : List ℚ), NonnegEntries init → NonnegEntries (l.foldl f init) := by
  intro l
  induction l with
  | nil => intro init h; exact h
  | cons a l ih => intro init h; rw [List.foldl_cons]; exact ih _ (hf _ _ h)

theorem predecessorLoop_nonneg (G : Graph) (e : Bool) (sssp : SSSP) (t : Nat) :
    ∀ (ps : List Nat) (w : Worker), w.Nonneg → (predecessorLoop G e sssp t ps w).Nonneg := by
  intro ps
  induction ps with
  | nil => intro w h; exact h
  | cons p ps ih =>
    intro w h
    obtain ⟨hd, hs, he⟩ := h
    have hc : (0 : ℚ) ≤ (sssp.numberOfPaths p : ℚ) / (sssp.numberOfPaths t : ℚ) *
        (1 + w.dependency.getD t 0) :=
      mul_nonneg (div_nonneg (Nat.cast_nonneg _) (Nat.cast_nonneg _))
        (add_nonneg zero_le_one (hd t))
    simp only [predecessorLoop]
    apply ih
    refine ⟨nonnegEntries_addAt _ _ _ hd hc, hs, ?_⟩
    cases e
    · exact he
    · exact nonnegEntries_addAt _ _ _ he hc

theorem afterPop_nonneg (G : Graph) (e : Bool) (sssp : SSSP) (s t : Nat) (w : Worker)
    (h : w.Nonneg) : (afterPop G e sssp s t w).Nonneg := by
  obtain ⟨hd, hs, he⟩ := predecessorLoop_nonneg G e sssp t (sssp.getPredecessors t) w h
  unfold afterPop
  by_cases hts : t = s
  · simp only [hts, ne_eq, not_true_eq_false, if_false]
    rw [hts] at hd hs he
    exact ⟨hd, hs, he⟩
  · simp only [ne_eq, hts, not_false_eq_true, if_true]
    exact ⟨hd, nonnegEntries_addAt _ _ _ hs (hd t), he⟩

theorem stackLoop_nonneg (G : Graph) (e : Bool) (sssp : SSSP) (s : Nat) :
    ∀ (R : List Nat) (w : Worker) (ls : List ℚ), w.Nonneg →
      (stackLoop G e sssp s R (w, ls)).1.Nonneg := by
  intro R
  induction R with
  | nil => intro w _ h; exact h
  | cons t R ih =>
    intro w ls h
    obtain ⟨l1, h1⟩ := stackLoop_cons_fst G e sssp s t R w ls
    rw [h1]
    exact ih _ l1 (afterPop_nonneg G e sssp s t w h)

theorem computeDependencies_nonneg (G : Graph) (e : Bool) (sssp : SSSP) (r1 r2 : Bool)
    (s : Nat) (w : Worker) (ls : List ℚ) (h : w.Nonneg) :
    (computeDependencies G e sssp r1 r2 s (w, ls)).1.Nonneg := by
  have h0 : Worker.Nonneg { w with dependency := List.replicate w.dependency.length 0 } :=
    ⟨nonnegEntries_replicate _, h.2.1, h.2.2⟩
  unfold computeDependencies
  cases r1
  · exact h0
  · cases r2
    · exact h0
    · exact stackLoop_nonneg G e sssp s _ _ ls h0

theorem onWorker_nonneg (st : RunState) (i : Nat) (body : Worker × List ℚ → Worker × List ℚ)
    (hbody : ∀ w ls, w.Nonneg → (body (w, ls)).1.Nonneg)
    (h : ∀ w ∈ st.workers, w.Nonneg) : ∀ w ∈ (st.onWorker i body).workers, w.Nonneg := by
  unfold RunState.onWorker
  cases hw : st.workers.get? i with
  | none => exact h
  | some w0 =>
    intro x hx
    rcases mem_set_cases _ _ _ _ hx with h1 | h1
    · rw [h1]; exact hbody _ _ (h w0 (List.get?_mem hw))
    · exact h x h1

theorem balancedParallelForNodes_nonneg (G : Graph) (e : Bool) (strategy : Nat → SSSP)
    (thread : Nat → Nat) (cancelAt : Option Nat) :
    ∀ (sources : List Nat) (poll : Nat) (st : RunState), (∀ w ∈ st.workers, w.Nonneg) →
      ∀ w ∈ (balancedParallelForNodes G e strategy thread cancelAt sources poll st).workers,
        w.Nonneg := by
  intro sources
  induction sources with
  | nil => intro _ st h; exact h
  | cons s sources ih =>
    intro poll st h
    exact ih (poll + 2) _ (onWorker_nonneg st (thread s) _
      (fun w ls hw => computeDependencies_nonneg G e (strategy s) _ _ s w ls hw) h)

theorem parallelPhase_nonneg (C : Centrality) (bfs dijkstra : Nat → SSSP) (maxThreads : Nat)
    (thread : Nat → Nat) (cancelAt : Option Nat) :
    ∀ w ∈ (Betweenness.parallelPhase C bfs dijkstra maxThreads thread cancelAt).workers,
      w.Nonneg := by
  apply balancedParallelForNodes_nonneg
  intro w hw
  rw [List.eq_of_mem_replicate hw]
  refine ⟨nonnegEntries_replicate _, nonnegEntries_replicate _, ?_⟩
  unfold Betweenness.initialWorker
  cases C.computeEdgeCentrality
  · exact nonnegEntries_nil
  · exact nonnegEntries_replicate _

theorem reduceScores_nonneg (nodes : List Nat) :
    ∀ (ws : List Worker) (sd : List ℚ), (∀ w ∈ ws, w.Nonneg) → NonnegEntries sd →
      NonnegEntries (reduceScores nodes ws sd) := by
  intro ws
  induction ws with
  | nil => intro sd _ h; exact h
  | cons w ws ih =>
    intro sd hw h
    unfold reduceScores at ih ⊢
    rw [List.foldl_cons]
    apply ih _ (fun x hx => hw x (List.mem_cons_of_mem _ hx))
    exact foldl_nonnegEntries _
      (fun acc v hacc => nonnegEntries_addAt _ _ _ hacc
        ((hw w (List.mem_cons_self _ _)).2.1 v)) nodes sd h

theorem normalizeScores_nonneg (G : Graph) (sd : List ℚ) (h : NonnegEntries sd) :
    NonnegEntries (normalizeScores G sd) :=
  foldl_nonnegEntries _ (fun _ _ hacc => nonnegEntries_divAt _ _ _ hacc (Nat.cast_nonneg _))
    G.nodes sd h

/-- Every score stored by a run, cancelled or not, is nonnegative. -/
theorem run_scoreData_nonneg (C : Centrality) (bfs dijkstra : Nat → SSSP) (maxThreads : Nat)
    (thread : Nat → Nat) (cancelAt : Option Nat) :
    NonnegEntries (Betweenness.run C bfs dijkstra maxThreads thread cancelAt).1.scoreData := by
  have hred := reduceScores_nonneg C.G.nodes
    (Betweenness.parallelPhase C bfs dijkstra maxThreads thread cancelAt).workers
    (List.replicate C.G.upperNodeIdBound 0)
    (parallelPhase_nonneg C bfs dijkstra maxThreads thread cancelAt)
    (nonnegEntries_replicate _)
  unfold Betweenness.run
  simp only
  split
  · exact nonnegEntries_replicate _
  · split
    · exact nonnegEntries_replicate _
    · show NonnegEntries (if C.normalized then _ else _)
      split
      · exact normalizeScores_nonneg _ _ hred
      · exact hred

/-! ### The centralization index -/

theorem foldl_add_eq_sum (f : Nat → ℚ) :
    ∀ (l : List Nat) (init : ℚ), l.foldl (fun d v => d + f v) init = init + (l.map f).sum := by
  intro l
  induction l with
  | nil => intro init; simp
  | cons a l ih =>
    intro init
    rw [List.foldl_cons, ih, List.map_cons, List.sum_cons]
    ring

/-- The running maximum kept in `centerScore`: it bounds the start value and every score
seen, and it is the start value or one of the scores seen. -/
theorem foldl_center (f : Nat → ℚ) :
    ∀ (l : List Nat) (init : ℚ),
      init ≤ l.foldl (fun center v => if f v > center then f v else center) init ∧
      (∀ v ∈ l, f v ≤ l.foldl (fun center v => if f v > center then f v else center) init) ∧
      (l.foldl (fun center v => if f v > center then f v else center) init = init ∨
        ∃ v ∈ l, l.foldl (fun center v => if f v > center then f v else center) init = f v) := by
  intro l
  induction l with
  | nil => intro init; simp
  | cons a l ih =>
    intro init
    rw [List.foldl_cons]
    obtain ⟨h1, h2, h3⟩ := ih (if f a > init then f a else init)
    have hstep : init ≤ (if f a > init then f a else init) ∧
        f a ≤ (if f a > init then f a else init) := by
      split
      · exact ⟨le_of_lt ‹_›, le_refl _⟩
      · exact ⟨le_refl _, not_lt.mp ‹_›⟩
    refine ⟨le_trans hstep.1 h1, ?_, ?_⟩
    · intro v hv
      rcases List.mem_cons.mp hv with h | h
      · rw [h]; exact le_trans hstep.2 h1
      · exact h2 v h
    · rcases h3 with h | ⟨v, hv, h⟩
      · by_cases hgt : f a > init
        · right
          exact ⟨a, List.mem_cons_self _ _, by rw [h, if_pos hgt]⟩
        · left
          rw [h, if_neg hgt]
      · exact Or.inr ⟨v, List.mem_cons_of_mem _ hv, h⟩

/-- The value of `centralization()` on a store with nonnegative scores. -/
theorem centralization_of_nonneg (maximum : Centrality → Except Error ℚ) (C : Centrality)
    (m : ℚ) (hrun : C.hasRun = true) (hmax : maximum C = .ok m)
    (hnonneg : ∀ v ∈ C.G.nodes, 0 ≤ C.scoreData.getD v 0) :
    ∃ c : ℚ,
      C.centralization maximum =
        .ok (divDouble (C.G.nodes.map fun v => c - C.scoreData.getD v 0).sum
          (C.G.nodes.map fun v => m - C.scoreData.getD v 0).sum) ∧
      (∀ v ∈ C.G.nodes, C.scoreData.getD v 0 ≤ c) ∧
      (C.G.nodes ≠ [] → ∃ v ∈ C.G.nodes, c = C.scoreData.getD v 0) := by
  obtain ⟨h1, h2, h3⟩ := foldl_center (fun v => C.scoreData.getD v 0) C.G.nodes 0
  refine ⟨_, ?_, h2, ?_⟩
  · unfold Centrality.centralization Centrality.assureFinished
    rw [if_pos hrun]
    simp only [hmax]
    rw [foldl_add_eq_sum, foldl_add_eq_sum, zero_add, zero_add]
  · intro hne
    rcases h3 with h | h
    · obtain ⟨v, hv⟩ := List.exists_mem_of_ne_nil _ hne
      refine ⟨v, hv, ?_⟩
      have hle := h2 v hv
      rw [h] at hle ⊢
      exact le_antisymm (hnonneg v hv) hle
    · exact h

/-- With three or more nodes, fewer than `2 ^ 32`, the divisor of the normalization is not
zero. -/
theorem normalizationPairs_ne_zero (G : Graph) (hn : 2 < G.numberOfNodes)
    (hfit : G.numberOfNodes * (G.numberOfNodes - 1) < 2 ^ 64) : normalizationPairs G ≠ 0 := by
  have h := normalizationPairs_eq G hn hfit
  have hpos : 2 ≤ (G.numberOfNodes - 1) * (G.numberOfNodes - 2) := by
    have h1 : 2 ≤ G.numberOfNodes - 1 := by omega
    have h2 : 1 ≤ G.numberOfNodes - 2 := by omega
    calc 2 = 2 * 1 := rfl
      _ ≤ (G.numberOfNodes - 1) * (G.numberOfNodes - 2) := Nat.mul_le_mul h1 h2
  intro h0
  rw [h0] at h
  split at h <;> omega

/-- Claim C12. On the store left by a completed run of the betweenness engine (any earlier
state, any strategy outcomes, any workers, the divisor of the normalization not zero when
`normalized` is set, so that the scores are numbers), `centralization()` returns the sum over
the existing nodes of `centerScore - score(v)` divided by the sum over the existing nodes of
`maximum() - score(v)`, the division being that of `double`: the quotient when the divisor
is not zero, NaN for `0 / 0`. `centerScore` bounds the score of every existing node and,
when the graph has a node, is the score of one of them: it is the maximum score observed.
The score of an existing node is what `score(v)` returns. -/
theorem centralization_of_completed_run (C : Centrality) (bfs dijkstra : Nat → SSSP)
    (maxThreads : Nat) (thread : Nat → Nat)
    (hpairs : C.normalized = true → normalizationPairs C.G ≠ 0) :
    ∃ c m : ℚ,
      Betweenness.maximum (Betweenness.run C bfs dijkstra maxThreads thread none).1 = .ok m ∧
      (Betweenness.run C bfs dijkstra maxThreads thread none).1.centralization
          Betweenness.maximum =
        .ok (divDouble
          (C.G.nodes.map fun v =>
              c - (Betweenness.run C bfs dijkstra maxThreads thread
                none).1.scoreData.getD v 0).sum
          (C.G.nodes.map fun v =>
              m - (Betweenness.run C bfs dijkstra maxThreads thread
                none).1.scoreData.getD v 0).sum) ∧
      (∀ a b : ℚ, b ≠ 0 → divDouble a b = .finite (a / b)) ∧
      divDouble 0 0 = .nan ∧
      (C.normalized = true → ((normalizationPairs C.G : Nat) : ℚ) ≠ 0) ∧
      (∀ v ∈ C.G.nodes,
        (Betweenness.run C bfs dijkstra maxThreads thread none).1.score v =
          .ok ((Betweenness.run C bfs dijkstra maxThreads thread none).1.scoreData.getD v 0) ∧
        (Betweenness.run C bfs dijkstra maxThreads thread none).1.scoreData.getD v 0 ≤ c) ∧
      (C.G.nodes ≠ [] → ∃ v ∈ C.G.nodes,
        c = (Betweenness.run C bfs dijkstra maxThreads thread none).1.scoreData.getD v 0) := by
  have hG : (Betweenness.run C bfs dijkstra maxThreads thread none).1.G = C.G := by
    rw [run_not_cancelled]; rfl
  obtain ⟨m, hm⟩ : ∃ m,
      Betweenness.maximum (Betweenness.run C bfs dijkstra maxThreads thread none).1 = .ok m :=
    maximum_ok _
  obtain ⟨c, h1, h2, h3⟩ := centralization_of_nonneg Betweenness.maximum
    (Betweenness.run C bfs dijkstra maxThreads thread none).1 m
    (run_completes C bfs dijkstra maxThreads thread).2 hm
    (fun v _ => run_scoreData_nonneg C bfs dijkstra maxThreads thread none v)
  rw [hG] at h1 h2 h3
  refine ⟨c, m, hm, h1, fun a b hb => ?_, ?_, fun h => ?_, fun v hv => ⟨?_, h2 v hv⟩, h3⟩
  · unfold divDouble
    rw [if_neg hb]
  · unfold divDouble
    simp
  · exact_mod_cast hpairs h
  · exact score_eq_of_getD _ v (run_completes C bfs dijkstra maxThreads thread).2
      (by rw [run_scoreData_length]; exact mem_nodes_lt C.G v hv)

/-- Claim C12 at a concrete input: the path `0 - 1 - 2` with `normalized` set; the divisor of
the normalization is 1. -/
theorem centralization_of_completed_run_witness :
    normalizationPairs (Centrality.init (pathGraph 3) true false).G = 1 ∧
    ∃ c m : ℚ,
      Betweenness.maximum (Betweenness.run (Centrality.init (pathGraph 3) true false)
        (pathBFS 3) (pathBFS 3) 1 (fun _ => 0) none).1 = .ok m ∧
      (Betweenness.run (Centrality.init (pathGraph 3) true false) (pathBFS 3) (pathBFS 3) 1
          (fun _ => 0) none).1.centralization Betweenness.maximum =
        .ok (divDouble
          ((Centrality.init (pathGraph 3) true false).G.nodes.map fun v =>
              c - (Betweenness.run (Centrality.init (pathGraph 3) true false) (pathBFS 3)
                (pathBFS 3) 1 (fun _ => 0) none).1.scoreData.getD v 0).sum
          ((Centrality.init (pathGraph 3) true false).G.nodes.map fun v =>
              m - (Betweenness.run (Centrality.init (pathGraph 3) true false) (pathBFS 3)
                (pathBFS 3) 1 (fun _ => 0) none).1.scoreData.getD v 0).sum) :=
  ⟨by decide,
    match centralization_of_completed_run (Centrality.init (pathGraph 3) true false)
      (pathBFS 3) (pathBFS 3) 1 (fun _ => 0) (fun _ => by decide) with
    | ⟨c, m, h1, h2, _⟩ => ⟨c, m, h1, h2⟩⟩

/-- The centralization index at concrete inputs: on the cycle with four nodes all scores are
equal and the index is 0; on the path `0 - 1 - 2` the scores are `[0, 2, 0]`, `maximum()` is
1, and the index is `(2 + 0 + 2) / (1 - 1 + 1) = 4`; on the path graphs with two nodes, with
one node and with no node both sums are 0 and the index is NaN. -/
theorem centralization_examples :
    (Betweenness.run (Centrality.init cycleGraph false false) cycleBFS cycleBFS 2
      (fun s => s % 2) none).1.centralization Betweenness.maximum = .ok (.finite 0) ∧
    (Betweenness.run (Centrality.init (pathGraph 3) false false) (pathBFS 3) (pathBFS 3) 1
      (fun _ => 0) none).1.centralization Betweenness.maximum = .ok (.finite 4) ∧
    (Betweenness.run (Centrality.init (pathGraph 2) false false) (pathBFS 2) (pathBFS 2) 1
      (fun _ => 0) none).1.centralization Betweenness.maximum = .ok .nan ∧
    (Betweenness.run (Centrality.init (pathGraph 1) false false) (pathBFS 1) (pathBFS 1) 1
      (fun _ => 0) none).1.centralization Betweenness.maximum = .ok .nan ∧
    (Betweenness.run (Centrality.init (pathGraph 0) false false) (pathBFS 0) (pathBFS 0) 1
      (fun _ => 0) none).1.centralization Betweenness.maximum = .ok .nan ∧
    (Betweenness.run (Centrality.init (pathGraph 0) true false) (pathBFS 0) (pathBFS 0) 1
      (fun _ => 0) none).1.centralization Betweenness.maximum = .ok .nan ∧
    (Centrality.init cycleGraph false false).centralization Betweenness.maximum =
      .error .notRunError := by
  decide!

/-! ### The contribution of a source does not depend on the worker -/

theorem getD_addAt_congr (xs ys : List ℚ) (i j : Nat) (c d : ℚ) (hlen : xs.length = ys.length)
    (h : xs.getD j 0 = ys.getD j 0 + d) :
    (addAt xs i c).getD j 0 = (addAt ys i c).getD j 0 + d := by
  rw [getD_addAt, getD_addAt, hlen]
  split
  · rw [h]; ring
  · exact h

theorem predecessorLoop_shifted (G : Graph) (e : Bool) (sssp : SSSP) (t : Nat)
    (a b : Nat → ℚ) :
    ∀ (ps : List Nat) (w w' : Worker), Shifted a b w w' →
      Shifted a b (predecessorLoop G e sssp t ps w) (predecessorLoop G e sssp t ps w') := by
  intro ps
  induction ps with
  | nil => intro w w' h; exact h
  | cons p ps ih =>
    intro w w' h
    obtain ⟨hd, hsl, hel, hs, he⟩ := h
    simp only [predecessorLoop]
    apply ih
    refine ⟨by simp only [hd], hsl, ?_, hs, ?_⟩
    · cases e <;> simp [length_addAt, hel]
    · intro i
      cases e
      · simpa using he i
      · simp only [if_true, hd]
        exact getD_addAt_congr _ _ _ _ _ _ hel (he i)

theorem afterPop_shifted (G : Graph) (e : Bool) (sssp : SSSP) (s t : Nat) (a b : Nat → ℚ)
    (w w' : Worker) (h : Shifted a b w w') :
    Shifted a b (afterPop G e sssp s t w) (afterPop G e sssp s t w') := by
  have h1 := predecessorLoop_shifted G e sssp t a b (sssp.getPredecessors t) w w' h
  obtain ⟨hd, hsl, hel, hs, he⟩ := h1
  unfold afterPop
  by_cases hts : t = s
  · simp only [hts, ne_eq, not_true_eq_false, if_false]
    rw [hts] at hd hsl hel hs he
    exact ⟨hd, hsl, hel, hs, he⟩
  · simp only [ne_eq, hts, not_false_eq_true, if_true]
    refine ⟨hd, by simp [length_addAt, hsl], hel, ?_, he⟩
    intro i
    rw [hd]
    exact getD_addAt_congr _ _ _ _ _ _ hsl (hs i)

theorem stackLoop_shifted (G : Graph) (e : Bool) (sssp : SSSP) (s : Nat) (a b : Nat → ℚ) :
    ∀ (R : List Nat) (w w' : Worker) (ls ls' : List ℚ), Shifted a b w w' →
      Shifted a b (stackLoop G e sssp s R (w, ls)).1 (stackLoop G e sssp s R (w', ls')).1 := by
  intro R
  induction R with
  | nil => intro w w' _ _ h; exact h
  | cons t R ih =>
    intro w w' ls ls' h
    obtain ⟨l1, h1⟩ := stackLoop_cons_fst G e sssp s t R w ls
    obtain ⟨l2, h2⟩ := stackLoop_cons_fst G e sssp s t R w' ls'
    rw [h1, h2]
    exact ih _ _ l1 l2 (afterPop_shifted G e sssp s t a b w w' h)

/-- The loop body adds the same values to the score and edge-score buffers of any two workers
with buffers of the same sizes: the dependency buffer is reset first. -/
theorem computeDependencies_shifted (G : Graph) (e : Bool) (sssp : SSSP) (r1 r2 : Bool)
    (s : Nat) (a b : Nat → ℚ) (w w' : Worker) (ls ls' : List ℚ)
    (hdl : w.dependency.length = w'.dependency.length)
    (hsl : w.scorePerThread.length = w'.scorePerThread.length)
    (hel : w.edgeScorePerThread.length = w'.edgeScorePerThread.length)
    (hs : ∀ i, w.scorePerThread.getD i 0 = w'.scorePerThread.getD i 0 + a i)
    (he : ∀ i, w.edgeScorePerThread.getD i 0 = w'.edgeScorePerThread.getD i 0 + b i) :
    Shifted a b (computeDependencies G e sssp r1 r2 s (w, ls)).1
      (computeDependencies G e sssp r1 r2 s (w', ls')).1 := by
  have h0 : Shifted a b { w with dependency := List.replicate w.dependency.length 0 }
      { w' with dependency := List.replicate w'.dependency.length 0 } :=
    ⟨by simp only [hdl], hsl, hel, hs, he⟩
  unfold computeDependencies
  cases r1
  · exact h0
  · cases r2
    · exact h0
    · exact stackLoop_shifted G e sssp s a b _ _ _ ls ls' h0

/-- The score and edge-score buffers of a worker after the loop body for source `s`. -/
theorem computeDependencies_contribution (G : Graph) (e : Bool) (sssp : SSSP) (s z z2 : Nat)
    (w : Worker) (ls : List ℚ) (hdl : w.dependency.length = z)
    (hsl : w.scorePerThread.length = z) (hel : w.edgeScorePerThread.length = z2) :
    (∀ i, (computeDependencies G e sssp true true s (w, ls)).1.scorePerThread.getD i 0 =
      w.scorePerThread.getD i 0 + scoreContribution G e sssp s z z2 i) ∧
    (∀ i, (computeDependencies G e sssp true true s (w, ls)).1.edgeScorePerThread.getD i 0 =
      w.edgeScorePerThread.getD i 0 + edgeContribution G e sssp s z z2 i) := by
  have h := computeDependencies_shifted G e sssp true true s
    (fun i => w.scorePerThread.getD i 0) (fun i => w.edgeScorePerThread.getD i 0)
    w (zeroWorker z z2) ls []
    (by simp [zeroWorker, hdl]) (by simp [zeroWorker, hsl]) (by simp [zeroWorker, hel])
    (fun i => by simp only [zeroWorker, getD_replicate_zero, zero_add])
    (fun i => by simp only [zeroWorker, getD_replicate_zero, zero_add])
  obtain ⟨_, _, _, hs, he⟩ := h
  refine ⟨fun i => ?_, fun i => ?_⟩
  · rw [hs i]; unfold scoreContribution; ring
  · rw [he i]; unfold edgeContribution; ring

/-! ### Buffer sizes -/

theorem predecessorLoop_edge_length (G : Graph) (e : Bool) (sssp : SSSP) (t : Nat) :
    ∀ (ps : List Nat) (w : Worker),
      (predecessorLoop G e sssp t ps w).edgeScorePerThread.length =
        w.edgeScorePerThread.length := by
  intro ps
  induction ps with
  | nil => intro w; rfl
  | cons p ps ih =>
    intro w
    simp only [predecessorLoop]
    rw [ih]
    cases e <;> simp [length_addAt]

theorem afterPop_edge_length (G : Graph) (e : Bool) (sssp : SSSP) (s t : Nat) (w : Worker) :
    (afterPop G e sssp s t w).edgeScorePerThread.length = w.edgeScorePerThread.length := by
  unfold afterPop
  by_cases h : t = s <;> simp [h, predecessorLoop_edge_length]

theorem stackLoop_edge_length (G : Graph) (e : Bool) (sssp : SSSP) (s : Nat) :
    ∀ (R : List Nat) (w : Worker) (ls : List ℚ),
      (stackLoop G e sssp s R (w, ls)).1.edgeScorePerThread.length =
        w.edgeScorePerThread.length := by
  intro R
  induction R with
  | nil => intro w ls; rfl
  | cons t R ih =>
    intro w ls
    obtain ⟨ls1, h⟩ := stackLoop_cons_fst G e sssp s t R w ls
    rw [h, ih, afterPop_edge_length]

theorem computeDependencies_edge_length (G : Graph) (e : Bool) (sssp : SSSP) (r1 r2 : Bool)
    (s : Nat) (w : Worker) (ls : List ℚ) :
    (computeDependencies G e sssp r1 r2 s (w, ls)).1.edgeScorePerThread.length =
      w.edgeScorePerThread.length := by
  unfold computeDependencies
  cases r1 <;> cases r2 <;> simp [stackLoop_edge_length]

theorem onWorker_sizedE (z z2 : Nat) (st : RunState) (i : Nat)
    (body : Worker × List ℚ → Worker × List ℚ)
    (hbody : ∀ w ls, (body (w, ls)).1.dependency.length = w.dependency.length ∧
      (body (w, ls)).1.scorePerThread.length = w.scorePerThread.length ∧
      (body (w, ls)).1.edgeScorePerThread.length = w.edgeScorePerThread.length)
    (h : WorkersSizedE z z2 st.workers) :
    WorkersSizedE z z2 (st.onWorker i body).workers ∧
      (st.onWorker i body).workers.length = st.workers.length := by
  unfold RunState.onWorker
  cases hw : st.workers.get? i with
  | none => exact ⟨h, rfl⟩
  | some w =>
    simp only
    refine ⟨?_, by simp⟩
    intro x hx
    rcases mem_set_cases _ _ _ _ hx with h1 | h1
    · have hwm : w ∈ st.workers := List.get?_mem hw
      rw [h1, (hbody w st.lengthScaled).1, (hbody w st.lengthScaled).2.1,
        (hbody w st.lengthScaled).2.2]
      exact h w hwm
    · exact h x h1

theorem computeDependencies_sizes (G : Graph) (e : Bool) (sssp : SSSP) (r1 r2 : Bool)
    (s : Nat) (w : Worker) (ls : List ℚ) :
    (computeDependencies G e sssp r1 r2 s (w, ls)).1.dependency.length = w.dependency.length ∧
    (computeDependencies G e sssp r1 r2 s (w, ls)).1.scorePerThread.length =
      w.scorePerThread.length ∧
    (computeDependencies G e sssp r1 r2 s (w, ls)).1.edgeScorePerThread.length =
      w.edgeScorePerThread.length :=
  ⟨(computeDependencies_lengths G e sssp r1 r2 s w ls).1,
    (computeDependencies_lengths G e sssp r1 r2 s w ls).2,
    computeDependencies_edge_length G e sssp r1 r2 s w ls⟩

theorem balancedParallelForNodes_sizedE (G : Graph) (e : Bool) (strategy : Nat → SSSP)
    (thread : Nat → Nat) (cancelAt : Option Nat) (z z2 : Nat) :
    ∀ (sources : List Nat) (poll : Nat) (st : RunState), WorkersSizedE z z2 st.workers →
      WorkersSizedE z z2
          (balancedParallelForNodes G e strategy thread cancelAt sources poll st).workers ∧
        (balancedParallelForNodes G e strategy thread cancelAt sources poll st).workers.length =
          st.workers.length := by
  intro sources
  induction sources with
  | nil => intro _ st h; exact ⟨h, rfl⟩
  | cons s sources ih =>
    intro poll st h
    have h1 := onWorker_sizedE z z2 st (thread s)
      (computeDependencies G e (strategy s) (isRunning cancelAt poll)
        (isRunning cancelAt (poll + 1)) s)
      (fun w ls => computeDependencies_sizes G e (strategy s) _ _ s w ls) h
    have h2 := ih (poll + 2) _ h1.1
    exact ⟨h2.1, h2.2.trans h1.2⟩

/-! ### The thread-local values after the parallel loop -/

theorem onWorker_sum (f : Worker → ℚ) (st : RunState) (i : Nat)
    (body : Worker × List ℚ → Worker × List ℚ) (w : Worker)
    (hw : st.workers.get? i = some w) (d : ℚ)
    (hbody : f (body (w, st.lengthScaled)).1 = f w + d) :
    ((st.onWorker i body).workers.map f).sum = (st.workers.map f).sum + d := by
  unfold RunState.onWorker
  rw [hw]
  simp only
  rw [sum_map_set _ _ w _ _ hw, hbody]
  ring

/-- Without cancellation the thread-local scores and edge scores grow by the contribution of
every source, whatever worker handles which source. -/
theorem balancedParallelForNodes_totals (G : Graph) (e : Bool) (strategy : Nat → SSSP)
    (thread : Nat → Nat) (z z2 : Nat) (i : Nat) :
    ∀ (sources : List Nat) (poll : Nat) (st : RunState),
      WorkersSizedE z z2 st.workers →
      (∀ s ∈ sources, thread s < st.workers.length) →
      totalScore (balancedParallelForNodes G e strategy thread none sources poll st).workers i =
        totalScore st.workers i +
          (sources.map fun s => scoreContribution G e (strategy s) s z z2 i).sum ∧
      totalEdgeScore
          (balancedParallelForNodes G e strategy thread none sources poll st).workers i =
        totalEdgeScore st.workers i +
          (sources.map fun s => edgeContribution G e (strategy s) s z z2 i).sum := by
  intro sources
  induction sources with
  | nil => intro _ st _ _; simp [balancedParallelForNodes]
  | cons s sources ih =>
    intro poll st hsz hthr
    have hlt : thread s < st.workers.length := hthr s (List.mem_cons_self _ _)
    obtain ⟨w, hw⟩ : ∃ w, st.workers.get? (thread s) = some w :=
      ⟨_, List.get?_eq_get hlt⟩
    have hwm : w ∈ st.workers := List.get?_mem hw
    have hsized := onWorker_sizedE z z2 st (thread s)
      (computeDependencies G e (strategy s) true true s)
      (fun w ls => computeDependencies_sizes G e (strategy s) _ _ s w ls) hsz
    have hc := computeDependencies_contribution G e (strategy s) s z z2 w st.lengthScaled
      (hsz w hwm).1 (hsz w hwm).2.1 (hsz w hwm).2.2
    have ih' := ih (poll + 2) _ hsized.1
      (fun s' hs' => by rw [hsized.2]; exact hthr s' (List.mem_cons_of_mem _ hs'))
    rw [balancedParallelForNodes, isRunning_none, isRunning_none]
    refine ⟨?_, ?_⟩
    · rw [ih'.1]
      unfold totalScore
      rw [onWorker_sum (fun w => w.scorePerThread.getD i 0) st (thread s) _ w hw _ (hc.1 i)]
      simp only [List.map_cons, List.sum_cons]
      ring
    · rw [ih'.2]
      unfold totalEdgeScore
      rw [onWorker_sum (fun w => w.edgeScorePerThread.getD i 0) st (thread s) _ w hw _
        (hc.2 i)]
      simp only [List.map_cons, List.sum_cons]
      ring

theorem initialWorkers_sizedE (C : Centrality) (maxThreads : Nat) :
    WorkersSizedE C.G.upperNodeIdBound
      (if C.computeEdgeCentrality then C.G.upperEdgeIdBound else 0)
      (List.replicate maxThreads (Betweenness.initialWorker C)) := by
  intro w hw
  rw [List.eq_of_mem_replicate hw]
  refine ⟨List.length_replicate _ _, List.length_replicate _ _, ?_⟩
  unfold Betweenness.initialWorker
  cases C.computeEdgeCentrality <;> simp

theorem totalEdgeScore_initialWorkers (C : Centrality) (maxThreads i : Nat) :
    totalEdgeScore (List.replicate maxThreads (Betweenness.initialWorker C)) i = 0 := by
  unfold totalEdgeScore
  apply List.sum_eq_zero
  intro x hx
  obtain ⟨w, hw, rfl⟩ := List.mem_map.mp hx
  rw [List.eq_of_mem_replicate hw]
  unfold Betweenness.initialWorker
  cases C.computeEdgeCentrality
  · simp
  · simp only [if_true]; exact getD_replicate_zero _ _

/-- The thread-local values after the parallel phase of a run that is not cancelled. -/
theorem parallelPhase_totals (C : Centrality) (bfs dijkstra : Nat → SSSP) (maxThreads : Nat)
    (thread : Nat → Nat) (hthr : ∀ s ∈ C.G.nodes, thread s < maxThreads) (i : Nat) :
    totalScore (Betweenness.parallelPhase C bfs dijkstra maxThreads thread none).workers i =
      (C.G.nodes.map fun s =>
        scoreContribution C.G C.computeEdgeCentrality (Betweenness.strategy C.G bfs dijkstra s)
          s C.G.upperNodeIdBound
          (if C.computeEdgeCentrality then C.G.upperEdgeIdBound else 0) i).sum ∧
    totalEdgeScore (Betweenness.parallelPhase C bfs dijkstra maxThreads thread none).workers i =
      (C.G.nodes.map fun s =>
        edgeContribution C.G C.computeEdgeCentrality (Betweenness.strategy C.G bfs dijkstra s)
          s C.G.upperNodeIdBound
          (if C.computeEdgeCentrality then C.G.upperEdgeIdBound else 0) i).sum := by
  have h := balancedParallelForNodes_totals C.G C.computeEdgeCentrality
    (Betweenness.strategy C.G bfs dijkstra) thread C.G.upperNodeIdBound
    (if C.computeEdgeCentrality then C.G.upperEdgeIdBound else 0) i C.G.nodes 1
    { workers := List.replicate maxThreads (Betweenness.initialWorker C)
      lengthScaled := List.replicate C.G.upperNodeIdBound 0 }
    (initialWorkers_sizedE C maxThreads)
    (fun s hs => by
      show thread s < (List.replicate maxThreads (Betweenness.initialWorker C)).length
      rw [List.length_replicate]; exact hthr s hs)
  unfold Betweenness.parallelPhase
  refine ⟨?_, ?_⟩
  · rw [h.1]
    show totalScore (List.replicate maxThreads (Betweenness.initialWorker C)) i + _ = _
    rw [totalScore_initialWorkers, zero_add]
  · rw [h.2]
    show totalEdgeScore (List.replicate maxThreads (Betweenness.initialWorker C)) i + _ = _
    rw [totalEdgeScore_initialWorkers, zero_add]

theorem parallelPhase_sizedE (C : Centrality) (bfs dijkstra : Nat → SSSP) (maxThreads : Nat)
    (thread : Nat → Nat) (cancelAt : Option Nat) :
    WorkersSizedE C.G.upperNodeIdBound
      (if C.computeEdgeCentrality then C.G.upperEdgeIdBound else 0)
      (Betweenness.parallelPhase C bfs dijkstra maxThreads thread cancelAt).workers :=
  (balancedParallelForNodes_sizedE C.G C.computeEdgeCentrality _ thread cancelAt _ _
    C.G.nodes 1 _ (initialWorkers_sizedE C maxThreads)).1

/-! ### The reduction of the edge scores -/

theorem addLocalEdgeScores_length (local_ ed : List ℚ) :
    (addLocalEdgeScores local_ ed).length = ed.length :=
  addLocalScores_length local_ (List.range local_.length) ed

theorem addLocalEdgeScores_getD (local_ ed : List ℚ) (hl : local_.length ≤ ed.length)
    (i : Nat) :
    (addLocalEdgeScores local_ ed).getD i 0 = ed.getD i 0 + local_.getD i 0 := by
  have h := addLocalScores_getD local_ i (List.range local_.length) ed (List.nodup_range _)
    (fun u hu => Nat.lt_of_lt_of_le (List.mem_range.mp hu) hl)
  have heq : addLocalEdgeScores local_ ed = addLocalScores (List.range local_.length) local_ ed :=
    rfl
  rw [heq, h]
  by_cases hi : i < local_.length
  · rw [if_pos (List.mem_range.mpr hi)]
  · rw [if_neg (fun hm => hi (List.mem_range.mp hm)),
      List.getD_eq_default _ _ (Nat.le_of_not_lt hi)]

theorem reduceEdgeScores_length (ws : List Worker) (ed : List ℚ) :
    (reduceEdgeScores ws ed).length = ed.length :=
  foldl_length_of_step _ (fun _ _ => addLocalEdgeScores_length _ _) ws ed

theorem reduceEdgeScores_getD (i : Nat) :
    ∀ (ws : List Worker) (ed : List ℚ),
      (∀ w ∈ ws, w.edgeScorePerThread.length ≤ ed.length) →
      (reduceEdgeScores ws ed).getD i 0 = ed.getD i 0 + totalEdgeScore ws i := by
  intro ws
  induction ws with
  | nil => intro ed _; simp [totalEdgeScore, reduceEdgeScores]
  | cons w ws ih =>
    intro ed hl
    unfold reduceEdgeScores at ih ⊢
    rw [List.foldl_cons, ih _ (fun u hu => by
      rw [addLocalEdgeScores_length]; exact hl u (List.mem_cons_of_mem _ hu)),
      addLocalEdgeScores_getD _ _ (hl w (List.mem_cons_self _ _))]
    simp only [totalEdgeScore, List.map_cons, List.sum_cons]
    ring

theorem normalizeEdgeScores_length (G : Graph) (ed : List ℚ) :
    (normalizeEdgeScores G ed).length = ed.length :=
  foldl_length_of_step _ (fun _ _ => divAt_length _ _ _) _ ed

/-- Two vectors of the same length with the same entries are equal. -/
theorem ext_of_getD (xs ys : List ℚ) (hl : xs.length = ys.length)
    (h : ∀ i, xs.getD i 0 = ys.getD i 0) : xs = ys := by
  apply List.ext_getElem hl
  intro i h1 h2
  have := h i
  rwa [List.getD_eq_getElem _ _ h1, List.getD_eq_getElem _ _ h2] at this

/-- The reduced scores of a run that is not cancelled: the sum of the contributions of all
sources. -/
theorem reduced_score_contributions (C : Centrality) (bfs dijkstra : Nat → SSSP)
    (maxThreads : Nat) (thread : Nat → Nat) (hthr : ∀ s ∈ C.G.nodes, thread s < maxThreads)
    (v : Nat) :
    (reduceScores C.G.nodes
        (Betweenness.parallelPhase C bfs dijkstra maxThreads thread none).workers
        (List.replicate C.G.upperNodeIdBound 0)).getD v 0 =
      if v ∈ C.G.nodes then
        (C.G.nodes.map fun s =>
          scoreContribution C.G C.computeEdgeCentrality
            (Betweenness.strategy C.G bfs dijkstra s) s C.G.upperNodeIdBound
            (if C.computeEdgeCentrality then C.G.upperEdgeIdBound else 0) v).sum
      else 0 := by
  rw [reduceScores_getD C.G.nodes (nodes_nodup C.G) v _ _ (fun u hu => by
    rw [List.length_replicate]; exact mem_nodes_lt C.G u hu), getD_replicate_zero, zero_add,
    (parallelPhase_totals C bfs dijkstra maxThreads thread hthr v).1]

/-- The reduced edge scores of a run that is not cancelled: the sum of the contributions of
all sources. -/
theorem reduced_edge_contributions (C : Centrality) (bfs dijkstra : Nat → SSSP)
    (maxThreads : Nat) (thread : Nat → Nat) (hthr : ∀ s ∈ C.G.nodes, thread s < maxThreads)
    (hedge : C.computeEdgeCentrality = true) (i : Nat) :
    (reduceEdgeScores
        (Betweenness.parallelPhase C bfs dijkstra maxThreads thread none).workers
        (List.replicate C.G.upperEdgeIdBound 0)).getD i 0 =
      (C.G.nodes.map fun s =>
        edgeContribution C.G true (Betweenness.strategy C.G bfs dijkstra s) s
          C.G.upperNodeIdBound C.G.upperEdgeIdBound i).sum := by
  have hsz := parallelPhase_sizedE C bfs dijkstra maxThreads thread none
  have ht := (parallelPhase_totals C bfs dijkstra maxThreads thread hthr i).2
  rw [hedge] at hsz ht
  simp only [if_true] at hsz ht
  rw [reduceEdgeScores_getD i _ _ (fun w hw => by
    rw [List.length_replicate, (hsz w hw).2.2]), getD_replicate_zero, zero_add, ht]

theorem run_scoreData_eq (C : Centrality) (bfs dijkstra : Nat → SSSP) (maxThreads : Nat)
    (thread : Nat → Nat) :
    (Betweenness.run C bfs dijkstra maxThreads thread none).1.scoreData =
      if C.normalized then
        normalizeScores C.G (reduceScores C.G.nodes
          (Betweenness.parallelPhase C bfs dijkstra maxThreads thread none).workers
          (List.replicate C.G.upperNodeIdBound 0))
      else
        reduceScores C.G.nodes
          (Betweenness.parallelPhase C bfs dijkstra maxThreads thread none).workers
          (List.replicate C.G.upperNodeIdBound 0) := by
  rw [run_not_cancelled]
  rfl

theorem run_edgeScoreData_of_disabled (C : Centrality) (bfs dijkstra : Nat → SSSP)
    (maxThreads : Nat) (thread : Nat → Nat) (cancelAt : Option Nat)
    (hedge : C.computeEdgeCentrality = false) :
    (Betweenness.run C bfs dijkstra maxThreads thread cancelAt).1.edgeScoreData =
      C.edgeScoreData := by
  unfold Betweenness.run
  simp only
  split
  · simp [Betweenness.allocate, hedge]
  · split
    · simp [Betweenness.allocate, hedge]
    · simp [finishRun, Betweenness.allocate, hedge]

/-- The reduced score vector does not depend on the number of workers or on the assignment
of the sources. -/
theorem reduceScores_workers (C : Centrality) (bfs dijkstra : Nat → SSSP)
    (maxThreads : Nat) (thread : Nat → Nat) (hthr : ∀ s ∈ C.G.nodes, thread s < maxThreads) :
    reduceScores C.G.nodes
        (Betweenness.parallelPhase C bfs dijkstra maxThreads thread none).workers
        (List.replicate C.G.upperNodeIdBound 0) =
      reduceScores C.G.nodes
        (Betweenness.parallelPhase C bfs dijkstra 1 (fun _ => 0) none).workers
        (List.replicate C.G.upperNodeIdBound 0) := by
  apply ext_of_getD
  · rw [reduceScores_length, reduceScores_length]
  · intro i
    rw [reduced_score_contributions C bfs dijkstra maxThreads thread hthr,
      reduced_score_contributions C bfs dijkstra 1 (fun _ => 0) (fun _ _ => Nat.zero_lt_one)]

theorem reduceEdgeScores_workers (C : Centrality) (bfs dijkstra : Nat → SSSP)
    (maxThreads : Nat) (thread : Nat → Nat) (hthr : ∀ s ∈ C.G.nodes, thread s < maxThreads)
    (hedge : C.computeEdgeCentrality = true) :
    reduceEdgeScores
        (Betweenness.parallelPhase C bfs dijkstra maxThreads thread none).workers
        (List.replicate C.G.upperEdgeIdBound 0) =
      reduceEdgeScores
        (Betweenness.parallelPhase C bfs dijkstra 1 (fun _ => 0) none).workers
        (List.replicate C.G.upperEdgeIdBound 0) := by
  apply ext_of_getD
  · rw [reduceEdgeScores_length, reduceEdgeScores_length]
  · intro i
    rw [reduced_edge_contributions C bfs dijkstra maxThreads thread hthr hedge,
      reduced_edge_contributions C bfs dijkstra 1 (fun _ => 0) (fun _ _ => Nat.zero_lt_one)
        hedge]

/-- Claim C13. With any number of workers and any assignment `thread` of the sources to the
workers (every source is handled by one of the `maxThreads` workers), a run that is not
cancelled stores exactly the node scores and edge scores that a run with a single worker
handling all sources stores. The loop body resets the dependency buffer first: for two
workers whose buffers have the same sizes, whatever they hold from earlier sources, the body
leaves the same dependency values and adds the same amounts to the score and edge-score
buffers. -/
theorem run_independent_of_workers (C : Centrality) (bfs dijkstra : Nat → SSSP)
    (maxThreads : Nat) (thread : Nat → Nat)
    (hthr : ∀ s ∈ C.G.nodes, thread s < maxThreads) :
    (Betweenness.run C bfs dijkstra maxThreads thread none).1.scoreData =
      (Betweenness.run C bfs dijkstra 1 (fun _ => 0) none).1.scoreData ∧
    (Betweenness.run C bfs dijkstra maxThreads thread none).1.edgeScoreData =
      (Betweenness.run C bfs dijkstra 1 (fun _ => 0) none).1.edgeScoreData ∧
    (∀ (sssp : SSSP) (s : Nat) (w w' : Worker) (ls ls' : List ℚ),
      w.dependency.length = w'.dependency.length →
      w.scorePerThread.length = w'.scorePerThread.length →
      w.edgeScorePerThread.length = w'.edgeScorePerThread.length →
      (computeDependencies C.G C.computeEdgeCentrality sssp true true s (w, ls)).1.dependency =
        (computeDependencies C.G C.computeEdgeCentrality sssp true true s
          (w', ls')).1.dependency ∧
      (∀ i,
        (computeDependencies C.G C.computeEdgeCentrality sssp true true s
            (w, ls)).1.scorePerThread.getD i 0 - w.scorePerThread.getD i 0 =
          (computeDependencies C.G C.computeEdgeCentrality sssp true true s
            (w', ls')).1.scorePerThread.getD i 0 - w'.scorePerThread.getD i 0) ∧
      (∀ i,
        (computeDependencies C.G C.computeEdgeCentrality sssp true true s
            (w, ls)).1.edgeScorePerThread.getD i 0 - w.edgeScorePerThread.getD i 0 =
          (computeDependencies C.G C.computeEdgeCentrality sssp true true s
            (w', ls')).1.edgeScorePerThread.getD i 0 - w'.edgeScorePerThread.getD i 0)) := by
  refine ⟨?_, ?_, ?_⟩
  · rw [run_scoreData_eq, run_scoreData_eq, reduceScores_workers C bfs dijkstra maxThreads
      thread hthr]
  · cases hedge : C.computeEdgeCentrality
    · rw [run_edgeScoreData_of_disabled _ _ _ _ _ _ hedge,
        run_edgeScoreData_of_disabled _ _ _ _ _ _ hedge]
    · rw [run_edgeScoreData _ _ _ _ _ hedge, run_edgeScoreData _ _ _ _ _ hedge,
        reduceEdgeScores_workers C bfs dijkstra maxThreads thread hthr hedge]
  · intro sssp s w w' ls ls' hdl hsl hel
    have h := computeDependencies_shifted C.G C.computeEdgeCentrality sssp true true s
      (fun i => w.scorePerThread.getD i 0 - w'.scorePerThread.getD i 0)
      (fun i => w.edgeScorePerThread.getD i 0 - w'.edgeScorePerThread.getD i 0)
      w w' ls ls' hdl hsl hel (fun i => by ring) (fun i => by ring)
    obtain ⟨hd, _, _, hs, he⟩ := h
    refine ⟨hd, fun i => ?_, fun i => ?_⟩
    · rw [hs i]; ring
    · rw [he i]; ring

/-- Claim C13 at a concrete input: the cycle on four nodes with two workers, sources
assigned by parity, against a single worker. -/
theorem run_independent_of_workers_witness :
    (∀ s ∈ (Centrality.init cycleGraph false true).G.nodes, s % 2 < 2) ∧
    (Betweenness.run (Centrality.init cycleGraph false true) cycleBFS cycleBFS 2
      (fun s => s % 2) none).1.scoreData = [1, 1, 1, 1] ∧
    (Betweenness.run (Centrality.init cycleGraph false true) cycleBFS cycleBFS 2
      (fun s => s % 2) none).1.scoreData =
      (Betweenness.run (Centrality.init cycleGraph false true) cycleBFS cycleBFS 1
        (fun _ => 0) none).1.scoreData ∧
    (Betweenness.run (Centrality.init cycleGraph false true) cycleBFS cycleBFS 2
      (fun s => s % 2) none).1.edgeScoreData =
      (Betweenness.run (Centrality.init cycleGraph false true) cycleBFS cycleBFS 1
        (fun _ => 0) none).1.edgeScoreData :=
  ⟨by decide, by decide!,
    (run_independent_of_workers (Centrality.init cycleGraph false true) cycleBFS cycleBFS 2
      (fun s => s % 2) (by decide)).1,
    (run_independent_of_workers (Centrality.init cycleGraph false true) cycleBFS cycleBFS 2
      (fun s => s % 2) (by decide)).2.1⟩

/-! #### One level of the wavefront -/

theorem level_G (T : DynBFS) (m : Nat) : (T.level m).G = T.G := rfl

theorem level_source (T : DynBFS) (m : Nat) : (T.level m).source = T.source := rfl

theorem level_distances (T : DynBFS) (m v : Nat) :
    (T.level m).distances v = if T.finalizes m v then some m else T.distances v := rfl

theorem level_previous (T : DynBFS) (m v : Nat) :
    (T.level m).previous v =
      if T.finalizes m v then T.predecessorsAt m v else T.previous v := by
  cases m <;> rfl

theorem finalize_color_of (T : DynBFS) (m v : Nat) (h : T.finalizes m v) :
    (T.finalize m).color v = .black := by
  have h' : T.color v = .gray ∧ T.reaches m v = true := h
  show (if T.color v = .gray ∧ T.reaches m v = true then Color.black else T.color v) = _
  rw [if_pos h']

theorem level_color (T : DynBFS) (m v : Nat) :
    (T.level m).color v =
      if (T.finalize m).color v = .white ∧ (T.finalize m).beyond m v = true ∧
          ((T.finalize m).G.inNeighbors v).any (T.changed (T.finalize m) m) = true then .gray
      else (T.finalize m).color v := rfl

/-- A node that is finalized at level `m` becomes black with distance `m`. -/
theorem level_of_finalizes (T : DynBFS) (m v : Nat) (h : T.finalizes m v) :
    (T.level m).color v = .black ∧ (T.level m).distances v = some m ∧
      (T.level m).previous v = T.predecessorsAt m v := by
  refine ⟨?_, ?_, ?_⟩
  · rw [level_color, finalize_color_of T m v h]
    simp
  · rw [level_distances, if_pos h]
  · rw [level_previous, if_pos h]

theorem finalize_color_of_not (T : DynBFS) (m v : Nat) (h : ¬ T.finalizes m v) :
    (T.finalize m).color v = T.color v := by
  have h' : ¬ (T.color v = .gray ∧ T.reaches m v = true) := h
  show (if T.color v = .gray ∧ T.reaches m v = true then Color.black else T.color v) = _
  rw [if_neg h']

theorem finalize_distances_of_not (T : DynBFS) (m v : Nat) (h : ¬ T.finalizes m v) :
    (T.finalize m).distances v = T.distances v := by
  have h' : ¬ (T.color v = .gray ∧ T.reaches m v = true) := h
  show (if T.color v = .gray ∧ T.reaches m v = true then some m else T.distances v) = _
  rw [if_neg h']

/-- A node that is not finalized at level `m` keeps its distance and its predecessors; a
black node stays black, a gray node stays gray, and a white node becomes gray exactly when
it is marked. -/
theorem level_of_not_finalizes (T : DynBFS) (m v : Nat) (h : ¬ T.finalizes m v) :
    (T.level m).distances v = T.distances v ∧ (T.level m).previous v = T.previous v ∧
    (T.color v = .black → (T.level m).color v = .black) ∧
    (T.color v = .gray → (T.level m).color v = .gray) ∧
    (T.color v = .white →
      ((T.marks m v → (T.level m).color v = .gray) ∧
        (¬ T.marks m v → (T.level m).color v = .white))) := by
  have hc := finalize_color_of_not T m v h
  have hd := finalize_distances_of_not T m v h
  have hcol := level_color T m v
  have hb : (T.finalize m).beyond m v = T.beyond m v := by
    unfold DynBFS.beyond
    rw [hd]
  refine ⟨by rw [level_distances, if_neg h], by rw [level_previous, if_neg h], ?_, ?_, ?_⟩
  · intro hblack
    rw [hcol, hc, hblack]
    simp
  · intro hgray
    rw [hcol, hc, hgray]
    simp
  · intro hwhite
    rw [hcol, hc, hb, hwhite]
    constructor
    · intro hm
      rw [if_pos ⟨rfl, hm.1, List.any_eq_true.mpr hm.2⟩]
    · intro hm
      rw [if_neg]
      intro hcond
      exact hm ⟨hcond.2.1, List.any_eq_true.mp hcond.2.2⟩

/-- The colours after a level: black nodes are the black nodes and the finalized nodes. -/
theorem level_black_iff (T : DynBFS) (m v : Nat) :
    (T.level m).color v = .black ↔ T.color v = .black ∨ T.finalizes m v := by
  by_cases h : T.finalizes m v
  · exact ⟨fun _ => Or.inr h, fun _ => (level_of_finalizes T m v h).1⟩
  · obtain ⟨_, _, hb, hg, hw⟩ := level_of_not_finalizes T m v h
    constructor
    · intro hblack
      left
      cases hcol : T.color v with
      | black => rfl
      | gray => rw [hg hcol] at hblack; cases hblack
      | white =>
        by_cases hm : T.marks m v
        · rw [(hw hcol).1 hm] at hblack; cases hblack
        · rw [(hw hcol).2 hm] at hblack; cases hblack
    · rintro (hblack | hf)
      · exact hb hblack
      · exact absurd hf h

theorem level_white (T : DynBFS) (m v : Nat) (h : (T.level m).color v = .white) :
    T.color v = .white ∧ ¬ T.finalizes m v ∧ ¬ T.marks m v := by
  by_cases hf : T.finalizes m v
  · rw [(level_of_finalizes T m v hf).1] at h; cases h
  · obtain ⟨_, _, hb, hg, hw⟩ := level_of_not_finalizes T m v hf
    cases hcol : T.color v with
    | black => rw [hb hcol] at h; cases h
    | gray => rw [hg hcol] at h; cases h
    | white =>
      refine ⟨rfl, hf, fun hm => ?_⟩
      rw [(hw hcol).1 hm] at h
      cases h

/-- The distance of `u` changes at level `m`, in terms of the state before the level. -/
theorem changed_iff (T : DynBFS) (m u : Nat) :
    T.changed (T.finalize m) m u = true ↔
      (T.finalizes m u ∧ T.distances u ≠ some m) ∨
        (T.color u = .gray ∧ ¬ T.finalizes m u ∧ T.distances u = some m) := by
  unfold DynBFS.changed
  by_cases hf : T.finalizes m u
  · rw [finalize_color_of T m u hf]
    have hg : T.color u = .gray := hf.1
    simp [hf, hg]
  · rw [finalize_color_of_not T m u hf]
    by_cases hg : T.color u = .gray
    · simp [hf, hg]
    · simp [hf, hg]

theorem mem_inNeighbors (G : DynGraph) (u v : Nat) :
    u ∈ G.inNeighbors v ↔ u < G.z ∧ G.adj u v = true := by
  unfold DynGraph.inNeighbors
  rw [List.mem_filter, List.mem_range]

theorem isNode_of_mem_inNeighbors (G : DynGraph) (u v : Nat) (h : u ∈ G.inNeighbors v) :
    G.isNode v = true := by
  have := ((mem_inNeighbors G u v).mp h).2
  unfold DynGraph.adj at this
  simp only [Bool.and_eq_true] at this
  exact this.1.2

theorem lt_of_isNode (G : DynGraph) (v : Nat) (h : G.isNode v = true) : v < G.z := by
  unfold DynGraph.isNode at h
  simp only [Bool.and_eq_true, decide_eq_true_eq] at h
  exact h.1

theorem settled_iff (T : DynBFS) (k u : Nat) :
    T.settled k u = true ↔ T.color u ≠ .gray ∧ T.distances u = some k := by
  unfold DynBFS.settled
  simp

theorem reaches_succ_iff (T : DynBFS) (m v : Nat) :
    T.reaches (m + 1) v = true ↔
      T.G.isNode v = true ∧ ∃ u ∈ T.G.inNeighbors v, T.settled m u = true := by
  unfold DynBFS.reaches DynBFS.candidates
  simp only [Bool.and_eq_true, Bool.not_eq_true', List.isEmpty_eq_false]
  constructor
  · rintro ⟨h1, h2⟩
    obtain ⟨u, hu⟩ := List.exists_mem_of_ne_nil _ h2
    exact ⟨h1, u, (List.mem_filter.mp hu).1, (List.mem_filter.mp hu).2⟩
  · rintro ⟨h1, u, hu, hs⟩
    exact ⟨h1, List.ne_nil_of_mem (List.mem_filter.mpr ⟨hu, hs⟩)⟩

theorem reaches_zero_iff (T : DynBFS) (v : Nat) :
    T.reaches 0 v = true ↔ v = T.source ∧ T.G.isNode v = true := by
  unfold DynBFS.reaches
  simp

theorem isNode_of_reaches (T : DynBFS) (m v : Nat) (h : T.reaches m v = true) :
    T.G.isNode v = true := by
  cases m with
  | zero => exact ((reaches_zero_iff T v).mp h).2
  | succ m => exact ((reaches_succ_iff T m v).mp h).1

/-! #### The wavefront without the early stop -/

theorem after_G (T : DynBFS) : ∀ k, (T.after k).G = T.G := by
  intro k
  induction k with
  | zero => rfl
  | succ k ih => exact (level_G _ _).trans ih

theorem after_source (T : DynBFS) : ∀ k, (T.after k).source = T.source := by
  intro k
  induction k with
  | zero => rfl
  | succ k ih => exact (level_source _ _).trans ih

theorem DynBFS.eq_of_fields (T T' : DynBFS) (hG : T.G = T'.G) (hs : T.source = T'.source)
    (hd : ∀ v, T.distances v = T'.distances v) (hp : ∀ v, T.previous v = T'.previous v)
    (hc : ∀ v, T.color v = T'.color v) (hm : T.maxDistance = T'.maxDistance) : T = T' := by
  obtain ⟨G, s, D, P, c, md⟩ := T
  obtain ⟨G', s', D', P', c', md'⟩ := T'
  simp only at hG hs hd hp hc hm
  subst hG hs hm
  have h1 : D = D' := funext hd
  have h2 : P = P' := funext hp
  have h3 : c = c' := funext hc
  subst h1 h2 h3
  rfl

theorem not_gray_of_no_tentative (T : DynBFS) (h : T.hasTentative = false) (v : Nat)
    (hv : v < T.G.z) : T.color v ≠ .gray := by
  intro hg
  have : T.hasTentative = true := by
    unfold DynBFS.hasTentative
    rw [List.any_eq_true]
    exact ⟨v, List.mem_range.mpr hv, by simp [hg]⟩
  rw [h] at this
  cases this

theorem not_finalizes_of_no_tentative (T : DynBFS) (h : T.hasTentative = false) (m v : Nat) :
    ¬ T.finalizes m v := by
  intro hf
  exact not_gray_of_no_tentative T h v (lt_of_isNode _ _ (isNode_of_reaches T m v hf.2)) hf.1

/-- Without a tentative node a level changes nothing. -/
theorem level_eq_self (T : DynBFS) (m : Nat) (h : T.hasTentative = false) : T.level m = T := by
  have hf := not_finalizes_of_no_tentative T h m
  apply DynBFS.eq_of_fields
  · rfl
  · rfl
  · intro v
    exact (level_of_not_finalizes T m v (hf v)).1
  · intro v
    exact (level_of_not_finalizes T m v (hf v)).2.1
  · intro v
    obtain ⟨_, _, hb, hg, hw⟩ := level_of_not_finalizes T m v (hf v)
    cases hcol : T.color v with
    | black => exact hb hcol
    | gray => exact hg hcol
    | white =>
      apply (hw hcol).2
      rintro ⟨_, u, hu, hch⟩
      have hlt : u < T.G.z := ((mem_inNeighbors _ _ _).mp hu).1
      rcases (changed_iff T m u).mp hch with h1 | h1
      · exact hf u h1.1
      · exact not_gray_of_no_tentative T h u hlt h1.1
  · show (if (List.range T.G.z).any
        (fun v => decide (T.color v = .gray) && T.reaches m v) = true then
        max T.maxDistance m else T.maxDistance) = T.maxDistance
    rw [if_neg]
    intro hany
    obtain ⟨v, _, hv⟩ := List.any_eq_true.mp hany
    simp only [Bool.and_eq_true, decide_eq_true_eq] at hv
    exact hf v hv

theorem after_stable (T : DynBFS) (m : Nat) (h : (T.after m).hasTentative = false) :
    ∀ i, T.after (m + i) = T.after m := by
  intro i
  induction i with
  | zero => rfl
  | succ i ih =>
    show (T.after (m + i)).level (m + i) = T.after m
    rw [ih, level_eq_self _ _ h]

/-- The wavefront with the early stop ends in the state after all its levels. -/
theorem wavefront_eq_after (T : DynBFS) :
    ∀ (fuel m : Nat), DynBFS.wavefront fuel m (T.after m) = T.after (m + fuel) := by
  intro fuel
  induction fuel with
  | zero => intro m; rfl
  | succ fuel ih =>
    intro m
    unfold DynBFS.wavefront
    cases h : (T.after m).hasTentative
    · rw [after_stable T m h]
      simp
    · simp only [if_true]
      have := ih (m + 1)
      rw [show m + (fuel + 1) = m + 1 + fuel by omega]
      exact this

/-! #### The build from scratch -/

theorem layered_init (G : DynGraph) (s : Nat) : Layered 0 (DynBFS.init G s) :=
  fun _ => Or.inr ⟨rfl, rfl, rfl⟩

theorem layered_level (k : Nat) (U : DynBFS) (h : Layered k U) : Layered (k + 1) (U.level k) := by
  intro v
  by_cases hf : U.finalizes k v
  · obtain ⟨h1, h2, _⟩ := level_of_finalizes U k v hf
    exact Or.inl ⟨h1, k, Nat.lt_succ_self k, h2⟩
  · obtain ⟨h1, h2, hb, hg, _⟩ := level_of_not_finalizes U k v hf
    rcases h v with ⟨hc, j, hj, hd⟩ | ⟨hc, hd, hp⟩
    · exact Or.inl ⟨hb hc, j, Nat.lt_succ_of_lt hj, h1.trans hd⟩
    · exact Or.inr ⟨hg hc, h1.trans hd, h2.trans hp⟩

theorem layered_after (G : DynGraph) (s : Nat) :
    ∀ k, Layered k ((DynBFS.init G s).after k) := by
  intro k
  induction k with
  | zero => exact layered_init G s
  | succ k ih => exact layered_level k _ ih

theorem Layered.black_of_not_gray {k : Nat} {U : DynBFS} (h : Layered k U) (v : Nat)
    (hv : U.color v ≠ .gray) : U.color v = .black ∧ ∃ j, j < k ∧ U.distances v = some j := by
  rcases h v with h1 | h1
  · exact h1
  · exact absurd h1.1 hv

theorem Layered.settled_iff_black {k : Nat} {U : DynBFS} (h : Layered k U) (j u : Nat) :
    U.settled j u = true ↔ U.color u = .black ∧ U.distances u = some j := by
  rw [settled_iff]
  constructor
  · rintro ⟨h1, h2⟩
    exact ⟨(h.black_of_not_gray u h1).1, h2⟩
  · rintro ⟨h1, h2⟩
    exact ⟨by rw [h1]; decide, h2⟩

/-- In a build from scratch a node is black with distance `j` after `k` levels exactly when
it has been finalized at level `j < k`. -/
theorem after_black_iff (G : DynGraph) (s : Nat) :
    ∀ (k v j : Nat),
      (((DynBFS.init G s).after k).color v = .black ∧
          ((DynBFS.init G s).after k).distances v = some j) ↔
        (j < k ∧ ((DynBFS.init G s).after j).finalizes j v) := by
  intro k
  induction k with
  | zero =>
    intro v j
    constructor
    · rintro ⟨h, _⟩
      cases h
    · rintro ⟨h, _⟩
      omega
  | succ k ih =>
    intro v j
    have hlay := layered_after G s k
    show (((DynBFS.init G s).after k).level k).color v = .black ∧
        (((DynBFS.init G s).after k).level k).distances v = some j ↔ _
    by_cases hf : ((DynBFS.init G s).after k).finalizes k v
    · obtain ⟨h1, h2, _⟩ := level_of_finalizes _ k v hf
      rw [h1, h2]
      constructor
      · rintro ⟨_, hj⟩
        have : k = j := Option.some.inj hj
        subst this
        exact ⟨Nat.lt_succ_self _, hf⟩
      · rintro ⟨hj, hfj⟩
        refine ⟨rfl, ?_⟩
        by_cases hjk : j = k
        · rw [hjk]
        · have hlt : j < k := by omega
          have := (ih v j).mpr ⟨hlt, hfj⟩
          rw [hf.1] at this
          cases this.1
    · obtain ⟨h1, _, hb, hg, _⟩ := level_of_not_finalizes _ k v hf
      rw [h1]
      constructor
      · rintro ⟨hc, hd⟩
        have hblack : ((DynBFS.init G s).after k).color v = .black := by
          rcases (level_black_iff _ k v).mp hc with h | h
          · exact h
          · exact absurd h hf
        obtain ⟨hj, hfj⟩ := (ih v j).mp ⟨hblack, hd⟩
        exact ⟨Nat.lt_succ_of_lt hj, hfj⟩
      · rintro ⟨hj, hfj⟩
        by_cases hjk : j = k
        · rw [hjk] at hfj
          exact absurd hfj hf
        · have hlt : j < k := by omega
          obtain ⟨hc, hd⟩ := (ih v j).mpr ⟨hlt, hfj⟩
          exact ⟨hb hc, hd⟩

/-- In a build from scratch a black node keeps the predecessors it got when it was
finalized. -/
theorem after_previous (G : DynGraph) (s : Nat) :
    ∀ (k v j : Nat), ((DynBFS.init G s).after k).color v = .black →
      ((DynBFS.init G s).after k).distances v = some j →
      ((DynBFS.init G s).after k).previous v =
        ((DynBFS.init G s).after j).predecessorsAt j v := by
  intro k
  induction k with
  | zero => intro v j h _; cases h
  | succ k ih =>
    intro v j hc hd
    change (((DynBFS.init G s).after k).level k).color v = .black at hc
    change (((DynBFS.init G s).after k).level k).distances v = some j at hd
    show (((DynBFS.init G s).after k).level k).previous v = _
    by_cases hf : ((DynBFS.init G s).after k).finalizes k v
    · obtain ⟨_, h2, h3⟩ := level_of_finalizes _ k v hf
      rw [h2] at hd
      have : k = j := Option.some.inj hd
      subst this
      exact h3
    · obtain ⟨h1, h2, _, _, _⟩ := level_of_not_finalizes _ k v hf
      rw [h1] at hd
      rw [h2]
      have hblack : ((DynBFS.init G s).after k).color v = .black := by
        rcases (level_black_iff _ k v).mp hc with h | h
        · exact h
        · exact absurd h hf
      exact ih v j hblack hd

/-! #### Enough levels: every level that finalizes a node uses up a node -/

theorem length_filter_le_of_imp (p q : Nat → Bool) :
    ∀ (l : List Nat), (∀ x ∈ l, p x = true → q x = true) →
      (l.filter p).length ≤ (l.filter q).length := by
  intro l
  induction l with
  | nil => intro _; exact Nat.le_refl _
  | cons a l ih =>
    intro hpq
    have hrest := ih (fun x hx => hpq x (List.mem_cons_of_mem _ hx))
    by_cases hp : p a = true
    · have hq := hpq a (List.mem_cons_self _ _) hp
      rw [List.filter_cons_of_pos hp, List.filter_cons_of_pos hq]
      simp only [List.length_cons]
      omega
    · rw [List.filter_cons_of_neg hp]
      by_cases hq : q a = true
      · rw [List.filter_cons_of_pos hq]
        simp only [List.length_cons]
        omega
      · rw [List.filter_cons_of_neg hq]
        exact hrest

theorem length_filter_lt (p q : Nat → Bool) :
    ∀ (l : List Nat), (∀ x ∈ l, p x = true → q x = true) →
      ∀ w ∈ l, p w = false → q w = true → (l.filter p).length < (l.filter q).length := by
  intro l
  induction l with
  | nil => intro _ w hw; simp at hw
  | cons a l ih =>
    intro hpq w hw hpw hqw
    have hpq' : ∀ x ∈ l, p x = true → q x = true :=
      fun x hx => hpq x (List.mem_cons_of_mem _ hx)
    have hle := length_filter_le_of_imp p q l hpq'
    rcases List.mem_cons.mp hw with h | h
    · subst h
      rw [List.filter_cons_of_neg (by rw [hpw]; simp), List.filter_cons_of_pos hqw]
      simp only [List.length_cons]
      omega
    · have hlt := ih hpq' w h hpw hqw
      by_cases hp : p a = true
      · have hq := hpq a (List.mem_cons_self _ _) hp
        rw [List.filter_cons_of_pos hp, List.filter_cons_of_pos hq]
        simp only [List.length_cons]
        omega
      · rw [List.filter_cons_of_neg hp]
        by_cases hq : q a = true
        · rw [List.filter_cons_of_pos hq]
          simp only [List.length_cons]
          omega
        · rw [List.filter_cons_of_neg hq]
          exact hlt

theorem blackCount_le (T : DynBFS) : T.blackCount ≤ T.G.z := by
  unfold DynBFS.blackCount
  exact (List.length_filter_le _ _).trans (by rw [List.length_range])

/-- A level that finalizes a node increases the number of black nodes. -/
theorem blackCount_level (T : DynBFS) (k w : Nat) (h : T.finalizes k w) :
    T.blackCount < (T.level k).blackCount := by
  unfold DynBFS.blackCount
  rw [level_G]
  apply length_filter_lt _ _ _ _ w
    (List.mem_range.mpr (lt_of_isNode _ _ (isNode_of_reaches T k w h.2)))
  · rw [h.1]
    rfl
  · rw [(level_of_finalizes T k w h).1]
    rfl
  · intro x _ hx
    simp only [decide_eq_true_eq] at hx ⊢
    exact (level_black_iff T k x).mpr (Or.inl hx)

/-- In a build from scratch a node finalized at level `j + 1` has an edge from a node
finalized at level `j`. -/
theorem finalizes_chain (G : DynGraph) (s : Nat) (j v : Nat)
    (h : ((DynBFS.init G s).after (j + 1)).finalizes (j + 1) v) :
    ∃ u ∈ G.inNeighbors v, ((DynBFS.init G s).after j).finalizes j u := by
  obtain ⟨_, u, hu, hset⟩ := (reaches_succ_iff _ j v).mp h.2
  rw [after_G] at hu
  have hb := ((layered_after G s (j + 1)).settled_iff_black j u).mp hset
  exact ⟨u, hu, ((after_black_iff G s (j + 1) u j).mp hb).2⟩

theorem finalizes_all_levels (G : DynGraph) (s : Nat) :
    ∀ (k w : Nat), ((DynBFS.init G s).after k).finalizes k w →
      ∀ i, i ≤ k → ∃ u, ((DynBFS.init G s).after i).finalizes i u := by
  intro k
  induction k with
  | zero =>
    intro w h i hi
    have : i = 0 := by omega
    subst this
    exact ⟨w, h⟩
  | succ k ih =>
    intro w h i hi
    by_cases hik : i = k + 1
    · subst hik
      exact ⟨w, h⟩
    · obtain ⟨u, _, hu⟩ := finalizes_chain G s k w h
      exact ih u hu i (by omega)

theorem blackCount_after (G : DynGraph) (s : Nat) :
    ∀ k, (∀ i, i < k → ∃ u, ((DynBFS.init G s).after i).finalizes i u) →
      k ≤ ((DynBFS.init G s).after k).blackCount := by
  intro k
  induction k with
  | zero => intro _; exact Nat.zero_le _
  | succ k ih =>
    intro h
    obtain ⟨u, hu⟩ := h k (Nat.lt_succ_self k)
    have h1 := ih (fun i hi => h i (Nat.lt_succ_of_lt hi))
    have h2 := blackCount_level _ k u hu
    show k + 1 ≤ (((DynBFS.init G s).after k).level k).blackCount
    omega

/-- In a build from scratch the level that finalizes a node is below the number of node
ids. -/
theorem finalizes_lt (G : DynGraph) (s : Nat) (k w : Nat)
    (h : ((DynBFS.init G s).after k).finalizes k w) : k < G.z := by
  have h1 := blackCount_after G s (k + 1)
    (fun i hi => finalizes_all_levels G s k w h i (by omega))
  have h2 := blackCount_le ((DynBFS.init G s).after (k + 1))
  rw [after_G] at h2
  have h3 : (DynBFS.init G s).G = G := rfl
  rw [h3] at h2
  omega

/-! #### The tree built from scratch is consistent -/

theorem DynBFS.run_eq_after (T : DynBFS) :
    T.run = ((DynBFS.init T.G T.source).after (T.G.z + 1)).finish := by
  unfold DynBFS.run
  have := wavefront_eq_after (DynBFS.init T.G T.source) (T.G.z + 1) 0
  rw [Nat.zero_add] at this
  exact congrArg DynBFS.finish this

theorem finish_layered (k : Nat) (U : DynBFS) (h : Layered k U) (v : Nat) :
    U.finish.distances v = U.distances v ∧ U.finish.previous v = U.previous v := by
  have hd : U.finish.distances v = if U.color v = .gray then none else U.distances v := rfl
  have hp : U.finish.previous v = if U.color v = .gray then [] else U.previous v := rfl
  rw [hd, hp]
  rcases h v with ⟨hc, _⟩ | ⟨hc, h1, h2⟩
  · rw [hc]
    simp
  · rw [hc, h1, h2]
    simp

/-- The distance of a node in the tree built from scratch is the level at which the node has
been finalized. -/
theorem DynBFS.run_distance_iff (G : DynGraph) (s : Nat) (v j : Nat) :
    (DynBFS.init G s).run.distances v = some j ↔
      ((DynBFS.init G s).after j).finalizes j v := by
  rw [DynBFS.run_eq_after]
  have hG : (DynBFS.init G s).G = G := rfl
  have hs : (DynBFS.init G s).source = s := rfl
  rw [hG, hs]
  have hlay := layered_after G s (G.z + 1)
  rw [(finish_layered _ _ hlay v).1]
  constructor
  · intro hd
    have hc : ((DynBFS.init G s).after (G.z + 1)).color v = .black := by
      rcases hlay v with h | h
      · exact h.1
      · rw [h.2.1] at hd
        cases hd
    exact ((after_black_iff G s (G.z + 1) v j).mp ⟨hc, hd⟩).2
  · intro hf
    have := finalizes_lt G s j v hf
    exact ((after_black_iff G s (G.z + 1) v j).mpr ⟨by omega, hf⟩).2

theorem DynBFS.run_previous (G : DynGraph) (s : Nat) (v j : Nat)
    (h : (DynBFS.init G s).run.distances v = some j) :
    (DynBFS.init G s).run.previous v = ((DynBFS.init G s).after j).predecessorsAt j v := by
  have hf := (DynBFS.run_distance_iff G s v j).mp h
  have hlt := finalizes_lt G s j v hf
  rw [DynBFS.run_eq_after]
  have hG : (DynBFS.init G s).G = G := rfl
  have hs : (DynBFS.init G s).source = s := rfl
  rw [hG, hs]
  have hlay := layered_after G s (G.z + 1)
  rw [(finish_layered _ _ hlay v).2]
  obtain ⟨hc, hd⟩ := (after_black_iff G s (G.z + 1) v j).mpr ⟨by omega, hf⟩
  exact after_previous G s (G.z + 1) v j hc hd

theorem DynBFS.run_previous_of_none (G : DynGraph) (s : Nat) (v : Nat)
    (h : (DynBFS.init G s).run.distances v = none) :
    (DynBFS.init G s).run.previous v = [] := by
  rw [DynBFS.run_eq_after] at h ⊢
  have hG : (DynBFS.init G s).G = G := rfl
  have hs : (DynBFS.init G s).source = s := rfl
  rw [hG, hs] at h ⊢
  have hlay := layered_after G s (G.z + 1)
  rw [(finish_layered _ _ hlay v).1] at h
  rw [(finish_layered _ _ hlay v).2]
  rcases hlay v with ⟨_, j, _, hd⟩ | ⟨_, _, hp⟩
  · rw [hd] at h
    cases h
  · exact hp

/-- The settled nodes after `k + 1` levels of a build from scratch, in terms of the final
distances. -/
theorem settled_after_iff (G : DynGraph) (s : Nat) (k u : Nat) :
    ((DynBFS.init G s).after (k + 1)).settled k u = true ↔
      (DynBFS.init G s).run.distances u = some k := by
  rw [(layered_after G s (k + 1)).settled_iff_black k u, after_black_iff,
    DynBFS.run_distance_iff]
  constructor
  · exact fun h => h.2
  · exact fun h => ⟨Nat.lt_succ_self k, h⟩

/-- The tree that `run` builds from scratch is consistent at every node, and its distances
are below the number of node ids. -/
theorem DynBFS.run_consistent (G : DynGraph) (s : Nat) (v : Nat) :
    LocallyConsistent G s (DynBFS.init G s).run.distances (DynBFS.init G s).run.previous v ∧
      ∀ k, (DynBFS.init G s).run.distances v = some k → k < G.z := by
  refine ⟨⟨?_, ?_, ?_, ?_, ?_⟩, ?_⟩
  · rw [DynBFS.run_distance_iff]
    show (DynBFS.init G s).finalizes 0 v ↔ _
    unfold DynBFS.finalizes
    rw [reaches_zero_iff]
    exact ⟨fun h => h.2, fun h => ⟨rfl, h⟩⟩
  · intro k hd
    have hf := (DynBFS.run_distance_iff G s v (k + 1)).mp hd
    rw [DynBFS.run_previous G s v (k + 1) hd]
    show ((DynBFS.init G s).after (k + 1)).candidates k v = _ ∧
      ((DynBFS.init G s).after (k + 1)).candidates k v ≠ []
    have heq : ((DynBFS.init G s).after (k + 1)).candidates k v =
        (G.inNeighbors v).filter
          (fun u => decide ((DynBFS.init G s).run.distances u = some k)) := by
      unfold DynBFS.candidates
      rw [after_G]
      apply List.filter_congr
      intro u _
      rw [Bool.eq_iff_iff, settled_after_iff]
      simp
    refine ⟨heq, ?_⟩
    obtain ⟨_, u, hu, hset⟩ := (reaches_succ_iff _ k v).mp hf.2
    exact List.ne_nil_of_mem (List.mem_filter.mpr ⟨hu, hset⟩)
  · intro u hu j hd
    have hfu := (DynBFS.run_distance_iff G s u j).mp hd
    have hset := (settled_after_iff G s j u).mpr hd
    rcases layered_after G s (j + 1) v with ⟨hc, i, hi, hdi⟩ | ⟨hc, _, _⟩
    · refine ⟨i, Nat.le_of_lt hi, ?_⟩
      exact (DynBFS.run_distance_iff G s v i).mpr
        ((after_black_iff G s (j + 1) v i).mp ⟨hc, hdi⟩).2
    · refine ⟨j + 1, Nat.le_refl _, (DynBFS.run_distance_iff G s v (j + 1)).mpr ⟨hc, ?_⟩⟩
      rw [reaches_succ_iff, after_G]
      exact ⟨isNode_of_mem_inNeighbors G u v hu, u, hu, hset⟩
  · intro hd
    rw [DynBFS.run_previous G s v 0 hd]
    rfl
  · exact DynBFS.run_previous_of_none G s v
  · intro k hd
    exact finalizes_lt G s k v ((DynBFS.run_distance_iff G s v k).mp hd)

/-! #### The nodes that a batch does not touch -/

theorem sameView_refl (G : DynGraph) (v : Nat) : SameView G G v :=
  ⟨Nat.le_refl _, rfl, fun _ => rfl⟩

theorem sameView_trans (G G1 G2 : DynGraph) (v : Nat) (h1 : SameView G G1 v)
    (h2 : SameView G1 G2 v) : SameView G G2 v :=
  ⟨Nat.le_trans h1.1 h2.1, h2.2.1.trans h1.2.1, fun u => (h2.2.2 u).trans (h1.2.2 u)⟩

/-- An edit event leaves the view of every node other than its end points as it is. -/
theorem applyEvent_sameView (G G1 : DynGraph) (e : GraphEvent) (h : G.applyEvent e = some G1)
    (v : Nat) (hv : v ∉ e.endpoints) : SameView G G1 v := by
  cases e with
  | nodeAddition u =>
    have hvu : v ≠ u := by
      intro hvu
      exact hv (by simp [GraphEvent.endpoints, hvu])
    simp only [DynGraph.applyEvent] at h
    by_cases hn : G.isNode u = true
    · simp [hn] at h
    · simp only [hn, Bool.false_eq_true, if_false, Option.some.injEq] at h
      subst h
      have hnode : ∀ x, x ≠ u →
          DynGraph.isNode
            { G with
              z := max G.z (u + 1)
              hasNode := fun x => if x = u then true else G.isNode x
              hasEdge := fun x y => if x = u ∨ y = u then false else G.hasEdge x y } x =
            G.isNode x := by
        intro x hx
        simp only [DynGraph.isNode, hx, if_false]
        by_cases hxz : x < G.z
        · have : x < max G.z (u + 1) := Nat.lt_of_lt_of_le hxz (Nat.le_max_left _ _)
          simp [hxz, this]
        · simp [hxz]
      refine ⟨Nat.le_max_left _ _, hnode v hvu, fun w => ?_⟩
      by_cases hwu : w = u
      · subst hwu
        simp only [DynGraph.adj, or_false, if_true, true_or, Bool.and_false]
        simp at hn
        simp [hn]
      · unfold DynGraph.adj
        rw [hnode w hwu, hnode v hvu]
        simp [hwu, hvu]
  | nodeRemoval u =>
    have hvu : v ≠ u := by
      intro hvu
      exact hv (by simp [GraphEvent.endpoints, hvu])
    simp only [DynGraph.applyEvent] at h
    split at h
    · rename_i hcond
      simp only [Option.some.injEq] at h
      subst h
      simp only [Bool.and_eq_true, List.all_eq_true, List.mem_range, Bool.not_eq_true'] at hcond
      have hnode : ∀ x, x ≠ u →
          DynGraph.isNode
            { G with hasNode := fun x => if x = u then false else G.hasNode x } x =
            G.isNode x := by
        intro x hx
        simp only [DynGraph.isNode, hx, if_false]
      refine ⟨Nat.le_refl _, hnode v hvu, fun w => ?_⟩
      by_cases hwu : w = u
      · subst hwu
        have h1 : DynGraph.adj
            { G with hasNode := fun x => if x = w then false else G.hasNode x } w v = false := by
          simp [DynGraph.adj, DynGraph.isNode]
        rw [h1]
        by_cases hvz : v < G.z
        · exact ((hcond.2 v hvz).1).symm
        · simp [DynGraph.adj, DynGraph.isNode, hvz]
      · unfold DynGraph.adj
        rw [hnode w hwu, hnode v hvu]
    · cases h
  | edgeAddition a b =>
    have hva : v ≠ a := by
      intro hva
      exact hv (by simp [GraphEvent.endpoints, hva])
    have hvb : v ≠ b := by
      intro hvb
      exact hv (by simp [GraphEvent.endpoints, hvb])
    simp only [DynGraph.applyEvent] at h
    split at h
    · simp only [Option.some.injEq] at h
      subst h
      refine ⟨Nat.le_refl _, rfl, fun w => ?_⟩
      simp [DynGraph.adj, DynGraph.isNode, DynGraph.setEdge, hva, hvb]
    · cases h
  | edgeRemoval a b =>
    have hva : v ≠ a := by
      intro hva
      exact hv (by simp [GraphEvent.endpoints, hva])
    have hvb : v ≠ b := by
      intro hvb
      exact hv (by simp [GraphEvent.endpoints, hvb])
    simp only [DynGraph.applyEvent] at h
    split at h
    · simp only [Option.some.injEq] at h
      subst h
      refine ⟨Nat.le_refl _, rfl, fun w => ?_⟩
      simp [DynGraph.adj, DynGraph.isNode, DynGraph.setEdge, hva, hvb]
    · cases h
  | edgeWeightUpdate a b w =>
    simp only [DynGraph.applyEvent] at h
    cases h

/-- A batch leaves the view of every node that is no end point of one of its events as it
is. -/
theorem applyBatch_sameView :
    ∀ (batch : List GraphEvent) (G G1 : DynGraph), G.applyBatch batch = some G1 →
      ∀ v, v ∉ batch.flatMap GraphEvent.endpoints → SameView G G1 v := by
  intro batch
  induction batch with
  | nil =>
    intro G G1 h v _
    simp only [DynGraph.applyBatch, Option.some.injEq] at h
    subst h
    exact sameView_refl G v
  | cons e batch ih =>
    intro G G1 h v hv
    rw [List.flatMap_cons, List.mem_append, not_or] at hv
    unfold DynGraph.applyBatch at h
    cases he : G.applyEvent e with
    | none => simp [he] at h
    | some G2 =>
      simp only [he] at h
      exact sameView_trans G G2 G1 v (applyEvent_sameView G G2 e he v hv.1) (ih G2 G1 h v hv.2)

theorem applyBatch_z_le :
    ∀ (batch : List GraphEvent) (G G1 : DynGraph), G.applyBatch batch = some G1 →
      G.z ≤ G1.z := by
  intro batch
  induction batch with
  | nil =>
    intro G G1 h
    simp only [DynGraph.applyBatch, Option.some.injEq] at h
    subst h
    exact Nat.le_refl _
  | cons e batch ih =>
    intro G G1 h
    unfold DynGraph.applyBatch at h
    cases he : G.applyEvent e with
    | none => simp [he] at h
    | some G2 =>
      simp only [he] at h
      refine Nat.le_trans ?_ (ih G2 G1 h)
      cases e with
      | nodeAddition u =>
        simp only [DynGraph.applyEvent] at he
        split at he
        · cases he
        · simp only [Option.some.injEq] at he
          subst he
          exact Nat.le_max_left _ _
      | nodeRemoval u =>
        simp only [DynGraph.applyEvent] at he
        split at he
        · simp only [Option.some.injEq] at he
          subst he
          exact Nat.le_refl _
        · cases he
      | edgeAddition a b =>
        simp only [DynGraph.applyEvent] at he
        split at he
        · simp only [Option.some.injEq] at he
          subst he
          exact Nat.le_refl _
        · cases he
      | edgeRemoval a b =>
        simp only [DynGraph.applyEvent] at he
        split at he
        · simp only [Option.some.injEq] at he
          subst he
          exact Nat.le_refl _
        · cases he
      | edgeWeightUpdate a b w =>
        simp only [DynGraph.applyEvent] at he
        cases he

theorem filter_range_extend (p : Nat → Bool) (n : Nat) (hp : ∀ u, p u = true → u < n) :
    ∀ d, (List.range (n + d)).filter p = (List.range n).filter p := by
  intro d
  induction d with
  | zero => rfl
  | succ d ih =>
    rw [← Nat.add_assoc, List.range_succ, List.filter_append, ih]
    have : p (n + d) = false := by
      cases h : p (n + d)
      · rfl
      · have := hp _ h
        omega
    simp [this]

theorem sameView_inNeighbors (G G1 : DynGraph) (v : Nat) (h : SameView G G1 v) :
    G1.inNeighbors v = G.inNeighbors v := by
  unfold DynGraph.inNeighbors
  obtain ⟨d, hd⟩ : ∃ d, G1.z = G.z + d := ⟨G1.z - G.z, by have := h.1; omega⟩
  have hfun : (fun u => G1.adj u v) = fun u => G.adj u v := funext h.2.2
  rw [hfun, hd]
  apply filter_range_extend
  intro u hu
  unfold DynGraph.adj at hu
  simp only [Bool.and_eq_true] at hu
  exact lt_of_isNode G u hu.1.1

/-- Consistency at a node carries over to a graph in which the node has the same view. -/
theorem LocallyConsistent.of_sameView {G G1 : DynGraph} {s : Nat} {D : Nat → Option Nat}
    {P : Nat → List Nat} {v : Nat} (h : LocallyConsistent G s D P v) (hv : SameView G G1 v) :
    LocallyConsistent G1 s D P v := by
  unfold LocallyConsistent at h ⊢
  rw [sameView_inNeighbors G G1 v hv, hv.2.1]
  exact h

/-! #### The repair follows the build from scratch -/

theorem Repairing.settled_eq {G : DynGraph} {s : Nat} {D : Nat → Option Nat}
    {P : Nat → List Nat} {k : Nat} {T U : DynBFS} (h : Repairing G s D P k T U)
    (j u : Nat) (hj : j < k) : T.settled j u = U.settled j u := by
  rw [Bool.eq_iff_iff, h.layered.settled_iff_black j u]
  exact (h.agree u j hj).symm

theorem Repairing.candidates_eq {G : DynGraph} {s : Nat} {D : Nat → Option Nat}
    {P : Nat → List Nat} {k : Nat} {T U : DynBFS} (h : Repairing G s D P k T U)
    (j v : Nat) (hj : j < k) : T.candidates j v = U.candidates j v := by
  unfold DynBFS.candidates
  rw [h.graphT, h.graphU]
  apply List.filter_congr
  intro u _
  exact h.settled_eq j u hj

theorem Repairing.reaches_eq {G : DynGraph} {s : Nat} {D : Nat → Option Nat}
    {P : Nat → List Nat} {k : Nat} {T U : DynBFS} (h : Repairing G s D P k T U) (v : Nat) :
    T.reaches k v = U.reaches k v := by
  cases k with
  | zero =>
    show (decide (v = T.source) && T.G.isNode v) = (decide (v = U.source) && U.G.isNode v)
    rw [h.graphT, h.graphU, h.sourceT, h.sourceU]
  | succ m =>
    show (T.G.isNode v && !(T.candidates m v).isEmpty) =
      (U.G.isNode v && !(U.candidates m v).isEmpty)
    rw [h.candidates_eq m v (Nat.lt_succ_self m), h.graphT, h.graphU]

theorem Repairing.predecessorsAt_eq {G : DynGraph} {s : Nat} {D : Nat → Option Nat}
    {P : Nat → List Nat} {k : Nat} {T U : DynBFS} (h : Repairing G s D P k T U) (v : Nat) :
    T.predecessorsAt k v = U.predecessorsAt k v := by
  cases k with
  | zero => rfl
  | succ m => exact h.candidates_eq m v (Nat.lt_succ_self m)

/-- A confirmed distance below `k` stays confirmed through level `k`, and no further such
distance is confirmed. -/
theorem settled_level_iff (T : DynBFS) (k j v : Nat) (hj : j < k) :
    (T.level k).settled j v = true ↔ T.settled j v = true := by
  rw [settled_iff, settled_iff]
  by_cases hf : T.finalizes k v
  · obtain ⟨h1, h2, _⟩ := level_of_finalizes T k v hf
    rw [h1, h2]
    constructor
    · rintro ⟨_, hd⟩
      have : k = j := Option.some.inj hd
      omega
    · rintro ⟨hc, _⟩
      exact absurd hf.1 hc
  · obtain ⟨h1, _, hb, hg, hw⟩ := level_of_not_finalizes T k v hf
    rw [h1]
    constructor
    · rintro ⟨hc, hd⟩
      refine ⟨fun hgray => hc (hg hgray), hd⟩
    · rintro ⟨hc, hd⟩
      refine ⟨?_, hd⟩
      cases hcol : T.color v with
      | black => rw [hb hcol]; decide
      | gray => exact absurd hcol hc
      | white =>
        have hm : ¬ T.marks k v := by
          rintro ⟨hbeyond, _⟩
          unfold DynBFS.beyond at hbeyond
          rw [hd] at hbeyond
          simp only [decide_eq_true_eq] at hbeyond
          omega
        rw [(hw hcol).2 hm]
        decide

/-- The nodes whose distance `k` is confirmed by level `k` of the repair: the nodes
finalized at this level and the white nodes with the old distance `k`. -/
theorem Repairing.settled_level {G : DynGraph} {s : Nat} {D : Nat → Option Nat}
    {P : Nat → List Nat} {k : Nat} {T U : DynBFS} (h : Repairing G s D P k T U) (v : Nat) :
    (T.level k).settled k v = true ↔ T.finalizes k v ∨ (T.color v = .white ∧ D v = some k) := by
  rw [settled_iff]
  by_cases hf : T.finalizes k v
  · obtain ⟨h1, h2, _⟩ := level_of_finalizes T k v hf
    rw [h1, h2]
    exact ⟨fun _ => Or.inl hf, fun _ => ⟨by decide, rfl⟩⟩
  · obtain ⟨h1, _, hb, hg, hw⟩ := level_of_not_finalizes T k v hf
    rw [h1]
    constructor
    · rintro ⟨hc, hd⟩
      right
      cases hcol : T.color v with
      | black =>
        obtain ⟨j, hj, hdj⟩ := h.black v hcol
        rw [hdj] at hd
        have : j = k := Option.some.inj hd
        omega
      | gray => exact absurd (hg hcol) hc
      | white =>
        refine ⟨rfl, ?_⟩
        rw [← (h.old v (by rw [hcol]; decide)).1]
        exact hd
    · rintro (hf' | ⟨hcol, hd⟩)
      · exact absurd hf' hf
      · have hold := (h.old v (by rw [hcol]; decide)).1
        refine ⟨?_, hold.trans hd⟩
        have hm : ¬ T.marks k v := by
          rintro ⟨hbeyond, _⟩
          unfold DynBFS.beyond at hbeyond
          rw [hold, hd] at hbeyond
          simp only [decide_eq_true_eq] at hbeyond
          omega
        rw [(hw hcol).2 hm]
        decide

/-- A white node that the build from scratch has not finalized yet lies beyond the
wavefront. -/
theorem Repairing.beyond_of_gray {G : DynGraph} {s : Nat} {D : Nat → Option Nat}
    {P : Nat → List Nat} {k : Nat} {T U : DynBFS} (h : Repairing G s D P k T U) (v : Nat)
    (hw : T.color v = .white) (hU : U.color v = .gray) :
    D v = none ∨ ∃ i, k ≤ i ∧ D v = some i := by
  have hold := (h.old v (by rw [hw]; decide)).1
  cases hd : D v with
  | none => exact Or.inl rfl
  | some i =>
    right
    refine ⟨i, ?_, rfl⟩
    by_contra hlt
    have hset : T.settled i v = true := by
      rw [settled_iff]
      exact ⟨by rw [hw]; decide, hold.trans hd⟩
    have := ((h.agree v i (by omega)).mpr hset).1
    rw [hU] at this
    cases this

/-- The build from scratch finalizes at level `k` exactly the nodes whose distance `k` the
repair confirms at level `k`. -/
theorem Repairing.finalizes_iff {G : DynGraph} {s : Nat} {D : Nat → Option Nat}
    {P : Nat → List Nat} {k : Nat} {T U : DynBFS} (h : Repairing G s D P k T U) (v : Nat) :
    U.finalizes k v ↔ T.finalizes k v ∨ (T.color v = .white ∧ D v = some k) := by
  constructor
  · rintro ⟨hU, hr⟩
    rw [← h.reaches_eq v] at hr
    cases hcol : T.color v with
    | gray => exact Or.inl ⟨hcol, hr⟩
    | black =>
      obtain ⟨j, hj, hdj⟩ := h.black v hcol
      have hset : T.settled j v = true := by
        rw [settled_iff]
        exact ⟨by rw [hcol]; decide, hdj⟩
      have := ((h.agree v j hj).mpr hset).1
      rw [hU] at this
      cases this
    | white =>
      right
      refine ⟨rfl, ?_⟩
      have hbeyond := h.beyond_of_gray v hcol hU
      have hlc := h.white v hcol
      cases k with
      | zero =>
        have := (reaches_zero_iff T v).mp hr
        rw [h.sourceT, h.graphT] at this
        exact hlc.1.mpr this
      | succ m =>
        obtain ⟨_, u, hu, hset⟩ := (reaches_succ_iff T m v).mp hr
        rw [h.graphT] at hu
        have hDu := (h.unaffected v hcol hbeyond u hu m (Nat.lt_succ_self m)).mp hset
        obtain ⟨i, hi, hDv⟩ := hlc.2.2.1 u hu m hDu
        rcases hbeyond with hnone | ⟨i', hi', hDv'⟩
        · rw [hnone] at hDv
          cases hDv
        · rw [hDv] at hDv'
          have : i = i' := Option.some.inj hDv'
          have : i = m + 1 := by omega
          rw [hDv, this]
  · intro hcase
    have hgrayU : U.color v = .gray := by
      rcases h.layered v with ⟨hc, j, hj, hdj⟩ | ⟨hc, _, _⟩
      · have hset := (h.agree v j hj).mp ⟨hc, hdj⟩
        rw [settled_iff] at hset
        rcases hcase with hf | ⟨hcol, hd⟩
        · exact absurd hf.1 hset.1
        · have hold := (h.old v (by rw [hcol]; decide)).1
          rw [hold, hd] at hset
          have : k = j := Option.some.inj hset.2
          omega
      · exact hc
    refine ⟨hgrayU, ?_⟩
    rw [← h.reaches_eq v]
    rcases hcase with hf | ⟨hcol, hd⟩
    · exact hf.2
    · have hlc := h.white v hcol
      cases k with
      | zero =>
        rw [reaches_zero_iff, h.sourceT, h.graphT]
        exact hlc.1.mp hd
      | succ m =>
        obtain ⟨hP, hne⟩ := hlc.2.1 m hd
        rw [hP] at hne
        obtain ⟨u, hu⟩ := List.exists_mem_of_ne_nil _ hne
        obtain ⟨huN, hDu⟩ := List.mem_filter.mp hu
        simp only [decide_eq_true_eq] at hDu
        have hset := (h.unaffected v hcol (Or.inr ⟨m + 1, Nat.le_refl _, hd⟩) u huN m
          (Nat.lt_succ_self m)).mpr hDu
        rw [reaches_succ_iff, h.graphT]
        exact ⟨isNode_of_mem_inNeighbors G u v huN, u, huN, hset⟩

theorem Repairing.beyond_prev {D : Nat → Option Nat} {k : Nat} {v : Nat}
    (h : D v = none ∨ ∃ i, k + 1 ≤ i ∧ D v = some i) :
    D v = none ∨ ∃ i, k ≤ i ∧ D v = some i := by
  rcases h with h | ⟨i, hi, hd⟩
  · exact Or.inl h
  · exact Or.inr ⟨i, by omega, hd⟩

/-- An unaffected node beyond level `k` is marked when a node with an edge to it changes its
distance at level `k`. -/
theorem Repairing.marks_of_changed {G : DynGraph} {s : Nat} {D : Nat → Option Nat}
    {P : Nat → List Nat} {k : Nat} {T U : DynBFS} (h : Repairing G s D P k T U) (v u : Nat)
    (hw : T.color v = .white) (hbeyond : D v = none ∨ ∃ i, k + 1 ≤ i ∧ D v = some i)
    (hu : u ∈ G.inNeighbors v) (hch : T.changed (T.finalize k) k u = true) : T.marks k v := by
  refine ⟨?_, u, by rw [h.graphT]; exact hu, hch⟩
  have hold := (h.old v (by rw [hw]; decide)).1
  unfold DynBFS.beyond
  rw [hold]
  rcases hbeyond with hnone | ⟨i, hi, hd⟩
  · rw [hnone]
  · rw [hd]
    simp only [decide_eq_true_eq]
    omega

/-- One level keeps the relation between the repair and the build from scratch. -/
theorem Repairing.level {G : DynGraph} {s : Nat} {D : Nat → Option Nat}
    {P : Nat → List Nat} {k : Nat} {T U : DynBFS} (h : Repairing G s D P k T U) :
    Repairing G s D P (k + 1) (T.level k) (U.level k) := by
  have hlay' := layered_level k U h.layered
  have hUfin : ∀ v, ((U.level k).color v = .black ∧ (U.level k).distances v = some k) ↔
      U.finalizes k v := by
    intro v
    constructor
    · rintro ⟨hc, hd⟩
      by_contra hf
      obtain ⟨h1, _, _, _, _⟩ := level_of_not_finalizes U k v hf
      rw [h1] at hd
      rcases (level_black_iff U k v).mp hc with hb | hb
      · obtain ⟨_, j, hj, hdj⟩ := h.layered.black_of_not_gray v (by rw [hb]; decide)
        rw [hdj] at hd
        have : j = k := Option.some.inj hd
        omega
      · exact hf hb
    · intro hf
      exact ⟨(level_of_finalizes U k v hf).1, (level_of_finalizes U k v hf).2.1⟩
  refine
    { graphT := (level_G T k).trans h.graphT
      sourceT := (level_source T k).trans h.sourceT
      graphU := (level_G U k).trans h.graphU
      sourceU := (level_source U k).trans h.sourceU
      black := ?_
      old := ?_
      white := ?_
      agree := ?_
      previous := ?_
      unaffected := ?_
      layered := hlay' }
  · intro v hc
    by_cases hf : T.finalizes k v
    · exact ⟨k, Nat.lt_succ_self k, (level_of_finalizes T k v hf).2.1⟩
    · rcases (level_black_iff T k v).mp hc with hb | hb
      · obtain ⟨j, hj, hd⟩ := h.black v hb
        exact ⟨j, Nat.lt_succ_of_lt hj, ((level_of_not_finalizes T k v hf).1).trans hd⟩
      · exact absurd hb hf
  · intro v hc
    have hf : ¬ T.finalizes k v := fun hf => hc (level_of_finalizes T k v hf).1
    obtain ⟨h1, h2, hb, _, _⟩ := level_of_not_finalizes T k v hf
    have hnb : T.color v ≠ .black := fun hbl => hc (hb hbl)
    exact ⟨h1.trans (h.old v hnb).1, h2.trans (h.old v hnb).2⟩
  · intro v hc
    exact h.white v (level_white T k v hc).1
  · intro v j hj
    by_cases hjk : j = k
    · subst hjk
      rw [hUfin v, h.finalizes_iff v, h.settled_level v]
    · have hlt : j < k := by omega
      rw [← hlay'.settled_iff_black j v, settled_level_iff U k j v hlt,
        h.layered.settled_iff_black j v, h.agree v j hlt, settled_level_iff T k j v hlt]
  · intro v j hj hset
    by_cases hjk : j = k
    · subst hjk
      have hcase := (h.settled_level v).mp hset
      have hfU := (h.finalizes_iff v).mpr hcase
      rw [(level_of_finalizes U j v hfU).2.2]
      rcases hcase with hf | ⟨hcol, hd⟩
      · rw [(level_of_finalizes T j v hf).2.2]
        exact h.predecessorsAt_eq v
      · have hf : ¬ T.finalizes j v := fun hf => by
          rw [hf.1] at hcol
          cases hcol
        rw [(level_of_not_finalizes T j v hf).2.1, (h.old v (by rw [hcol]; decide)).2]
        have hlc := h.white v hcol
        cases j with
        | zero => exact hlc.2.2.2.1 hd
        | succ m =>
          rw [(hlc.2.1 m hd).1, ← h.predecessorsAt_eq v]
          show _ = T.candidates m v
          unfold DynBFS.candidates
          rw [h.graphT]
          apply List.filter_congr
          intro u hu
          rw [Bool.eq_iff_iff, h.unaffected v hcol (Or.inr ⟨m + 1, Nat.le_refl _, hd⟩) u hu m
            (Nat.lt_succ_self m)]
          simp
    · have hlt : j < k := by omega
      have hsetT := (settled_level_iff T k j v hlt).mp hset
      have hfT : ¬ T.finalizes k v := fun hf => ((settled_iff T j v).mp hsetT).1 hf.1
      have hU := (h.agree v j hlt).mpr hsetT
      have hfU : ¬ U.finalizes k v := fun hf => by
        rw [hf.1] at hU
        cases hU.1
      rw [(level_of_not_finalizes T k v hfT).2.1, (level_of_not_finalizes U k v hfU).2.1]
      exact h.previous v j hlt hsetT
  · intro v hc hbeyond u hu j hj
    obtain ⟨hw, _, hnm⟩ := level_white T k v hc
    by_cases hjk : j = k
    · subst hjk
      rw [h.settled_level u]
      constructor
      · rintro (hf | ⟨_, hd⟩)
        · by_contra hne
          apply hnm
          apply h.marks_of_changed v u hw hbeyond hu
          rw [changed_iff]
          left
          refine ⟨hf, ?_⟩
          rw [(h.old u (by rw [hf.1]; decide)).1]
          exact hne
        · exact hd
      · intro hd
        cases hcol : T.color u with
        | white => exact Or.inr ⟨rfl, hd⟩
        | gray =>
          by_cases hf : T.finalizes j u
          · exact Or.inl hf
          · exfalso
            apply hnm
            apply h.marks_of_changed v u hw hbeyond hu
            rw [changed_iff]
            right
            refine ⟨hcol, hf, ?_⟩
            rw [(h.old u (by rw [hcol]; decide)).1]
            exact hd
        | black =>
          exfalso
          obtain ⟨j', hj', hdj'⟩ := h.black u hcol
          have hset : T.settled j' u = true := by
            rw [settled_iff]
            exact ⟨by rw [hcol]; decide, hdj'⟩
          have := (h.unaffected v hw (Repairing.beyond_prev hbeyond) u hu j' hj').mp hset
          rw [hd] at this
          have : j = j' := Option.some.inj this
          omega
    · have hlt : j < k := by omega
      rw [settled_level_iff T k j u hlt]
      exact h.unaffected v hw (Repairing.beyond_prev hbeyond) u hu j hlt

/-- The relation holds after every number of levels when it holds at the start. -/
theorem Repairing.after {G : DynGraph} {s : Nat} {D : Nat → Option Nat}
    {P : Nat → List Nat} {T U : DynBFS} (h : Repairing G s D P 0 T U) :
    ∀ k, Repairing G s D P k (T.after k) (U.after k) := by
  intro k
  induction k with
  | zero => exact h
  | succ k ih => exact ih.level

/-- After enough levels the repaired tree and the tree built from scratch have the same
distances and predecessors. -/
theorem Repairing.finish_eq {G : DynGraph} {s : Nat} {D : Nat → Option Nat}
    {P : Nat → List Nat} {k : Nat} {T U : DynBFS} (h : Repairing G s D P k T U)
    (hbound : ∀ v i, D v = some i → i < k) (v : Nat) :
    T.finish.distances v = U.finish.distances v ∧ T.finish.previous v = U.finish.previous v := by
  rw [(finish_layered k U h.layered v).1, (finish_layered k U h.layered v).2]
  have hd : T.finish.distances v = if T.color v = .gray then none else T.distances v := rfl
  have hp : T.finish.previous v = if T.color v = .gray then [] else T.previous v := rfl
  rw [hd, hp]
  rcases h.layered v with ⟨hc, j, hj, hdj⟩ | ⟨hc, hdn, hpn⟩
  · have hset := (h.agree v j hj).mp ⟨hc, hdj⟩
    have hprev := h.previous v j hj hset
    rw [settled_iff] at hset
    rw [if_neg hset.1, if_neg hset.1, hset.2, hdj, hprev]
    exact ⟨rfl, rfl⟩
  · rw [hdn, hpn]
    cases hcol : T.color v with
    | gray => simp
    | black =>
      exfalso
      obtain ⟨j, hj, hdj⟩ := h.black v hcol
      have hset : T.settled j v = true := by
        rw [settled_iff]
        exact ⟨by rw [hcol]; decide, hdj⟩
      have := ((h.agree v j hj).mpr hset).1
      rw [hc] at this
      cases this
    | white =>
      have hold := h.old v (by rw [hcol]; decide)
      have hlc := h.white v hcol
      cases hD : D v with
      | none =>
        rw [hold.1, hold.2, hD, hlc.2.2.2.2 hD]
        simp
      | some i =>
        exfalso
        have hset : T.settled i v = true := by
          rw [settled_iff]
          exact ⟨by rw [hcol]; decide, hold.1.trans hD⟩
        have := ((h.agree v i (hbound v i hD)).mpr hset).1
        rw [hc] at this
        cases this

theorem DynBFS.run_G (T : DynBFS) : T.run.G = T.G := by
  rw [DynBFS.run_eq_after]
  exact after_G _ _

theorem DynBFS.run_source (T : DynBFS) : T.run.source = T.source := by
  rw [DynBFS.run_eq_after]
  exact after_source _ _

/-- The start of an update: the old tree with the new graph and the end points of the batch
tentative is related to the start of a build from scratch on the new graph. -/
theorem repairing_start (G G1 : DynGraph) (s : Nat) (batch : List GraphEvent)
    (hb : G.applyBatch batch = some G1) :
    Repairing G1 s (DynBFS.init G s).run.distances (DynBFS.init G s).run.previous 0
      { (DynBFS.init G s).run with
        G := G1
        color := fun v =>
          if v ∈ batch.flatMap GraphEvent.endpoints then .gray else .white }
      (DynBFS.init G1 s) := by
  refine
    { graphT := rfl
      sourceT := DynBFS.run_source (DynBFS.init G s)
      graphU := rfl
      sourceU := rfl
      black := ?_
      old := fun v _ => ⟨rfl, rfl⟩
      white := ?_
      agree := fun v j hj => by omega
      previous := fun v j hj => by omega
      unaffected := fun v _ _ u _ j hj => by omega
      layered := layered_init G1 s }
  · intro v hc
    change (if v ∈ batch.flatMap GraphEvent.endpoints then Color.gray else Color.white) =
      .black at hc
    split at hc <;> cases hc
  · intro v hc
    change (if v ∈ batch.flatMap GraphEvent.endpoints then Color.gray else Color.white) =
      .white at hc
    have hv : v ∉ batch.flatMap GraphEvent.endpoints := by
      intro hmem
      rw [if_pos hmem] at hc
      cases hc
    exact (DynBFS.run_consistent G s v).1.of_sameView (applyBatch_sameView batch G G1 hb v hv)

/-- An update with a batch that fits the graph view succeeds; its outcome is the state after
all levels of the wavefront, with the tentative nodes that are left over unreached. -/
theorem update_eq_after (T : DynBFS) (batch : List GraphEvent) (G1 : DynGraph)
    (hb : T.G.applyBatch batch = some G1) :
    T.update batch =
      some (DynBFS.after
        { T with
          G := G1
          color := fun v =>
            if v ∈ batch.flatMap GraphEvent.endpoints then .gray else .white }
        (G1.z + 1)).finish := by
  have hwave := wavefront_eq_after
    { T with
      G := G1
      color := fun v =>
        if v ∈ batch.flatMap GraphEvent.endpoints then .gray else .white } (G1.z + 1) 0
  rw [Nat.zero_add] at hwave
  unfold DynBFS.update
  rw [hb]
  exact congrArg (fun x => some (DynBFS.finish x)) hwave

/-- Claim C14. For every graph `G`, source `s` and batch of edit events that turns `G` into
`G1`: building the tree with `run` on `G` and then calling `update` with the batch succeeds
and leaves, at every node, the distance and the predecessor list that `run` builds from
scratch on `G1`. -/
theorem update_eq_run_from_scratch (G G1 : DynGraph) (s : Nat) (batch : List GraphEvent)
    (hb : G.applyBatch batch = some G1) :
    ∃ T1 : DynBFS,
      (DynBFS.init G s).run.update batch = some T1 ∧
      T1.G = G1 ∧
      ∀ v, T1.distances v = (DynBFS.init G1 s).run.distances v ∧
        T1.previous v = (DynBFS.init G1 s).run.previous v := by
  have hG : (DynBFS.init G s).run.G = G := DynBFS.run_G _
  have hafter := (repairing_start G G1 s batch hb).after (G1.z + 1)
  have hbound : ∀ v i, (DynBFS.init G s).run.distances v = some i → i < G1.z + 1 := by
    intro v i hd
    have h1 := (DynBFS.run_consistent G s v).2 i hd
    have h2 := applyBatch_z_le batch G G1 hb
    omega
  refine ⟨_, update_eq_after _ batch G1 (by rw [hG]; exact hb), after_G _ _, fun v => ?_⟩
  rw [DynBFS.run_eq_after (DynBFS.init G1 s)]
  exact hafter.finish_eq hbound v

/-- Claim C14 at a concrete input: the undirected path `0 - 1 - 2 - 3` with source 0; the
batch removes the edge between 1 and 2 and adds an edge between 0 and 3. Node 3 moves from
distance 3 to distance 1 and node 2 gets node 3 as its predecessor. -/
theorem update_eq_run_from_scratch_witness :
    dynPath.applyBatch [.edgeRemoval 1 2, .edgeAddition 0 3] = some dynPathRewired ∧
    ((List.range 4).map fun v =>
      ((DynBFS.init dynPath 0).run.distances v, (DynBFS.init dynPath 0).run.previous v)) =
      [(some 0, []), (some 1, [0]), (some 2, [1]), (some 3, [2])] ∧
    ((List.range 4).map fun v =>
      ((DynBFS.init dynPathRewired 0).run.distances v,
        (DynBFS.init dynPathRewired 0).run.previous v)) =
      [(some 0, []), (some 1, [0]), (some 2, [3]), (some 1, [0])] ∧
    ∃ T1 : DynBFS,
      (DynBFS.init dynPath 0).run.update [.edgeRemoval 1 2, .edgeAddition 0 3] = some T1 ∧
      T1.G = dynPathRewired ∧
      ∀ v, T1.distances v = (DynBFS.init dynPathRewired 0).run.distances v ∧
        T1.previous v = (DynBFS.init dynPathRewired 0).run.previous v :=
  ⟨rfl, by decide, by decide,
    update_eq_run_from_scratch dynPath dynPathRewired 0 [.edgeRemoval 1 2, .edgeAddition 0 3]
      rfl⟩

/-- The updater at work on the path `0 - 1 - 2 - 3` with source 0: removing the edge between
1 and 2 cuts off the nodes 2 and 3; a new node 4 with an edge to node 3 is reached at
distance 4; a batch that removes an edge that does not exist, or that changes a weight, is
refused. -/
theorem update_examples :
    ((DynBFS.init dynPath 0).run.update [.edgeRemoval 1 2]).map
        (fun T => (List.range 4).map fun v => (T.distances v, T.previous v)) =
      some [(some 0, []), (some 1, [0]), (none, []), (none, [])] ∧
    ((DynBFS.init dynPath 0).run.update [.nodeAddition 4, .edgeAddition 3 4]).map
        (fun T => (List.range 5).map fun v => (T.distances v, T.previous v)) =
      some [(some 0, []), (some 1, [0]), (some 2, [1]), (some 3, [2]), (some 4, [3])] ∧
    ((DynBFS.init dynPath 0).run.update [.edgeRemoval 1 3]).isNone = true ∧
    ((DynBFS.init dynPath 0).run.update [.edgeWeightUpdate 1 2 2]).isNone = true ∧
    ((DynBFS.init dynPath 0).run.update [.nodeRemoval 3]).isNone = true := by
  decide

/-! ### The order of the backward pass -/

theorem popLoop_append_singleton (fuel : Nat) (stack : List Nat) (t : Nat) :
    popLoop (fuel + 1) (stack ++ [t]) = t :: popLoop fuel stack := by
  simp [popLoop]

/-- The loop takes the nodes from the back of the list: in reverse order. -/
theorem popOrder_eq_reverse (stack : List Nat) : popOrder stack = stack.reverse := by
  unfold popOrder
  induction stack using List.reverseRecOn with
  | nil => rfl
  | append_singleton stack t ih =>
    rw [List.length_append, List.length_singleton, popLoop_append_singleton, ih,
      List.reverse_append, List.reverse_singleton, List.singleton_append]

theorem computeDependencies_eq_stackLoop (G : Graph) (e : Bool) (sssp : SSSP) (s : Nat)
    (w : Worker) (ls : List ℚ) :
    computeDependencies G e sssp true true s (w, ls) =
      stackLoop G e sssp s (popOrder sssp.getNodesSortedByDistance)
        ({ w with dependency := List.replicate w.dependency.length 0 }, ls) := by
  rw [popOrder_eq_reverse]
  simp [computeDependencies]

theorem stackLoop_append (G : Graph) (e : Bool) (sssp : SSSP) (s : Nat) :
    ∀ (A B : List Nat) (st : Worker × List ℚ),
      stackLoop G e sssp s (A ++ B) st = stackLoop G e sssp s B (stackLoop G e sssp s A st) := by
  intro A
  induction A with
  | nil => intro B st; rfl
  | cons t A ih =>
    intro B st
    obtain ⟨w, ls⟩ := st
    rw [List.cons_append]
    by_cases h : t = s
    · simp only [stackLoop, h, ne_eq, not_true_eq_false, if_false]
      exact ih B _
    · simp only [stackLoop, ne_eq, h, not_false_eq_true, if_true]
      exact ih B _

theorem predecessorLoop_dependency_untouched (G : Graph) (e : Bool) (sssp : SSSP) (t x : Nat) :
    ∀ (ps : List Nat) (w : Worker), x ∉ ps →
      (predecessorLoop G e sssp t ps w).dependency.getD x 0 = w.dependency.getD x 0 := by
  intro ps
  induction ps with
  | nil => intro w _; rfl
  | cons p ps ih =>
    intro w hx
    have hxp : x ≠ p := fun h => hx (h ▸ List.mem_cons_self _ _)
    simp only [predecessorLoop]
    rw [ih _ (fun h => hx (List.mem_cons_of_mem _ h))]
    show (addAt w.dependency p _).getD x 0 = _
    rw [getD_addAt, if_neg (fun h => hxp h.1)]

/-- Popping nodes that do not list `x` as a predecessor leaves `dependency[x]` as it is. -/
theorem stackLoop_dependency_untouched (G : Graph) (e : Bool) (sssp : SSSP) (s x : Nat) :
    ∀ (R : List Nat) (w : Worker) (ls : List ℚ), (∀ u ∈ R, x ∉ sssp.getPredecessors u) →
      (stackLoop G e sssp s R (w, ls)).1.dependency.getD x 0 = w.dependency.getD x 0 := by
  intro R
  induction R with
  | nil => intro w ls _; rfl
  | cons t R ih =>
    intro w ls h
    obtain ⟨l1, h1⟩ := stackLoop_cons_fst G e sssp s t R w ls
    rw [h1, ih _ l1 (fun u hu => h u (List.mem_cons_of_mem _ hu)), afterPop_dependency,
      predecessorLoop_dependency_untouched G e sssp t x _ w (h t (List.mem_cons_self _ _))]

theorem processedBeforePredecessors_of_distance (sssp : SSSP) :
    ∀ (L : List Nat), L.Pairwise (fun a b => sssp.distance a ≤ sssp.distance b) →
      (∀ t ∈ L, ∀ p ∈ sssp.getPredecessors t, p ∈ L ∧ sssp.distance p < sssp.distance t) →
      processedBeforePredecessors sssp L.reverse := by
  intro L
  induction L using List.reverseRecOn with
  | nil => intro _ _; exact trivial
  | append_singleton L t ih =>
    intro hs hp
    rw [List.reverse_append, List.reverse_singleton, List.singleton_append]
    have hs' := List.pairwise_append.mp hs
    have hmem : ∀ u ∈ L ++ [t], ∀ p ∈ sssp.getPredecessors u, p ∈ L := by
      intro u hu p hpm
      obtain ⟨hpL, hlt⟩ := hp u hu p hpm
      rcases List.mem_append.mp hpL with h | h
      · exact h
      · have hpt : p = t := by simpa using h
        rcases List.mem_append.mp hu with h2 | h2
        · have := hs'.2.2 u h2 t (by simp)
          rw [hpt] at hlt
          exact absurd hlt (not_lt.mpr this)
        · have hut : u = t := by simpa using h2
          rw [hpt, hut] at hlt
          exact absurd hlt (lt_irrefl _)
    refine ⟨fun p hpm => List.mem_reverse.mpr (hmem t (by simp) p hpm), ih hs'.1 ?_⟩
    intro u hu p hpm
    exact ⟨hmem u (List.mem_append_left _ hu) p hpm,
      (hp u (List.mem_append_left _ hu) p hpm).2⟩

/-- Claim C15 as stated fails. On the path graph `0 - 1 - 2` with source 0, let the list of
visited nodes be in non-increasing order of distance, `[2, 1, 0]`. The loop takes the nodes
from the back: 0, 1, 2, which is not a non-increasing order of distance. Node 1, the
predecessor of node 2, is handled before node 2: its dependency is 0 then and 1 at the end,
and the score added for it is 0. -/
theorem pops_in_non_increasing_order_counterexample :
    farthestFirstBFS.getNodesSortedByDistance.Pairwise
      (fun a b => farthestFirstBFS.distance a ≥ farthestFirstBFS.distance b) ∧
    popOrder farthestFirstBFS.getNodesSortedByDistance = [0, 1, 2] ∧
    ¬ (popOrder farthestFirstBFS.getNodesSortedByDistance).Pairwise
      (fun a b => farthestFirstBFS.distance a ≥ farthestFirstBFS.distance b) ∧
    farthestFirstBFS.getPredecessors 2 = [1] ∧
    (stackLoop (pathGraph 3) false farthestFirstBFS 0 [0, 1]
      (zeroWorker 3 0, [])).1.dependency.getD 1 0 = 0 ∧
    (computeDependencies (pathGraph 3) false farthestFirstBFS true true 0
      (zeroWorker 3 0, [])).1.dependency.getD 1 0 = 1 ∧
    (computeDependencies (pathGraph 3) false farthestFirstBFS true true 0
      (zeroWorker 3 0, [])).1.scorePerThread.getD 1 0 = 0 ∧
    (computeDependencies (pathGraph 3) false (pathBFS 3 0) true true 0
      (zeroWorker 3 0, [])).1.scorePerThread.getD 1 0 = 1 := by
  decide!

/-- Claim C15, amended. Let the list of visited nodes be in non-decreasing order of distance
from the source (source first), with every predecessor of a visited node visited and
strictly closer to the source. The loop body for source `s` runs the backward pass over the
list taken from the back; the nodes are taken in non-increasing order of distance; every
node is taken before each of its predecessors; and when a node `t` is taken its dependency
is final: the value of `dependency[t]` at that moment is the value at the end of the pass,
so the contribution handed to the predecessors of `t` comes from the final value. -/
theorem pops_in_non_increasing_order (G : Graph) (e : Bool) (sssp : SSSP) (s : Nat)
    (hsorted : sssp.getNodesSortedByDistance.Pairwise
      (fun a b => sssp.distance a ≤ sssp.distance b))
    (hpred : ∀ t ∈ sssp.getNodesSortedByDistance, ∀ p ∈ sssp.getPredecessors t,
      p ∈ sssp.getNodesSortedByDistance ∧ sssp.distance p < sssp.distance t) :
    (∀ (w : Worker) (ls : List ℚ),
      computeDependencies G e sssp true true s (w, ls) =
        stackLoop G e sssp s (popOrder sssp.getNodesSortedByDistance)
          ({ w with dependency := List.replicate w.dependency.length 0 }, ls)) ∧
    (popOrder sssp.getNodesSortedByDistance).Pairwise
      (fun a b => sssp.distance a ≥ sssp.distance b) ∧
    processedBeforePredecessors sssp (popOrder sssp.getNodesSortedByDistance) ∧
    (∀ (R1 R2 : List Nat) (t : Nat),
      popOrder sssp.getNodesSortedByDistance = R1 ++ t :: R2 →
      (∀ p ∈ sssp.getPredecessors t, p ∈ R2 ∧ p ∉ R1) ∧
      ∀ (w : Worker) (ls : List ℚ),
        (stackLoop G e sssp s R1 (w, ls)).1.dependency.getD t 0 =
          (stackLoop G e sssp s (popOrder sssp.getNodesSortedByDistance)
            (w, ls)).1.dependency.getD t 0) := by
  have hpops : (popOrder sssp.getNodesSortedByDistance).Pairwise
      (fun a b => sssp.distance a ≥ sssp.distance b) := by
    rw [popOrder_eq_reverse, List.pairwise_reverse]
    exact hsorted
  refine ⟨fun w ls => computeDependencies_eq_stackLoop G e sssp s w ls, hpops, ?_, ?_⟩
  · rw [popOrder_eq_reverse]
    exact processedBeforePredecessors_of_distance sssp _ hsorted hpred
  · intro R1 R2 t hsplit
    rw [hsplit] at hpops
    have hp := List.pairwise_append.mp hpops
    have hmemL : ∀ u, u ∈ R1 ++ t :: R2 → u ∈ sssp.getNodesSortedByDistance := by
      intro u hu
      rw [← hsplit, popOrder_eq_reverse] at hu
      exact List.mem_reverse.mp hu
    have hback : ∀ u, u ∈ sssp.getNodesSortedByDistance → u ∈ R1 ++ t :: R2 := by
      intro u hu
      rw [← hsplit, popOrder_eq_reverse]
      exact List.mem_reverse.mpr hu
    have htL : t ∈ sssp.getNodesSortedByDistance := hmemL t (by simp)
    have hnotR1 : ∀ p ∈ sssp.getPredecessors t, p ∉ R1 := by
      intro p hpm hpR1
      have h1 : sssp.distance p ≥ sssp.distance t := hp.2.2 p hpR1 t (by simp)
      exact absurd (hpred t htL p hpm).2 (not_lt.mpr h1)
    refine ⟨fun p hpm => ⟨?_, hnotR1 p hpm⟩, ?_⟩
    · rcases List.mem_append.mp (hback p (hpred t htL p hpm).1) with h | h
      · exact absurd h (hnotR1 p hpm)
      · rcases List.mem_cons.mp h with h2 | h2
        · have := (hpred t htL p hpm).2
          rw [h2] at this
          exact absurd this (lt_irrefl _)
        · exact h2
    · intro w ls
      rw [hsplit, stackLoop_append]
      obtain ⟨w1, ls1⟩ := stackLoop G e sssp s R1 (w, ls)
      rw [stackLoop_dependency_untouched G e sssp s t (t :: R2) w1 ls1]
      intro u hu htu
      have hlt := (hpred u (hmemL u (List.mem_append_right _ hu)) t htu).2
      rcases List.mem_cons.mp hu with h | h
      · rw [h] at hlt
        exact absurd hlt (lt_irrefl _)
      · have hge : sssp.distance t ≥ sssp.distance u :=
          (List.pairwise_cons.mp hp.2.1).1 u h
        exact absurd hlt (not_lt.mpr hge)

/-- Claim C15, amended, at a concrete input: the cycle on four nodes with source 0. -/
theorem pops_in_non_increasing_order_witness :
    (cycleBFS 0).getNodesSortedByDistance.Pairwise
      (fun a b => (cycleBFS 0).distance a ≤ (cycleBFS 0).distance b) ∧
    (∀ t ∈ (cycleBFS 0).getNodesSortedByDistance, ∀ p ∈ (cycleBFS 0).getPredecessors t,
      p ∈ (cycleBFS 0).getNodesSortedByDistance ∧
        (cycleBFS 0).distance p < (cycleBFS 0).distance t) ∧
    popOrder (cycleBFS 0).getNodesSortedByDistance = [2, 3, 1, 0] ∧
    (popOrder (cycleBFS 0).getNodesSortedByDistance).Pairwise
      (fun a b => (cycleBFS 0).distance a ≥ (cycleBFS 0).distance b) :=
  ⟨by decide!, by decide!, by decide!,
    (pops_in_non_increasing_order cycleGraph true (cycleBFS 0) 0 (by decide!)
      (by decide!)).2.1⟩

/-! ### The length-scaled pass -/

theorem interior_of_short (path : List Nat) (h : path.length ≤ 2) : interior path = [] := by
  unfold interior
  match path, h with
  | [], _ => rfl
  | [_], _ => rfl
  | [_, _], _ => rfl

theorem foldl_addAt_length (c : ℚ) :
    ∀ (l : List Nat) (acc : List ℚ),
      (l.foldl (fun a node => addAt a node c) acc).length = acc.length :=
  foldl_length_of_step _ (fun _ _ => length_addAt _ _ _)

theorem foldl_addAt_getD (c : ℚ) (v : Nat) :
    ∀ (l : List Nat) (acc : List ℚ), v < acc.length →
      (l.foldl (fun a node => addAt a node c) acc).getD v 0 =
        acc.getD v 0 + (l.count v : ℚ) * c := by
  intro l
  induction l with
  | nil => intro acc _; simp
  | cons a l ih =>
    intro acc hv
    rw [List.foldl_cons, ih _ (by rw [length_addAt]; exact hv), getD_addAt]
    by_cases hva : v = a
    · subst hva
      rw [if_pos ⟨rfl, hv⟩, List.count_cons_self]
      push_cast
      ring
    · rw [if_neg (fun h => hva h.1), List.count_cons_of_ne hva]

theorem pathsFold_length (c : ℚ) :
    ∀ (paths : List (List Nat)) (acc : List ℚ),
      (paths.foldl
        (fun acc path =>
          if path.length ≤ 2 then acc
          else (interior path).foldl (fun a node => addAt a node c) acc) acc).length =
        acc.length := by
  apply foldl_length_of_step
  intro acc path
  split
  · rfl
  · exact foldl_addAt_length c _ _

theorem pathsFold_getD (c : ℚ) (v : Nat) :
    ∀ (paths : List (List Nat)) (acc : List ℚ), v < acc.length →
      (paths.foldl
        (fun acc path =>
          if path.length ≤ 2 then acc
          else (interior path).foldl (fun a node => addAt a node c) acc) acc).getD v 0 =
        acc.getD v 0 + ((paths.map fun path => (interior path).count v).sum : Nat) * c := by
  intro paths
  induction paths with
  | nil => intro acc _; simp
  | cons path paths ih =>
    intro acc hv
    rw [List.foldl_cons, List.map_cons, List.sum_cons]
    by_cases hshort : path.length ≤ 2
    · rw [if_pos hshort, ih _ hv, interior_of_short path hshort]
      simp
    · rw [if_neg hshort, ih _ (by rw [foldl_addAt_length]; exact hv),
        foldl_addAt_getD c v _ _ hv]
      push_cast
      ring

theorem lengthScaledPass_length (sssp : SSSP) (t : Nat) (ls : List ℚ) :
    (lengthScaledPass sssp t ls).length = ls.length := by
  unfold lengthScaledPass
  simp only
  split
  · rfl
  · exact pathsFold_length _ _ _

/-- What the length-scaled block adds for one target. -/
theorem lengthScaledPass_getD (sssp : SSSP) (t : Nat) (ls : List ℚ) (v : Nat)
    (hv : v < ls.length) :
    (lengthScaledPass sssp t ls).getD v 0 =
      ls.getD v 0 + ((sssp.getPaths t).length : ℚ) / sssp.distance t *
        (interiorOccurrences sssp t v : ℚ) := by
  unfold lengthScaledPass interiorOccurrences
  simp only
  split
  · rename_i h0
    rw [List.length_eq_zero.mp h0]
    simp
  · rw [pathsFold_getD _ v _ _ hv]
    ring

theorem stackLoop_lengthScaled_length (G : Graph) (e : Bool) (sssp : SSSP) (s : Nat) :
    ∀ (R : List Nat) (w : Worker) (ls : List ℚ),
      (stackLoop G e sssp s R (w, ls)).2.length = ls.length := by
  intro R
  induction R with
  | nil => intro w ls; rfl
  | cons t R ih =>
    intro w ls
    by_cases h : t = s
    · simp only [stackLoop, h, ne_eq, not_true_eq_false, if_false]
      exact ih _ _
    · simp only [stackLoop, ne_eq, h, not_false_eq_true, if_true]
      rw [ih, lengthScaledPass_length]

theorem stackLoop_lengthScaled (G : Graph) (e : Bool) (sssp : SSSP) (s v : Nat) :
    ∀ (R : List Nat) (w : Worker) (ls : List ℚ), v < ls.length →
      (stackLoop G e sssp s R (w, ls)).2.getD v 0 =
        ls.getD v 0 + ((R.filter fun t => decide (t ≠ s)).map fun t =>
          ((sssp.getPaths t).length : ℚ) / sssp.distance t *
            (interiorOccurrences sssp t v : ℚ)).sum := by
  intro R
  induction R with
  | nil => intro w ls _; simp [stackLoop]
  | cons t R ih =>
    intro w ls hv
    by_cases h : t = s
    · simp only [stackLoop, h, ne_eq, not_true_eq_false, if_false]
      rw [ih _ _ hv]
      simp
    · simp only [stackLoop, ne_eq, h, not_false_eq_true, if_true]
      rw [ih _ _ (by rw [lengthScaledPass_length]; exact hv),
        lengthScaledPass_getD sssp t ls v hv]
      simp only [List.filter_cons, ne_eq, h, not_false_eq_true, decide_True, if_true,
        List.map_cons, List.sum_cons]
      ring

theorem sum_map_filter_paths (sssp : SSSP) (s v : Nat) (L : List Nat) :
    ((L.filter fun t => decide (t ≠ s)).map fun t =>
        ((sssp.getPaths t).length : ℚ) / sssp.distance t *
          (interiorOccurrences sssp t v : ℚ)).sum =
      ((L.filter fun t => decide (t ≠ s ∧ 0 < (sssp.getPaths t).length)).map fun t =>
        ((sssp.getPaths t).length : ℚ) / sssp.distance t *
          (interiorOccurrences sssp t v : ℚ)).sum := by
  rw [sum_map_filter_rat, sum_map_filter_rat]
  congr 1
  apply List.map_congr_left
  intro t _
  by_cases hts : t = s
  · simp [hts]
  · by_cases hk : 0 < (sssp.getPaths t).length
    · simp [hts, hk]
    · have h0 : sssp.getPaths t = [] := List.length_eq_zero.mp (Nat.eq_zero_of_not_pos hk)
      simp [hts, h0, interiorOccurrences]

theorem computeDependencies_lengthScaled_length (G : Graph) (e : Bool) (sssp : SSSP)
    (r1 r2 : Bool) (s : Nat) (w : Worker) (ls : List ℚ) :
    (computeDependencies G e sssp r1 r2 s (w, ls)).2.length = ls.length := by
  unfold computeDependencies
  cases r1 <;> cases r2 <;> simp [stackLoop_lengthScaled_length]

/-- What the loop body for source `s` adds to the shared length-scaled vector. -/
theorem computeDependencies_lengthScaled (G : Graph) (e : Bool) (sssp : SSSP) (s : Nat)
    (w : Worker) (ls : List ℚ) (v : Nat) (hv : v < ls.length) :
    (computeDependencies G e sssp true true s (w, ls)).2.getD v 0 =
      ls.getD v 0 + lengthScaledContribution sssp s v := by
  have h : computeDependencies G e sssp true true s (w, ls) =
      stackLoop G e sssp s sssp.getNodesSortedByDistance.reverse
        ({ w with dependency := List.replicate w.dependency.length 0 }, ls) := by
    simp [computeDependencies]
  rw [h, stackLoop_lengthScaled G e sssp s v _ _ ls hv, sum_map_filter_paths]
  unfold lengthScaledContribution
  congr 1
  apply List.Perm.sum_eq
  apply List.Perm.map
  apply List.Perm.filter
  exact List.reverse_perm _

theorem onWorker_workers_length (st : RunState) (i : Nat)
    (body : Worker × List ℚ → Worker × List ℚ) :
    (st.onWorker i body).workers.length = st.workers.length := by
  unfold RunState.onWorker
  cases st.workers.get? i <;> simp

theorem onWorker_lengthScaled (st : RunState) (i : Nat)
    (body : Worker × List ℚ → Worker × List ℚ) (hi : i < st.workers.length) :
    ∃ w ∈ st.workers, (st.onWorker i body).lengthScaled = (body (w, st.lengthScaled)).2 := by
  unfold RunState.onWorker
  rw [List.get?_eq_get hi]
  exact ⟨_, List.get_mem _ _ _, rfl⟩

theorem balancedParallelForNodes_lengthScaled (G : Graph) (e : Bool) (strategy : Nat → SSSP)
    (thread : Nat → Nat) (v : Nat) :
    ∀ (sources : List Nat) (poll : Nat) (st : RunState),
      (∀ s ∈ sources, thread s < st.workers.length) → v < st.lengthScaled.length →
      (balancedParallelForNodes G e strategy thread none sources poll st).lengthScaled.getD v 0 =
        st.lengthScaled.getD v 0 +
          (sources.map fun s => lengthScaledContribution (strategy s) s v).sum := by
  intro sources
  induction sources with
  | nil => intro _ st _ _; simp [balancedParallelForNodes]
  | cons s sources ih =>
    intro poll st hthr hv
    obtain ⟨w, _, hw⟩ := onWorker_lengthScaled st (thread s)
      (computeDependencies G e (strategy s) true true s) (hthr s (List.mem_cons_self _ _))
    rw [balancedParallelForNodes, isRunning_none, isRunning_none,
      ih (poll + 2) _
        (fun s' hs' => by
          rw [onWorker_workers_length]; exact hthr s' (List.mem_cons_of_mem _ hs'))
        (by rw [hw, computeDependencies_lengthScaled_length]; exact hv),
      hw, computeDependencies_lengthScaled G e (strategy s) s w st.lengthScaled v hv]
    simp only [List.map_cons, List.sum_cons]
    ring

theorem run_lengthScaled_eq (C : Centrality) (bfs dijkstra : Nat → SSSP) (maxThreads : Nat)
    (thread : Nat → Nat) :
    (Betweenness.run C bfs dijkstra maxThreads thread none).1.lengthScaled =
      (Betweenness.parallelPhase C bfs dijkstra maxThreads thread none).lengthScaled := by
  rw [run_not_cancelled]
  rfl

/-! ### Sums of buffer entries -/

theorem sum_map_add_rat {α : Type} (f g : α → ℚ) (l : List α) :
    (l.map fun a => f a + g a).sum = (l.map f).sum + (l.map g).sum := by
  induction l with
  | nil => simp
  | cons a l ih => simp only [List.map_cons, List.sum_cons, ih]; ring

theorem sumOn_addAt (idx : List Nat) (xs : List ℚ) (i : Nat) (c : ℚ) (hnd : idx.Nodup)
    (hi : i ∈ idx) (hlt : i < xs.length) : sumOn idx (addAt xs i c) = sumOn idx xs + c := by
  unfold sumOn
  have h : (idx.map fun j => (addAt xs i c).getD j 0) =
      idx.map fun j => xs.getD j 0 + if j = i then c else 0 := by
    apply List.map_congr_left
    intro j _
    exact getD_addAt_of_lt xs i j c hlt
  rw [h, sum_map_add_rat, sum_map_indicator (fun _ => c) i idx hnd hi]

theorem sumOn_replicate (idx : List Nat) (n : Nat) : sumOn idx (List.replicate n 0) = 0 := by
  unfold sumOn
  apply List.sum_eq_zero
  intro x hx
  obtain ⟨i, _, rfl⟩ := List.mem_map.mp hx
  exact getD_replicate_zero _ _

theorem sumOn_range_cons (a : ℚ) (xs : List ℚ) (n : Nat) :
    sumOn (List.range (n + 1)) (a :: xs) = a + sumOn (List.range n) xs := by
  unfold sumOn
  rw [List.range_succ_eq_map, List.map_cons, List.sum_cons, List.map_map]
  rfl

/-- The sum of all entries of a vector. -/
theorem sum_eq_sumOn_range (xs : List ℚ) : xs.sum = sumOn (List.range xs.length) xs := by
  induction xs with
  | nil => rfl
  | cons a xs ih => rw [List.length_cons, sumOn_range_cons, List.sum_cons, ih]

theorem sum_map_div_mul (σ : Nat → ℚ) (d c : ℚ) (ps : List Nat) :
    (ps.map fun p => σ p / d * c).sum = (ps.map σ).sum / d * c := by
  induction ps with
  | nil => simp
  | cons p ps ih => simp only [List.map_cons, List.sum_cons, ih]; ring

/-! ### The edge scores and the dependencies grow together -/

/-- The predecessor loop of node `t` adds the same amounts to the dependency buffer and to
the edge-score buffer, and leaves `dependency[t]` as it is. -/
theorem predecessorLoop_sums (G : Graph) (sssp : SSSP) (t z2 : Nat) :
    ∀ (ps : List Nat) (w : Worker), t ∉ ps →
      (∀ p ∈ ps, p ∈ G.nodes ∧ G.edgeId p t < z2) →
      w.dependency.length = G.upperNodeIdBound → w.edgeScorePerThread.length = z2 →
      sumOn G.nodes (predecessorLoop G true sssp t ps w).dependency =
        sumOn G.nodes w.dependency +
          (ps.map fun p => (sssp.numberOfPaths p : ℚ) / (sssp.numberOfPaths t : ℚ) *
            (1 + w.dependency.getD t 0)).sum ∧
      sumOn (List.range z2) (predecessorLoop G true sssp t ps w).edgeScorePerThread =
        sumOn (List.range z2) w.edgeScorePerThread +
          (ps.map fun p => (sssp.numberOfPaths p : ℚ) / (sssp.numberOfPaths t : ℚ) *
            (1 + w.dependency.getD t 0)).sum := by
  intro ps
  induction ps with
  | nil => intro w _ _ _ _; simp [predecessorLoop]
  | cons p ps ih =>
    intro w ht hb hdl hel
    have htp : t ≠ p := fun h => ht (h ▸ List.mem_cons_self _ _)
    have hts : t ∉ ps := fun h => ht (List.mem_cons_of_mem _ h)
    obtain ⟨hpn, hpe⟩ := hb p (List.mem_cons_self _ _)
    have hpz : p < w.dependency.length := by rw [hdl]; exact mem_nodes_lt G p hpn
    simp only [predecessorLoop, if_true]
    obtain ⟨h1, h2⟩ := ih
      { w with
        dependency := addAt w.dependency p
          ((sssp.numberOfPaths p : ℚ) / (sssp.numberOfPaths t : ℚ) *
            (1 + w.dependency.getD t 0))
        edgeScorePerThread := addAt w.edgeScorePerThread (G.edgeId p t)
          ((sssp.numberOfPaths p : ℚ) / (sssp.numberOfPaths t : ℚ) *
            (1 + w.dependency.getD t 0)) }
      hts (fun q hq => hb q (List.mem_cons_of_mem _ hq))
      (by simp only [length_addAt]; exact hdl) (by simp only [length_addAt]; exact hel)
    have hdt : (addAt w.dependency p
          ((sssp.numberOfPaths p : ℚ) / (sssp.numberOfPaths t : ℚ) *
            (1 + w.dependency.getD t 0))).getD t 0 = w.dependency.getD t 0 := by
      rw [getD_addAt, if_neg (fun h => htp h.1)]
    simp only [hdt] at h1 h2
    rw [h1, h2, sumOn_addAt _ _ _ _ (nodes_nodup G) hpn hpz,
      sumOn_addAt _ _ _ _ (List.nodup_range _) (List.mem_range.mpr hpe) (by rw [hel]; exact hpe)]
    simp only [List.map_cons, List.sum_cons]
    constructor <;> ring

/-- Handling one popped node: the edge-score sum and the dependency sum grow by the same
amount, and the edge-score sum outgrows the score sum by one unless the node is the source. -/
theorem afterPop_sums (G : Graph) (sssp : SSSP) (s t z2 : Nat) (w : Worker)
    (hok : PopOK G sssp s z2 t)
    (hdl : w.dependency.length = G.upperNodeIdBound)
    (hsl : w.scorePerThread.length = G.upperNodeIdBound)
    (hel : w.edgeScorePerThread.length = z2) :
    sumOn (List.range z2) (afterPop G true sssp s t w).edgeScorePerThread -
        sumOn G.nodes (afterPop G true sssp s t w).dependency =
      sumOn (List.range z2) w.edgeScorePerThread - sumOn G.nodes w.dependency ∧
    sumOn (List.range z2) (afterPop G true sssp s t w).edgeScorePerThread -
        sumOn G.nodes (afterPop G true sssp s t w).scorePerThread =
      sumOn (List.range z2) w.edgeScorePerThread - sumOn G.nodes w.scorePerThread +
        (if t = s then 0 else 1) := by
  obtain ⟨htn, htp, hb, hsrc, hcount⟩ := hok
  obtain ⟨h1, h2⟩ := predecessorLoop_sums G sssp t z2 (sssp.getPredecessors t) w htp hb hdl hel
  have hdt := predecessorLoop_dependency_untouched G true sssp t t (sssp.getPredecessors t) w htp
  have hs := predecessorLoop_scorePerThread G true sssp t (sssp.getPredecessors t) w
  unfold afterPop
  by_cases hts : t = s
  · have hnil : sssp.getPredecessors t = [] := hsrc hts
    simp only [ne_eq, hts, not_true_eq_false, if_false, if_true]
    rw [hts] at hnil
    rw [hnil]
    simp [predecessorLoop]
  · simp only [ne_eq, hts, not_false_eq_true, if_true, if_false]
    rw [h1, h2, sumOn_addAt _ _ _ _ (nodes_nodup G) htn
      (by rw [hs, hsl]; exact mem_nodes_lt G t htn), hs, hdt, sum_map_div_mul,
      (hcount hts).1, div_self (hcount hts).2]
    constructor <;> ring

theorem stackLoop_sums (G : Graph) (sssp : SSSP) (s z2 : Nat) :
    ∀ (R : List Nat) (w : Worker) (ls : List ℚ), (∀ t ∈ R, PopOK G sssp s z2 t) →
      w.dependency.length = G.upperNodeIdBound → w.scorePerThread.length = G.upperNodeIdBound →
      w.edgeScorePerThread.length = z2 →
      sumOn (List.range z2) (stackLoop G true sssp s R (w, ls)).1.edgeScorePerThread -
          sumOn G.nodes (stackLoop G true sssp s R (w, ls)).1.dependency =
        sumOn (List.range z2) w.edgeScorePerThread - sumOn G.nodes w.dependency ∧
      sumOn (List.range z2) (stackLoop G true sssp s R (w, ls)).1.edgeScorePerThread -
          sumOn G.nodes (stackLoop G true sssp s R (w, ls)).1.scorePerThread =
        sumOn (List.range z2) w.edgeScorePerThread - sumOn G.nodes w.scorePerThread +
          ((R.filter fun t => decide (t ≠ s)).length : ℚ) := by
  intro R
  induction R with
  | nil => intro w ls _ _ _ _; simp [stackLoop]
  | cons t R ih =>
    intro w ls hok hdl hsl hel
    obtain ⟨l1, h1⟩ := stackLoop_cons_fst G true sssp s t R w ls
    obtain ⟨ha, hb⟩ := afterPop_sums G sssp s t z2 w (hok t (List.mem_cons_self _ _)) hdl hsl hel
    obtain ⟨hc, hd⟩ := ih (afterPop G true sssp s t w) l1
      (fun u hu => hok u (List.mem_cons_of_mem _ hu))
      (by rw [afterPop_dependency, predecessorLoop_dependency_length]; exact hdl)
      (by
        rw [afterPop_scorePerThread]
        by_cases hts : t = s <;> simp [hts, length_addAt, hsl])
      (by rw [afterPop_edge_length]; exact hel)
    rw [h1]
    refine ⟨hc.trans ha, ?_⟩
    rw [hd, hb]
    by_cases hts : t = s
    · simp [List.filter_cons, hts]
    · simp [List.filter_cons, hts]
      ring

/-! ### A correct strategy outcome supports the backward pass -/

theorem not_mem_own_predecessors (sssp : SSSP) :
    ∀ (R : List Nat), processedBeforePredecessors sssp R → R.Nodup →
      ∀ t ∈ R, t ∉ sssp.getPredecessors t := by
  intro R
  induction R with
  | nil => intro _ _ t ht; simp at ht
  | cons a R ih =>
    intro h hnd t ht
    obtain ⟨ha, hR⟩ := List.nodup_cons.mp hnd
    rcases List.mem_cons.mp ht with h1 | h1
    · rw [h1]
      exact fun hmem => ha (h.1 a hmem)
    · exact ih h.2 hR t h1

/-- The path counts of the predecessors of a visited node other than the source add up to
the path count of the node. -/
theorem CorrectSSSP.count_rec {G : Graph} {sssp : SSSP} {s : Nat} (h : CorrectSSSP G sssp s)
    (t : Nat) (ht : t ∈ sssp.getNodesSortedByDistance) (hts : t ≠ s) :
    ((sssp.getPredecessors t).map fun p => (sssp.numberOfPaths p : ℚ)).sum =
      (sssp.numberOfPaths t : ℚ) := by
  obtain ⟨_, _, hord, _, hcount⟩ := h
  have htR : t ∈ sssp.getNodesSortedByDistance.reverse := List.mem_reverse.mpr ht
  have hunf := pathsWithin_unfold sssp s _ hord sssp.getNodesSortedByDistance.length
    (by simp) t htR hts
  have hlen : sssp.numberOfPaths t =
      ((sssp.getPredecessors t).map fun p => sssp.numberOfPaths p).sum := by
    rw [(hcount t ht).1]
    unfold shortestPaths
    rw [hunf, List.length_flatMap]
    congr 1
    apply List.map_congr_left
    intro p hp
    have hpL : p ∈ sssp.getNodesSortedByDistance :=
      List.mem_reverse.mp (processedBeforePredecessors_mem sssp _ hord t htR p hp)
    rw [(hcount p hpL).1]
    simp [shortestPaths]
  rw [hlen, cast_sum_map]

theorem CorrectSSSP.popOK {G : Graph} {sssp : SSSP} {s : Nat} (h : CorrectSSSP G sssp s)
    (z2 : Nat)
    (hid : ∀ t ∈ sssp.getNodesSortedByDistance, ∀ p ∈ sssp.getPredecessors t,
      G.edgeId p t < z2)
    (t : Nat) (ht : t ∈ sssp.getNodesSortedByDistance) : PopOK G sssp s z2 t := by
  have htR : t ∈ sssp.getNodesSortedByDistance.reverse := List.mem_reverse.mpr ht
  refine ⟨h.2.1 t ht, ?_, ?_, ?_, ?_⟩
  · exact not_mem_own_predecessors sssp _ h.2.2.1 (List.nodup_reverse.mpr h.1) t htR
  · intro p hp
    exact ⟨h.2.1 p (List.mem_reverse.mp
      (processedBeforePredecessors_mem sssp _ h.2.2.1 t htR p hp)), hid t ht p hp⟩
  · intro hts
    rw [hts]
    exact h.2.2.2.1
  · intro hts
    refine ⟨h.count_rec t ht hts, ?_⟩
    exact_mod_cast Nat.pos_iff_ne_zero.mp (h.2.2.2.2 t ht).2

/-- The loop body for one source: the edge-score buffer grows by the sum of the final
dependencies, and it outgrows the score buffer by the number of visited nodes other than the
source. -/
theorem computeDependencies_sums (G : Graph) (sssp : SSSP) (s : Nat)
    (h : CorrectSSSP G sssp s)
    (hid : ∀ t ∈ sssp.getNodesSortedByDistance, ∀ p ∈ sssp.getPredecessors t,
      G.edgeId p t < G.upperEdgeIdBound)
    (w : Worker) (ls : List ℚ)
    (hdl : w.dependency.length = G.upperNodeIdBound)
    (hsl : w.scorePerThread.length = G.upperNodeIdBound)
    (hel : w.edgeScorePerThread.length = G.upperEdgeIdBound) :
    sumOn (List.range G.upperEdgeIdBound)
        (computeDependencies G true sssp true true s (w, ls)).1.edgeScorePerThread -
      sumOn (List.range G.upperEdgeIdBound) w.edgeScorePerThread =
        sumOn G.nodes (computeDependencies G true sssp true true s (w, ls)).1.dependency ∧
    sumOn (List.range G.upperEdgeIdBound)
        (computeDependencies G true sssp true true s (w, ls)).1.edgeScorePerThread -
      sumOn G.nodes (computeDependencies G true sssp true true s (w, ls)).1.scorePerThread =
        sumOn (List.range G.upperEdgeIdBound) w.edgeScorePerThread -
          sumOn G.nodes w.scorePerThread +
          ((sssp.getNodesSortedByDistance.filter fun t => decide (t ≠ s)).length : ℚ) := by
  obtain ⟨w0, hw0⟩ : ∃ w0 : Worker,
      w0 = { w with dependency := List.replicate w.dependency.length 0 } := ⟨_, rfl⟩
  have hcd : computeDependencies G true sssp true true s (w, ls) =
      stackLoop G true sssp s sssp.getNodesSortedByDistance.reverse (w0, ls) := by
    simp [computeDependencies, hw0]
  have hw0d : w0.dependency = List.replicate w.dependency.length 0 := by rw [hw0]
  have hw0s : w0.scorePerThread = w.scorePerThread := by rw [hw0]
  have hw0e : w0.edgeScorePerThread = w.edgeScorePerThread := by rw [hw0]
  obtain ⟨h1, h2⟩ := stackLoop_sums G sssp s G.upperEdgeIdBound
    sssp.getNodesSortedByDistance.reverse w0 ls
    (fun t ht => h.popOK _ hid t (List.mem_reverse.mp ht))
    (by rw [hw0d, List.length_replicate]; exact hdl) (by rw [hw0s]; exact hsl)
    (by rw [hw0e]; exact hel)
  rw [hcd]
  rw [hw0d, sumOn_replicate, hw0e] at h1
  rw [hw0s, hw0e, List.filter_reverse, List.length_reverse] at h2
  exact ⟨by linarith, h2⟩

/-! ### All sources and the reduction -/

/-- A quantity that every loop body increases by an amount that depends on the source only
grows, summed over the workers, by the sum of these amounts. -/
theorem balancedParallelForNodes_sum (G : Graph) (e : Bool) (strategy : Nat → SSSP)
    (thread : Nat → Nat) (z z2 : Nat) (f : Worker → ℚ) (d : Nat → ℚ) :
    ∀ (sources : List Nat) (poll : Nat) (st : RunState),
      WorkersSizedE z z2 st.workers →
      (∀ s ∈ sources, thread s < st.workers.length) →
      (∀ s ∈ sources, ∀ (w : Worker) (ls : List ℚ), w.dependency.length = z →
        w.scorePerThread.length = z → w.edgeScorePerThread.length = z2 →
        f (computeDependencies G e (strategy s) true true s (w, ls)).1 = f w + d s) →
      ((balancedParallelForNodes G e strategy thread none sources poll st).workers.map f).sum =
        (st.workers.map f).sum + (sources.map d).sum := by
  intro sources
  induction sources with
  | nil => intro _ st _ _ _; simp [balancedParallelForNodes]
  | cons s sources ih =>
    intro poll st hsz hthr hbody
    have hlt : thread s < st.workers.length := hthr s (List.mem_cons_self _ _)
    obtain ⟨w, hw⟩ : ∃ w, st.workers.get? (thread s) = some w :=
      ⟨_, List.get?_eq_get hlt⟩
    have hwm : w ∈ st.workers := List.get?_mem hw
    have hsized := onWorker_sizedE z z2 st (thread s)
      (computeDependencies G e (strategy s) true true s)
      (fun w ls => computeDependencies_sizes G e (strategy s) _ _ s w ls) hsz
    rw [balancedParallelForNodes, isRunning_none, isRunning_none,
      ih (poll + 2) _ hsized.1
        (fun s' hs' => by rw [hsized.2]; exact hthr s' (List.mem_cons_of_mem _ hs'))
        (fun s' hs' => hbody s' (List.mem_cons_of_mem _ hs')),
      onWorker_sum f st (thread s) _ w hw (d s)
        (hbody s (List.mem_cons_self _ _) w st.lengthScaled (hsz w hwm).1 (hsz w hwm).2.1
          (hsz w hwm).2.2)]
    simp only [List.map_cons, List.sum_cons]
    ring

theorem sum_map_sub_workers (f g : Worker → ℚ) (ws : List Worker) :
    (ws.map fun w => f w - g w).sum = (ws.map f).sum - (ws.map g).sum := by
  induction ws with
  | nil => simp
  | cons a ws ih => simp only [List.map_cons, List.sum_cons, ih]; ring

theorem sum_map_totalScore (idx : List Nat) :
    ∀ ws : List Worker,
      (idx.map fun v => totalScore ws v).sum =
        (ws.map fun w => sumOn idx w.scorePerThread).sum := by
  intro ws
  induction ws with
  | nil => simp [totalScore]
  | cons w ws ih =>
    have h : (idx.map fun v => totalScore (w :: ws) v) =
        idx.map fun v => w.scorePerThread.getD v 0 + totalScore ws v := by
      apply List.map_congr_left
      intro v _
      simp [totalScore]
    rw [h, sum_map_add_rat, ih]
    simp [sumOn]

theorem sum_map_totalEdgeScore (idx : List Nat) :
    ∀ ws : List Worker,
      (idx.map fun i => totalEdgeScore ws i).sum =
        (ws.map fun w => sumOn idx w.edgeScorePerThread).sum := by
  intro ws
  induction ws with
  | nil => simp [totalEdgeScore]
  | cons w ws ih =>
    have h : (idx.map fun i => totalEdgeScore (w :: ws) i) =
        idx.map fun i => w.edgeScorePerThread.getD i 0 + totalEdgeScore ws i := by
      apply List.map_congr_left
      intro i _
      simp [totalEdgeScore]
    rw [h, sum_map_add_rat, ih]
    simp [sumOn]

/-- The sum of the reduced node scores over the nodes. -/
theorem sumOn_reduceScores (G : Graph) (ws : List Worker) :
    sumOn G.nodes (reduceScores G.nodes ws (List.replicate G.upperNodeIdBound 0)) =
      (ws.map fun w => sumOn G.nodes w.scorePerThread).sum := by
  rw [← sum_map_totalScore]
  unfold sumOn
  congr 1
  apply List.map_congr_left
  intro v hv
  rw [reduceScores_getD G.nodes (nodes_nodup G) v ws _ (fun u hu => by
    rw [List.length_replicate]; exact mem_nodes_lt G u hu), if_pos hv, getD_replicate_zero,
    zero_add]

/-- The sum of the reduced edge scores. -/
theorem sum_reduceEdgeScores (z2 : Nat) (ws : List Worker)
    (hsz : ∀ w ∈ ws, w.edgeScorePerThread.length = z2) :
    (reduceEdgeScores ws (List.replicate z2 0)).sum =
      (ws.map fun w => sumOn (List.range z2) w.edgeScorePerThread).sum := by
  rw [sum_eq_sumOn_range, reduceEdgeScores_length, List.length_replicate,
    ← sum_map_totalEdgeScore]
  unfold sumOn
  congr 1
  apply List.map_congr_left
  intro i _
  rw [reduceEdgeScores_getD i ws _ (fun w hw => by
    rw [List.length_replicate, hsz w hw]), getD_replicate_zero, zero_add]

/-- The edge scores of an unnormalized run add up to the node scores plus the number of
ordered pairs of a source and another node visited from it. -/
theorem run_edge_sum (C : Centrality) (bfs dijkstra : Nat → SSSP) (maxThreads : Nat)
    (thread : Nat → Nat) (hnorm : C.normalized = false) (hedge : C.computeEdgeCentrality = true)
    (hthr : ∀ s ∈ C.G.nodes, thread s < maxThreads)
    (hsssp : ∀ s ∈ C.G.nodes, CorrectSSSP C.G (Betweenness.strategy C.G bfs dijkstra s) s)
    (hid : ∀ s ∈ C.G.nodes,
      ∀ t ∈ (Betweenness.strategy C.G bfs dijkstra s).getNodesSortedByDistance,
      ∀ p ∈ (Betweenness.strategy C.G bfs dijkstra s).getPredecessors t,
        C.G.edgeId p t < C.G.upperEdgeIdBound) :
    (Betweenness.run C bfs dijkstra maxThreads thread none).1.edgeScoreData.sum =
      (C.G.nodes.map fun v =>
        (Betweenness.run C bfs dijkstra maxThreads thread none).1.scoreData.getD v 0).sum +
      (reachablePairs C.G (Betweenness.strategy C.G bfs dijkstra) : ℚ) := by
  have hsz := parallelPhase_sizedE C bfs dijkstra maxThreads thread none
  rw [hedge] at hsz
  simp only [if_true] at hsz
  have hsum := balancedParallelForNodes_sum C.G true (Betweenness.strategy C.G bfs dijkstra)
    thread C.G.upperNodeIdBound C.G.upperEdgeIdBound
    (fun w => sumOn (List.range C.G.upperEdgeIdBound) w.edgeScorePerThread -
      sumOn C.G.nodes w.scorePerThread)
    (fun s => (((Betweenness.strategy C.G bfs dijkstra s).getNodesSortedByDistance.filter
      fun t => decide (t ≠ s)).length : ℚ))
    C.G.nodes 1
    { workers := List.replicate maxThreads (Betweenness.initialWorker C)
      lengthScaled := List.replicate C.G.upperNodeIdBound 0 }
    (by
      have := initialWorkers_sizedE C maxThreads
      rw [hedge] at this
      simpa using this)
    (fun s hs => by
      show thread s < (List.replicate maxThreads (Betweenness.initialWorker C)).length
      rw [List.length_replicate]; exact hthr s hs)
    (fun s hs w ls hdl hsl hel =>
      (computeDependencies_sums C.G _ s (hsssp s hs) (hid s hs) w ls hdl hsl hel).2)
  have hinit : ((List.replicate maxThreads (Betweenness.initialWorker C)).map
      (fun w => sumOn (List.range C.G.upperEdgeIdBound) w.edgeScorePerThread -
        sumOn C.G.nodes w.scorePerThread)).sum = 0 := by
    apply List.sum_eq_zero
    intro x hx
    obtain ⟨w, hw, rfl⟩ := List.mem_map.mp hx
    rw [List.eq_of_mem_replicate hw]
    simp [Betweenness.initialWorker, hedge, sumOn_replicate]
  have hphase : Betweenness.parallelPhase C bfs dijkstra maxThreads thread none =
      balancedParallelForNodes C.G true (Betweenness.strategy C.G bfs dijkstra) thread none
        C.G.nodes 1
        { workers := List.replicate maxThreads (Betweenness.initialWorker C)
          lengthScaled := List.replicate C.G.upperNodeIdBound 0 } := by
    unfold Betweenness.parallelPhase
    rw [hedge]
  rw [← hphase] at hsum
  simp only [hinit, zero_add] at hsum
  rw [sum_map_sub_workers] at hsum
  rw [run_edgeScoreData C bfs dijkstra maxThreads thread hedge, hnorm]
  simp only [Bool.false_eq_true, if_false]
  rw [run_scoreData_eq, hnorm]
  simp only [Bool.false_eq_true, if_false]
  rw [sum_reduceEdgeScores _ _ (fun w hw => (hsz w hw).2.2)]
  have hnode : (C.G.nodes.map fun v =>
      (reduceScores C.G.nodes
        (Betweenness.parallelPhase C bfs dijkstra maxThreads thread none).workers
        (List.replicate C.G.upperNodeIdBound 0)).getD v 0).sum =
      ((Betweenness.parallelPhase C bfs dijkstra maxThreads thread none).workers.map
        fun w => sumOn C.G.nodes w.scorePerThread).sum :=
    sumOn_reduceScores C.G
      (Betweenness.parallelPhase C bfs dijkstra maxThreads thread none).workers
  rw [hnode]
  unfold reachablePairs
  rw [cast_sum_map]
  linarith

/-! ### The dependency of a node is final when the node is popped -/

theorem processedBeforePredecessors_append_right (sssp : SSSP) :
    ∀ (A B : List Nat), processedBeforePredecessors sssp (A ++ B) →
      processedBeforePredecessors sssp B := by
  intro A
  induction A with
  | nil => intro B h; exact h
  | cons a A ih => intro B h; exact ih B h.2

/-- After the backward pass the value added to the score of a node other than the source is
the final dependency of the node. -/
theorem stackLoop_score_eq_dependency (G : Graph) (e : Bool) (sssp : SSSP) (s : Nat)
    (R : List Nat) (hnd : R.Nodup) (hord : processedBeforePredecessors sssp R)
    (w : Worker) (ls : List ℚ) (hzero : ∀ v, v ∉ R → w.dependency.getD v 0 = 0)
    (hsl : ∀ t ∈ R, t < w.scorePerThread.length) (t : Nat) (hts : t ≠ s) :
    (stackLoop G e sssp s R (w, ls)).1.scorePerThread.getD t 0 - w.scorePerThread.getD t 0 =
      (stackLoop G e sssp s R (w, ls)).1.dependency.getD t 0 := by
  by_cases htR : t ∈ R
  · obtain ⟨R1, R2, hsplit⟩ := List.append_of_mem htR
    have hnd' := hnd
    rw [hsplit] at hnd' hord
    have hsuffix := processedBeforePredecessors_append_right sssp R1 (t :: R2) hord
    obtain ⟨htR2, hnd2⟩ := List.nodup_cons.mp (List.Nodup.of_append_right hnd')
    have htR1 : t ∉ R1 := fun hmem =>
      (List.nodup_append.mp hnd').2.2 hmem (List.mem_cons_self _ _)
    have hfinal : ∀ u ∈ R2, t ∉ sssp.getPredecessors u := fun u hu hmem =>
      htR2 (processedBeforePredecessors_mem sssp R2 hsuffix.2 u hu t hmem)
    have hs1 := stackLoop_score_untouched G e sssp s R1 w ls t (Or.inl htR1)
    have hlen := (stackLoop_lengths G e sssp s R1 w ls).2
    obtain ⟨l2, h2⟩ := stackLoop_cons_fst G e sssp s t R2
      (stackLoop G e sssp s R1 (w, ls)).1 (stackLoop G e sssp s R1 (w, ls)).2
    have h2' : stackLoop G e sssp s (t :: R2) (stackLoop G e sssp s R1 (w, ls)) =
        stackLoop G e sssp s R2
          (afterPop G e sssp s t (stackLoop G e sssp s R1 (w, ls)).1, l2) := h2
    rw [hsplit, stackLoop_append, h2',
      stackLoop_score_untouched G e sssp s R2 _ l2 t (Or.inl htR2),
      stackLoop_dependency_untouched G e sssp s t R2 _ l2 hfinal, afterPop_scorePerThread,
      if_pos hts, afterPop_dependency,
      getD_addAt_of_lt _ _ _ _ (by rw [hlen]; exact hsl t htR), if_pos rfl, hs1]
    ring
  · rw [stackLoop_score_untouched G e sssp s R w ls t (Or.inl htR),
      stackLoop_dependency_untouched G e sssp s t R w ls (fun u hu hmem =>
        htR (processedBeforePredecessors_mem sssp R hord u hu t hmem)), hzero t htR]
    ring

/-- The loop body for source `s` adds to the score of every other node the final dependency
of that node, and leaves the score of the source as it is. -/
theorem computeDependencies_score_eq_dependency (G : Graph) (e : Bool) (sssp : SSSP) (s : Nat)
    (h : CorrectSSSP G sssp s) (w : Worker) (ls : List ℚ)
    (hsl : w.scorePerThread.length = G.upperNodeIdBound) :
    (∀ t, t ≠ s →
      (computeDependencies G e sssp true true s (w, ls)).1.scorePerThread.getD t 0 -
          w.scorePerThread.getD t 0 =
        (computeDependencies G e sssp true true s (w, ls)).1.dependency.getD t 0) ∧
    (computeDependencies G e sssp true true s (w, ls)).1.scorePerThread.getD s 0 =
      w.scorePerThread.getD s 0 := by
  obtain ⟨w0, hw0⟩ : ∃ w0 : Worker,
      w0 = { w with dependency := List.replicate w.dependency.length 0 } := ⟨_, rfl⟩
  have hcd : computeDependencies G e sssp true true s (w, ls) =
      stackLoop G e sssp s sssp.getNodesSortedByDistance.reverse (w0, ls) := by
    simp [computeDependencies, hw0]
  have hw0d : w0.dependency = List.replicate w.dependency.length 0 := by rw [hw0]
  have hw0s : w0.scorePerThread = w.scorePerThread := by rw [hw0]
  rw [hcd, ← hw0s]
  refine ⟨fun t hts => ?_, ?_⟩
  · exact stackLoop_score_eq_dependency G e sssp s _ (List.nodup_reverse.mpr h.1) h.2.2.1 w0 ls
      (fun v _ => by rw [hw0d]; exact getD_replicate_zero _ _)
      (fun u hu => by
        rw [hw0s, hsl]
        exact mem_nodes_lt G u (h.2.1 u (List.mem_reverse.mp hu))) t hts
  · exact stackLoop_score_untouched G e sssp s _ w0 ls s (Or.inr rfl)

theorem sumOn_split (idx : List Nat) (hnd : idx.Nodup) (s : Nat) (hs : s ∈ idx)
    (xs : List ℚ) :
    sumOn idx xs = xs.getD s 0 + (idx.map fun v => if v = s then 0 else xs.getD v 0).sum := by
  unfold sumOn
  rw [← sum_map_indicator (fun v => xs.getD v 0) s idx hnd hs, ← sum_map_add_rat]
  congr 1
  apply List.map_congr_left
  intro v _
  by_cases hv : v = s <;> simp [hv]

/-- The final dependency of the source is the number of visited nodes other than the
source. -/
theorem computeDependencies_source_dependency (G : Graph) (sssp : SSSP) (s : Nat)
    (h : CorrectSSSP G sssp s) (hs : s ∈ G.nodes)
    (hid : ∀ t ∈ sssp.getNodesSortedByDistance, ∀ p ∈ sssp.getPredecessors t,
      G.edgeId p t < G.upperEdgeIdBound)
    (w : Worker) (ls : List ℚ)
    (hdl : w.dependency.length = G.upperNodeIdBound)
    (hsl : w.scorePerThread.length = G.upperNodeIdBound)
    (hel : w.edgeScorePerThread.length = G.upperEdgeIdBound) :
    (computeDependencies G true sssp true true s (w, ls)).1.dependency.getD s 0 =
      ((sssp.getNodesSortedByDistance.filter fun t => decide (t ≠ s)).length : ℚ) := by
  obtain ⟨h1, h2⟩ := computeDependencies_sums G sssp s h hid w ls hdl hsl hel
  obtain ⟨h3, h4⟩ := computeDependencies_score_eq_dependency G true sssp s h w ls hsl
  have hD := sumOn_split G.nodes (nodes_nodup G) s hs
    (computeDependencies G true sssp true true s (w, ls)).1.dependency
  have hS : sumOn G.nodes (computeDependencies G true sssp true true s (w, ls)).1.scorePerThread -
      sumOn G.nodes w.scorePerThread =
      (G.nodes.map fun v => if v = s then 0
        else (computeDependencies G true sssp true true s (w, ls)).1.dependency.getD v 0).sum := by
    unfold sumOn
    rw [← sum_map_sub_rat]
    congr 1
    apply List.map_congr_left
    intro v _
    by_cases hv : v = s
    · rw [if_pos hv, hv, h4, sub_self]
    · rw [if_neg hv, h3 v hv]
  linarith

/-- Claim C17 as stated fails. On the cycle with four nodes, with indexed edges, correct
strategy outcomes, `normalized = false` and `computeEdgeCentrality = true`, the edge scores
are `[4, 4, 4, 4]` with sum 16 and the node scores are `[1, 1, 1, 1]` with sum 4. -/
theorem edge_sum_eq_node_sum_counterexample :
    cycleGraph.hasEdgeIds = true ∧
    (∀ s ∈ cycleGraph.nodes, CorrectSSSP cycleGraph (cycleBFS s) s) ∧
    (∀ s ∈ cycleGraph.nodes, ∀ t ∈ (cycleBFS s).getNodesSortedByDistance,
      ∀ p ∈ (cycleBFS s).getPredecessors t, cycleGraph.edgeId p t < cycleGraph.upperEdgeIdBound) ∧
    (Betweenness.run (Centrality.init cycleGraph false true) cycleBFS cycleBFS 2
      (fun s => s % 2) none).1.edgeScoreData = [4, 4, 4, 4] ∧
    (Betweenness.run (Centrality.init cycleGraph false true) cycleBFS cycleBFS 2
      (fun s => s % 2) none).1.scoreData = [1, 1, 1, 1] ∧
    (Betweenness.run (Centrality.init cycleGraph false true) cycleBFS cycleBFS 2
      (fun s => s % 2) none).1.edgeScoreData.sum = 16 ∧
    (cycleGraph.nodes.map fun v =>
      (Betweenness.run (Centrality.init cycleGraph false true) cycleBFS cycleBFS 2
        (fun s => s % 2) none).1.scoreData.getD v 0).sum = 4 ∧
    (Betweenness.run (Centrality.init cycleGraph false true) cycleBFS cycleBFS 2
      (fun s => s % 2) none).1.edgeScoreData.sum ≠
      (cycleGraph.nodes.map fun v =>
        (Betweenness.run (Centrality.init cycleGraph false true) cycleBFS cycleBFS 2
          (fun s => s % 2) none).1.scoreData.getD v 0).sum := by
  decide!

/-- Claim C17, amended. For every graph with indexed edges (the edge from a predecessor to a
visited node has an id below `upperEdgeIdBound`) and correct strategy outcomes, after a run
with `normalized = false` and `computeEdgeCentrality = true` that is not cancelled, the sum
of the edge scores over all edges equals the sum of the node scores over all nodes plus the
number of ordered pairs `(s, t)`, `s ≠ t`, with `t` visited from `s`; the node scores are
the betweenness values. -/
theorem edge_sum_eq_node_sum_plus_pairs (C : Centrality) (bfs dijkstra : Nat → SSSP)
    (maxThreads : Nat) (thread : Nat → Nat) (hnorm : C.normalized = false)
    (hedge : C.computeEdgeCentrality = true)
    (hthr : ∀ s ∈ C.G.nodes, thread s < maxThreads)
    (hsssp : ∀ s ∈ C.G.nodes, CorrectSSSP C.G (Betweenness.strategy C.G bfs dijkstra s) s)
    (hid : ∀ s ∈ C.G.nodes,
      ∀ t ∈ (Betweenness.strategy C.G bfs dijkstra s).getNodesSortedByDistance,
      ∀ p ∈ (Betweenness.strategy C.G bfs dijkstra s).getPredecessors t,
        C.G.edgeId p t < C.G.upperEdgeIdBound) :
    (Betweenness.run C bfs dijkstra maxThreads thread none).1.edgeScoreData.sum =
      (C.G.nodes.map fun v =>
        (Betweenness.run C bfs dijkstra maxThreads thread none).1.scoreData.getD v 0).sum +
      ((C.G.nodes.map fun s =>
        ((Betweenness.strategy C.G bfs dijkstra s).getNodesSortedByDistance.filter
          fun t => decide (t ≠ s)).length).sum : Nat) ∧
    (∀ v, (Betweenness.run C bfs dijkstra maxThreads thread none).1.scoreData.getD v 0 =
      betweenness C.G (Betweenness.strategy C.G bfs dijkstra) v) :=
  ⟨run_edge_sum C bfs dijkstra maxThreads thread hnorm hedge hthr hsssp hid,
    fun v => run_scoreData C bfs dijkstra maxThreads thread hnorm hthr hsssp v⟩

/-- Claim C17, amended, at a concrete input: on the triangle the three edge scores are 2,
the node scores are 0, and there are six ordered pairs. -/
theorem edge_sum_eq_node_sum_plus_pairs_witness :
    (Centrality.init triangleGraph false true).normalized = false ∧
    (Centrality.init triangleGraph false true).computeEdgeCentrality = true ∧
    (∀ s ∈ (Centrality.init triangleGraph false true).G.nodes, s % 2 < 2) ∧
    (∀ s ∈ triangleGraph.nodes, CorrectSSSP triangleGraph (triangleBFS false s) s) ∧
    (∀ s ∈ triangleGraph.nodes, ∀ t ∈ (triangleBFS false s).getNodesSortedByDistance,
      ∀ p ∈ (triangleBFS false s).getPredecessors t,
        triangleGraph.edgeId p t < triangleGraph.upperEdgeIdBound) ∧
    (Betweenness.run (Centrality.init triangleGraph false true) (triangleBFS false)
      (triangleBFS false) 2 (fun s => s % 2) none).1.edgeScoreData.sum = 6 ∧
    (Betweenness.run (Centrality.init triangleGraph false true) (triangleBFS false)
      (triangleBFS false) 2 (fun s => s % 2) none).1.edgeScoreData.sum =
      (triangleGraph.nodes.map fun v =>
        (Betweenness.run (Centrality.init triangleGraph false true) (triangleBFS false)
          (triangleBFS false) 2 (fun s => s % 2) none).1.scoreData.getD v 0).sum +
      ((triangleGraph.nodes.map fun s =>
        ((triangleBFS false s).getNodesSortedByDistance.filter
          fun t => decide (t ≠ s)).length).sum : Nat) :=
  ⟨rfl, rfl, by decide, by decide!, by decide!, by decide!,
    (edge_sum_eq_node_sum_plus_pairs (Centrality.init triangleGraph false true)
      (triangleBFS false) (triangleBFS false) 2 (fun s => s % 2) rfl rfl (by decide)
      (by decide!) (by decide!)).1⟩

/-- Claim C18. For every graph with indexed edges (the edge from a predecessor to a visited
node has an id below `upperEdgeIdBound`) and correct strategy outcomes, after a run with
`normalized = false` and `computeEdgeCentrality = true` that is not cancelled, the sum of
all edge scores equals the sum of all node scores plus the number of ordered pairs `(s, t)`,
`s ≠ t`, with `t` visited from `s`. Within the loop body of one source, on any worker: what
is added to the edge scores in total is the total of the final dependencies; the final
dependency of every node other than the source is what is added to its score; the score of
the source is left alone; and the final dependency of the source is the number of visited
nodes other than the source. -/
theorem edge_sum_via_dependencies (C : Centrality) (bfs dijkstra : Nat → SSSP)
    (maxThreads : Nat) (thread : Nat → Nat) (hnorm : C.normalized = false)
    (hedge : C.computeEdgeCentrality = true)
    (hthr : ∀ s ∈ C.G.nodes, thread s < maxThreads)
    (hsssp : ∀ s ∈ C.G.nodes, CorrectSSSP C.G (Betweenness.strategy C.G bfs dijkstra s) s)
    (hid : ∀ s ∈ C.G.nodes,
      ∀ t ∈ (Betweenness.strategy C.G bfs dijkstra s).getNodesSortedByDistance,
      ∀ p ∈ (Betweenness.strategy C.G bfs dijkstra s).getPredecessors t,
        C.G.edgeId p t < C.G.upperEdgeIdBound) :
    (Betweenness.run C bfs dijkstra maxThreads thread none).1.edgeScoreData.sum =
      (C.G.nodes.map fun v =>
        (Betweenness.run C bfs dijkstra maxThreads thread none).1.scoreData.getD v 0).sum +
      (reachablePairs C.G (Betweenness.strategy C.G bfs dijkstra) : ℚ) ∧
    (∀ s ∈ C.G.nodes, ∀ (w : Worker) (ls : List ℚ),
      w.dependency.length = C.G.upperNodeIdBound →
      w.scorePerThread.length = C.G.upperNodeIdBound →
      w.edgeScorePerThread.length = C.G.upperEdgeIdBound →
      (computeDependencies C.G true (Betweenness.strategy C.G bfs dijkstra s) true true s
          (w, ls)).1.edgeScorePerThread.sum - w.edgeScorePerThread.sum =
        (C.G.nodes.map fun v =>
          (computeDependencies C.G true (Betweenness.strategy C.G bfs dijkstra s) true true s
            (w, ls)).1.dependency.getD v 0).sum ∧
      (∀ t, t ≠ s →
        (computeDependencies C.G true (Betweenness.strategy C.G bfs dijkstra s) true true s
            (w, ls)).1.scorePerThread.getD t 0 - w.scorePerThread.getD t 0 =
          (computeDependencies C.G true (Betweenness.strategy C.G bfs dijkstra s) true true s
            (w, ls)).1.dependency.getD t 0) ∧
      (computeDependencies C.G true (Betweenness.strategy C.G bfs dijkstra s) true true s
          (w, ls)).1.scorePerThread.getD s 0 = w.scorePerThread.getD s 0 ∧
      (computeDependencies C.G true (Betweenness.strategy C.G bfs dijkstra s) true true s
          (w, ls)).1.dependency.getD s 0 =
        (((Betweenness.strategy C.G bfs dijkstra s).getNodesSortedByDistance.filter
          fun t => decide (t ≠ s)).length : ℚ)) := by
  refine ⟨run_edge_sum C bfs dijkstra maxThreads thread hnorm hedge hthr hsssp hid, ?_⟩
  intro s hs w ls hdl hsl hel
  have hsum := (computeDependencies_sums C.G _ s (hsssp s hs) (hid s hs) w ls hdl hsl hel).1
  have hsc := computeDependencies_score_eq_dependency C.G true _ s (hsssp s hs) w ls hsl
  refine ⟨?_, hsc.1, hsc.2,
    computeDependencies_source_dependency C.G _ s (hsssp s hs) hs (hid s hs) w ls hdl hsl hel⟩
  rw [sum_eq_sumOn_range, sum_eq_sumOn_range w.edgeScorePerThread,
    computeDependencies_edge_length, hel]
  exact hsum

/-- Claim C18 at a concrete input: the cycle on four nodes with two workers; the edge scores
add up to 16, the node scores to 4, and there are 12 ordered pairs; for source 0 the final
dependency of the source is 3. -/
theorem edge_sum_via_dependencies_witness :
    (Centrality.init cycleGraph false true).normalized = false ∧
    (Centrality.init cycleGraph false true).computeEdgeCentrality = true ∧
    (∀ s ∈ (Centrality.init cycleGraph false true).G.nodes, s % 2 < 2) ∧
    (∀ s ∈ cycleGraph.nodes, CorrectSSSP cycleGraph (cycleBFS s) s) ∧
    (∀ s ∈ cycleGraph.nodes, ∀ t ∈ (cycleBFS s).getNodesSortedByDistance,
      ∀ p ∈ (cycleBFS s).getPredecessors t, cycleGraph.edgeId p t < cycleGraph.upperEdgeIdBound) ∧
    reachablePairs cycleGraph cycleBFS = 12 ∧
    (computeDependencies cycleGraph true (cycleBFS 0) true true 0
      (zeroWorker 4 4, [])).1.dependency.getD 0 0 = 3 ∧
    (Betweenness.run (Centrality.init cycleGraph false true) cycleBFS cycleBFS 2
      (fun s => s % 2) none).1.edgeScoreData.sum =
      (cycleGraph.nodes.map fun v =>
        (Betweenness.run (Centrality.init cycleGraph false true) cycleBFS cycleBFS 2
          (fun s => s % 2) none).1.scoreData.getD v 0).sum +
      (reachablePairs cycleGraph cycleBFS : ℚ) :=
  ⟨rfl, rfl, by decide, by decide!, by decide!, by decide!, by decide!,
    (edge_sum_via_dependencies (Centrality.init cycleGraph false true) cycleBFS cycleBFS 2
      (fun s => s % 2) rfl rfl (by decide) (by decide!) (by decide!)).1⟩

/-! ### Every subscript is in bounds -/

theorem foldlM_eq_some_foldl {α β : Type} (f : α → β → Option α) (g : α → β → α)
    (P : α → Prop) :
    ∀ (l : List β) (init : α), P init →
      (∀ acc b, P acc → b ∈ l → f acc b = some (g acc b) ∧ P (g acc b)) →
      l.foldlM f init = some (l.foldl g init) ∧ P (l.foldl g init) := by
  intro l
  induction l with
  | nil => intro init h _; exact ⟨rfl, h⟩
  | cons b l ih =>
    intro init h hstep
    obtain ⟨h1, h2⟩ := hstep init b h (List.mem_cons_self _ _)
    rw [List.foldlM_cons, h1, List.foldl_cons]
    exact ih _ h2 (fun acc b' hacc hb' => hstep acc b' hacc (List.mem_cons_of_mem _ hb'))

theorem addAtChecked_of_lt (xs : List ℚ) (i : Nat) (c : ℚ) (h : i < xs.length) :
    addAtChecked xs i c = some (addAt xs i c) := by
  unfold addAtChecked
  rw [if_pos h]

theorem divAtChecked_of_lt (xs : List ℚ) (i : Nat) (d : ℚ) (h : i < xs.length) :
    divAtChecked xs i d = some (divAt xs i d) := by
  unfold divAtChecked
  rw [if_pos h]

theorem predecessorLoopChecked_eq (G : Graph) (e : Bool) (sssp : SSSP) (t z z2 : Nat)
    (ht : t < z) :
    ∀ (ps : List Nat) (w : Worker), w.dependency.length = z →
      (e = true → w.edgeScorePerThread.length = z2) →
      (∀ p ∈ ps, p < z ∧ (e = true → G.edgeId p t < z2)) →
      predecessorLoopChecked G e sssp t ps w = some (predecessorLoop G e sssp t ps w) := by
  intro ps
  induction ps with
  | nil => intro w _ _ _; rfl
  | cons p ps ih =>
    intro w hdl hel hb
    obtain ⟨hp, hpe⟩ := hb p (List.mem_cons_self _ _)
    have hrest : ∀ q ∈ ps, q < z ∧ (e = true → G.edgeId q t < z2) :=
      fun q hq => hb q (List.mem_cons_of_mem _ hq)
    simp only [predecessorLoopChecked, predecessorLoop]
    rw [if_pos (by rw [hdl]; exact ht), addAtChecked_of_lt _ _ _ (by rw [hdl]; exact hp)]
    cases e
    · simp only [Bool.false_eq_true, if_false]
      exact ih _ (by simp only [length_addAt]; exact hdl) (fun h => by cases h) hrest
    · simp only [if_true]
      rw [addAtChecked_of_lt _ _ _ (by rw [hel rfl]; exact hpe rfl)]
      exact ih _ (by simp only [length_addAt]; exact hdl)
        (fun _ => by simp only [length_addAt]; exact hel rfl) hrest

theorem lengthScaledPassChecked_eq (sssp : SSSP) (t z : Nat) (ls : List ℚ)
    (hls : ls.length = z) (hpaths : ∀ path ∈ sssp.getPaths t, ∀ node ∈ path, node < z) :
    lengthScaledPassChecked sssp t ls = some (lengthScaledPass sssp t ls) := by
  unfold lengthScaledPassChecked lengthScaledPass
  simp only
  split
  · rfl
  · refine (foldlM_eq_some_foldl _ _ (fun acc => acc.length = z) _ ls hls ?_).1
    intro acc path hacc hpath
    by_cases hshort : path.length ≤ 2
    · rw [if_pos hshort, if_pos hshort]
      exact ⟨rfl, hacc⟩
    · rw [if_neg hshort, if_neg hshort]
      refine foldlM_eq_some_foldl _ _ (fun a => a.length = z) _ acc hacc ?_
      intro a node ha hnode
      have hmem : node ∈ path := by
        unfold interior at hnode
        exact List.mem_of_mem_drop (List.mem_of_mem_dropLast hnode)
      exact ⟨addAtChecked_of_lt _ _ _ (by rw [ha]; exact hpaths path hpath node hmem),
        (length_addAt _ _ _).trans ha⟩

theorem stackLoopChecked_eq (G : Graph) (e : Bool) (sssp : SSSP) (s z z2 : Nat) :
    ∀ (R : List Nat) (w : Worker) (ls : List ℚ), w.dependency.length = z →
      w.scorePerThread.length = z → (e = true → w.edgeScorePerThread.length = z2) →
      ls.length = z →
      (∀ t ∈ R, t < z ∧
        (∀ p ∈ sssp.getPredecessors t, p < z ∧ (e = true → G.edgeId p t < z2)) ∧
        (∀ path ∈ sssp.getPaths t, ∀ node ∈ path, node < z)) →
      stackLoopChecked G e sssp s R (w, ls) = some (stackLoop G e sssp s R (w, ls)) := by
  intro R
  induction R with
  | nil => intro w ls _ _ _ _ _; rfl
  | cons t R ih =>
    intro w ls hdl hsl hel hls hb
    obtain ⟨ht, hp, hpaths⟩ := hb t (List.mem_cons_self _ _)
    have hrest := fun u (hu : u ∈ R) => hb u (List.mem_cons_of_mem _ hu)
    have hd1 : (predecessorLoop G e sssp t (sssp.getPredecessors t) w).dependency.length = z :=
      (predecessorLoop_dependency_length G e sssp t _ w).trans hdl
    have hs1 : (predecessorLoop G e sssp t (sssp.getPredecessors t) w).scorePerThread.length =
        z := by rw [predecessorLoop_scorePerThread]; exact hsl
    have he1 : e = true →
        (predecessorLoop G e sssp t (sssp.getPredecessors t) w).edgeScorePerThread.length =
          z2 := fun h => (predecessorLoop_edge_length G e sssp t _ w).trans (hel h)
    simp only [stackLoopChecked, stackLoop]
    rw [predecessorLoopChecked_eq G e sssp t z z2 ht _ w hdl hel hp]
    simp only
    by_cases hts : t = s
    · simp only [hts, ne_eq, not_true_eq_false, if_false]
      rw [hts] at hd1 hs1 he1
      exact ih _ ls hd1 hs1 he1 hls hrest
    · simp only [ne_eq, hts, not_false_eq_true, if_true]
      rw [if_pos (by rw [hd1]; exact ht), addAtChecked_of_lt _ _ _ (by rw [hs1]; exact ht),
        lengthScaledPassChecked_eq sssp t z ls hls hpaths]
      exact ih _ _ hd1 (by simp only [length_addAt]; exact hs1) he1
        ((lengthScaledPass_length sssp t ls).trans hls) hrest

theorem computeDependenciesChecked_eq (G : Graph) (e : Bool) (sssp : SSSP) (r1 r2 : Bool)
    (s z z2 : Nat) (w : Worker) (ls : List ℚ) (hdl : w.dependency.length = z)
    (hsl : w.scorePerThread.length = z) (hel : e = true → w.edgeScorePerThread.length = z2)
    (hls : ls.length = z) (hb : StrategyInBounds G e sssp z z2) :
    computeDependenciesChecked G e sssp r1 r2 s (w, ls) =
      some (computeDependencies G e sssp r1 r2 s (w, ls)) := by
  unfold computeDependenciesChecked computeDependencies
  cases r1
  · rfl
  · cases r2
    · rfl
    · simp only [Bool.not_true, Bool.false_eq_true, if_false]
      exact stackLoopChecked_eq G e sssp s z z2 _ _ ls
        (by simp only [List.length_replicate]; exact hdl) hsl hel hls
        (fun t ht => hb t (List.mem_reverse.mp ht))

/-- The invariant of the parallel phase: `n` workers with buffers of the allocated sizes and
a length-scaled vector of `z` entries. -/
theorem balancedParallelForNodesChecked_eq (G : Graph) (e : Bool) (strategy : Nat → SSSP)
    (thread : Nat → Nat) (cancelAt : Option Nat) (z z2 : Nat) :
    ∀ (sources : List Nat) (poll : Nat) (st : RunState),
      (∀ w ∈ st.workers, w.dependency.length = z ∧ w.scorePerThread.length = z ∧
        (e = true → w.edgeScorePerThread.length = z2)) →
      st.lengthScaled.length = z →
      (∀ s ∈ sources, thread s < st.workers.length) →
      (∀ s ∈ sources, StrategyInBounds G e (strategy s) z z2) →
      balancedParallelForNodesChecked G e strategy thread cancelAt sources poll st =
        some (balancedParallelForNodes G e strategy thread cancelAt sources poll st) := by
  intro sources
  induction sources with
  | nil => intro _ st _ _ _ _; rfl
  | cons s sources ih =>
    intro poll st hsz hls hthr hb
    have hlt : thread s < st.workers.length := hthr s (List.mem_cons_self _ _)
    have hw : st.workers.get? (thread s) = some (st.workers.get ⟨thread s, hlt⟩) :=
      List.get?_eq_get hlt
    have hwm : st.workers.get ⟨thread s, hlt⟩ ∈ st.workers := List.get_mem _ _ _
    obtain ⟨hdl, hsl, hel⟩ := hsz _ hwm
    have hbody := computeDependenciesChecked_eq G e (strategy s) (isRunning cancelAt poll)
      (isRunning cancelAt (poll + 1)) s z z2 _ st.lengthScaled hdl hsl hel hls
      (hb s (List.mem_cons_self _ _))
    have hlens := computeDependencies_sizes G e (strategy s) (isRunning cancelAt poll)
      (isRunning cancelAt (poll + 1)) s (st.workers.get ⟨thread s, hlt⟩) st.lengthScaled
    simp only [balancedParallelForNodesChecked, balancedParallelForNodes,
      RunState.onWorkerChecked, RunState.onWorker, hw, hbody]
    apply ih
    · intro x hx
      rcases mem_set_cases _ _ _ _ hx with h1 | h1
      · rw [h1]
        exact ⟨hlens.1.trans hdl, hlens.2.1.trans hsl, fun h => hlens.2.2.trans (hel h)⟩
      · exact hsz x h1
    · exact (computeDependencies_lengthScaled_length G e (strategy s) _ _ s _ _).trans hls
    · intro s' hs'
      simp only [List.length_set]
      exact hthr s' (List.mem_cons_of_mem _ hs')
    · exact fun s' hs' => hb s' (List.mem_cons_of_mem _ hs')

theorem balancedParallelForNodes_invariant (G : Graph) (e : Bool) (strategy : Nat → SSSP)
    (thread : Nat → Nat) (cancelAt : Option Nat) (z z2 : Nat) :
    ∀ (sources : List Nat) (poll : Nat) (st : RunState),
      (∀ w ∈ st.workers, w.dependency.length = z ∧ w.scorePerThread.length = z ∧
        (e = true → w.edgeScorePerThread.length = z2)) →
      st.lengthScaled.length = z →
      (∀ w ∈ (balancedParallelForNodes G e strategy thread cancelAt sources poll st).workers,
        w.dependency.length = z ∧ w.scorePerThread.length = z ∧
          (e = true → w.edgeScorePerThread.length = z2)) ∧
      (balancedParallelForNodes G e strategy thread cancelAt sources poll
        st).lengthScaled.length = z := by
  intro sources
  induction sources with
  | nil => intro _ st h1 h2; exact ⟨h1, h2⟩
  | cons s sources ih =>
    intro poll st hsz hls
    rw [balancedParallelForNodes]
    apply ih
    · unfold RunState.onWorker
      cases hw : st.workers.get? (thread s) with
      | none => exact hsz
      | some w =>
        intro x hx
        obtain ⟨hdl, hsl, hel⟩ := hsz w (List.get?_mem hw)
        have hlens := computeDependencies_sizes G e (strategy s) (isRunning cancelAt poll)
          (isRunning cancelAt (poll + 1)) s w st.lengthScaled
        rcases mem_set_cases _ _ _ _ hx with h1 | h1
        · rw [h1]
          exact ⟨hlens.1.trans hdl, hlens.2.1.trans hsl, fun h => hlens.2.2.trans (hel h)⟩
        · exact hsz x h1
    · unfold RunState.onWorker
      cases hw : st.workers.get? (thread s) with
      | none => exact hls
      | some w =>
        exact (computeDependencies_lengthScaled_length G e (strategy s) _ _ s _ _).trans hls

/-! ### The reduction and the normalization -/

theorem addLocalScoresChecked_eq (nodes : List Nat) (local_ sd : List ℚ) (z : Nat)
    (hnodes : ∀ v ∈ nodes, v < z) (hl : local_.length = z) (hsd : sd.length = z) :
    addLocalScoresChecked nodes local_ sd = some (addLocalScores nodes local_ sd) ∧
      (addLocalScores nodes local_ sd).length = z := by
  unfold addLocalScoresChecked addLocalScores
  refine foldlM_eq_some_foldl _ _ (fun acc => acc.length = z) nodes sd hsd ?_
  intro acc v hacc hv
  rw [if_pos (by rw [hl]; exact hnodes v hv),
    addAtChecked_of_lt _ _ _ (by rw [hacc]; exact hnodes v hv)]
  exact ⟨rfl, (length_addAt _ _ _).trans hacc⟩

theorem addLocalEdgeScoresChecked_eq (local_ ed : List ℚ) (z2 : Nat)
    (hl : local_.length = z2) (hed : ed.length = z2) :
    addLocalEdgeScoresChecked local_ ed = some (addLocalEdgeScores local_ ed) ∧
      (addLocalEdgeScores local_ ed).length = z2 := by
  unfold addLocalEdgeScoresChecked addLocalEdgeScores
  refine foldlM_eq_some_foldl _ _ (fun acc => acc.length = z2) _ ed hed ?_
  intro acc i hacc hi
  have hlt : i < local_.length := List.mem_range.mp hi
  rw [if_pos hlt, addAtChecked_of_lt _ _ _ (by rw [hacc, ← hl]; exact hlt)]
  exact ⟨rfl, (length_addAt _ _ _).trans hacc⟩

theorem reduceScoresChecked_eq (nodes : List Nat) (ws : List Worker) (sd : List ℚ) (z : Nat)
    (hnodes : ∀ v ∈ nodes, v < z) (hws : ∀ w ∈ ws, w.scorePerThread.length = z)
    (hsd : sd.length = z) :
    reduceScoresChecked nodes ws sd = some (reduceScores nodes ws sd) ∧
      (reduceScores nodes ws sd).length = z := by
  unfold reduceScoresChecked reduceScores
  refine foldlM_eq_some_foldl _ _ (fun acc => acc.length = z) ws sd hsd ?_
  intro acc w hacc hw
  exact addLocalScoresChecked_eq nodes _ acc z hnodes (hws w hw) hacc

theorem reduceEdgeScoresChecked_eq (ws : List Worker) (ed : List ℚ) (z2 : Nat)
    (hws : ∀ w ∈ ws, w.edgeScorePerThread.length = z2) (hed : ed.length = z2) :
    reduceEdgeScoresChecked ws ed = some (reduceEdgeScores ws ed) ∧
      (reduceEdgeScores ws ed).length = z2 := by
  unfold reduceEdgeScoresChecked reduceEdgeScores
  refine foldlM_eq_some_foldl _ _ (fun acc => acc.length = z2) ws ed hed ?_
  intro acc w hacc hw
  exact addLocalEdgeScoresChecked_eq _ acc z2 (hws w hw) hacc

theorem normalizeScoresChecked_eq (G : Graph) (sd : List ℚ)
    (hsd : sd.length = G.upperNodeIdBound) :
    normalizeScoresChecked G sd = some (normalizeScores G sd) := by
  unfold normalizeScoresChecked normalizeScores
  refine (foldlM_eq_some_foldl _ _ (fun acc => acc.length = G.upperNodeIdBound) G.nodes sd hsd
    ?_).1
  intro acc u hacc hu
  rw [divAtChecked_of_lt _ _ _ (by rw [hacc]; exact mem_nodes_lt G u hu)]
  exact ⟨rfl, (divAt_length _ _ _).trans hacc⟩

theorem normalizeEdgeScoresChecked_eq (G : Graph) (ed : List ℚ) :
    normalizeEdgeScoresChecked G ed = some (normalizeEdgeScores G ed) := by
  unfold normalizeEdgeScoresChecked normalizeEdgeScores
  refine (foldlM_eq_some_foldl _ _ (fun acc => acc.length = ed.length) _ ed rfl ?_).1
  intro acc i hacc hi
  rw [divAtChecked_of_lt _ _ _ (by rw [hacc]; exact List.mem_range.mp hi)]
  exact ⟨rfl, (divAt_length _ _ _).trans hacc⟩

theorem finishRunChecked_eq (C : Centrality) (st : RunState)
    (hsd : C.scoreData.length = C.G.upperNodeIdBound)
    (hed : C.computeEdgeCentrality = true → C.edgeScoreData.length = C.G.upperEdgeIdBound)
    (hws : ∀ w ∈ st.workers, w.dependency.length = C.G.upperNodeIdBound ∧
      w.scorePerThread.length = C.G.upperNodeIdBound ∧
      (C.computeEdgeCentrality = true → w.edgeScorePerThread.length = C.G.upperEdgeIdBound)) :
    finishRunChecked C st = some (finishRun C st) := by
  obtain ⟨h1, h1l⟩ := reduceScoresChecked_eq C.G.nodes st.workers C.scoreData
    C.G.upperNodeIdBound (fun v hv => mem_nodes_lt C.G v hv) (fun w hw => (hws w hw).2.1) hsd
  unfold finishRunChecked finishRun
  rw [h1]
  cases hedge : C.computeEdgeCentrality
  · cases hnorm : C.normalized
    · rfl
    · simp only [if_true, Bool.false_eq_true, if_false, Bool.and_false]
      rw [normalizeScoresChecked_eq C.G _ h1l]
  · obtain ⟨h2, _⟩ := reduceEdgeScoresChecked_eq st.workers C.edgeScoreData
      C.G.upperEdgeIdBound (fun w hw => (hws w hw).2.2 hedge) (hed hedge)
    simp only [if_true]
    rw [h2]
    cases hnorm : C.normalized
    · rfl
    · simp only [if_true, Bool.and_self]
      rw [normalizeScoresChecked_eq C.G _ h1l, normalizeEdgeScoresChecked_eq]

theorem initialWorkers_sizes (C : Centrality) (maxThreads : Nat) :
    ∀ w ∈ List.replicate maxThreads (Betweenness.initialWorker C),
      w.dependency.length = C.G.upperNodeIdBound ∧
      w.scorePerThread.length = C.G.upperNodeIdBound ∧
      (C.computeEdgeCentrality = true → w.edgeScorePerThread.length = C.G.upperEdgeIdBound) := by
  intro w hw
  rw [List.eq_of_mem_replicate hw]
  refine ⟨List.length_replicate _ _, List.length_replicate _ _, fun h => ?_⟩
  unfold Betweenness.initialWorker
  rw [h]
  simp

theorem parallelPhase_invariant (C : Centrality) (bfs dijkstra : Nat → SSSP) (maxThreads : Nat)
    (thread : Nat → Nat) (cancelAt : Option Nat) :
    (∀ w ∈ (Betweenness.parallelPhase C bfs dijkstra maxThreads thread cancelAt).workers,
      w.dependency.length = C.G.upperNodeIdBound ∧
      w.scorePerThread.length = C.G.upperNodeIdBound ∧
      (C.computeEdgeCentrality = true →
        w.edgeScorePerThread.length = C.G.upperEdgeIdBound)) ∧
    (Betweenness.parallelPhase C bfs dijkstra maxThreads thread cancelAt).lengthScaled.length =
      C.G.upperNodeIdBound :=
  balancedParallelForNodes_invariant C.G C.computeEdgeCentrality _ thread cancelAt
    C.G.upperNodeIdBound C.G.upperEdgeIdBound C.G.nodes 1 _ (initialWorkers_sizes C maxThreads)
    (List.length_replicate _ _)

/-- With a strategy that stays in bounds no subscript of `run()` leaves its vector: the
checked engine does what the engine does. -/
theorem runChecked_eq (C : Centrality) (bfs dijkstra : Nat → SSSP) (maxThreads : Nat)
    (thread : Nat → Nat) (cancelAt : Option Nat)
    (hthr : ∀ s ∈ C.G.nodes, thread s < maxThreads)
    (hb : ∀ s ∈ C.G.nodes,
      StrategyInBounds C.G C.computeEdgeCentrality (Betweenness.strategy C.G bfs dijkstra s)
        C.G.upperNodeIdBound C.G.upperEdgeIdBound) :
    Betweenness.runChecked C bfs dijkstra maxThreads thread cancelAt =
      some (Betweenness.run C bfs dijkstra maxThreads thread cancelAt) := by
  have hphase := balancedParallelForNodesChecked_eq C.G C.computeEdgeCentrality
    (Betweenness.strategy C.G bfs dijkstra) thread cancelAt C.G.upperNodeIdBound
    C.G.upperEdgeIdBound C.G.nodes 1
    { workers := List.replicate maxThreads (Betweenness.initialWorker C)
      lengthScaled := List.replicate C.G.upperNodeIdBound 0 }
    (initialWorkers_sizes C maxThreads) (List.length_replicate _ _)
    (fun s hs => by
      show thread s < (List.replicate maxThreads (Betweenness.initialWorker C)).length
      rw [List.length_replicate]; exact hthr s hs) hb
  have hinv := parallelPhase_invariant C bfs dijkstra maxThreads thread cancelAt
  unfold Betweenness.runChecked Betweenness.run
  simp only
  split
  · rfl
  · rw [hphase]
    simp only
    split
    · rfl
    · have hfin := finishRunChecked_eq
        { Betweenness.allocate C with
          lengthScaled :=
            (Betweenness.parallelPhase C bfs dijkstra maxThreads thread cancelAt).lengthScaled }
        (Betweenness.parallelPhase C bfs dijkstra maxThreads thread cancelAt)
        (List.length_replicate _ _)
        (fun h => by
          have h' : C.computeEdgeCentrality = true := h
          show (if C.computeEdgeCentrality then List.replicate C.G.upperEdgeIdBound (0 : ℚ)
            else C.edgeScoreData).length = C.G.upperEdgeIdBound
          rw [h']
          simp)
        hinv.1
      unfold Betweenness.parallelPhase at hfin
      rw [hfin]
      rfl

/-- The lengths of the result vectors after `run()`, whatever the outcome. -/
theorem run_lengths (C : Centrality) (bfs dijkstra : Nat → SSSP) (maxThreads : Nat)
    (thread : Nat → Nat) (cancelAt : Option Nat) :
    (Betweenness.run C bfs dijkstra maxThreads thread cancelAt).1.scoreData.length =
      C.G.upperNodeIdBound ∧
    (Betweenness.run C bfs dijkstra maxThreads thread cancelAt).1.lengthScaled.length =
      C.G.upperNodeIdBound ∧
    (C.computeEdgeCentrality = true →
      (Betweenness.run C bfs dijkstra maxThreads thread cancelAt).1.edgeScoreData.length =
        C.G.upperEdgeIdBound) := by
  have hinv := parallelPhase_invariant C bfs dijkstra maxThreads thread cancelAt
  unfold Betweenness.run
  simp only
  split
  · refine ⟨List.length_replicate _ _, List.length_replicate _ _, fun h => ?_⟩
    simp [Betweenness.allocate, h]
  · split
    · refine ⟨List.length_replicate _ _, hinv.2, fun h => ?_⟩
      simp [Betweenness.allocate, h]
    · refine ⟨?_, hinv.2, fun h => ?_⟩
      · rw [finishRun_scoreData_length]
        exact List.length_replicate _ _
      · simp only [finishRun, Betweenness.allocate, h, if_true, Bool.and_true]
        split
        · rw [normalizeEdgeScores_length, reduceEdgeScores_length, List.length_replicate]
        · rw [reduceEdgeScores_length, List.length_replicate]

/-- Claim C19. After every completed `run()` the score vector and the length-scaled vector
have exactly `upperNodeIdBound` entries, and the edge-score vector exactly
`upperEdgeIdBound` entries when edge centrality is enabled, so `score(v)` succeeds for every
`v < upperNodeIdBound`. When the strategy names only node ids below `upperNodeIdBound`
(visited nodes, predecessors, nodes on the enumerated paths), `edgeId(p, t)` is below
`upperEdgeIdBound` for every predecessor pair in case edge centrality is enabled, and every
source is handled by one of the workers, then every subscript used during `run()` is in
bounds: the engine with all subscripts checked finishes with the outcome of `run()`,
whether or not the run is cancelled. -/
theorem run_vectors_in_bounds (C : Centrality) (bfs dijkstra : Nat → SSSP) (maxThreads : Nat)
    (thread : Nat → Nat) (cancelAt : Option Nat)
    (hdone : (Betweenness.run C bfs dijkstra maxThreads thread cancelAt).2 = .ok ()) :
    (Betweenness.run C bfs dijkstra maxThreads thread cancelAt).1.scoreData.length =
      C.G.upperNodeIdBound ∧
    (Betweenness.run C bfs dijkstra maxThreads thread cancelAt).1.lengthScaled.length =
      C.G.upperNodeIdBound ∧
    (C.computeEdgeCentrality = true →
      (Betweenness.run C bfs dijkstra maxThreads thread cancelAt).1.edgeScoreData.length =
        C.G.upperEdgeIdBound) ∧
    (∀ v, v < C.G.upperNodeIdBound →
      (Betweenness.run C bfs dijkstra maxThreads thread cancelAt).1.score v =
        .ok ((Betweenness.run C bfs dijkstra maxThreads thread
          cancelAt).1.scoreData.getD v 0)) ∧
    ((∀ s ∈ C.G.nodes, thread s < maxThreads) →
      (∀ s ∈ C.G.nodes, ∀ t ∈ (Betweenness.strategy C.G bfs dijkstra s).getNodesSortedByDistance,
        t < C.G.upperNodeIdBound ∧
        (∀ p ∈ (Betweenness.strategy C.G bfs dijkstra s).getPredecessors t,
          p < C.G.upperNodeIdBound ∧
          (C.computeEdgeCentrality = true → C.G.edgeId p t < C.G.upperEdgeIdBound)) ∧
        (∀ path ∈ (Betweenness.strategy C.G bfs dijkstra s).getPaths t, ∀ node ∈ path,
          node < C.G.upperNodeIdBound)) →
      ∀ cancelAt' : Option Nat,
        Betweenness.runChecked C bfs dijkstra maxThreads thread cancelAt' =
          some (Betweenness.run C bfs dijkstra maxThreads thread cancelAt')) := by
  obtain ⟨h1, h2, h3⟩ := run_lengths C bfs dijkstra maxThreads thread cancelAt
  refine ⟨h1, h2, h3, fun v hv => ?_, fun hthr hb cancelAt' =>
    runChecked_eq C bfs dijkstra maxThreads thread cancelAt' hthr hb⟩
  apply score_eq_of_getD _ v _ (by rw [h1]; exact hv)
  have hout := run_outcome C bfs dijkstra maxThreads thread cancelAt
  cases hr : isRunning cancelAt (1 + 2 * C.G.nodes.length)
  · rw [(hout.2 hr).1] at hdone
    cases hdone
  · exact (hout.1 hr).2

/-- Claim C19 at a concrete input: the cycle on four nodes with edge centrality and two
workers. -/
theorem run_vectors_in_bounds_witness :
    (Betweenness.run (Centrality.init cycleGraph false true) cycleBFS cycleBFS 2
      (fun s => s % 2) none).2 = .ok () ∧
    (Betweenness.run (Centrality.init cycleGraph false true) cycleBFS cycleBFS 2
      (fun s => s % 2) none).1.score 3 = .ok 1 ∧
    (Betweenness.run (Centrality.init cycleGraph false true) cycleBFS cycleBFS 2
      (fun s => s % 2) none).1.scoreData.length =
      (Centrality.init cycleGraph false true).G.upperNodeIdBound ∧
    (∀ s ∈ (Centrality.init cycleGraph false true).G.nodes, s % 2 < 2) ∧
    (∀ s ∈ cycleGraph.nodes, ∀ t ∈ (cycleBFS s).getNodesSortedByDistance,
      t < cycleGraph.upperNodeIdBound ∧
      (∀ p ∈ (cycleBFS s).getPredecessors t,
        p < cycleGraph.upperNodeIdBound ∧
        (true = true → cycleGraph.edgeId p t < cycleGraph.upperEdgeIdBound)) ∧
      (∀ path ∈ (cycleBFS s).getPaths t, ∀ node ∈ path, node < cycleGraph.upperNodeIdBound)) ∧
    Betweenness.runChecked (Centrality.init cycleGraph false true) cycleBFS cycleBFS 2
        (fun s => s % 2) (some 4) =
      some (Betweenness.run (Centrality.init cycleGraph false true) cycleBFS cycleBFS 2
        (fun s => s % 2) (some 4)) :=
  ⟨rfl, by decide!,
    (run_vectors_in_bounds (Centrality.init cycleGraph false true) cycleBFS cycleBFS 2
      (fun s => s % 2) none rfl).1,
    by decide, by decide!,
    (run_vectors_in_bounds (Centrality.init cycleGraph false true) cycleBFS cycleBFS 2
      (fun s => s % 2) none rfl).2.2.2.2 (by decide) (by decide!) (some 4)⟩

/-- The checked engine at work: on the cycle every subscript is in bounds; a strategy that
names node 4 on a graph with the node ids 0 to 3 runs out of the dependency vector. -/
theorem runChecked_examples :
    (Betweenness.runChecked (Centrality.init cycleGraph false true) cycleBFS cycleBFS 2
        (fun s => s % 2) none).map (fun r => r.1.scoreData) = some [1, 1, 1, 1] ∧
    (Betweenness.runChecked (Centrality.init cycleGraph false true)
        (fun s => { cycleBFS s with getNodesSortedByDistance := [s, 4] })
        (fun s => { cycleBFS s with getNodesSortedByDistance := [s, 4] }) 2
        (fun s => s % 2) none).isNone = true ∧
    (Betweenness.runChecked (Centrality.init cycleGraph false true) cycleBFS cycleBFS 1
        (fun s => s % 2) none).isNone = true := by
  decide!

/-! ### The shared length-scaled vector: executions without concurrent writes to an entry -/

theorem pendingAt_nil (i : Nat) : pendingAt [] i = 0 := rfl

theorem pendingAt_cons (a : Nat × ℚ) (adds : List (Nat × ℚ)) (i : Nat) :
    pendingAt (a :: adds) i = (if a.1 = i then a.2 else 0) + pendingAt adds i := by
  unfold pendingAt
  by_cases h : a.1 = i
  · simp [List.filter_cons, h]
  · simp [List.filter_cons, h]

theorem pendingAt_append (xs ys : List (Nat × ℚ)) (i : Nat) :
    pendingAt (xs ++ ys) i = pendingAt xs i + pendingAt ys i := by
  unfold pendingAt
  simp [List.filter_append]

theorem pendingAt_flatMap {α : Type} (f : α → List (Nat × ℚ)) (i : Nat) :
    ∀ l : List α, pendingAt (l.flatMap f) i = (l.map fun a => pendingAt (f a) i).sum := by
  intro l
  induction l with
  | nil => rfl
  | cons a l ih =>
    rw [List.flatMap_cons, pendingAt_append, ih, List.map_cons, List.sum_cons]

/-- The additions taken one after the other add up. -/
theorem foldl_additions_getD (i : Nat) :
    ∀ (adds : List (Nat × ℚ)) (ls : List ℚ), i < ls.length →
      (adds.foldl (fun a x => addAt a x.1 x.2) ls).getD i 0 = ls.getD i 0 + pendingAt adds i := by
  intro adds
  induction adds with
  | nil => intro ls _; simp [pendingAt_nil]
  | cons a adds ih =>
    intro ls hi
    rw [List.foldl_cons, ih _ (by rw [length_addAt]; exact hi), getD_addAt, pendingAt_cons]
    by_cases h : i = a.1
    · subst h
      rw [if_pos ⟨rfl, hi⟩, if_pos rfl]
      ring
    · rw [if_neg (fun hh => h hh.1), if_neg (fun hh => h hh.symm)]
      ring

theorem lengthScaledPass_eq_additions (sssp : SSSP) (t : Nat) (ls : List ℚ) :
    lengthScaledPass sssp t ls =
      (if (sssp.getPaths t).length = 0 then []
        else
          (sssp.getPaths t).flatMap fun path =>
            if path.length ≤ 2 then []
            else (interior path).map fun node =>
              (node, ((sssp.getPaths t).length : ℚ) / sssp.distance t)).foldl
        (fun a x => addAt a x.1 x.2) ls := by
  unfold lengthScaledPass
  simp only
  split
  · rfl
  · generalize ((sssp.getPaths t).length : ℚ) / sssp.distance t = c
    generalize sssp.getPaths t = paths
    induction paths generalizing ls with
    | nil => rfl
    | cons path paths ih =>
      rw [List.foldl_cons, List.flatMap_cons, List.foldl_append, ih]
      congr 1
      split
      · rfl
      · rw [List.foldl_map]

theorem stackLoop_eq_additions (G : Graph) (e : Bool) (sssp : SSSP) (s : Nat) :
    ∀ (R : List Nat) (w : Worker) (ls : List ℚ),
      (stackLoop G e sssp s R (w, ls)).2 =
        ((R.filter fun t => decide (t ≠ s)).flatMap fun t =>
          if (sssp.getPaths t).length = 0 then []
          else
            (sssp.getPaths t).flatMap fun path =>
              if path.length ≤ 2 then []
              else (interior path).map fun node =>
                (node, ((sssp.getPaths t).length : ℚ) / sssp.distance t)).foldl
          (fun a x => addAt a x.1 x.2) ls := by
  intro R
  induction R with
  | nil => intro w ls; rfl
  | cons t R ih =>
    intro w ls
    by_cases h : t = s
    · simp only [stackLoop, h, ne_eq, not_true_eq_false, if_false]
      rw [ih]
      simp [List.filter_cons]
    · simp only [stackLoop, ne_eq, h, not_false_eq_true, if_true]
      rw [ih, lengthScaledPass_eq_additions]
      simp [List.filter_cons, h, List.foldl_append]

/-- The loop body of a source that is not interrupted changes the shared vector by its
additions, one after the other. -/
theorem computeDependencies_eq_additions (G : Graph) (e : Bool) (sssp : SSSP) (s : Nat)
    (w : Worker) (ls : List ℚ) :
    (computeDependencies G e sssp true true s (w, ls)).2 =
      (lengthScaledAdditions sssp s).foldl (fun a x => addAt a x.1 x.2) ls := by
  have h : computeDependencies G e sssp true true s (w, ls) =
      stackLoop G e sssp s sssp.getNodesSortedByDistance.reverse
        ({ w with dependency := List.replicate w.dependency.length 0 }, ls) := by
    simp [computeDependencies]
  rw [h, stackLoop_eq_additions]
  rfl

theorem pendingAt_lengthScaledAdditions (sssp : SSSP) (s i : Nat) :
    pendingAt (lengthScaledAdditions sssp s) i = lengthScaledContribution sssp s i := by
  have h1 := computeDependencies_lengthScaled
    { upperNodeIdBound := 0, hasNode := fun _ => false, isDirected := false,
      isWeighted := false, hasEdgeIds := false, upperEdgeIdBound := 0, edgeId := fun _ _ => 0 }
    false sssp s (zeroWorker 0 0) (List.replicate (i + 1) 0) i (by simp)
  rw [computeDependencies_eq_additions, foldl_additions_getD i _ _ (by simp)] at h1
  linarith

theorem get?_set_cases {α : Type} (a : α) (l : List α) (k j : Nat) (x : α)
    (h : (l.set k a).get? j = some x) :
    (j = k ∧ x = a) ∨ (j ≠ k ∧ l.get? j = some x) := by
  by_cases hjk : j = k
  · subst hjk
    left
    refine ⟨rfl, ?_⟩
    rw [List.get?_eq_getElem?, List.getElem?_set] at h
    simp only [if_true] at h
    split at h
    · exact (Option.some.inj h).symm
    · exact absurd h (by simp)
  · right
    refine ⟨hjk, ?_⟩
    rw [List.get?_eq_getElem?, List.getElem?_set, if_neg (fun hh => hjk hh.symm)] at h
    rw [List.get?_eq_getElem?]
    exact h

/-- A step of worker `k` that changes only entries of its own additions, keeps what the
entries and the additions to come add up to, and leaves the worker with additions that it
had before, keeps the state free of races. -/
theorem RaceFreeState.update {total : Nat → ℚ} {ls ls1 : List ℚ} {threads : List RacingThread}
    {k : Nat} {t t1 : RacingThread} (h : RaceFreeState total ls threads)
    (hk : threads.get? k = some t) (hlen : ls1.length = ls.length)
    (hsub : ∀ a ∈ t1.additions, a ∈ t.additions)
    (hsum : ∀ i < ls.length,
      ls1.getD i 0 + pendingAt t1.additions i = ls.getD i 0 + pendingAt t.additions i)
    (hloaded : ∀ v, t1.loaded = some v →
      ∃ i x rest, t1.additions = (i, x) :: rest ∧ v = ls1.getD i 0 + x)
    (hchanged : ∀ i, ls1.getD i 0 ≠ ls.getD i 0 → ∃ a ∈ t.additions, a.1 = i) :
    RaceFreeState total ls1 (threads.set k t1) := by
  refine ⟨?_, ?_, ?_⟩
  · intro i hi
    rw [hlen] at hi
    have h1 := h.sum i hi
    have h2 := hsum i hi
    unfold totalPending at h1 ⊢
    rw [sum_map_set (fun t => pendingAt t.additions i) t1 t threads k hk]
    linarith
  · intro j t2 v hj hv
    rcases get?_set_cases t1 threads k j t2 hj with ⟨_, rfl⟩ | ⟨hjk, hj'⟩
    · exact hloaded v hv
    · obtain ⟨i, x, rest, hadd, hval⟩ := h.loaded j t2 v hj' hv
      refine ⟨i, x, rest, hadd, ?_⟩
      have hsame : ls1.getD i 0 = ls.getD i 0 := by
        by_contra hne
        obtain ⟨a, ha, hai⟩ := hchanged i hne
        exact h.disjoint k j t t2 hk hj' (fun hh => hjk hh.symm) a ha (i, x)
          (by rw [hadd]; exact List.mem_cons_self _ _) hai
      rw [hsame]
      exact hval
  · intro k1 k2 t3 t4 h3 h4 hne a ha b hb
    rcases get?_set_cases t1 threads k k1 t3 h3 with ⟨hk1, rfl⟩ | ⟨hk1, h3'⟩
    · rcases get?_set_cases t3 threads k k2 t4 h4 with ⟨hk2, _⟩ | ⟨_, h4'⟩
      · exact absurd (hk1.trans hk2.symm) hne
      · exact h.disjoint k k2 t t4 hk h4' (fun hh => hne (hk1.trans hh)) a (hsub a ha) b hb
    · rcases get?_set_cases t1 threads k k2 t4 h4 with ⟨hk2, rfl⟩ | ⟨_, h4'⟩
      · exact h.disjoint k1 k t3 t h3' hk hk1 a ha b (hsub b hb)
      · exact h.disjoint k1 k2 t3 t4 h3' h4' hne a ha b hb

theorem getD_set_rat (xs : List ℚ) (i j : Nat) (v : ℚ) :
    (xs.set i v).getD j 0 = if j = i ∧ i < xs.length then v else xs.getD j 0 := by
  simp only [List.getD_eq_getElem?_getD, List.getElem?_set]
  by_cases hji : j = i
  · subst hji
    by_cases hlt : j < xs.length
    · simp [hlt]
    · simp [hlt, List.getElem?_eq_none (not_lt.mp hlt)]
  · rw [if_neg (fun hh => hji hh.symm), if_neg (fun hh => hji hh.1)]

/-- A step of a worker keeps the state free of races. -/
theorem RaceFreeState.step {total : Nat → ℚ} {ls : List ℚ} {threads : List RacingThread}
    {k : Nat} {t : RacingThread} (h : RaceFreeState total ls threads)
    (hk : threads.get? k = some t) :
    RaceFreeState total (t.step ls).1 (threads.set k (t.step ls).2) := by
  obtain ⟨adds, ld⟩ := t
  cases adds with
  | nil =>
    exact h.update hk rfl (fun a ha => ha) (fun i _ => rfl)
      (fun v hv => h.loaded k _ v hk hv) (fun i hne => absurd rfl hne)
  | cons a rest =>
    obtain ⟨i, x⟩ := a
    cases ld with
    | none =>
      refine h.update hk rfl (fun a ha => ha) (fun i _ => rfl) ?_ (fun i hne => absurd rfl hne)
      intro v hv
      refine ⟨i, x, rest, rfl, ?_⟩
      have : some (ls.getD i 0 + x) = some v := hv
      exact (Option.some.inj this).symm
    | some v =>
      obtain ⟨i', x', rest', hadd, hval⟩ := h.loaded k _ v hk rfl
      have hadd' : (i, x) :: rest = (i', x') :: rest' := hadd
      obtain ⟨hix, -⟩ := List.cons.inj hadd'
      obtain ⟨hi, hx⟩ := Prod.mk.inj hix
      subst hi hx
      have hstep : (RacingThread.step { additions := (i, x) :: rest, loaded := some v } ls) =
          (ls.set i v, { additions := rest, loaded := none }) := rfl
      rw [hstep]
      refine h.update hk (List.length_set _ _ _) (fun a ha => List.mem_cons_of_mem _ ha) ?_
        (fun v hv => absurd hv (by simp)) ?_
      · intro j hj
        show (ls.set i v).getD j 0 + pendingAt rest j =
          ls.getD j 0 + pendingAt ((i, x) :: rest) j
        rw [getD_set_rat, pendingAt_cons]
        by_cases hji : j = i
        · subst hji
          rw [if_pos ⟨rfl, hj⟩, if_pos rfl, hval]
          ring
        · rw [if_neg (fun hh => hji hh.1), if_neg (fun hh => hji hh.symm)]
          ring
      · intro j hne
        refine ⟨(i, x), List.mem_cons_self _ _, ?_⟩
        by_contra hij
        apply hne
        rw [getD_set_rat, if_neg (fun hh => hij hh.1.symm)]

theorem step_length (t : RacingThread) (ls : List ℚ) : (t.step ls).1.length = ls.length := by
  obtain ⟨adds, ld⟩ := t
  cases adds with
  | nil => rfl
  | cons a rest =>
    obtain ⟨i, x⟩ := a
    cases ld with
    | none => rfl
    | some v => exact List.length_set _ _ _

theorem interleave_length :
    ∀ (schedule : List Nat) (ls : List ℚ) (threads : List RacingThread),
      (interleave schedule (ls, threads)).1.length = ls.length := by
  intro schedule
  induction schedule with
  | nil => intro ls threads; rfl
  | cons k schedule ih =>
    intro ls threads
    unfold interleave
    cases hk : threads.get? k with
    | none => exact ih ls threads
    | some t =>
      simp only
      rw [ih, step_length]

/-- Every execution from a state that is free of races ends in such a state. -/
theorem RaceFreeState.interleave {total : Nat → ℚ} :
    ∀ (schedule : List Nat) (ls : List ℚ) (threads : List RacingThread),
      RaceFreeState total ls threads →
      RaceFreeState total (interleave schedule (ls, threads)).1
        (interleave schedule (ls, threads)).2 := by
  intro schedule
  induction schedule with
  | nil => intro ls threads h; exact h
  | cons k schedule ih =>
    intro ls threads h
    unfold NetworKit.interleave
    cases hk : threads.get? k with
    | none => exact ih ls threads h
    | some t =>
      simp only
      exact ih _ _ (h.step hk)

theorem totalPending_of_finished (threads : List RacingThread) (i : Nat)
    (h : (threads.all fun t => t.additions.isEmpty) = true) : totalPending threads i = 0 := by
  unfold totalPending
  apply List.sum_eq_zero
  intro x hx
  obtain ⟨t, ht, rfl⟩ := List.mem_map.mp hx
  have := List.all_eq_true.mp h t ht
  rw [List.isEmpty_iff] at this
  rw [this]
  rfl

/-- The sources are distributed over the workers: a sum over the workers of the sums over
their sources is the sum over all sources. -/
theorem sum_by_thread (f : Nat → ℚ) (thread : Nat → Nat) (n : Nat) :
    ∀ l : List Nat, (∀ s ∈ l, thread s < n) →
      ((List.range n).map fun k =>
        ((l.filter fun s => decide (thread s = k)).map f).sum).sum = (l.map f).sum := by
  intro l
  induction l with
  | nil => intro _; simp
  | cons s l ih =>
    intro h
    have hs : thread s ∈ List.range n := List.mem_range.mpr (h s (List.mem_cons_self _ _))
    have hstep : ∀ k, (((s :: l).filter fun s => decide (thread s = k)).map f).sum =
        (if k = thread s then f s else 0) +
          ((l.filter fun s => decide (thread s = k)).map f).sum := by
      intro k
      by_cases hk : thread s = k
      · simp [List.filter_cons, hk]
      · have hk' : ¬ k = thread s := fun hh => hk hh.symm
        simp [List.filter_cons, hk, hk']
    simp only [hstep]
    rw [sum_map_add_rat, ih (fun s' hs' => h s' (List.mem_cons_of_mem _ hs')),
      sum_map_indicator (fun _ => f s) (thread s) _ (List.nodup_range n) hs, List.map_cons,
      List.sum_cons]

theorem racingThreads_get? (C : Centrality) (bfs dijkstra : Nat → SSSP) (maxThreads : Nat)
    (thread : Nat → Nat) (k : Nat) (t : RacingThread)
    (h : (Betweenness.racingThreads C bfs dijkstra maxThreads thread).get? k = some t) :
    t.loaded = none ∧
    t.additions =
      (C.G.nodes.filter fun s => decide (thread s = k)).flatMap fun s =>
        lengthScaledAdditions (Betweenness.strategy C.G bfs dijkstra s) s := by
  unfold Betweenness.racingThreads at h
  rw [List.get?_eq_getElem?, List.getElem?_map] at h
  by_cases hk : k < maxThreads
  · rw [List.getElem?_range hk] at h
    simp only [Option.map_some', Option.some.injEq] at h
    subst h
    exact ⟨rfl, rfl⟩
  · rw [List.getElem?_eq_none (by rw [List.length_range]; exact not_lt.mp hk)] at h
    simp at h

/-- What the workers have to add to entry `i` at the start of the parallel phase: the
contributions of all sources. -/
theorem totalPending_racingThreads (C : Centrality) (bfs dijkstra : Nat → SSSP)
    (maxThreads : Nat) (thread : Nat → Nat) (hthr : ∀ s ∈ C.G.nodes, thread s < maxThreads)
    (i : Nat) :
    totalPending (Betweenness.racingThreads C bfs dijkstra maxThreads thread) i =
      lengthScaledScore C.G (Betweenness.strategy C.G bfs dijkstra) i := by
  unfold totalPending Betweenness.racingThreads lengthScaledScore
  rw [List.map_map]
  have h : ((fun t : RacingThread => pendingAt t.additions i) ∘ fun k =>
      ({ additions :=
          (C.G.nodes.filter fun s => decide (thread s = k)).flatMap fun s =>
            lengthScaledAdditions (Betweenness.strategy C.G bfs dijkstra s) s
         loaded := none } : RacingThread)) =
      fun k => ((C.G.nodes.filter fun s => decide (thread s = k)).map fun s =>
        lengthScaledContribution (Betweenness.strategy C.G bfs dijkstra s) s i).sum := by
    funext k
    show pendingAt ((C.G.nodes.filter fun s => decide (thread s = k)).flatMap fun s =>
      lengthScaledAdditions (Betweenness.strategy C.G bfs dijkstra s) s) i = _
    rw [pendingAt_flatMap]
    congr 1
    apply List.map_congr_left
    intro s _
    exact pendingAt_lengthScaledAdditions _ s i
  rw [h]
  exact sum_by_thread _ thread maxThreads C.G.nodes hthr

/-- The entries of the length-scaled vector that `Betweenness.run` leaves. -/
theorem run_lengthScaled_getD (C : Centrality) (bfs dijkstra : Nat → SSSP) (maxThreads : Nat)
    (thread : Nat → Nat) (hthr : ∀ s ∈ C.G.nodes, thread s < maxThreads) (v : Nat)
    (hv : v < C.G.upperNodeIdBound) :
    (Betweenness.run C bfs dijkstra maxThreads thread none).1.lengthScaled.getD v 0 =
      lengthScaledScore C.G (Betweenness.strategy C.G bfs dijkstra) v := by
  rw [run_lengthScaled_eq]
  unfold Betweenness.parallelPhase
  rw [balancedParallelForNodes_lengthScaled C.G C.computeEdgeCentrality _ thread v C.G.nodes
    1 _ (fun s hs => by
      show thread s < (List.replicate maxThreads (Betweenness.initialWorker C)).length
      rw [List.length_replicate]; exact hthr s hs)
    (by
      show v < (List.replicate C.G.upperNodeIdBound (0 : ℚ)).length
      rw [List.length_replicate]; exact hv)]
  show (List.replicate C.G.upperNodeIdBound (0 : ℚ)).getD v 0 + _ = _
  rw [getD_replicate_zero, zero_add]
  rfl

/-- The state at the start of the parallel phase is free of races when no entry is written
by two workers. -/
theorem raceFreeState_start (C : Centrality) (bfs dijkstra : Nat → SSSP) (maxThreads : Nat)
    (thread : Nat → Nat)
    (hfree : LengthScaledRaceFree C.G (Betweenness.strategy C.G bfs dijkstra) thread) :
    RaceFreeState (totalPending (Betweenness.racingThreads C bfs dijkstra maxThreads thread))
      (Betweenness.allocate C).lengthScaled
      (Betweenness.racingThreads C bfs dijkstra maxThreads thread) := by
  refine ⟨?_, ?_, ?_⟩
  · intro i _
    show (List.replicate C.G.upperNodeIdBound (0 : ℚ)).getD i 0 + _ = _
    rw [getD_replicate_zero, zero_add]
  · intro k t v hk hv
    rw [(racingThreads_get? C bfs dijkstra maxThreads thread k t hk).1] at hv
    exact absurd hv (by simp)
  · intro k1 k2 t1 t2 h1 h2 hne a ha b hb hab
    rw [(racingThreads_get? C bfs dijkstra maxThreads thread k1 t1 h1).2] at ha
    rw [(racingThreads_get? C bfs dijkstra maxThreads thread k2 t2 h2).2] at hb
    obtain ⟨s1, hs1, ha1⟩ := List.mem_flatMap.mp ha
    obtain ⟨s2, hs2, hb2⟩ := List.mem_flatMap.mp hb
    obtain ⟨hn1, ht1⟩ := List.mem_filter.mp hs1
    obtain ⟨hn2, ht2⟩ := List.mem_filter.mp hs2
    have := hfree s1 hn1 s2 hn2 a ha1 b hb2 hab
    rw [of_decide_eq_true ht1, of_decide_eq_true ht2] at this
    exact hne this

/-- Without concurrent writes to an entry the interleaving does not matter: when no entry of
the length-scaled vector is written by two workers, every execution in which all workers
finish leaves the vector that `Betweenness.run` leaves. -/
theorem lengthScaledUnder_of_raceFree (C : Centrality) (bfs dijkstra : Nat → SSSP)
    (maxThreads : Nat) (thread : Nat → Nat) (hthr : ∀ s ∈ C.G.nodes, thread s < maxThreads)
    (hfree : LengthScaledRaceFree C.G (Betweenness.strategy C.G bfs dijkstra) thread)
    (schedule : List Nat) (ls : List ℚ)
    (h : Betweenness.lengthScaledUnder C bfs dijkstra maxThreads thread schedule = some ls) :
    ls = (Betweenness.run C bfs dijkstra maxThreads thread none).1.lengthScaled := by
  unfold Betweenness.lengthScaledUnder at h
  simp only at h
  split at h
  · rename_i hdone
    have hls := Option.some.inj h
    have hinv := RaceFreeState.interleave schedule _ _
      (raceFreeState_start C bfs dijkstra maxThreads thread hfree)
    have hlen : ls.length = C.G.upperNodeIdBound := by
      rw [← hls, interleave_length]
      exact List.length_replicate _ _
    apply ext_of_getD
    · rw [hlen, (run_lengths C bfs dijkstra maxThreads thread none).2.1]
    · intro i
      by_cases hi : i < C.G.upperNodeIdBound
      · have hsum := hinv.sum i (by rw [hls, hlen]; exact hi)
        rw [totalPending_of_finished _ i hdone, add_zero, hls,
          totalPending_racingThreads C bfs dijkstra maxThreads thread hthr] at hsum
        rw [hsum, run_lengthScaled_getD C bfs dijkstra maxThreads thread hthr i hi]
      · rw [List.getD_eq_default _ _ (by rw [hlen]; exact not_lt.mp hi),
          List.getD_eq_default _ _ (by
            rw [(run_lengths C bfs dijkstra maxThreads thread none).2.1]; exact not_lt.mp hi)]
  · exact absurd h (by simp)

/-! ### The execution in which no two additions overlap -/

theorem set_of_get? {α : Type} (a : α) :
    ∀ (l : List α) (k : Nat), l.get? k = some a → l.set k a = l := by
  intro l
  induction l with
  | nil => intro k h; simp at h
  | cons b l ih =>
    intro k h
    cases k with
    | zero =>
      simp only [List.get?_cons_zero, Option.some.injEq] at h
      subst h
      rfl
    | succ k =>
      simp only [List.get?_cons_succ] at h
      simp only [List.set_cons_succ, ih k h]

theorem get?_set_self {α : Type} (a b : α) :
    ∀ (l : List α) (k : Nat), l.get? k = some b → (l.set k a).get? k = some a := by
  intro l
  induction l with
  | nil => intro k h; simp at h
  | cons c l ih =>
    intro k h
    cases k with
    | zero => rfl
    | succ k =>
      simp only [List.get?_cons_succ] at h
      simp only [List.set_cons_succ, List.get?_cons_succ]
      exact ih k h

theorem interleave_cons_some (k : Nat) (schedule : List Nat) (ls : List ℚ)
    (threads : List RacingThread) (t : RacingThread) (h : threads.get? k = some t) :
    interleave (k :: schedule) (ls, threads) =
      interleave schedule ((t.step ls).1, threads.set k (t.step ls).2) := by
  rw [interleave, h]

/-- A worker that executes all its additions without interruption adds them to the vector
one after the other. -/
theorem interleave_uninterrupted (k : Nat) :
    ∀ (adds : List (Nat × ℚ)) (ls : List ℚ) (threads : List RacingThread) (rest : List Nat),
      threads.get? k = some { additions := adds, loaded := none } →
      interleave (List.replicate (2 * adds.length) k ++ rest) (ls, threads) =
        interleave rest (adds.foldl (fun a x => addAt a x.1 x.2) ls,
          threads.set k { additions := [], loaded := none }) := by
  intro adds
  induction adds with
  | nil =>
    intro ls threads rest h
    rw [set_of_get? _ threads k h]
    rfl
  | cons a adds ih =>
    intro ls threads rest h
    obtain ⟨i, x⟩ := a
    have hrep : List.replicate (2 * ((i, x) :: adds).length) k ++ rest =
        k :: k :: (List.replicate (2 * adds.length) k ++ rest) := by
      rw [List.length_cons, Nat.mul_succ, List.replicate_succ, List.replicate_succ]
      rfl
    have h1 := get?_set_self
      ({ additions := (i, x) :: adds, loaded := some (ls.getD i 0 + x) } : RacingThread) _
      threads k h
    have h2 := get?_set_self ({ additions := adds, loaded := none } : RacingThread) _
      (threads.set k { additions := (i, x) :: adds, loaded := some (ls.getD i 0 + x) }) k h1
    rw [hrep, interleave_cons_some k _ ls threads _ h]
    have hs1 : RacingThread.step { additions := (i, x) :: adds, loaded := none } ls =
        (ls, { additions := (i, x) :: adds, loaded := some (ls.getD i 0 + x) }) := rfl
    rw [hs1, interleave_cons_some k _ ls _ _ h1]
    have hs2 : RacingThread.step
        { additions := (i, x) :: adds, loaded := some (ls.getD i 0 + x) } ls =
        (addAt ls i x, { additions := adds, loaded := none }) := rfl
    rw [hs2]
    simp only
    rw [List.set_set] at h2 ⊢
    rw [ih _ _ rest h2, List.set_set, List.foldl_cons]

theorem interleave_serial :
    ∀ (threads done : List RacingThread) (ls : List ℚ),
      (∀ t ∈ threads, t.loaded = none) →
      interleave (serialScheduleFrom done.length threads) (ls, done ++ threads) =
        ((threads.flatMap fun t => t.additions).foldl (fun a x => addAt a x.1 x.2) ls,
          done ++ threads.map fun _ => { additions := [], loaded := none }) := by
  intro threads
  induction threads with
  | nil => intro done ls _; rfl
  | cons t threads ih =>
    intro done ls h
    obtain ⟨adds, ld⟩ := t
    have hld : ld = none := h ⟨adds, ld⟩ (List.mem_cons_self _ _)
    subst hld
    have hget : (done ++ { additions := adds, loaded := none } :: threads).get? done.length =
        some { additions := adds, loaded := none } := by
      rw [List.get?_eq_getElem?, List.getElem?_append_right (le_refl _)]
      simp
    have hset : (done ++ { additions := adds, loaded := none } :: threads).set done.length
        { additions := [], loaded := none } =
        (done ++ [{ additions := [], loaded := none }]) ++ threads := by
      rw [List.set_append_right _ _ (le_refl _)]
      simp
    have hlen : (done ++ [({ additions := [], loaded := none } : RacingThread)]).length =
        done.length + 1 := by simp
    show interleave (List.replicate (2 * adds.length) done.length ++
      serialScheduleFrom (done.length + 1) threads) _ = _
    rw [interleave_uninterrupted done.length adds ls _ _ hget, hset, ← hlen,
      ih _ _ (fun t ht => h t (List.mem_cons_of_mem _ ht))]
    simp [List.flatMap_cons, List.foldl_append]

theorem foldl_additions_length :
    ∀ (adds : List (Nat × ℚ)) (ls : List ℚ),
      (adds.foldl (fun a x => addAt a x.1 x.2) ls).length = ls.length := by
  intro adds
  induction adds with
  | nil => intro ls; rfl
  | cons a adds ih => intro ls; rw [List.foldl_cons, ih, length_addAt]

/-- The vector of `Betweenness.run` is the outcome of an execution of the workers: the one in
which the workers run one after the other, so that no two additions overlap. -/
theorem run_lengthScaled_is_outcome (C : Centrality) (bfs dijkstra : Nat → SSSP)
    (maxThreads : Nat) (thread : Nat → Nat) (hthr : ∀ s ∈ C.G.nodes, thread s < maxThreads) :
    Betweenness.lengthScaledUnder C bfs dijkstra maxThreads thread
        (serialScheduleFrom 0 (Betweenness.racingThreads C bfs dijkstra maxThreads thread)) =
      some (Betweenness.run C bfs dijkstra maxThreads thread none).1.lengthScaled := by
  have hnone : ∀ t ∈ Betweenness.racingThreads C bfs dijkstra maxThreads thread,
      t.loaded = none := by
    intro t ht
    unfold Betweenness.racingThreads at ht
    obtain ⟨k, _, rfl⟩ := List.mem_map.mp ht
    rfl
  have h := interleave_serial (Betweenness.racingThreads C bfs dijkstra maxThreads thread) []
    (Betweenness.allocate C).lengthScaled hnone
  simp only [List.length_nil, List.nil_append] at h
  unfold Betweenness.lengthScaledUnder
  simp only [h]
  rw [if_pos (by simp)]
  congr 1
  apply ext_of_getD
  · rw [foldl_additions_length, (run_lengths C bfs dijkstra maxThreads thread none).2.1]
    exact List.length_replicate _ _
  · intro i
    by_cases hi : i < C.G.upperNodeIdBound
    · rw [foldl_additions_getD i _ _ (by
          show i < (List.replicate C.G.upperNodeIdBound (0 : ℚ)).length
          rw [List.length_replicate]; exact hi),
        pendingAt_flatMap, run_lengthScaled_getD C bfs dijkstra maxThreads thread hthr i hi,
        ← totalPending_racingThreads C bfs dijkstra maxThreads thread hthr i]
      show (List.replicate C.G.upperNodeIdBound (0 : ℚ)).getD i 0 + _ = _
      rw [getD_replicate_zero, zero_add]
      rfl
    · rw [List.getD_eq_default _ _ (by
          rw [foldl_additions_length]
          show (List.replicate C.G.upperNodeIdBound (0 : ℚ)).length ≤ i
          rw [List.length_replicate]; exact not_lt.mp hi),
        List.getD_eq_default _ _ (by
          rw [(run_lengths C bfs dijkstra maxThreads thread none).2.1]; exact not_lt.mp hi)]

theorem lengthScaledUnder_congr (C C' : Centrality) (hG : C.G = C'.G)
    (bfs dijkstra : Nat → SSSP) (maxThreads : Nat) (thread : Nat → Nat) (schedule : List Nat) :
    Betweenness.lengthScaledUnder C bfs dijkstra maxThreads thread schedule =
      Betweenness.lengthScaledUnder C' bfs dijkstra maxThreads thread schedule := by
  unfold Betweenness.lengthScaledUnder Betweenness.racingThreads Betweenness.allocate
  simp only [hG]

/-- The length-scaled scores when no entry of the shared vector is written by two workers.
Let every source be handled by one of the workers, let two sources that add to the same
entry be handled by the same worker, and let the distances of the visited targets be
nonzero.  Then every execution of the parallel phase in which all workers finish, whatever
the interleaving, leaves in the entry of every node `v` below `upperNodeIdBound` the sum over
the sources `s` and the visited targets `t ≠ s` with `k > 0` enumerated paths of
`k / distance(t)` times the number of interior occurrences of `v` on the enumerated paths
to `t` (in exact arithmetic).  A path with at most 2 nodes has no interior position and
contributes nothing, the vector is the same with `normalized` set and cleared, and it is the
vector of `Betweenness.run`. -/
theorem lengthScaled_score_of_raceFree (C : Centrality) (bfs dijkstra : Nat → SSSP)
    (maxThreads : Nat) (thread : Nat → Nat)
    (hthr : ∀ s ∈ C.G.nodes, thread s < maxThreads)
    (hfree : LengthScaledRaceFree C.G (Betweenness.strategy C.G bfs dijkstra) thread)
    (hdist : ∀ s ∈ C.G.nodes,
      ∀ t ∈ (Betweenness.strategy C.G bfs dijkstra s).getNodesSortedByDistance, t ≠ s →
        (Betweenness.strategy C.G bfs dijkstra s).distance t ≠ 0)
    (schedule : List Nat) (ls : List ℚ)
    (h : Betweenness.lengthScaledUnder C bfs dijkstra maxThreads thread schedule = some ls)
    (v : Nat) (hv : v < C.G.upperNodeIdBound) :
    ls.getD v 0 =
      (C.G.nodes.map fun s =>
        (((Betweenness.strategy C.G bfs dijkstra s).getNodesSortedByDistance.filter
            fun t => decide (t ≠ s ∧
              0 < ((Betweenness.strategy C.G bfs dijkstra s).getPaths t).length)).map
          fun t =>
            (((Betweenness.strategy C.G bfs dijkstra s).getPaths t).length : ℚ) /
                (Betweenness.strategy C.G bfs dijkstra s).distance t *
              (interiorOccurrences (Betweenness.strategy C.G bfs dijkstra s) t v : ℚ)).sum).sum ∧
    (∀ s ∈ C.G.nodes,
      ∀ t ∈ (Betweenness.strategy C.G bfs dijkstra s).getNodesSortedByDistance, t ≠ s →
        (((Betweenness.strategy C.G bfs dijkstra s).getPaths t).length : ℚ) /
            (Betweenness.strategy C.G bfs dijkstra s).distance t *
          (Betweenness.strategy C.G bfs dijkstra s).distance t =
        (((Betweenness.strategy C.G bfs dijkstra s).getPaths t).length : ℚ)) ∧
    (∀ path : List Nat, path.length ≤ 2 → ∀ u, (interior path).count u = 0) ∧
    Betweenness.lengthScaledUnder { C with normalized := true } bfs dijkstra maxThreads thread
        schedule =
      Betweenness.lengthScaledUnder { C with normalized := false } bfs dijkstra maxThreads
        thread schedule ∧
    ls = (Betweenness.run C bfs dijkstra maxThreads thread none).1.lengthScaled := by
  have hrun := lengthScaledUnder_of_raceFree C bfs dijkstra maxThreads thread hthr hfree
    schedule ls h
  refine ⟨?_, ?_, ?_, ?_, hrun⟩
  · rw [hrun, run_lengthScaled_getD C bfs dijkstra maxThreads thread hthr v hv]
    rfl
  · intro s hs t ht hts
    exact div_mul_cancel₀ _ (hdist s hs t ht hts)
  · intro path hshort u
    rw [interior_of_short path hshort]
    rfl
  · exact lengthScaledUnder_congr _ _ rfl bfs dijkstra maxThreads thread schedule

/-- The length-scaled scores at a concrete input: the cycle on four nodes with two workers,
worker 0 for the sources 0 and 2, worker 1 for the sources 1 and 3.  Worker 0 adds to the
entries 1 and 3 only, worker 1 to the entries 0 and 2 only, and the workers take their steps
in turn.  Every node lies in the interior of one of the two shortest paths between its
neighbours, in both directions, and gets `2 / 2` for each. -/
theorem lengthScaled_score_of_raceFree_example :
    LengthScaledRaceFree cycleGraph cycleBFS (fun s => s % 2) ∧
    Betweenness.lengthScaledUnder (Centrality.init cycleGraph false false) cycleBFS cycleBFS 2
      (fun s => s % 2) [0, 1, 0, 1, 0, 1, 0, 1, 0, 1, 0, 1, 0, 1, 0, 1] = some [2, 2, 2, 2] ∧
    ([2, 2, 2, 2] : List ℚ).getD 1 0 = lengthScaledScore cycleGraph cycleBFS 1 ∧
    ([2, 2, 2, 2] : List ℚ) =
      (Betweenness.run (Centrality.init cycleGraph false false) cycleBFS cycleBFS 2
        (fun s => s % 2) none).1.lengthScaled :=
  ⟨by decide, by decide!,
    (lengthScaled_score_of_raceFree (Centrality.init cycleGraph false false) cycleBFS cycleBFS
      2 (fun s => s % 2) (by decide) (by decide) (by decide!)
      [0, 1, 0, 1, 0, 1, 0, 1, 0, 1, 0, 1, 0, 1, 0, 1] [2, 2, 2, 2] (by decide!) 1
      (by decide)).1,
    (lengthScaled_score_of_raceFree (Centrality.init cycleGraph false false) cycleBFS cycleBFS
      2 (fun s => s % 2) (by decide) (by decide) (by decide!)
      [0, 1, 0, 1, 0, 1, 0, 1, 0, 1, 0, 1, 0, 1, 0, 1] [2, 2, 2, 2] (by decide!) 1
      (by decide)).2.2.2.2⟩

/-- Claim C16, the code at a failing input.  On the undirected path `0 - 1 - 2` with two
workers, worker 0 for the sources 0 and 1 and worker 1 for source 2, each worker has one
addition to execute, `lengthScaled[1] += 1 / 2`: node 1 is the interior node of the path from
0 to 2 and of the path from 2 to 0.  When both workers load the entry before either stores
its sum (steps in the order 0, 1, 0, 1), the second store overwrites the first and the entry
ends at `1 / 2`.  The length-scaled score of node 1 by the claim is 1, which is what the
entry holds when the two additions do not overlap (steps in the order 0, 0, 1, 1) and what
`Betweenness.run` computes. -/
theorem lengthScaled_addition_lost :
    ((Betweenness.racingThreads (Centrality.init (pathGraph 3) false false) (pathBFS 3)
      (pathBFS 3) 2 (fun s => s / 2)).map fun t => t.additions) =
      [[(1, 1 / 2)], [(1, 1 / 2)]] ∧
    Betweenness.lengthScaledUnder (Centrality.init (pathGraph 3) false false) (pathBFS 3)
      (pathBFS 3) 2 (fun s => s / 2) [0, 1, 0, 1] = some [0, 1 / 2, 0] ∧
    lengthScaledScore (pathGraph 3) (pathBFS 3) 1 = 1 ∧
    Betweenness.lengthScaledUnder (Centrality.init (pathGraph 3) false false) (pathBFS 3)
      (pathBFS 3) 2 (fun s => s / 2) [0, 0, 1, 1] = some [0, 1, 0] ∧
    (Betweenness.run (Centrality.init (pathGraph 3) false false) (pathBFS 3) (pathBFS 3) 2
      (fun s => s / 2) none).1.lengthScaled = [0, 1, 0] ∧
    (∀ s ∈ (pathGraph 3).nodes, CorrectSSSP (pathGraph 3) (pathBFS 3 s) s) := by
  decide!

/-! ### Runs do not accumulate -/

theorem run_configuration (C : Centrality) (bfs dijkstra : Nat → SSSP) (maxThreads : Nat)
    (thread : Nat → Nat) (cancelAt : Option Nat) :
    (Betweenness.run C bfs dijkstra maxThreads thread cancelAt).1.G = C.G ∧
    (Betweenness.run C bfs dijkstra maxThreads thread cancelAt).1.normalized = C.normalized ∧
    (Betweenness.run C bfs dijkstra maxThreads thread cancelAt).1.computeEdgeCentrality =
      C.computeEdgeCentrality := by
  unfold Betweenness.run
  simp only
  split
  · exact ⟨rfl, rfl, rfl⟩
  · split <;> exact ⟨rfl, rfl, rfl⟩

/-- What `run()` reads from the store it is called on: the graph, the two flags and, when
edge centrality is disabled, the edge-score vector that it leaves alone. -/
theorem run_eq_of_same_configuration (C C' : Centrality) (bfs dijkstra : Nat → SSSP)
    (maxThreads : Nat) (thread : Nat → Nat) (hG : C.G = C'.G)
    (hn : C.normalized = C'.normalized)
    (he : C.computeEdgeCentrality = C'.computeEdgeCentrality)
    (hed : C.computeEdgeCentrality = false → C.edgeScoreData = C'.edgeScoreData) :
    (Betweenness.run C bfs dijkstra maxThreads thread none).1 =
      (Betweenness.run C' bfs dijkstra maxThreads thread none).1 := by
  obtain ⟨G, n, e, hr, sd, ed, ls⟩ := C
  obtain ⟨G', n', e', hr', sd', ed', ls'⟩ := C'
  simp only at hG hn he hed
  subst hG hn he
  rw [run_not_cancelled, run_not_cancelled]
  cases e
  · have := hed rfl
    subst this
    rfl
  · rfl

theorem Reachable.configuration {G : Graph} {n e : Bool} {C : Centrality}
    (h : Reachable G n e C) :
    C.G = G ∧ C.normalized = n ∧ C.computeEdgeCentrality = e ∧
      (e = false → C.edgeScoreData = []) := by
  induction h with
  | fresh => exact ⟨rfl, rfl, rfl, fun _ => rfl⟩
  | @run C bfs dijkstra maxThreads thread cancelAt _ ih =>
    obtain ⟨h1, h2, h3, h4⟩ := ih
    obtain ⟨r1, r2, r3⟩ := run_configuration C bfs dijkstra maxThreads thread cancelAt
    refine ⟨r1.trans h1, r2.trans h2, r3.trans h3, fun he => ?_⟩
    rw [run_edgeScoreData_of_disabled C bfs dijkstra maxThreads thread cancelAt
      (h3.trans he)]
    exact h4 he
  | @scores C moveOut _ ih =>
    unfold Centrality.scores
    cases C.assureFinished <;> exact ih
  | @lengthScaleScores C moveOut _ ih =>
    unfold Centrality.lengthScaleScores
    cases C.assureFinished <;> exact ih

/-- What a run that is not cancelled leaves does not depend on the state of the result store
before it.  From every state that the result store of an engine for `G` can be in (fresh,
after completed or cancelled runs, emptied by `scores(true)` or `lengthScaleScores(true)`),
the run completes with `hasRun = true` and leaves the score and edge-score vectors that the
same run leaves on a freshly constructed engine.  The length-scaled vector is cleared at the
start: the same interleaving of the workers leaves the same length-scaled vector as on a
freshly constructed engine.  When no entry of that vector is written by two workers, every
execution leaves the same length-scaled vector and the store is the one that
`Betweenness.run` leaves on a freshly constructed engine, so that a second run gives the
store of the first. -/
theorem run_independent_of_prior_state (G : Graph) (normalized computeEdgeCentrality : Bool)
    (C : Centrality) (hC : Reachable G normalized computeEdgeCentrality C)
    (bfs dijkstra : Nat → SSSP) (maxThreads : Nat) (thread : Nat → Nat) :
    (Betweenness.run C bfs dijkstra maxThreads thread none).2 = .ok () ∧
    (Betweenness.run C bfs dijkstra maxThreads thread none).1.hasRun = true ∧
    (Betweenness.run C bfs dijkstra maxThreads thread none).1.scoreData =
      (Betweenness.run (Centrality.init G normalized computeEdgeCentrality) bfs dijkstra
        maxThreads thread none).1.scoreData ∧
    (Betweenness.run C bfs dijkstra maxThreads thread none).1.edgeScoreData =
      (Betweenness.run (Centrality.init G normalized computeEdgeCentrality) bfs dijkstra
        maxThreads thread none).1.edgeScoreData ∧
    (∀ schedule : List Nat,
      Betweenness.lengthScaledUnder C bfs dijkstra maxThreads thread schedule =
        Betweenness.lengthScaledUnder (Centrality.init G normalized computeEdgeCentrality)
          bfs dijkstra maxThreads thread schedule) ∧
    ((∀ s ∈ G.nodes, thread s < maxThreads) →
      LengthScaledRaceFree G (Betweenness.strategy G bfs dijkstra) thread →
      (∀ (schedule : List Nat) (ls : List ℚ),
        Betweenness.lengthScaledUnder C bfs dijkstra maxThreads thread schedule = some ls →
          ls = (Betweenness.run (Centrality.init G normalized computeEdgeCentrality) bfs
            dijkstra maxThreads thread none).1.lengthScaled) ∧
      (Betweenness.run C bfs dijkstra maxThreads thread none).1 =
        (Betweenness.run (Centrality.init G normalized computeEdgeCentrality) bfs dijkstra
          maxThreads thread none).1 ∧
      (Betweenness.run (Betweenness.run C bfs dijkstra maxThreads thread none).1 bfs dijkstra
          maxThreads thread none).1 =
        (Betweenness.run C bfs dijkstra maxThreads thread none).1) := by
  obtain ⟨h1, h2, h3, h4⟩ := hC.configuration
  have heq : (Betweenness.run C bfs dijkstra maxThreads thread none).1 =
      (Betweenness.run (Centrality.init G normalized computeEdgeCentrality) bfs dijkstra
        maxThreads thread none).1 :=
    run_eq_of_same_configuration C _ bfs dijkstra maxThreads thread h1 h2 h3
      (fun he => h4 (h3.symm.trans he))
  have hC2 : Reachable G normalized computeEdgeCentrality
      (Betweenness.run C bfs dijkstra maxThreads thread none).1 :=
    Reachable.run bfs dijkstra maxThreads thread none hC
  obtain ⟨k1, k2, k3, k4⟩ := hC2.configuration
  refine ⟨rfl, rfl, by rw [heq], by rw [heq],
    fun schedule => lengthScaledUnder_congr C _ h1 bfs dijkstra maxThreads thread schedule,
    fun hthr hfree => ⟨fun schedule ls hls => ?_, heq, ?_⟩⟩
  · rw [← heq]
    exact lengthScaledUnder_of_raceFree C bfs dijkstra maxThreads thread
      (by rw [h1]; exact hthr) (by rw [h1]; exact hfree) schedule ls hls
  · exact (run_eq_of_same_configuration _ _ bfs dijkstra maxThreads thread k1 k2 k3
      (fun he => k4 (k3.symm.trans he))).trans heq.symm

/-- A run on the store of an earlier run at a concrete input: the cycle on four nodes, first
run to completion, then emptied by `scores(true)`, then run again, with edge centrality.  The
two workers write to different entries of the length-scaled vector. -/
theorem run_independent_of_prior_state_example :
    Reachable cycleGraph false true
      ((Betweenness.run (Centrality.init cycleGraph false true) cycleBFS cycleBFS 2
        (fun s => s % 2) none).1.scores true).1 ∧
    ((Betweenness.run (Centrality.init cycleGraph false true) cycleBFS cycleBFS 2
        (fun s => s % 2) none).1.scores true).1.scoreData = [] ∧
    (Betweenness.run
        ((Betweenness.run (Centrality.init cycleGraph false true) cycleBFS cycleBFS 2
          (fun s => s % 2) none).1.scores true).1
        cycleBFS cycleBFS 2 (fun s => s % 2) none).1.edgeScoreData = [4, 4, 4, 4] ∧
    (Betweenness.run
        (Betweenness.run (Centrality.init cycleGraph false true) cycleBFS cycleBFS 2
          (fun s => s % 2) none).1
        cycleBFS cycleBFS 2 (fun s => s % 2) none).1.scoreData = [1, 1, 1, 1] ∧
    (Betweenness.run
        ((Betweenness.run (Centrality.init cycleGraph false true) cycleBFS cycleBFS 2
          (fun s => s % 2) none).1.scores true).1
        cycleBFS cycleBFS 2 (fun s => s % 2) none).1 =
      (Betweenness.run (Centrality.init cycleGraph false true) cycleBFS cycleBFS 2
        (fun s => s % 2) none).1 :=
  ⟨Reachable.scores true (Reachable.run cycleBFS cycleBFS 2 (fun s => s % 2) none
      Reachable.fresh),
    by decide!, by decide!, by decide!,
    ((run_independent_of_prior_state cycleGraph false true _
      (Reachable.scores true (Reachable.run cycleBFS cycleBFS 2 (fun s => s % 2) none
        Reachable.fresh))
      cycleBFS cycleBFS 2 (fun s => s % 2)).2.2.2.2.2 (by decide) (by decide)).2.1⟩

end NetworKit
